import Mathlib

/-!
TextStorage piece tree: a verification development

A shallow embedding of `Sources/PieceTree/fredbuf/fredbuf.cpp` (namespace `PieceTree`):
the persistent red-black tree keyed by cumulative offset, the piece table on top of it,
the line queries and the forward walker.

Conventions of the embedding.

* Code units are natural numbers (`'\n'` is 10, `'\r'` is 13, `'\0'` is 0).
* `size_t` values are natural numbers.  Subtraction (`retract`, `distance`) wraps modulo
  `2 ^ 64` when it underflows; additions that involve a caller-chosen offset wrap modulo
  `2 ^ 64`; sums of piece and buffer lengths are bounded by the size of the buffers held
  in memory and are plain additions.
* The embedding follows the release build: `assert` has no effect.
* A `RedBlackTree` is a possibly null shared pointer to a node.  `left()`, `right()`,
  `root()` and `root_color()` dereference that pointer; on the empty tree they have no
  defined result, which the embedding renders as `none`.  Every tree operation therefore
  returns an `Option`.
* `std::vector` and `std::string` are lists; reading index `i` is `List.getD _ i 0`
  (`std::string::data()` is terminated by a null code unit).
* Loops are recursive functions; where the recursion is not structural a fuel argument
  is supplied by the caller and shown to be large enough.
-/

namespace PieceTree

/-! ## Types (`types.h`, `fredbuf-rbtree.h`, `fredbuf.h`) -/

/-- One code unit (`CHAR_T`). -/
abbrev CharT := Nat

/-- The line feed code unit. -/
def LF : CharT := 10

/-- The carriage return code unit. -/
def CR : CharT := 13

/-- The null code unit. -/
def NUL : CharT := 0

/-- Modelled from the spec: `types.h` is not part of the sources at hand.  `retract(x, by)`
steps an unsigned 64-bit quantity back by `by` (default 1): exact when `by ≤ x`, wrapping
modulo `2 ^ 64` otherwise. -/
def retract (x : Nat) (by_ : Nat := 1) : Nat :=
  if by_ ≤ x then x - by_ else (x + 2 ^ 64 - by_) % 2 ^ 64

/-- Modelled from the spec: `types.h` is not part of the sources at hand.  `extend(x, by)`
advances an unsigned 64-bit quantity by `by` (default 1), wrapping modulo `2 ^ 64`. -/
def extend (x : Nat) (by_ : Nat := 1) : Nat :=
  (x + by_) % 2 ^ 64

/-- Modelled from the spec: `types.h` is not part of the sources at hand.
`distance(a, b)` is the unsigned difference `b - a`. -/
def distance (a b : Nat) : Nat :=
  retract b a

/-- Modelled from the spec: `Line::IndexBeginning = 0`, the requested line zero. -/
def Line.IndexBeginning : Nat := 0

/-- Modelled from the spec: `Line::Beginning = 0`, the sentinel before any line. -/
def Line.Beginning : Nat := 0

/-- Modelled from the spec: `CharOffset::Sentinel`, the value `end_last_insert` holds at
construction; `types.h` is not part of the sources at hand, the largest `size_t` is used. -/
def CharOffset.Sentinel : Nat := 2 ^ 64 - 1

/-- The node colours of `fredbuf-rbtree.h`. -/
inductive Color where
  | Red
  | Black
  | DoubleBlack
deriving DecidableEq, Repr

/-- A position inside a character buffer: zero-based line and column. -/
structure BufferCursor where
  line : Nat
  column : Nat
deriving DecidableEq, Repr

/-- The buffer a piece points into: the mod buffer (the sentinel value of the C++ enum) or
the `i`-th original buffer. -/
inductive BufferIndex where
  | ModBuf
  | Orig (i : Nat)
deriving DecidableEq, Repr

/-- A window `[first, last)` into a buffer with its cached length and line feed count. -/
structure Piece where
  index : BufferIndex
  first : BufferCursor
  last : BufferCursor
  length : Nat
  newline_count : Nat
deriving DecidableEq, Repr

/-- The payload of a tree node. -/
structure NodeData where
  piece : Piece
  left_subtree_length : Nat := 0
  left_subtree_lf_count : Nat := 0
deriving DecidableEq, Repr

/-- A persistent red-black tree: the null pointer or a node. -/
inductive RedBlackTree where
  | empty : RedBlackTree
  | node (color : Color) (left : RedBlackTree) (data : NodeData) (right : RedBlackTree) :
      RedBlackTree
deriving DecidableEq, Repr

namespace RedBlackTree

/-! ## The red-black tree (`fredbuf.cpp`, lines 21-535) -/

/-- Embeds `RedBlackTree::is_empty`. -/
def is_empty : RedBlackTree → Bool
  | empty => true
  | node _ _ _ _ => false

/-- Embeds `RedBlackTree::root`: the payload of the root node. -/
def root : RedBlackTree → Option NodeData
  | empty => none
  | node _ _ d _ => some d

/-- Embeds `RedBlackTree::left`. -/
def left : RedBlackTree → Option RedBlackTree
  | empty => none
  | node _ l _ _ => some l

/-- Embeds `RedBlackTree::right`. -/
def right : RedBlackTree → Option RedBlackTree
  | empty => none
  | node _ _ _ r => some r

/-- Embeds `RedBlackTree::root_color`. -/
def root_color : RedBlackTree → Option Color
  | empty => none
  | node c _ _ _ => some c

/-- Embeds `tree_length`: the cached left length, the piece and the right spine. -/
def tree_length : RedBlackTree → Nat
  | empty => 0
  | node _ _ d r => d.left_subtree_length + d.piece.length + tree_length r

/-- Embeds `tree_lf_count`: the cached left line feed count, the piece and the right spine. -/
def tree_lf_count : RedBlackTree → Nat
  | empty => 0
  | node _ _ d r => d.left_subtree_lf_count + d.piece.newline_count + tree_lf_count r

/-- The function `attribute` of the source: recompute the two augmented fields from the left child. -/
def attribute_of (data : NodeData) (lft : RedBlackTree) : NodeData :=
  { data with
    left_subtree_length := tree_length lft
    left_subtree_lf_count := tree_lf_count lft }

/-- The constructor `RedBlackTree(Color c, lft, val, rgt)`: a fresh node whose payload is
`attribute(val, lft)`. -/
def ctor (c : Color) (lft : RedBlackTree) (val : NodeData) (rgt : RedBlackTree) :
    RedBlackTree :=
  node c lft (attribute_of val lft) rgt

/-- Embeds `RedBlackTree::paint`. -/
def paint (t : RedBlackTree) (c : Color) : Option RedBlackTree := do
  let l ← t.left
  let x ← t.root
  let r ← t.right
  pure (ctor c l x r)

/-- Embeds `RedBlackTree::doubled_left`. -/
def doubled_left (t : RedBlackTree) : Bool :=
  !t.is_empty && t.root_color == some Color.Red &&
    (match t.left with
     | some l => !l.is_empty && l.root_color == some Color.Red
     | none => false)

/-- Embeds `RedBlackTree::doubled_right`. -/
def doubled_right (t : RedBlackTree) : Bool :=
  !t.is_empty && t.root_color == some Color.Red &&
    (match t.right with
     | some r => !r.is_empty && r.root_color == some Color.Red
     | none => false)

/-- Embeds `RedBlackTree::balance(Color, lft, x, rgt)`: the four rotation cases of insertion. -/
def balance (c : Color) (lft : RedBlackTree) (x : NodeData) (rgt : RedBlackTree) :
    Option RedBlackTree :=
  if c = Color.Black ∧ lft.doubled_left = true then do
    let ll ← lft.left
    let ll_black ← ll.paint Color.Black
    let lx ← lft.root
    let lr ← lft.right
    pure (ctor Color.Red ll_black lx (ctor Color.Black lr x rgt))
  else if c = Color.Black ∧ lft.doubled_right = true then do
    let ll ← lft.left
    let lx ← lft.root
    let lr ← lft.right
    let lrl ← lr.left
    let lrx ← lr.root
    let lrr ← lr.right
    pure (ctor Color.Red (ctor Color.Black ll lx lrl) lrx (ctor Color.Black lrr x rgt))
  else if c = Color.Black ∧ rgt.doubled_left = true then do
    let rl ← rgt.left
    let rll ← rl.left
    let rlx ← rl.root
    let rlr ← rl.right
    let rx ← rgt.root
    let rr ← rgt.right
    pure (ctor Color.Red (ctor Color.Black lft x rll) rlx (ctor Color.Black rlr rx rr))
  else if c = Color.Black ∧ rgt.doubled_right = true then do
    let rl ← rgt.left
    let rx ← rgt.root
    let rr ← rgt.right
    let rr_black ← rr.paint Color.Black
    pure (ctor Color.Red (ctor Color.Black lft x rl) rx rr_black)
  else
    pure (ctor c lft x rgt)

/-- Embeds `RedBlackTree::ins`: descend comparing `at` with the end offset of each piece. -/
def ins (x : NodeData) (at_ : Nat) : RedBlackTree → Nat → Option RedBlackTree
  | empty, _ => some (ctor Color.Red empty x empty)
  | node c l y r, total_offset =>
    if at_ < total_offset + y.left_subtree_length + y.piece.length then do
      let l_new ← ins x at_ l total_offset
      balance c l_new y r
    else do
      let r_new ← ins x at_ r (total_offset + y.left_subtree_length + y.piece.length)
      balance c l y r_new

/-- Embeds `RedBlackTree::insert`: `ins` followed by painting the root black. -/
def insert (t : RedBlackTree) (x : NodeData) (at_ : Nat) : Option RedBlackTree := do
  let t_new ← ins x at_ t 0
  let l ← t_new.left
  let d ← t_new.root
  let r ← t_new.right
  pure (ctor Color.Black l d r)

/-- Embeds `RedBlackTree::balance(node)`: the one-argument rebalancing used by removal. -/
def balance_node (n : RedBlackTree) : Option RedBlackTree := do
  let nl ← n.left
  let nr ← n.right
  let nx ← n.root
  if !nl.is_empty && nl.root_color == some Color.Red &&
      !nr.is_empty && nr.root_color == some Color.Red then do
    let l ← nl.paint Color.Black
    let r ← nr.paint Color.Black
    pure (ctor Color.Red l nx r)
  else do
    let c ← n.root_color
    balance c nl nx nr

/-- Embeds `RedBlackTree::balance_left`. -/
def balance_left (lft : RedBlackTree) : Option RedBlackTree := do
  let ll ← lft.left
  let lx ← lft.root
  let lr ← lft.right
  if !ll.is_empty && ll.root_color == some Color.Red then do
    let ll_black ← ll.paint Color.Black
    pure (ctor Color.Red ll_black lx lr)
  else if !lr.is_empty && lr.root_color == some Color.Black then do
    let lr_red ← lr.paint Color.Red
    balance_node (ctor Color.Black ll lx lr_red)
  else if !lr.is_empty && lr.root_color == some Color.Red &&
      (match lr.left with
       | some lrl => !lrl.is_empty && lrl.root_color == some Color.Black
       | none => false) then do
    let lrl ← lr.left
    let lrl_r ← lrl.right
    let lrx ← lr.root
    let lrr ← lr.right
    let lrr_red ← lrr.paint Color.Red
    let new_right ← balance_node (ctor Color.Black lrl_r lrx lrr_red)
    let lrl_l ← lrl.left
    let lrlx ← lrl.root
    pure (ctor Color.Red (ctor Color.Black ll lx lrl_l) lrlx new_right)
  else
    pure lft

/-- Embeds `RedBlackTree::balance_right`. -/
def balance_right (rgt : RedBlackTree) : Option RedBlackTree := do
  let rl ← rgt.left
  let rx ← rgt.root
  let rr ← rgt.right
  if !rr.is_empty && rr.root_color == some Color.Red then do
    let rr_black ← rr.paint Color.Black
    pure (ctor Color.Red rl rx rr_black)
  else if !rl.is_empty && rl.root_color == some Color.Black then do
    let rl_red ← rl.paint Color.Red
    balance_node (ctor Color.Black rl_red rx rr)
  else if !rl.is_empty && rl.root_color == some Color.Red &&
      (match rl.right with
       | some rlr => !rlr.is_empty && rlr.root_color == some Color.Black
       | none => false) then do
    let rll ← rl.left
    let rll_red ← rll.paint Color.Red
    let rlx ← rl.root
    let rlr ← rl.right
    let rlr_l ← rlr.left
    let new_left ← balance_node (ctor Color.Black rll_red rlx rlr_l)
    let rlr_r ← rlr.right
    let rlrx ← rlr.root
    pure (ctor Color.Red new_left rlrx (ctor Color.Black rlr_r rx rr))
  else
    pure rgt

/-- The number of nodes of a tree (used to bound the recursion of `fuse`). -/
def size : RedBlackTree → Nat
  | empty => 0
  | node _ l _ r => size l + 1 + size r

/-- The body of `RedBlackTree::fuse`, with the depth of the recursion bounded by `fuel`. -/
def fuse_loop : Nat → RedBlackTree → RedBlackTree → Option RedBlackTree
  | 0, _, _ => none
  | fuel + 1, lft, rgt =>
    if lft.is_empty then some rgt
    else if rgt.is_empty then some lft
    else do
      let lc ← lft.root_color
      let rc ← rgt.root_color
      let ll ← lft.left
      let lx ← lft.root
      let lr ← lft.right
      let rl ← rgt.left
      let rx ← rgt.root
      let rr ← rgt.right
      if lc = Color.Black ∧ rc = Color.Red then do
        let f ← fuse_loop fuel lft rl
        pure (ctor Color.Red f rx rr)
      else if lc = Color.Red ∧ rc = Color.Black then do
        let f ← fuse_loop fuel lr rgt
        pure (ctor Color.Red ll lx f)
      else if lc = Color.Red ∧ rc = Color.Red then do
        let fused ← fuse_loop fuel lr rl
        if !fused.is_empty && fused.root_color == some Color.Red then do
          let fl ← fused.left
          let fx ← fused.root
          let fr ← fused.right
          let new_left := ctor Color.Red ll lx fl
          let new_right := ctor Color.Red fr rx rr
          pure (ctor Color.Red new_left fx new_right)
        else
          let new_right := ctor Color.Red fused rx rr
          pure (ctor Color.Red ll lx new_right)
      else do
        let fused ← fuse_loop fuel lr rl
        if !fused.is_empty && fused.root_color == some Color.Red then do
          let fl ← fused.left
          let fx ← fused.root
          let fr ← fused.right
          let new_left := ctor Color.Black ll lx fl
          let new_right := ctor Color.Black fr rx rr
          pure (ctor Color.Red new_left fx new_right)
        else
          let new_right := ctor Color.Black fused rx rr
          let new_node := ctor Color.Red ll lx new_right
          balance_left new_node

/-- Embeds `RedBlackTree::fuse`: every recursive call drops a node of one of its arguments, so
the number of nodes of both bounds the depth. -/
def fuse (lft rgt : RedBlackTree) : Option RedBlackTree :=
  fuse_loop (lft.size + rgt.size + 1) lft rgt

/-- Embeds `RedBlackTree::remove_left`, after its recursive call: `new_left` is the result of
`rem(root.left(), at, total)`. -/
def remove_left (root_ : RedBlackTree) (new_left : RedBlackTree) : Option RedBlackTree := do
  let x ← root_.root
  let r ← root_.right
  let l ← root_.left
  let new_node := ctor Color.Red new_left x r
  if !l.is_empty && l.root_color == some Color.Black then
    balance_left new_node
  else
    pure new_node

/-- Embeds `RedBlackTree::remove_right`, after its recursive call: `new_right` is the result of
`rem(root.right(), at, total + y.left_subtree_length + y.piece.length)`. -/
def remove_right (root_ : RedBlackTree) (new_right : RedBlackTree) : Option RedBlackTree := do
  let x ← root_.root
  let l ← root_.left
  let r ← root_.right
  let new_node := ctor Color.Red l x new_right
  if !r.is_empty && r.root_color == some Color.Black then
    balance_right new_node
  else
    pure new_node

/-- Embeds `RedBlackTree::rem` (the default, fuse-style removal). -/
def rem : RedBlackTree → Nat → Nat → Option RedBlackTree
  | empty, _, _ => some empty
  | node c l y r, at_, total =>
    if at_ < total + y.left_subtree_length then do
      let new_left ← rem l at_ total
      remove_left (node c l y r) new_left
    else if at_ = total + y.left_subtree_length then
      fuse l r
    else do
      let new_right ← rem r at_ (total + y.left_subtree_length + y.piece.length)
      remove_right (node c l y r) new_right

/-- Embeds `RedBlackTree::remove`: `rem` followed by painting the root black. -/
def remove (t : RedBlackTree) (at_ : Nat) : Option RedBlackTree := do
  let t_new ← rem t at_ 0
  if t_new.is_empty then
    pure empty
  else do
    let l ← t_new.left
    let d ← t_new.root
    let r ← t_new.right
    pure (ctor Color.Black l d r)

end RedBlackTree

end PieceTree


namespace PieceTree

/-! ## Buffers and the piece tree (`fredbuf.h`, `fredbuf.cpp` lines 578-1645) -/

/-- Embeds `CharBuffer`: the text of a buffer and the offsets at which its lines start. -/
structure CharBuffer where
  buffer : List CharT
  line_starts : List Nat
deriving DecidableEq, Repr

/-- Embeds `BufferCollection`: the immutable original buffers and the append-only mod buffer. -/
structure BufferCollection where
  orig_buffers : List CharBuffer
  mod_buffer : CharBuffer
deriving DecidableEq, Repr

/-- Embeds `BufferMeta`. -/
structure BufferMeta where
  lf_count : Nat := 0
  total_content_length : Nat := 0
deriving DecidableEq, Repr

/-- Embeds `UndoRedoEntry`. -/
structure UndoRedoEntry where
  root : RedBlackTree
  op_offset : Nat
deriving DecidableEq, Repr

/-- Embeds `NodePosition`.  `node` is a pointer to the payload of a tree node (null when absent);
the embedding keeps the payload and, for the pointer comparisons of the source, the
in-order rank of the node, which names one node of a tree. -/
structure NodePosition where
  node : Option NodeData := none
  rank : Nat := 0
  remainder : Nat := 0
  start_offset : Nat := 0
  line : Nat := 0
deriving DecidableEq, Repr

/-- Embeds `LineRange`: `[first, last)`. -/
structure LineRange where
  first : Nat := 0
  last : Nat := 0
deriving DecidableEq, Repr

/-- Embeds `IncompleteCRLF`. -/
inductive IncompleteCRLF where
  | No
  | Yes
deriving DecidableEq, Repr

/-- Embeds `SuppressHistory`. -/
inductive SuppressHistory where
  | No
  | Yes
deriving DecidableEq, Repr

/-- Embeds `UndoRedoResult`. -/
structure UndoRedoResult where
  success : Bool
  op_offset : Nat
deriving DecidableEq, Repr

/-- The loop of `populate_line_starts`: `i` is the index of the next code unit. -/
def populate_line_starts_loop : List CharT → Nat → List Nat
  | [], _ => []
  | c :: cs, i =>
    if c = LF then (i + 1) :: populate_line_starts_loop cs (i + 1)
    else populate_line_starts_loop cs (i + 1)

/-- Embeds `populate_line_starts`: offset 0 and the offset after every line feed. -/
def populate_line_starts (buf : List CharT) : List Nat :=
  0 :: populate_line_starts_loop buf 0

/-- The free function `compute_buffer_meta`. -/
def compute_buffer_meta (root : RedBlackTree) : BufferMeta :=
  { lf_count := RedBlackTree.tree_lf_count root
    total_content_length := RedBlackTree.tree_length root }

/-- Embeds `BufferCollection::buffer_at`. -/
def BufferCollection.buffer_at (b : BufferCollection) : BufferIndex → CharBuffer
  | BufferIndex.ModBuf => b.mod_buffer
  | BufferIndex.Orig i => b.orig_buffers.getD i { buffer := [], line_starts := [] }

/-- Embeds `BufferCollection::buffer_offset`. -/
def BufferCollection.buffer_offset (b : BufferCollection) (index : BufferIndex)
    (cursor : BufferCursor) : Nat :=
  (b.buffer_at index).line_starts.getD cursor.line 0 + cursor.column

/-- The state of a `Tree` (the scratch vector is not part of the state). -/
structure Tree where
  buffers : BufferCollection
  root : RedBlackTree
  last_insert : BufferCursor
  end_last_insert : Nat
  meta : BufferMeta
  undo_stack : List UndoRedoEntry
  redo_stack : List UndoRedoEntry
deriving DecidableEq, Repr

namespace Tree

/-- Embeds `Tree::compute_buffer_meta`. -/
def compute_buffer_meta (t : Tree) : Tree :=
  { t with meta := PieceTree.compute_buffer_meta t.root }

/-- Embeds `Tree::length`. -/
def length (t : Tree) : Nat := t.meta.total_content_length

/-- Embeds `Tree::is_empty`. -/
def is_empty (t : Tree) : Bool := t.meta.total_content_length == 0

/-- The accessor `Tree::line_feed_count()`. -/
def lf_count (t : Tree) : Nat := t.meta.lf_count

/-- Embeds `Tree::line_count`. -/
def line_count (t : Tree) : Nat := t.lf_count + 1

/-- The static `Tree::line_feed_count(buffers, index, start, end)`. -/
def line_feed_count (buffers : BufferCollection) (index : BufferIndex)
    (start end_ : BufferCursor) : Nat :=
  if end_.column = 0 then retract end_.line start.line
  else
    let starts := (buffers.buffer_at index).line_starts
    if end_.line = retract starts.length 1 then retract end_.line start.line
    else
      let next_start_offset := starts.getD (end_.line + 1) 0
      let end_offset := starts.getD end_.line 0 + end_.column
      if next_start_offset > end_offset + 1 then retract end_.line start.line
      else retract end_.line start.line

/-- The binary search of `Tree::buffer_position`; the pair is `(mid, mid_start)`. -/
def buffer_position_loop (starts : List Nat) (offset : Nat) :
    Nat → Nat → Nat → Nat → Nat → Nat × Nat
  | 0, _, _, mid, mid_start => (mid, mid_start)
  | fuel + 1, low, high, mid, mid_start =>
    if low ≤ high then
      let mid_new := low + (high - low) / 2
      let mid_start_new := starts.getD mid_new 0
      if mid_new = high then (mid_new, mid_start_new)
      else
        let mid_stop := starts.getD (mid_new + 1) 0
        if offset < mid_start_new then
          buffer_position_loop starts offset fuel low (retract mid_new 1) mid_new mid_start_new
        else if offset ≥ mid_stop then
          buffer_position_loop starts offset fuel (mid_new + 1) high mid_new mid_start_new
        else (mid_new, mid_start_new)
    else (mid, mid_start)

/-- Embeds `Tree::buffer_position`: the cursor of the code unit `remainder` past the start of the
piece.  The search interval `[low, high]` shrinks at every round, so `high + 2` rounds
are enough. -/
def buffer_position (buffers : BufferCollection) (piece : Piece) (remainder : Nat) :
    BufferCursor :=
  let starts := (buffers.buffer_at piece.index).line_starts
  let start_offset := starts.getD piece.first.line 0 + piece.first.column
  let offset := start_offset + remainder
  let res := buffer_position_loop starts offset (piece.last.line + 2)
    piece.first.line piece.last.line 0 0
  { line := res.1, column := retract offset res.2 }

/-- The loop of `Tree::node_at`; `rank` counts the nodes in order before the current
subtree. -/
def node_at_loop (buffers : BufferCollection) :
    RedBlackTree → Nat → Nat → Nat → Nat → NodePosition
  | RedBlackTree.empty, _, _, _, _ => { }
  | RedBlackTree.node _ l d r, off, node_start_offset, newline_count, rank =>
    if d.left_subtree_length > off then
      node_at_loop buffers l off node_start_offset newline_count rank
    else if d.left_subtree_length + d.piece.length > off then
      let remainder := retract off d.left_subtree_length
      let pos := buffer_position buffers d.piece remainder
      { node := some d
        rank := rank + l.size
        remainder := remainder
        start_offset := node_start_offset + d.left_subtree_length
        line := newline_count + d.left_subtree_lf_count
                  + retract pos.line d.piece.first.line + 1 }
    else if r.is_empty then
      { node := some d
        rank := rank + l.size
        remainder := d.piece.length
        start_offset := node_start_offset + d.left_subtree_length
        line := newline_count + (d.left_subtree_lf_count + d.piece.newline_count) + 1 }
    else
      let offset_amount := d.left_subtree_length + d.piece.length
      node_at_loop buffers r (retract off offset_amount) (node_start_offset + offset_amount)
        (newline_count + (d.left_subtree_lf_count + d.piece.newline_count))
        (rank + l.size + 1)

/-- Embeds `Tree::node_at`. -/
def node_at (buffers : BufferCollection) (node : RedBlackTree) (off : Nat) : NodePosition :=
  node_at_loop buffers node off 0 0 0

/-- Embeds `Tree::trim_piece_right`. -/
def trim_piece_right (buffers : BufferCollection) (piece : Piece) (pos : BufferCursor) :
    Piece :=
  let orig_end_offset := buffers.buffer_offset piece.index piece.last
  let new_end_offset := buffers.buffer_offset piece.index pos
  let new_lf_count := line_feed_count buffers piece.index piece.first pos
  let len_delta := distance new_end_offset orig_end_offset
  let new_len := retract piece.length len_delta
  { piece with last := pos, newline_count := new_lf_count, length := new_len }

/-- Embeds `Tree::trim_piece_left`. -/
def trim_piece_left (buffers : BufferCollection) (piece : Piece) (pos : BufferCursor) :
    Piece :=
  let orig_start_offset := buffers.buffer_offset piece.index piece.first
  let new_start_offset := buffers.buffer_offset piece.index pos
  let new_lf_count := line_feed_count buffers piece.index pos piece.last
  let len_delta := distance orig_start_offset new_start_offset
  let new_len := retract piece.length len_delta
  { piece with first := pos, newline_count := new_lf_count, length := new_len }

/-- Embeds `Tree::shrink_piece`: the pair is `(left, right)`. -/
def shrink_piece (buffers : BufferCollection) (piece : Piece) (first last : BufferCursor) :
    Piece × Piece :=
  (trim_piece_right buffers piece first, trim_piece_left buffers piece last)

/-- Embeds `Tree::build_piece`: append `txt` and its line starts to the mod buffer and return the
piece that spans the appended text. -/
def build_piece (t : Tree) (txt : List CharT) : Piece × Tree :=
  let start_offset := t.buffers.mod_buffer.buffer.length
  let scratch_starts := (populate_line_starts txt).map (fun s => s + start_offset)
  let start := t.last_insert
  let new_line_starts := t.buffers.mod_buffer.line_starts ++ scratch_starts.drop 1
  let new_buffer := t.buffers.mod_buffer.buffer ++ txt
  let new_buffers : BufferCollection :=
    { t.buffers with mod_buffer := { buffer := new_buffer, line_starts := new_line_starts } }
  let end_offset := new_buffer.length
  let end_index := retract new_line_starts.length 1
  let end_col := retract end_offset (new_line_starts.getD end_index 0)
  let end_pos : BufferCursor := { line := end_index, column := end_col }
  let piece : Piece :=
    { index := BufferIndex.ModBuf
      first := start
      last := end_pos
      length := retract end_offset start_offset
      newline_count := line_feed_count new_buffers BufferIndex.ModBuf start end_pos }
  (piece, { t with buffers := new_buffers, last_insert := end_pos })

/-- Embeds `Tree::combine_pieces`: extend the piece at `existing` by the freshly built piece. -/
def combine_pieces (t : Tree) (existing : NodePosition) (new_piece : Piece) :
    Option Tree := do
  let existing_node ← existing.node
  let old_piece := existing_node.piece
  let combined : Piece :=
    { new_piece with
      first := old_piece.first
      newline_count := new_piece.newline_count + old_piece.newline_count
      length := new_piece.length + old_piece.length }
  let removed ← t.root.remove existing.start_offset
  let root ← removed.insert { piece := combined } existing.start_offset
  pure { t with root := root }

/-- The loop of `Tree::remove_node_range`. -/
def remove_node_range_loop (buffers : BufferCollection) (length delete_at_offset : Nat) :
    Nat → RedBlackTree → NodePosition → Nat → Option RedBlackTree
  | 0, _, _, _ => none
  | fuel + 1, root, first, deleted_len =>
    if deleted_len < length ∧ first.node.isSome then do
      let first_node ← first.node
      let deleted_new := deleted_len + first_node.piece.length
      let root_new ← root.remove delete_at_offset
      let first_new := node_at buffers root_new delete_at_offset
      remove_node_range_loop buffers length delete_at_offset fuel root_new first_new
        deleted_new
    else
      some root

/-- Embeds `Tree::remove_node_range`.  Every round either removes a node or adds a positive
piece length to `deleted_len`, which bounds the number of rounds. -/
def remove_node_range (t : Tree) (first : NodePosition) (length : Nat) : Option Tree := do
  let first_node ← first.node
  let total_length := first_node.piece.length
  let length_adj := extend (retract length (retract total_length first.remainder)) total_length
  let delete_at_offset := first.start_offset
  let root ← remove_node_range_loop t.buffers length_adj delete_at_offset
    (length_adj + t.root.size + 1) t.root first 0
  pure { t with root := root }

/-- Embeds `Tree::internal_insert`.  The scope guard recomputes the meta data on every exit. -/
def internal_insert (t0 : Tree) (offset : Nat) (txt : List CharT) : Option Tree :=
  let t : Tree := { t0 with end_last_insert := extend offset txt.length }
  if t.root.is_empty then
    let built := t.build_piece txt
    do
      let root ← built.2.root.insert { piece := built.1 } 0
      pure ({ built.2 with root := root }).compute_buffer_meta
  else
    let result0 := node_at t.buffers t.root offset
    let result :=
      if result0.node.isNone then
        let off := if t.meta.total_content_length ≠ 0
          then retract t.meta.total_content_length 1 else 0
        node_at t.buffers t.root off
      else result0
    do
      let node ← result.node
      let remainder := result.remainder
      let node_start_offset := result.start_offset
      let insert_pos := buffer_position t.buffers node.piece remainder
      if node_start_offset = offset then
        let plain : Option Tree :=
          let built := t.build_piece txt
          do
            let root ← built.2.root.insert { piece := built.1 } offset
            pure ({ built.2 with root := root }).compute_buffer_meta
        if offset ≠ 0 then do
          let prev_node_result := node_at t.buffers t.root (retract offset 1)
          let prev_node ← prev_node_result.node
          if prev_node.piece.index = BufferIndex.ModBuf
              ∧ prev_node.piece.last = t.last_insert then do
            let built := t.build_piece txt
            let combined ← built.2.combine_pieces prev_node_result built.1
            pure combined.compute_buffer_meta
          else plain
        else plain
      else
        let inside_node : Bool := decide (offset < node_start_offset + node.piece.length)
        if !inside_node then
          if node.piece.index = BufferIndex.ModBuf ∧ node.piece.last = t.last_insert then do
            let built := t.build_piece txt
            let combined ← built.2.combine_pieces result built.1
            pure combined.compute_buffer_meta
          else
            let built := t.build_piece txt
            do
              let root ← built.2.root.insert { piece := built.1 } offset
              pure ({ built.2 with root := root }).compute_buffer_meta
        else
          let new_len_right := distance (t.buffers.buffer_offset node.piece.index insert_pos)
            (t.buffers.buffer_offset node.piece.index node.piece.last)
          let new_piece_right : Piece :=
            { node.piece with
              first := insert_pos
              length := new_len_right
              newline_count :=
                line_feed_count t.buffers node.piece.index insert_pos node.piece.last }
          let new_piece_left := trim_piece_right t.buffers node.piece insert_pos
          let built := t.build_piece txt
          let new_piece := built.1
          do
            let root1 ← built.2.root.remove node_start_offset
            let root2 ← root1.insert { piece := new_piece_left } node_start_offset
            let off2 := node_start_offset + new_piece_left.length
            let root3 ← root2.insert { piece := new_piece } off2
            let off3 := off2 + new_piece.length
            let root4 ← root3.insert { piece := new_piece_right } off3
            pure ({ built.2 with root := root4 }).compute_buffer_meta

/-- Embeds `Tree::internal_remove`.  The scope guard recomputes the meta data on every exit. -/
def internal_remove (t : Tree) (offset count : Nat) : Option Tree := do
  let first := node_at t.buffers t.root offset
  let last := node_at t.buffers t.root (extend offset count)
  let first_node ← first.node
  let start_split_pos := buffer_position t.buffers first_node.piece first.remainder
  if first.node.isSome = last.node.isSome ∧ (first.node.isSome → first.rank = last.rank) then
    let end_split_pos := buffer_position t.buffers first_node.piece last.remainder
    if first.start_offset = offset then
      if count = first_node.piece.length then do
        let root ← t.root.remove first.start_offset
        pure ({ t with root := root }).compute_buffer_meta
      else do
        let new_piece := trim_piece_left t.buffers first_node.piece end_split_pos
        let root1 ← t.root.remove first.start_offset
        let root2 ← root1.insert { piece := new_piece } first.start_offset
        pure ({ t with root := root2 }).compute_buffer_meta
    else if first.start_offset + first_node.piece.length = extend offset count then do
      let new_piece := trim_piece_right t.buffers first_node.piece start_split_pos
      let root1 ← t.root.remove first.start_offset
      let root2 ← root1.insert { piece := new_piece } first.start_offset
      pure ({ t with root := root2 }).compute_buffer_meta
    else do
      let lr := shrink_piece t.buffers first_node.piece start_split_pos end_split_pos
      let root1 ← t.root.remove first.start_offset
      let root2 ← root1.insert { piece := lr.2 } first.start_offset
      let root3 ← root2.insert { piece := lr.1 } first.start_offset
      pure ({ t with root := root3 }).compute_buffer_meta
  else do
    let new_first := trim_piece_right t.buffers first_node.piece start_split_pos
    let t1 ←
      match last.node with
      | none => t.remove_node_range first count
      | some last_node => do
        let end_split_pos := buffer_position t.buffers last_node.piece last.remainder
        let new_last := trim_piece_left t.buffers last_node.piece end_split_pos
        let t_removed ← t.remove_node_range first count
        if last.remainder ≠ 0 ∧ new_last.length ≠ 0 then do
          let root ← t_removed.root.insert { piece := new_last } first.start_offset
          pure { t_removed with root := root }
        else
          pure t_removed
    if new_first.length ≠ 0 then do
      let root ← t1.root.insert { piece := new_first } first.start_offset
      pure ({ t1 with root := root }).compute_buffer_meta
    else
      pure t1.compute_buffer_meta

/-- Embeds `Tree::append_undo`. -/
def append_undo (t : Tree) (old_root : RedBlackTree) (op_offset : Nat) : Tree :=
  { t with
    redo_stack := []
    undo_stack := { root := old_root, op_offset := op_offset } :: t.undo_stack }

/-- Embeds `Tree::insert`. -/
def insert (t : Tree) (offset : Nat) (txt : List CharT)
    (suppress_history : SuppressHistory := SuppressHistory.No) : Option Tree :=
  if txt.isEmpty then some t
  else
    let t1 :=
      if suppress_history = SuppressHistory.No
          ∧ (t.end_last_insert ≠ offset ∨ t.root.is_empty = true) then
        t.append_undo t.root offset
      else t
    t1.internal_insert offset txt

/-- Embeds `Tree::remove`. -/
def remove (t : Tree) (offset count : Nat)
    (suppress_history : SuppressHistory := SuppressHistory.No) : Option Tree :=
  if count = 0 ∨ t.root.is_empty = true then some t
  else
    let t1 := if suppress_history = SuppressHistory.No then t.append_undo t.root offset else t
    t1.internal_remove offset count

/-- The empty tree built by `Tree::Tree()` and `build_tree` without original buffers. -/
def init : Tree :=
  { buffers := { orig_buffers := [], mod_buffer := { buffer := [], line_starts := [0] } }
    root := RedBlackTree.empty
    last_insert := { line := 0, column := 0 }
    end_last_insert := CharOffset.Sentinel
    meta := PieceTree.compute_buffer_meta RedBlackTree.empty
    undo_stack := []
    redo_stack := [] }

/-- Embeds `Tree::try_undo`: the tree after the call and the result. -/
def try_undo (t : Tree) (op_offset : Nat) : Tree × UndoRedoResult :=
  match t.undo_stack with
  | [] => (t, { success := false, op_offset := 0 })
  | entry :: rest =>
    (({ t with
        redo_stack := { root := t.root, op_offset := op_offset } :: t.redo_stack
        root := entry.root
        undo_stack := rest }).compute_buffer_meta,
     { success := true, op_offset := entry.op_offset })

/-- Embeds `Tree::try_redo`: the tree after the call and the result. -/
def try_redo (t : Tree) (op_offset : Nat) : Tree × UndoRedoResult :=
  match t.redo_stack with
  | [] => (t, { success := false, op_offset := 0 })
  | entry :: rest =>
    (({ t with
        undo_stack := { root := t.root, op_offset := op_offset } :: t.undo_stack
        root := entry.root
        redo_stack := rest }).compute_buffer_meta,
     { success := true, op_offset := entry.op_offset })

/-- Embeds `Tree::commit_head`. -/
def commit_head (t : Tree) (offset : Nat) : Tree :=
  t.append_undo t.root offset

/-- Embeds `Tree::head`. -/
def head (t : Tree) : RedBlackTree := t.root

/-- Embeds `Tree::snap_to`. -/
def snap_to (t : Tree) (new_root : RedBlackTree) : Tree :=
  ({ t with root := new_root }).compute_buffer_meta

/-! ### Line queries -/

/-- Embeds `Tree::accumulate_value`. -/
def accumulate_value (buffers : BufferCollection) (piece : Piece) (index : Nat) : Nat :=
  let line_starts := (buffers.buffer_at piece.index).line_starts
  let expected_start := piece.first.line + (index + 1)
  let first := line_starts.getD piece.first.line 0 + piece.first.column
  if expected_start > piece.last.line then
    let last := line_starts.getD piece.last.line 0 + piece.last.column
    retract last first
  else
    let last := line_starts.getD expected_start 0
    retract last first

/-- Embeds `Tree::accumulate_value_no_lf`. -/
def accumulate_value_no_lf (buffers : BufferCollection) (piece : Piece) (index : Nat) : Nat :=
  let buffer := buffers.buffer_at piece.index
  let line_starts := buffer.line_starts
  let expected_start := piece.first.line + (index + 1)
  let first := line_starts.getD piece.first.line 0 + piece.first.column
  if expected_start > piece.last.line then
    let last := line_starts.getD piece.last.line 0 + piece.last.column
    if last = first then 0
    else if buffer.buffer.getD (retract last 1) 0 = LF then retract (retract last 1) first
    else retract last first
  else
    let last := line_starts.getD expected_start 0
    if last = first then 0
    else if buffer.buffer.getD (retract last 1) 0 = LF then retract (retract last 1) first
    else retract last first

/-- Embeds `Tree::line_start<accumulate>`: the function returns the new value of `*offset`. -/
def line_start (accumulate : BufferCollection → Piece → Nat → Nat)
    (buffers : BufferCollection) : RedBlackTree → Nat → Nat → Nat
  | RedBlackTree.empty, _, offset => offset
  | RedBlackTree.node _ l d r, line, offset =>
    let line_index := retract line 1
    if d.left_subtree_lf_count ≥ line_index then
      line_start accumulate buffers l line offset
    else if d.left_subtree_lf_count + d.piece.newline_count ≥ line_index then
      let line_index1 := line_index - d.left_subtree_lf_count
      let len :=
        if line_index1 ≠ 0 then
          d.left_subtree_length + accumulate buffers d.piece (line_index1 - 1)
        else d.left_subtree_length
      offset + len
    else
      let line_index1 := line_index - (d.left_subtree_lf_count + d.piece.newline_count)
      line_start accumulate buffers r (extend line_index1 1)
        (offset + d.left_subtree_length + d.piece.length)

/-- Embeds `Tree::char_at`. -/
def char_at (buffers : BufferCollection) (node : RedBlackTree) (offset : Nat) : CharT :=
  let result := node_at buffers node offset
  match result.node with
  | none => NUL
  | some d =>
    let buffer := buffers.buffer_at d.piece.index
    let buf_offset := buffers.buffer_offset d.piece.index d.piece.first
    buffer.buffer.getD (buf_offset + result.remainder) 0

/-- Embeds `Tree::line_end_crlf`: the function returns the new value of `*offset`. -/
def line_end_crlf (buffers : BufferCollection) (root : RedBlackTree) :
    RedBlackTree → Nat → Nat → Nat
  | RedBlackTree.empty, _, offset => offset
  | RedBlackTree.node _ l d r, line, offset =>
    let line_index := retract line 1
    if d.left_subtree_lf_count ≥ line_index then
      line_end_crlf buffers root l line offset
    else if d.left_subtree_lf_count + d.piece.newline_count ≥ line_index then
      let line_index1 := line_index - d.left_subtree_lf_count
      let len :=
        if line_index1 ≠ 0 then
          d.left_subtree_length + accumulate_value_no_lf buffers d.piece (line_index1 - 1)
        else d.left_subtree_length
      let len1 :=
        if len ≠ 0 then
          let last_char_offset := offset + retract len 1
          if char_at buffers root last_char_offset = CR
              ∧ char_at buffers root (extend last_char_offset 1) = LF then
            retract len 1
          else len
        else len
      offset + len1
    else
      let line_index1 := line_index - (d.left_subtree_lf_count + d.piece.newline_count)
      line_end_crlf buffers root r (extend line_index1 1)
        (offset + d.left_subtree_length + d.piece.length)

/-- Embeds `Tree::get_line_range`. -/
def get_line_range (t : Tree) (line : Nat) : LineRange :=
  { first := line_start accumulate_value t.buffers t.root line 0
    last := line_start accumulate_value_no_lf t.buffers t.root (extend line 1) 0 }

/-- Embeds `Tree::get_line_range_crlf`. -/
def get_line_range_crlf (t : Tree) (line : Nat) : LineRange :=
  { first := line_start accumulate_value t.buffers t.root line 0
    last := line_end_crlf t.buffers t.root t.root (extend line 1) 0 }

/-- Embeds `Tree::get_line_range_with_newline`. -/
def get_line_range_with_newline (t : Tree) (line : Nat) : LineRange :=
  { first := line_start accumulate_value t.buffers t.root line 0
    last := line_start accumulate_value t.buffers t.root (extend line 1) 0 }

/-- Embeds `Tree::line_at`. -/
def line_at (t : Tree) (offset : Nat) : Nat :=
  if t.is_empty then Line.Beginning
  else (node_at t.buffers t.root offset).line

/-- Embeds `Tree::at`. -/
def at_ (t : Tree) (offset : Nat) : CharT :=
  char_at t.buffers t.root offset

end Tree

end PieceTree


namespace PieceTree

/-! ## The forward walker (`fredbuf.cpp` lines 1704-1881) and the line content queries -/

/-- Embeds `TreeWalker::Direction`. -/
inductive Direction where
  | Left
  | Center
  | Right
deriving DecidableEq, Repr

/-- Embeds `TreeWalker::StackEntry`. -/
structure StackEntry where
  node : RedBlackTree
  dir : Direction := Direction.Left
deriving DecidableEq, Repr

/-- The state of a `TreeWalker`.  The head of `stack` is `stack.back()`.  The two pointers
always point into one buffer: `ptr_index` names it and `first_ptr`, `last_ptr` are offsets
into its text (both 0 stands for the two null pointers of a fresh walker). -/
structure TreeWalker where
  buffers : BufferCollection
  root : RedBlackTree
  meta : BufferMeta
  stack : List StackEntry
  total_offset : Nat
  ptr_index : BufferIndex
  first_ptr : Nat
  last_ptr : Nat
deriving DecidableEq, Repr

namespace TreeWalker

/-- The assignment `stack.back().dir = d`. -/
def set_back_dir (stack : List StackEntry) (d : Direction) : List StackEntry :=
  match stack with
  | [] => []
  | e :: rest => { e with dir := d } :: rest

/-- The loop of `TreeWalker::fast_forward_to`. -/
def fast_forward_loop : RedBlackTree → Nat → TreeWalker → TreeWalker
  | RedBlackTree.empty, _, w => w
  | RedBlackTree.node _ l d r, offset, w =>
    if d.left_subtree_length > offset then
      fast_forward_loop l offset
        { w with stack := { node := l } :: set_back_dir w.stack Direction.Center }
    else if d.left_subtree_length + d.piece.length > offset then
      let offset1 := retract offset d.left_subtree_length
      let first_offset := w.buffers.buffer_offset d.piece.index d.piece.first
      let last_offset := w.buffers.buffer_offset d.piece.index d.piece.last
      { w with
        stack := set_back_dir w.stack Direction.Right
        ptr_index := d.piece.index
        first_ptr := first_offset + offset1
        last_ptr := last_offset }
    else
      let offset_amount := d.left_subtree_length + d.piece.length
      fast_forward_loop r (retract offset offset_amount)
        { w with stack := { node := r } :: w.stack.tail }

/-- Embeds `TreeWalker::fast_forward_to`. -/
def fast_forward_to (w : TreeWalker) (offset : Nat) : TreeWalker :=
  fast_forward_loop w.root offset w

/-- The common body of the three constructors of `TreeWalker`: a stack that holds the
root, the total offset, and a fast forward to the offset. -/
def make (buffers : BufferCollection) (root : RedBlackTree) (meta : BufferMeta)
    (offset : Nat) : TreeWalker :=
  fast_forward_to
    { buffers := buffers
      root := root
      meta := meta
      stack := [{ node := root }]
      total_offset := offset
      ptr_index := BufferIndex.ModBuf
      first_ptr := 0
      last_ptr := 0 }
    offset

/-- The constructor `TreeWalker(const Tree*, CharOffset)`. -/
def create (t : Tree) (offset : Nat := 0) : TreeWalker :=
  make t.buffers t.root t.meta offset

/-- Embeds `TreeWalker::seek`. -/
def seek (w : TreeWalker) (offset : Nat) : TreeWalker :=
  fast_forward_to { w with stack := [{ node := w.root }], total_offset := offset } offset

/-- Embeds `TreeWalker::exhausted`. -/
def exhausted (w : TreeWalker) : Bool :=
  match w.stack with
  | [] => true
  | entry :: rest =>
    if w.first_ptr ≠ w.last_ptr then false
    else if rest.length + 1 > 1 then false
    else
      match entry.node with
      | RedBlackTree.empty => true
      | RedBlackTree.node _ _ _ r =>
        if entry.dir = Direction.Right ∧ r.is_empty = true then true else false

/-- Embeds `TreeWalker::remaining`. -/
def remaining (w : TreeWalker) : Nat :=
  retract w.meta.total_content_length (distance 0 w.total_offset)

/-- The recursion of `TreeWalker::populate_ptrs`, bounded by `fuel`. -/
def populate_ptrs_loop : Nat → TreeWalker → TreeWalker
  | 0, w => w
  | fuel + 1, w =>
    if w.exhausted then w
    else
      match w.stack with
      | [] => w
      | entry :: rest =>
        match entry.node with
        | RedBlackTree.empty => populate_ptrs_loop fuel { w with stack := rest }
        | RedBlackTree.node _ l d r =>
          let center : TreeWalker :=
            { w with
              ptr_index := d.piece.index
              first_ptr := w.buffers.buffer_offset d.piece.index d.piece.first
              last_ptr := w.buffers.buffer_offset d.piece.index d.piece.last
              stack := { entry with dir := Direction.Right } :: rest }
          match entry.dir with
          | Direction.Left =>
            if !l.is_empty then
              populate_ptrs_loop fuel
                { w with
                  stack := { node := l } :: { entry with dir := Direction.Center } :: rest }
            else center
          | Direction.Center => center
          | Direction.Right =>
            populate_ptrs_loop fuel { w with stack := { node := r } :: rest }

/-- Embeds `TreeWalker::populate_ptrs`.  Every recursive call pops an entry, or descends into a
child of the entry on top, so three rounds for each node of the tree are enough. -/
def populate_ptrs (w : TreeWalker) : TreeWalker :=
  populate_ptrs_loop (3 * w.root.size + 2) w

/-- The last two statements of `TreeWalker::next`: advance and return `*first_ptr++`. -/
def advance (w : TreeWalker) : CharT × TreeWalker :=
  ((w.buffers.buffer_at w.ptr_index).buffer.getD w.first_ptr 0,
   { w with total_offset := w.total_offset + 1, first_ptr := w.first_ptr + 1 })

/-- The recursion of `TreeWalker::next` (the catch-all branch calls `next` again). -/
def next_loop : Nat → TreeWalker → CharT × TreeWalker
  | 0, w => (NUL, w)
  | fuel + 1, w =>
    if w.first_ptr = w.last_ptr then
      let w1 := w.populate_ptrs
      if w1.exhausted then (NUL, w1)
      else if w1.first_ptr = w1.last_ptr then next_loop fuel w1
      else w1.advance
    else w.advance

/-- Embeds `TreeWalker::next`: the code unit and the walker after the call.  The catch-all
branch recurses once for every empty piece it skips. -/
def next (w : TreeWalker) : CharT × TreeWalker :=
  next_loop (w.root.size + 2) w

/-- Calling `next()` until `exhausted()`, as `print_buffer` does: the code units read. -/
def drain_loop : Nat → TreeWalker → List CharT → List CharT
  | 0, _, buf => buf
  | fuel + 1, w, buf =>
    if w.exhausted then buf
    else
      let res := w.next
      drain_loop fuel res.2 (buf ++ [res.1])

/-- The whole text a walker yields until it is exhausted.  Every round reads one code
unit or consumes one empty piece, which bounds the number of rounds. -/
def drain (w : TreeWalker) : List CharT :=
  drain_loop (w.meta.total_content_length + w.root.size + 1) w []

end TreeWalker

namespace Tree

/-- The loop of `Tree::assemble_line`: read up to the next line feed, which is dropped. -/
def assemble_line_loop : Nat → TreeWalker → List CharT → List CharT
  | 0, _, buf => buf
  | fuel + 1, w, buf =>
    if w.exhausted then buf
    else
      let res := w.next
      if res.1 = LF then buf
      else assemble_line_loop fuel res.2 (buf ++ [res.1])

/-- Embeds `Tree::assemble_line` (the branch compiled by `#if 1`). -/
def assemble_line (t : Tree) (buf : List CharT) (node : RedBlackTree) (line : Nat) :
    List CharT :=
  if node.is_empty then buf
  else
    let line_offset := line_start accumulate_value t.buffers node line 0
    let walker := TreeWalker.create t line_offset
    assemble_line_loop (t.meta.total_content_length + t.root.size + 1) walker buf

/-- Embeds `Tree::get_line_content`: the function returns the final value of `*buf`. -/
def get_line_content (t : Tree) (line : Nat) : List CharT :=
  if line = Line.IndexBeginning then []
  else assemble_line t [] t.root line

end Tree

end PieceTree


namespace PieceTree

/-! ## Vocabulary of the properties

The definitions below do not come from the source: they name what the properties talk
about (the sequence of pieces of a tree, the text of a document, the invariants). -/

/-- The sum of the cached lengths of a list of pieces. -/
def sumLen (ps : List Piece) : Nat := (ps.map (fun p => p.length)).sum

/-- The sum of the cached line feed counts of a list of pieces. -/
def sumLf (ps : List Piece) : Nat := (ps.map (fun p => p.newline_count)).sum

/-- The list of pieces after `RedBlackTree::ins`: the new piece goes before the first piece
whose end offset exceeds `at_`. -/
def insList (x : Piece) (at_ : Nat) : List Piece → Nat → List Piece
  | [], _ => [x]
  | p :: ps, total =>
    if at_ < total + p.length then x :: p :: ps
    else p :: insList x at_ ps (total + p.length)

/-- The list of pieces after `RedBlackTree::rem`: the piece that starts at `at_` goes, and
nothing changes when no piece starts there. -/
def remList (at_ : Nat) : List Piece → Nat → List Piece
  | [], _ => []
  | p :: ps, total =>
    if at_ = total then ps
    else if at_ < total then p :: ps
    else p :: remList at_ ps (total + p.length)

namespace RedBlackTree

/-- The pieces of a tree in order (left subtree, node, right subtree). -/
def toList : RedBlackTree → List Piece
  | empty => []
  | node _ l d r => toList l ++ d.piece :: toList r

/-- The pieces that are left when `RedBlackTree::rem` has followed its search path: the
first node on the path whose start offset is `at_` goes, and nothing changes when the path
ends at an empty subtree. -/
def remPieces : RedBlackTree → Nat → Nat → List Piece
  | empty, _, _ => []
  | node _ l y r, at_, total =>
    if at_ < total + y.left_subtree_length then
      remPieces l at_ total ++ y.piece :: toList r
    else if at_ = total + y.left_subtree_length then toList l ++ toList r
    else toList l ++ y.piece :: remPieces r at_ (total + y.left_subtree_length + y.piece.length)

/-- The colour of a tree: the empty tree counts as black. -/
def color : RedBlackTree → Color
  | empty => Color.Black
  | node c _ _ _ => c

/-- The number of black nodes on the leftmost path. -/
def bheight : RedBlackTree → Nat
  | empty => 0
  | node c l _ _ => if c = Color.Black then bheight l + 1 else bheight l

/-- Every node is red or black and no red node has a red child. -/
def invc : RedBlackTree → Bool
  | empty => true
  | node c l _ r =>
    (c == Color.Black || (c == Color.Red && color l == Color.Black && color r == Color.Black))
      && invc l && invc r

/-- The colour invariant below the root: the root itself may be a red node with a red
child. -/
def invc2 : RedBlackTree → Bool
  | empty => true
  | node c l _ r => (c == Color.Black || c == Color.Red) && invc l && invc r

/-- Every path from a node to an empty child crosses the same number of black nodes. -/
def invh : RedBlackTree → Bool
  | empty => true
  | node _ l _ r => bheight l == bheight r && invh l && invh r

/-- The red-black properties of a root: black root, colour and height invariant. -/
def rbValid (t : RedBlackTree) : Bool :=
  color t == Color.Black && invc t && invh t

/-- The augmentation invariant: the two cached fields of every node are the sums over the
pieces of its left subtree. -/
def Aug : RedBlackTree → Bool
  | empty => true
  | node _ l d r =>
    d.left_subtree_length == sumLen (toList l)
      && d.left_subtree_lf_count == sumLf (toList l) && Aug l && Aug r

end RedBlackTree

/-- The number of line feeds among the first `o` code units of a text. -/
def lfBefore (buf : List CharT) (o : Nat) : Nat := (buf.take o).count LF

/-- A buffer is well formed when its line starts are those `populate_line_starts` computes
from its text. -/
def CharBuffer.OK (cb : CharBuffer) : Prop :=
  cb.line_starts = populate_line_starts cb.buffer

instance (cb : CharBuffer) : Decidable cb.OK := by
  unfold CharBuffer.OK; infer_instance

/-- The offset of a cursor in a buffer. -/
def CharBuffer.offsetOf (cb : CharBuffer) (c : BufferCursor) : Nat :=
  cb.line_starts.getD c.line 0 + c.column

/-- A cursor of a buffer is canonical: it lies in the text and its line is the last line
that starts at or before its offset. -/
def CharBuffer.CursorOK (cb : CharBuffer) (c : BufferCursor) : Prop :=
  c.line < cb.line_starts.length ∧ cb.offsetOf c ≤ cb.buffer.length ∧
    (c.line + 1 < cb.line_starts.length → cb.offsetOf c < cb.line_starts.getD (c.line + 1) 0)

instance (cb : CharBuffer) (c : BufferCursor) : Decidable (cb.CursorOK c) := by
  unfold CharBuffer.CursorOK; infer_instance

/-- The canonical cursor of offset `o`: the line is the number of line feeds before `o`. -/
def CharBuffer.cursorAt (cb : CharBuffer) (o : Nat) : BufferCursor :=
  { line := lfBefore cb.buffer o
    column := o - cb.line_starts.getD (lfBefore cb.buffer o) 0 }

/-- The buffer index of a piece names a buffer of the collection. -/
def BufferCollection.IndexOK (b : BufferCollection) : BufferIndex → Prop
  | BufferIndex.ModBuf => True
  | BufferIndex.Orig i => i < b.orig_buffers.length

instance (b : BufferCollection) (i : BufferIndex) : Decidable (b.IndexOK i) := by
  cases i <;> unfold BufferCollection.IndexOK <;> infer_instance

/-- A piece is consistent with its buffer: both cursors are canonical, the window is not
reversed, and the cached length and line feed count are those of the window. -/
def BufferCollection.PieceOK (b : BufferCollection) (p : Piece) : Prop :=
  b.IndexOK p.index ∧
  (b.buffer_at p.index).CursorOK p.first ∧
  (b.buffer_at p.index).CursorOK p.last ∧
  (b.buffer_at p.index).offsetOf p.first ≤ (b.buffer_at p.index).offsetOf p.last ∧
  p.length = (b.buffer_at p.index).offsetOf p.last - (b.buffer_at p.index).offsetOf p.first ∧
  p.newline_count = p.last.line - p.first.line

instance (b : BufferCollection) (p : Piece) : Decidable (b.PieceOK p) := by
  unfold BufferCollection.PieceOK; infer_instance

/-- The consistent piece that spans the offsets `[f, l)` of a buffer. -/
def BufferCollection.window (b : BufferCollection) (idx : BufferIndex) (f l : Nat) : Piece :=
  { index := idx
    first := (b.buffer_at idx).cursorAt f
    last := (b.buffer_at idx).cursorAt l
    length := l - f
    newline_count := lfBefore (b.buffer_at idx).buffer l - lfBefore (b.buffer_at idx).buffer f }

/-- The offsets `f ≤ l` describe a window of the buffer `idx` of the collection. -/
def BufferCollection.WindowOK (b : BufferCollection) (idx : BufferIndex) (f l : Nat) : Prop :=
  b.IndexOK idx ∧ (b.buffer_at idx).OK ∧ f ≤ l ∧ l ≤ (b.buffer_at idx).buffer.length

/-- The code units of the window `[first, last)` of a piece. -/
def BufferCollection.pieceText (b : BufferCollection) (p : Piece) : List CharT :=
  ((b.buffer_at p.index).buffer.drop (b.buffer_offset p.index p.first)).take
    (b.buffer_offset p.index p.last - b.buffer_offset p.index p.first)

/-- The text of a list of pieces: the concatenation of their windows. -/
def BufferCollection.textOf (b : BufferCollection) (ps : List Piece) : List CharT :=
  ps.flatMap b.pieceText

/-- All buffers of a collection are well formed. -/
def BufferCollection.OK (b : BufferCollection) : Prop :=
  (∀ cb ∈ b.orig_buffers, cb.OK) ∧ b.mod_buffer.OK

instance (b : BufferCollection) : Decidable b.OK := by
  unfold BufferCollection.OK; infer_instance

/-- The collection `b1` is the collection `b` after text has been appended to the mod
buffer. -/
def BufferCollection.Extends (b b1 : BufferCollection) : Prop :=
  b1.orig_buffers = b.orig_buffers ∧ b.mod_buffer.buffer <+: b1.mod_buffer.buffer

/-- The cursor at the end of a buffer. -/
def CharBuffer.endCursor (cb : CharBuffer) : BufferCursor :=
  { line := cb.line_starts.length - 1
    column := cb.buffer.length - cb.line_starts.getD (cb.line_starts.length - 1) 0 }

namespace Tree

/-- The document of a tree: the in-order concatenation of the windows of its pieces. -/
def content (t : Tree) : List CharT :=
  t.buffers.textOf t.root.toList

/-- A root is consistent with a buffer collection: its pieces are consistent, it has the
red-black properties and its augmentation is correct. -/
def RootOK (b : BufferCollection) (r : RedBlackTree) : Prop :=
  (∀ p ∈ r.toList, b.PieceOK p) ∧ r.rbValid = true ∧ r.Aug = true

instance (b : BufferCollection) (r : RedBlackTree) : Decidable (RootOK b r) := by
  unfold RootOK; infer_instance

/-- The invariant every reachable tree satisfies, whatever the arguments of the calls:
well-formed buffers, a consistent root, a meta cache computed from the root,
`last_insert` at the end of the mod buffer, and consistent roots in the history. -/
def Consistent (t : Tree) : Prop :=
  t.buffers.OK ∧
  RootOK t.buffers t.root ∧
  t.meta = PieceTree.compute_buffer_meta t.root ∧
  t.last_insert = t.buffers.mod_buffer.endCursor ∧
  (∀ e ∈ t.undo_stack, RootOK t.buffers e.root) ∧
  (∀ e ∈ t.redo_stack, RootOK t.buffers e.root)

instance (t : Tree) : Decidable t.Consistent := by
  unfold Consistent; infer_instance

/-- One step of the tree that leaves the history alone: `t1` is consistent, its buffers
extend those of `t`, and the two stacks and `end_last_insert` are those of `t`. -/
def Step (t t1 : Tree) : Prop :=
  t1.Consistent ∧ t.buffers.Extends t1.buffers ∧ t1.undo_stack = t.undo_stack ∧
    t1.redo_stack = t.redo_stack ∧ t1.end_last_insert = t.end_last_insert

/-- The state of a tree while the text `s` is being typed into an empty tree: one piece
that ends at `last_insert`, one undo entry, the end of the last insertion at the end. -/
def Typed (t : Tree) (s : List CharT) : Prop :=
  t.Consistent ∧
  (∃ p, t.root.toList = [p] ∧ p.index = BufferIndex.ModBuf ∧ p.last = t.last_insert) ∧
  t.content = s ∧ t.end_last_insert = s.length ∧
  t.undo_stack = [{ root := RedBlackTree.empty, op_offset := 0 }] ∧ t.redo_stack = []

/-- The well-formed trees: consistent, without empty pieces, and with a length that fits
the offset type with room to spare. -/
def WF (t : Tree) : Prop :=
  t.Consistent ∧
  (∀ p ∈ t.root.toList, 0 < p.length) ∧
  sumLen t.root.toList < 2 ^ 63

instance (t : Tree) : Decidable t.WF := by
  unfold WF; infer_instance

/-- A mutation of a tree, as a caller issues it. -/
inductive Op where
  | insert (offset : Nat) (txt : List CharT) (suppress_history : SuppressHistory)
  | remove (offset count : Nat) (suppress_history : SuppressHistory)
  | undo (op_offset : Nat)
  | redo (op_offset : Nat)
deriving DecidableEq, Repr

/-- Apply one mutation. -/
def apply (t : Tree) : Op → Option Tree
  | Op.insert offset txt sh => t.insert offset txt sh
  | Op.remove offset count sh => t.remove offset count sh
  | Op.undo op_offset => some (t.try_undo op_offset).1
  | Op.redo op_offset => some (t.try_redo op_offset).1

/-- Apply a sequence of mutations from left to right. -/
def run : List Op → Tree → Option Tree
  | [], t => some t
  | op :: ops, t => (t.apply op).bind (run ops)

/-- The calls `insert(i, c_1); insert(i + 1, c_2); ...`: typing the text `cs` one code
unit after the other, starting at offset `i`. -/
def typing : Nat → List CharT → List Op
  | _, [] => []
  | i, c :: cs => Op.insert i [c] SuppressHistory.No :: typing (i + 1) cs

end Tree

namespace TreeWalker

/-- The pieces one entry of the stack of a walker still has to visit: the whole subtree
when the walker has not entered it, the piece of the node and the right subtree when it
comes back from the left, the right subtree after the piece. -/
def entryPieces (e : StackEntry) : List Piece :=
  match e.node with
  | RedBlackTree.empty => []
  | RedBlackTree.node _ l d r =>
    match e.dir with
    | Direction.Left => l.toList ++ d.piece :: r.toList
    | Direction.Center => d.piece :: r.toList
    | Direction.Right => r.toList

/-- The pieces the stack of a walker still has to visit, the top of the stack first. -/
def stackPieces : List StackEntry → List Piece
  | [] => []
  | e :: rest => entryPieces e ++ stackPieces rest

/-- The code units between the two pointers of a walker. -/
def window (w : TreeWalker) : List CharT :=
  ((w.buffers.buffer_at w.ptr_index).buffer.drop w.first_ptr).take (w.last_ptr - w.first_ptr)

/-- The text a walker still has to yield: the rest of the current piece and the text of
the pieces of the stack. -/
def pending (w : TreeWalker) : List CharT :=
  w.window ++ w.buffers.textOf (stackPieces w.stack)

/-- A bound on the rounds `populate_ptrs` needs, read off the top of the stack. -/
def topFuel : List StackEntry → Nat
  | [] => 0
  | e :: _ =>
    match e.node with
    | RedBlackTree.empty => 1
    | RedBlackTree.node _ l _ r =>
      match e.dir with
      | Direction.Left => 2 * l.size + 2
      | Direction.Center => 0
      | Direction.Right => 2 * r.size + 4

/-- The invariant of a walker: the pointers delimit a window of the current buffer, the
pieces still to visit are consistent and no more than the tree holds, every entry below
the top of the stack waits for its own piece, and the window is empty once the stack
is. -/
def Inv (w : TreeWalker) : Prop :=
  w.buffers.OK ∧ w.first_ptr ≤ w.last_ptr ∧
  w.last_ptr ≤ (w.buffers.buffer_at w.ptr_index).buffer.length ∧
  (∀ e ∈ w.stack, e.node.size ≤ w.root.size) ∧
  (∀ p ∈ stackPieces w.stack, w.buffers.PieceOK p) ∧
  (stackPieces w.stack).length ≤ w.root.size ∧
  (∀ e ∈ w.stack.tail, e.dir = Direction.Center ∧ e.node.is_empty = false) ∧
  (w.stack = [] → w.first_ptr = w.last_ptr)

/-- No piece the walker still has to visit is empty. -/
def Pos (w : TreeWalker) : Prop := ∀ p ∈ stackPieces w.stack, 0 < p.length

/-- The walker `w` reading the buffers `b` in place of its own. -/
def withBuffers (w : TreeWalker) (b : BufferCollection) : TreeWalker :=
  { w with buffers := b }

end TreeWalker

/-- The loop of `trim_crlf` run on a text in place of a walker; `prev_char` holds the low
eight bits of the last code unit pushed. -/
def crlfOf : List CharT → List CharT → Nat → List CharT × IncompleteCRLF
  | [], buf, _ => (buf, IncompleteCRLF.No)
  | c :: rest, buf, prev_char =>
    if c = LF then
      if prev_char = CR then (buf.dropLast, IncompleteCRLF.No)
      else (buf, IncompleteCRLF.Yes)
    else crlfOf rest (buf ++ [c]) (c % 2 ^ 8)

/-- The lines of a text put together again, with a line feed between two lines. -/
def joinLines : List (List CharT) → List CharT
  | [] => []
  | [l] => l
  | l :: ls => l ++ LF :: joinLines ls

end PieceTree


namespace PieceTree

/-! ## The CRLF line content and the snapshots -/

/-- The loop of `trim_crlf`: `buf` is the line read so far.  The variable `prev_char` is
declared `auto prev_char = '\0'`, a `char`, and the code units are `char16_t` (the build is
UTF-16), so the assignment `prev_char = c` keeps the low eight bits of the code unit: the
value `c % 2 ^ 8`, which is `'\r'` exactly when the low byte of `c` is `0x0D`. -/
def trim_crlf_loop : Nat → TreeWalker → List CharT → Nat → List CharT × IncompleteCRLF
  | 0, _, buf, _ => (buf, IncompleteCRLF.No)
  | fuel + 1, w, buf, prev_char =>
    if w.exhausted then (buf, IncompleteCRLF.No)
    else
      let res := w.next
      if res.1 = LF then
        if prev_char = CR then (buf.dropLast, IncompleteCRLF.No)
        else (buf, IncompleteCRLF.Yes)
      else trim_crlf_loop fuel res.2 (buf ++ [res.1]) (res.1 % 2 ^ 8)

/-- Embeds `trim_crlf`: the content pushed to `*buf` and the flag returned.  The walker is the one
the caller's tree or snapshot constructs at `line_offset`. -/
def trim_crlf (buf : List CharT) (walker : TreeWalker) : List CharT × IncompleteCRLF :=
  trim_crlf_loop (walker.meta.total_content_length + walker.root.size + 1) walker buf NUL

namespace Tree

/-- Embeds `Tree::get_line_content_crlf`: the final `*buf` and the flag returned. -/
def get_line_content_crlf (t : Tree) (line : Nat) : List CharT × IncompleteCRLF :=
  if line = Line.IndexBeginning then ([], IncompleteCRLF.No)
  else if t.root.is_empty then ([], IncompleteCRLF.No)
  else
    let line_offset := line_start accumulate_value t.buffers t.root line 0
    trim_crlf [] (TreeWalker.create t line_offset)

end Tree

/-- Embeds `OwningSnapshot`: the root, the meta data and a copy of the buffers of a tree. -/
structure OwningSnapshot where
  root : RedBlackTree
  meta : BufferMeta
  buffers : BufferCollection
deriving DecidableEq, Repr

/-- Embeds `ReferenceSnapshot`: the root and the meta data of a tree.  Its `buffers` member is a
pointer to the buffers of the tree, so every query takes the buffers the tree holds at the
time of the call. -/
structure ReferenceSnapshot where
  root : RedBlackTree
  meta : BufferMeta
deriving DecidableEq, Repr

namespace OwningSnapshot

/-- The constructor `OwningSnapshot(const Tree*)`. -/
def create (t : Tree) : OwningSnapshot :=
  { root := t.root, meta := t.meta, buffers := t.buffers }

/-- The constructor `TreeWalker(const OwningSnapshot*, CharOffset)`. -/
def walker (s : OwningSnapshot) (offset : Nat := 0) : TreeWalker :=
  TreeWalker.make s.buffers s.root s.meta offset

/-- Embeds `OwningSnapshot::is_empty`. -/
def is_empty (s : OwningSnapshot) : Bool := s.meta.total_content_length == 0

/-- Embeds `OwningSnapshot::line_count`. -/
def line_count (s : OwningSnapshot) : Nat := s.meta.lf_count + 1

/-- Embeds `OwningSnapshot::get_line_content`. -/
def get_line_content (s : OwningSnapshot) (line : Nat) : List CharT :=
  if line = Line.IndexBeginning then []
  else if s.root.is_empty then []
  else
    let line_offset := Tree.line_start Tree.accumulate_value s.buffers s.root line 0
    let w := s.walker line_offset
    Tree.assemble_line_loop (s.meta.total_content_length + s.root.size + 1) w []

/-- Embeds `OwningSnapshot::get_line_content_crlf`. -/
def get_line_content_crlf (s : OwningSnapshot) (line : Nat) : List CharT × IncompleteCRLF :=
  if line = Line.IndexBeginning then ([], IncompleteCRLF.No)
  else if s.root.is_empty then ([], IncompleteCRLF.No)
  else
    let line_offset := Tree.line_start Tree.accumulate_value s.buffers s.root line 0
    trim_crlf [] (s.walker line_offset)

/-- Embeds `OwningSnapshot::line_at`. -/
def line_at (s : OwningSnapshot) (offset : Nat) : Nat :=
  if s.is_empty then Line.Beginning
  else (Tree.node_at s.buffers s.root offset).line

/-- Embeds `OwningSnapshot::get_line_range`. -/
def get_line_range (s : OwningSnapshot) (line : Nat) : LineRange :=
  { first := Tree.line_start Tree.accumulate_value s.buffers s.root line 0
    last := Tree.line_start Tree.accumulate_value_no_lf s.buffers s.root (extend line 1) 0 }

/-- Embeds `OwningSnapshot::get_line_range_crlf`. -/
def get_line_range_crlf (s : OwningSnapshot) (line : Nat) : LineRange :=
  { first := Tree.line_start Tree.accumulate_value s.buffers s.root line 0
    last := Tree.line_end_crlf s.buffers s.root s.root (extend line 1) 0 }

/-- Embeds `OwningSnapshot::get_line_range_with_newline`. -/
def get_line_range_with_newline (s : OwningSnapshot) (line : Nat) : LineRange :=
  { first := Tree.line_start Tree.accumulate_value s.buffers s.root line 0
    last := Tree.line_start Tree.accumulate_value s.buffers s.root (extend line 1) 0 }

end OwningSnapshot

namespace ReferenceSnapshot

/-- The constructor `ReferenceSnapshot(const Tree*)`. -/
def create (t : Tree) : ReferenceSnapshot :=
  { root := t.root, meta := t.meta }

/-- The constructor `TreeWalker(const ReferenceSnapshot*, CharOffset)`. -/
def walker (s : ReferenceSnapshot) (live : BufferCollection) (offset : Nat := 0) :
    TreeWalker :=
  TreeWalker.make live s.root s.meta offset

/-- Embeds `ReferenceSnapshot::is_empty`. -/
def is_empty (s : ReferenceSnapshot) : Bool := s.meta.total_content_length == 0

/-- Embeds `ReferenceSnapshot::line_count`. -/
def line_count (s : ReferenceSnapshot) : Nat := s.meta.lf_count + 1

/-- Embeds `ReferenceSnapshot::get_line_content`. -/
def get_line_content (s : ReferenceSnapshot) (live : BufferCollection) (line : Nat) :
    List CharT :=
  if line = Line.IndexBeginning then []
  else if s.root.is_empty then []
  else
    let line_offset := Tree.line_start Tree.accumulate_value live s.root line 0
    let w := s.walker live line_offset
    Tree.assemble_line_loop (s.meta.total_content_length + s.root.size + 1) w []

/-- Embeds `ReferenceSnapshot::get_line_content_crlf`. -/
def get_line_content_crlf (s : ReferenceSnapshot) (live : BufferCollection) (line : Nat) :
    List CharT × IncompleteCRLF :=
  if line = Line.IndexBeginning then ([], IncompleteCRLF.No)
  else if s.root.is_empty then ([], IncompleteCRLF.No)
  else
    let line_offset := Tree.line_start Tree.accumulate_value live s.root line 0
    trim_crlf [] (s.walker live line_offset)

/-- Embeds `ReferenceSnapshot::line_at`. -/
def line_at (s : ReferenceSnapshot) (live : BufferCollection) (offset : Nat) : Nat :=
  if s.is_empty then Line.Beginning
  else (Tree.node_at live s.root offset).line

/-- Embeds `ReferenceSnapshot::get_line_range`. -/
def get_line_range (s : ReferenceSnapshot) (live : BufferCollection) (line : Nat) :
    LineRange :=
  { first := Tree.line_start Tree.accumulate_value live s.root line 0
    last := Tree.line_start Tree.accumulate_value_no_lf live s.root (extend line 1) 0 }

/-- Embeds `ReferenceSnapshot::get_line_range_crlf`. -/
def get_line_range_crlf (s : ReferenceSnapshot) (live : BufferCollection) (line : Nat) :
    LineRange :=
  { first := Tree.line_start Tree.accumulate_value live s.root line 0
    last := Tree.line_end_crlf live s.root s.root (extend line 1) 0 }

/-- Embeds `ReferenceSnapshot::get_line_range_with_newline`. -/
def get_line_range_with_newline (s : ReferenceSnapshot) (live : BufferCollection)
    (line : Nat) : LineRange :=
  { first := Tree.line_start Tree.accumulate_value live s.root line 0
    last := Tree.line_start Tree.accumulate_value live s.root (extend line 1) 0 }

end ReferenceSnapshot

end PieceTree


namespace PieceTree

/-! ## Example documents and call sequences -/

namespace Example

/-- The text `hello`. -/
def hello : List CharT := [104, 101, 108, 108, 111]

/-- The text `world`. -/
def world : List CharT := [119, 111, 114, 108, 100]

/-- The text `hello`, a line feed, `world`. -/
def helloWorld : List CharT := hello ++ [LF] ++ world

/-- The call `insert(offset, txt)` with the default history argument. -/
def ins (offset : Nat) (txt : List CharT) : Tree.Op :=
  Tree.Op.insert offset txt SuppressHistory.No

/-- The call `remove(offset, count)` with the default history argument. -/
def del (offset count : Nat) : Tree.Op :=
  Tree.Op.remove offset count SuppressHistory.No

/-- The calls `insert(0, "hello\nworld")`. -/
def scenario1 : List Tree.Op := [ins 0 helloWorld]

/-- The calls `insert(0, "hello\nworld"); insert(5, "\r")`. -/
def scenario2 : List Tree.Op := [ins 0 helloWorld, ins 5 [CR]]

/-- The calls `insert(0, "hello"); remove(3, 10)`: the removed range reaches past the end
of the document. -/
def clamped : List Tree.Op := [ins 0 hello, del 3 10]

/-- The tree after the calls of `scenario2`: three pieces, `hello`, `\r`, `\nworld`. -/
def tree2 : Tree := (Tree.run scenario2 Tree.init).getD Tree.init

/-- The calls `insert(0, "a"); insert(1, "b")`: the second call continues the first. -/
def typing : List Tree.Op := [ins 0 [97], ins 1 [98]]

/-- The calls `insert(0, "a", SuppressHistory::Yes); insert(0, "b"); try_undo(5)`: they
leave the document `a`, an empty undo stack and one redo entry. -/
def staleRedo : List Tree.Op :=
  [Tree.Op.insert 0 [97] SuppressHistory.Yes, ins 0 [98], Tree.Op.undo 5]

/-- The calls `insert(0, "a"); insert(0, "b"); remove(1, 2)`: the removed range reaches one
code unit past the end of the document `ba`. -/
def clampedTail : List Tree.Op := [ins 0 [97], ins 0 [98], del 1 2]

end Example



end PieceTree


namespace PieceTree

namespace RedBlackTree

/-! ## The removal of the debug build, and sequences of tree operations

In the debug build `assert(!"impossible")` at the end of `balance_left` and `balance_right`
aborts.  The definitions below are the removal functions with that assertion in effect:
where the release build returns its argument, they have no result. -/

/-- Embeds `RedBlackTree::balance_left` of the debug build: past its three cases,
`assert(!"impossible")` leaves no result. -/
def balance_left_checked (lft : RedBlackTree) : Option RedBlackTree := do
  let ll ← lft.left
  let lx ← lft.root
  let lr ← lft.right
  if !ll.is_empty && ll.root_color == some Color.Red then do
    let ll_black ← ll.paint Color.Black
    pure (ctor Color.Red ll_black lx lr)
  else if !lr.is_empty && lr.root_color == some Color.Black then do
    let lr_red ← lr.paint Color.Red
    balance_node (ctor Color.Black ll lx lr_red)
  else if !lr.is_empty && lr.root_color == some Color.Red &&
      (match lr.left with
       | some lrl => !lrl.is_empty && lrl.root_color == some Color.Black
       | none => false) then do
    let lrl ← lr.left
    let lrl_r ← lrl.right
    let lrx ← lr.root
    let lrr ← lr.right
    let lrr_red ← lrr.paint Color.Red
    let new_right ← balance_node (ctor Color.Black lrl_r lrx lrr_red)
    let lrl_l ← lrl.left
    let lrlx ← lrl.root
    pure (ctor Color.Red (ctor Color.Black ll lx lrl_l) lrlx new_right)
  else
    none

/-- Embeds `RedBlackTree::balance_right` of the debug build: past its three cases,
`assert(!"impossible")` leaves no result. -/
def balance_right_checked (rgt : RedBlackTree) : Option RedBlackTree := do
  let rl ← rgt.left
  let rx ← rgt.root
  let rr ← rgt.right
  if !rr.is_empty && rr.root_color == some Color.Red then do
    let rr_black ← rr.paint Color.Black
    pure (ctor Color.Red rl rx rr_black)
  else if !rl.is_empty && rl.root_color == some Color.Black then do
    let rl_red ← rl.paint Color.Red
    balance_node (ctor Color.Black rl_red rx rr)
  else if !rl.is_empty && rl.root_color == some Color.Red &&
      (match rl.right with
       | some rlr => !rlr.is_empty && rlr.root_color == some Color.Black
       | none => false) then do
    let rll ← rl.left
    let rll_red ← rll.paint Color.Red
    let rlx ← rl.root
    let rlr ← rl.right
    let rlr_l ← rlr.left
    let new_left ← balance_node (ctor Color.Black rll_red rlx rlr_l)
    let rlr_r ← rlr.right
    let rlrx ← rlr.root
    pure (ctor Color.Red new_left rlrx (ctor Color.Black rlr_r rx rr))
  else
    none

/-- The body of `RedBlackTree::fuse` of the debug build, with the depth of the recursion
bounded by `fuel`. -/
def fuse_loop_checked : Nat → RedBlackTree → RedBlackTree → Option RedBlackTree
  | 0, _, _ => none
  | fuel + 1, lft, rgt =>
    if lft.is_empty then some rgt
    else if rgt.is_empty then some lft
    else do
      let lc ← lft.root_color
      let rc ← rgt.root_color
      let ll ← lft.left
      let lx ← lft.root
      let lr ← lft.right
      let rl ← rgt.left
      let rx ← rgt.root
      let rr ← rgt.right
      if lc = Color.Black ∧ rc = Color.Red then do
        let f ← fuse_loop_checked fuel lft rl
        pure (ctor Color.Red f rx rr)
      else if lc = Color.Red ∧ rc = Color.Black then do
        let f ← fuse_loop_checked fuel lr rgt
        pure (ctor Color.Red ll lx f)
      else if lc = Color.Red ∧ rc = Color.Red then do
        let fused ← fuse_loop_checked fuel lr rl
        if !fused.is_empty && fused.root_color == some Color.Red then do
          let fl ← fused.left
          let fx ← fused.root
          let fr ← fused.right
          let new_left := ctor Color.Red ll lx fl
          let new_right := ctor Color.Red fr rx rr
          pure (ctor Color.Red new_left fx new_right)
        else
          let new_right := ctor Color.Red fused rx rr
          pure (ctor Color.Red ll lx new_right)
      else do
        let fused ← fuse_loop_checked fuel lr rl
        if !fused.is_empty && fused.root_color == some Color.Red then do
          let fl ← fused.left
          let fx ← fused.root
          let fr ← fused.right
          let new_left := ctor Color.Black ll lx fl
          let new_right := ctor Color.Black fr rx rr
          pure (ctor Color.Red new_left fx new_right)
        else
          let new_right := ctor Color.Black fused rx rr
          let new_node := ctor Color.Red ll lx new_right
          balance_left_checked new_node

/-- Embeds `RedBlackTree::fuse` of the debug build. -/
def fuse_checked (lft rgt : RedBlackTree) : Option RedBlackTree :=
  fuse_loop_checked (lft.size + rgt.size + 1) lft rgt

/-- Embeds `RedBlackTree::remove_left` of the debug build, after its recursive call. -/
def remove_left_checked (root_ : RedBlackTree) (new_left : RedBlackTree) :
    Option RedBlackTree := do
  let x ← root_.root
  let r ← root_.right
  let l ← root_.left
  let new_node := ctor Color.Red new_left x r
  if !l.is_empty && l.root_color == some Color.Black then
    balance_left_checked new_node
  else
    pure new_node

/-- Embeds `RedBlackTree::remove_right` of the debug build, after its recursive call. -/
def remove_right_checked (root_ : RedBlackTree) (new_right : RedBlackTree) :
    Option RedBlackTree := do
  let x ← root_.root
  let l ← root_.left
  let r ← root_.right
  let new_node := ctor Color.Red l x new_right
  if !r.is_empty && r.root_color == some Color.Black then
    balance_right_checked new_node
  else
    pure new_node

/-- Embeds `RedBlackTree::rem` of the debug build. -/
def rem_checked : RedBlackTree → Nat → Nat → Option RedBlackTree
  | empty, _, _ => some empty
  | node c l y r, at_, total =>
    if at_ < total + y.left_subtree_length then do
      let new_left ← rem_checked l at_ total
      remove_left_checked (node c l y r) new_left
    else if at_ = total + y.left_subtree_length then
      fuse_checked l r
    else do
      let new_right ← rem_checked r at_ (total + y.left_subtree_length + y.piece.length)
      remove_right_checked (node c l y r) new_right

/-- Embeds `RedBlackTree::remove` of the debug build. -/
def remove_checked (t : RedBlackTree) (at_ : Nat) : Option RedBlackTree := do
  let t_new ← rem_checked t at_ 0
  if t_new.is_empty then
    pure empty
  else do
    let l ← t_new.left
    let d ← t_new.root
    let r ← t_new.right
    pure (ctor Color.Black l d r)

/-- No node of the tree has the colour `DoubleBlack`. -/
def noDoubleBlack : RedBlackTree → Bool
  | empty => true
  | node c l _ r => c != Color.DoubleBlack && noDoubleBlack l && noDoubleBlack r

/-- A call of `RedBlackTree::insert` or `RedBlackTree::remove`. -/
inductive Op where
  | insert (x : NodeData) (at_ : Nat)
  | remove (at_ : Nat)
deriving DecidableEq, Repr

/-- Apply one call to a tree. -/
def apply (t : RedBlackTree) : Op → Option RedBlackTree
  | Op.insert x at_ => t.insert x at_
  | Op.remove at_ => t.remove at_

/-- Apply a sequence of calls from left to right. -/
def run : List Op → RedBlackTree → Option RedBlackTree
  | [], t => some t
  | op :: ops, t => (t.apply op).bind (run ops)

end RedBlackTree

end PieceTree


namespace PieceTree

/-! ## The reverse walker (`fredbuf.cpp` lines 1883-2066) -/

/-- Embeds `ReverseTreeWalker::StackEntry`: a fresh entry waits on the right. -/
structure ReverseStackEntry where
  node : RedBlackTree
  dir : Direction := Direction.Right
deriving DecidableEq, Repr

/-- The state of a `ReverseTreeWalker`.  The head of `stack` is `stack.back()`.  The two
pointers always point into one buffer: `ptr_index` names it and `first_ptr`, `last_ptr` are
offsets into its text, `last_ptr` at or before `first_ptr` (both 0 stands for the two null
pointers of a fresh walker). -/
structure ReverseTreeWalker where
  buffers : BufferCollection
  root : RedBlackTree
  meta : BufferMeta
  stack : List ReverseStackEntry
  total_offset : Nat
  ptr_index : BufferIndex
  first_ptr : Nat
  last_ptr : Nat
deriving DecidableEq, Repr

namespace ReverseTreeWalker

/-- The assignment `stack.back().dir = d`. -/
def set_back_dir (stack : List ReverseStackEntry) (d : Direction) : List ReverseStackEntry :=
  match stack with
  | [] => []
  | e :: rest => { e with dir := d } :: rest

/-- The loop of `ReverseTreeWalker::fast_forward_to`. -/
def fast_forward_loop : RedBlackTree → Nat → ReverseTreeWalker → ReverseTreeWalker
  | RedBlackTree.empty, _, w => w
  | RedBlackTree.node _ l d r, offset, w =>
    if d.left_subtree_length > offset then
      fast_forward_loop l offset { w with stack := { node := l } :: w.stack.tail }
    else if d.left_subtree_length + d.piece.length > offset then
      let offset1 := retract offset d.left_subtree_length
      let first_offset := w.buffers.buffer_offset d.piece.index d.piece.first
      { w with
        stack := set_back_dir w.stack Direction.Left
        ptr_index := d.piece.index
        last_ptr := first_offset
        first_ptr := first_offset + extend offset1 1 }
    else
      let offset_amount := d.left_subtree_length + d.piece.length
      fast_forward_loop r (retract offset offset_amount)
        { w with stack := { node := r } :: set_back_dir w.stack Direction.Center }

/-- Embeds `ReverseTreeWalker::fast_forward_to`. -/
def fast_forward_to (w : ReverseTreeWalker) (offset : Nat) : ReverseTreeWalker :=
  fast_forward_loop w.root offset w

/-- The common body of the three constructors of `ReverseTreeWalker`. -/
def make (buffers : BufferCollection) (root : RedBlackTree) (meta : BufferMeta)
    (offset : Nat) : ReverseTreeWalker :=
  fast_forward_to
    { buffers := buffers
      root := root
      meta := meta
      stack := [{ node := root }]
      total_offset := offset
      ptr_index := BufferIndex.ModBuf
      first_ptr := 0
      last_ptr := 0 }
    offset

/-- The constructor `ReverseTreeWalker(const Tree*, CharOffset)`. -/
def create (t : Tree) (offset : Nat := 0) : ReverseTreeWalker :=
  make t.buffers t.root t.meta offset

/-- Embeds `ReverseTreeWalker::seek`. -/
def seek (w : ReverseTreeWalker) (offset : Nat) : ReverseTreeWalker :=
  fast_forward_to { w with stack := [{ node := w.root }], total_offset := offset } offset

/-- Embeds `ReverseTreeWalker::exhausted`. -/
def exhausted (w : ReverseTreeWalker) : Bool :=
  match w.stack with
  | [] => true
  | entry :: rest =>
    if w.first_ptr ≠ w.last_ptr then false
    else if rest.length + 1 > 1 then false
    else
      match entry.node with
      | RedBlackTree.empty => true
      | RedBlackTree.node _ l _ _ =>
        if entry.dir = Direction.Left ∧ l.is_empty = true then true else false

/-- Embeds `ReverseTreeWalker::remaining`. -/
def remaining (w : ReverseTreeWalker) : Nat :=
  distance 0 (extend w.total_offset 1)

/-- The recursion of `ReverseTreeWalker::populate_ptrs`, bounded by `fuel`. -/
def populate_ptrs_loop : Nat → ReverseTreeWalker → ReverseTreeWalker
  | 0, w => w
  | fuel + 1, w =>
    if w.exhausted then w
    else
      match w.stack with
      | [] => w
      | entry :: rest =>
        match entry.node with
        | RedBlackTree.empty => populate_ptrs_loop fuel { w with stack := rest }
        | RedBlackTree.node _ l d r =>
          let center : ReverseTreeWalker :=
            { w with
              ptr_index := d.piece.index
              last_ptr := w.buffers.buffer_offset d.piece.index d.piece.first
              first_ptr := w.buffers.buffer_offset d.piece.index d.piece.last
              stack := { entry with dir := Direction.Left } :: rest }
          match entry.dir with
          | Direction.Right =>
            if !r.is_empty then
              populate_ptrs_loop fuel
                { w with
                  stack := { node := r } :: { entry with dir := Direction.Center } :: rest }
            else center
          | Direction.Center => center
          | Direction.Left =>
            populate_ptrs_loop fuel { w with stack := { node := l } :: rest }

/-- Embeds `ReverseTreeWalker::populate_ptrs`.  Every recursive call pops an entry, or descends
into a child of the entry on top, so three rounds for each node of the tree are enough. -/
def populate_ptrs (w : ReverseTreeWalker) : ReverseTreeWalker :=
  populate_ptrs_loop (3 * w.root.size + 2) w

/-- The last statements of `ReverseTreeWalker::next`: step back and return `*(--first_ptr)`. -/
def advance (w : ReverseTreeWalker) : CharT × ReverseTreeWalker :=
  ((w.buffers.buffer_at w.ptr_index).buffer.getD (w.first_ptr - 1) 0,
   { w with total_offset := retract w.total_offset 1, first_ptr := w.first_ptr - 1 })

/-- The recursion of `ReverseTreeWalker::next` (the catch-all branch calls `next` again). -/
def next_loop : Nat → ReverseTreeWalker → CharT × ReverseTreeWalker
  | 0, w => (NUL, w)
  | fuel + 1, w =>
    if w.first_ptr = w.last_ptr then
      let w1 := w.populate_ptrs
      if w1.exhausted then (NUL, w1)
      else if w1.first_ptr = w1.last_ptr then next_loop fuel w1
      else w1.advance
    else w.advance

/-- Embeds `ReverseTreeWalker::next`: the code unit and the walker after the call.  The
catch-all branch recurses once for every empty piece it skips. -/
def next (w : ReverseTreeWalker) : CharT × ReverseTreeWalker :=
  next_loop (w.root.size + 2) w

/-- Calling `next()` until `exhausted()`: the code units read. -/
def drain_loop : Nat → ReverseTreeWalker → List CharT → List CharT
  | 0, _, buf => buf
  | fuel + 1, w, buf =>
    if w.exhausted then buf
    else
      let res := w.next
      drain_loop fuel res.2 (buf ++ [res.1])

/-- The whole text a reverse walker yields until it is exhausted.  Every round reads one
code unit or consumes one empty piece, which bounds the number of rounds. -/
def drain (w : ReverseTreeWalker) : List CharT :=
  drain_loop (w.meta.total_content_length + w.root.size + 1) w []

end ReverseTreeWalker

end PieceTree


namespace PieceTree

/-! ## The tree builder (`fredbuf.cpp` lines 620-664 and 1670-1674) -/

namespace Tree

/-- The loop of `Tree::build_tree` over the original buffers from index `i` on: the root after
the loop. -/
def build_tree_loop : List CharBuffer → Nat → RedBlackTree → Nat → Option RedBlackTree
  | [], _, root, _ => some root
  | buf :: rest, i, root, offset =>
    if buf.buffer.isEmpty then build_tree_loop rest (i + 1) root offset
    else
      let last_line := buf.line_starts.length - 1
      let piece : Piece :=
        { index := BufferIndex.Orig i
          first := { line := 0, column := 0 }
          last := { line := last_line
                    column := buf.buffer.length - buf.line_starts.getD last_line 0 }
          length := buf.buffer.length
          newline_count := last_line }
      (root.insert { piece := piece } offset).bind
        (fun root1 => build_tree_loop rest (i + 1) root1 (offset + piece.length))

/-- Embeds `Tree::build_tree`. -/
def build_tree (t : Tree) : Option Tree :=
  let buffers : BufferCollection :=
    { t.buffers with mod_buffer := { buffer := [], line_starts := [0] } }
  (build_tree_loop buffers.orig_buffers 0 t.root 0).map
    (fun root1 =>
      ({ t with
         buffers := buffers
         last_insert := { line := 0, column := 0 }
         root := root1 } : Tree).compute_buffer_meta)

/-- The constructor `Tree(Buffers&&)`: the members take their default values, the buffers
are the original buffers, and `build_tree` runs. -/
def of_buffers (buffers : List CharBuffer) : Option Tree :=
  build_tree
    { buffers := { orig_buffers := buffers, mod_buffer := { buffer := [], line_starts := [] } }
      root := RedBlackTree.empty
      last_insert := { line := 0, column := 0 }
      end_last_insert := CharOffset.Sentinel
      meta := { lf_count := 0, total_content_length := 0 }
      undo_stack := []
      redo_stack := [] }

end Tree

/-- Embeds `TreeBuilder`: the buffers accepted so far (the scratch vector is not part of the
state). -/
structure TreeBuilder where
  buffers : List CharBuffer := []
deriving DecidableEq, Repr

namespace TreeBuilder

/-- Embeds `TreeBuilder::accept`. -/
def accept (b : TreeBuilder) (txt : List CharT) : TreeBuilder :=
  { buffers := b.buffers ++ [{ buffer := txt, line_starts := populate_line_starts txt }] }

/-- Embeds `TreeBuilder::create`. -/
def create (b : TreeBuilder) : Option Tree :=
  Tree.of_buffers b.buffers

/-- The builder that has accepted the texts of a list, in order. -/
def ofTexts (texts : List (List CharT)) : TreeBuilder :=
  texts.foldl accept { }

end TreeBuilder

/-! ## The removal of the `EXPERIMENTAL_REMOVE` build (`fredbuf.cpp` lines 176-298) -/

/-- Modelled from the spec: `enum-utils.h` is not part of the sources at hand.  `extend(c)`
steps to the next enumerator of `Color` (`Red`, `Black`, `DoubleBlack`); past `DoubleBlack`
there is no colour. -/
def Color.extend : Color → Option Color
  | Color.Red => some Color.Black
  | Color.Black => some Color.DoubleBlack
  | Color.DoubleBlack => none

namespace RedBlackTree

/-- Embeds `RedBlackTree::ColorTree`: a tree and the colour the removal attributes to it. -/
structure ColorTree where
  color : Color
  tree : RedBlackTree
deriving DecidableEq, Repr

namespace ColorTree

/-- Embeds `ColorTree::double_black()`: the empty tree with the colour `DoubleBlack`. -/
def double_black : ColorTree :=
  { color := Color.DoubleBlack, tree := RedBlackTree.empty }

/-- The constructor `ColorTree(tree)`: the colour of the root, black for the empty tree. -/
def ofTree (t : RedBlackTree) : ColorTree :=
  { color := (match t with
      | RedBlackTree.empty => Color.Black
      | RedBlackTree.node c _ _ _ => c)
    tree := t }

/-- The constructor `ColorTree(c, lft, x, rgt)`. -/
def ofNode (c : Color) (lft : RedBlackTree) (x : NodeData) (rgt : RedBlackTree) :
    ColorTree :=
  { color := c, tree := ctor c lft x rgt }

end ColorTree

/-- Embeds `WalkResult`. -/
structure WalkResult where
  tree : RedBlackTree
  accumulated_offset : Nat
deriving DecidableEq, Repr

/-- The loop of `pred`, from the node `t` on: follow the right spine. -/
def pred_loop : RedBlackTree → Nat → Option WalkResult
  | empty, _ => none
  | node c l d r, start_offset =>
    if !r.is_empty then
      pred_loop r (start_offset + d.left_subtree_length + d.piece.length)
    else
      some { tree := node c l d r, accumulated_offset := start_offset + d.left_subtree_length }

/-- Embeds `pred`: the last node of the left subtree of `root` and its offset. -/
def pred (root : RedBlackTree) (start_offset : Nat) : Option WalkResult := do
  let t ← root.left
  pred_loop t start_offset

/-- Embeds `RedBlackTree::remove_double_black`. -/
def remove_double_black (c : Color) (lft : ColorTree) (x : NodeData) (rgt : ColorTree) :
    Option ColorTree :=
  if lft.color = Color.DoubleBlack then do
    let left ← if lft.tree.is_empty then some empty else lft.tree.paint Color.Black
    if rgt.color = Color.Black then do
      let c1 ← c.extend
      let rgt_red ← rgt.tree.paint Color.Red
      pure (ColorTree.ofNode c1 left x rgt_red)
    else do
      let rl ← rgt.tree.left
      let rl_red ← rl.paint Color.Red
      let rx ← rgt.tree.root
      let rr ← rgt.tree.right
      pure (ColorTree.ofNode Color.Black (ctor Color.Black left x rl_red) rx rr)
  else if rgt.color = Color.DoubleBlack then do
    let right ← if rgt.tree.is_empty then some empty else rgt.tree.paint Color.Black
    if lft.color = Color.Black then do
      let c1 ← c.extend
      let lft_red ← lft.tree.paint Color.Red
      pure (ColorTree.ofNode c1 lft_red x right)
    else do
      let ll ← lft.tree.left
      let lx ← lft.tree.root
      let lr ← lft.tree.right
      let lr_red ← lr.paint Color.Red
      pure (ColorTree.ofNode Color.Black ll lx (ctor Color.Black lr_red x right))
  else
    pure (ColorTree.ofNode c lft.tree x rgt.tree)

/-- Embeds `RedBlackTree::remove_node` at the node `(c, l, y, r)`; `rem_left` is
`left().rem`. -/
def remove_node (c : Color) (l : RedBlackTree) (y : NodeData) (r : RedBlackTree)
    (rem_left : Nat → Nat → Option ColorTree) : Option ColorTree :=
  if !l.is_empty && !r.is_empty then do
    let p ← pred (node c l y r) 0
    let x ← p.tree.root
    let new_left ← rem_left p.accumulated_offset 0
    remove_double_black c new_left x (ColorTree.ofTree r)
  else if !l.is_empty then do
    let l_black ← l.paint Color.Black
    pure (ColorTree.ofTree l_black)
  else if !r.is_empty then do
    let r_black ← r.paint Color.Black
    pure (ColorTree.ofTree r_black)
  else if c = Color.Black then
    pure ColorTree.double_black
  else
    pure (ColorTree.ofTree empty)

/-- Embeds `RedBlackTree::rem` of the `EXPERIMENTAL_REMOVE` build. -/
def rem_experimental : RedBlackTree → Nat → Nat → Option ColorTree
  | empty, _, _ => some (ColorTree.ofTree empty)
  | node c l y r, at_, total =>
    if at_ < total + y.left_subtree_length then do
      let new_left ← rem_experimental l at_ total
      remove_double_black c new_left y (ColorTree.ofTree r)
    else if at_ = total + y.left_subtree_length then
      remove_node c l y r (fun a t => rem_experimental l a t)
    else do
      let new_right ← rem_experimental r at_ (total + y.left_subtree_length + y.piece.length)
      remove_double_black c (ColorTree.ofTree l) y new_right

/-- Embeds `RedBlackTree::remove` of the `EXPERIMENTAL_REMOVE` build. -/
def remove_experimental (t : RedBlackTree) (at_ : Nat) : Option RedBlackTree := do
  let ct ← rem_experimental t at_ 0
  if ct.tree.is_empty then
    pure empty
  else do
    let l ← ct.tree.left
    let d ← ct.tree.root
    let r ← ct.tree.right
    pure (ctor Color.Black l d r)

/-! ## The checker of the debug build (`fredbuf.cpp` lines 537-575) -/

/-- Embeds `check_black_node_invariant`. -/
def check_black_node_invariant : RedBlackTree → Nat
  | empty => 1
  | node c lft _ rgt =>
    if c = Color.Red
        ∧ ((lft.is_empty = false ∧ lft.root_color = some Color.Red)
          ∨ (rgt.is_empty = false ∧ rgt.root_color = some Color.Red)) then
      1
    else
      let l := check_black_node_invariant lft
      let r := check_black_node_invariant rgt
      if l ≠ 0 ∧ r ≠ 0 ∧ l ≠ r then 0
      else if l ≠ 0 ∧ r ≠ 0 then (if c = Color.Red then l else l + 1)
      else 0

/-- Embeds `satisfies_rb_invariants`: whether the call returns, that is, whether its
assertion holds. -/
def satisfies_rb_invariants (root : RedBlackTree) : Bool :=
  match root with
  | empty => true
  | node _ l _ r =>
    if l.is_empty ∧ r.is_empty then true
    else decide (check_black_node_invariant root ≠ 0)

/-- Some red node of the tree has a red child. -/
def hasRedRed : RedBlackTree → Bool
  | empty => false
  | node c l _ r =>
    (c == Color.Red && (l.root_color == some Color.Red || r.root_color == some Color.Red))
      || hasRedRed l || hasRedRed r

end RedBlackTree

/-! ## The line ranges of the debug build (`assert(line != Line::IndexBeginning)`) -/

namespace Tree

/-- Embeds `Tree::line_start<accumulate>` of the debug build: on a node, the assertion
`line != Line::IndexBeginning` leaves no result for the line zero. -/
def line_start_checked (accumulate : BufferCollection → Piece → Nat → Nat)
    (buffers : BufferCollection) : RedBlackTree → Nat → Nat → Option Nat
  | RedBlackTree.empty, _, offset => some offset
  | RedBlackTree.node _ l d r, line, offset =>
    if line = Line.IndexBeginning then none
    else
      let line_index := retract line 1
      if d.left_subtree_lf_count ≥ line_index then
        line_start_checked accumulate buffers l line offset
      else if d.left_subtree_lf_count + d.piece.newline_count ≥ line_index then
        let line_index1 := line_index - d.left_subtree_lf_count
        let len :=
          if line_index1 ≠ 0 then
            d.left_subtree_length + accumulate buffers d.piece (line_index1 - 1)
          else d.left_subtree_length
        some (offset + len)
      else
        let line_index1 := line_index - (d.left_subtree_lf_count + d.piece.newline_count)
        line_start_checked accumulate buffers r (extend line_index1 1)
          (offset + d.left_subtree_length + d.piece.length)

/-- Embeds `Tree::line_end_crlf` of the debug build. -/
def line_end_crlf_checked (buffers : BufferCollection) (root : RedBlackTree) :
    RedBlackTree → Nat → Nat → Option Nat
  | RedBlackTree.empty, _, offset => some offset
  | RedBlackTree.node _ l d r, line, offset =>
    if line = Line.IndexBeginning then none
    else
      let line_index := retract line 1
      if d.left_subtree_lf_count ≥ line_index then
        line_end_crlf_checked buffers root l line offset
      else if d.left_subtree_lf_count + d.piece.newline_count ≥ line_index then
        let line_index1 := line_index - d.left_subtree_lf_count
        let len :=
          if line_index1 ≠ 0 then
            d.left_subtree_length + accumulate_value_no_lf buffers d.piece (line_index1 - 1)
          else d.left_subtree_length
        let len1 :=
          if len ≠ 0 then
            let last_char_offset := offset + retract len 1
            if char_at buffers root last_char_offset = CR
                ∧ char_at buffers root (extend last_char_offset 1) = LF then
              retract len 1
            else len
          else len
        some (offset + len1)
      else
        let line_index1 := line_index - (d.left_subtree_lf_count + d.piece.newline_count)
        line_end_crlf_checked buffers root r (extend line_index1 1)
          (offset + d.left_subtree_length + d.piece.length)

/-- Embeds `Tree::get_line_range` of the debug build. -/
def get_line_range_checked (t : Tree) (line : Nat) : Option LineRange := do
  let first ← line_start_checked accumulate_value t.buffers t.root line 0
  let last ← line_start_checked accumulate_value_no_lf t.buffers t.root (extend line 1) 0
  pure { first := first, last := last }

/-- Embeds `Tree::get_line_range_crlf` of the debug build. -/
def get_line_range_crlf_checked (t : Tree) (line : Nat) : Option LineRange := do
  let first ← line_start_checked accumulate_value t.buffers t.root line 0
  let last ← line_end_crlf_checked t.buffers t.root t.root (extend line 1) 0
  pure { first := first, last := last }

/-- Embeds `Tree::get_line_range_with_newline` of the debug build. -/
def get_line_range_with_newline_checked (t : Tree) (line : Nat) : Option LineRange := do
  let first ← line_start_checked accumulate_value t.buffers t.root line 0
  let last ← line_start_checked accumulate_value t.buffers t.root (extend line 1) 0
  pure { first := first, last := last }

end Tree

/-! ## The snapshots of a given root (`fredbuf.cpp` lines 1681-1702) -/

/-- The constructor `OwningSnapshot(const Tree*, const RedBlackTree& dt)`: the root is
initialised from `tree->root`, and the meta data is computed for `dt`. -/
def OwningSnapshot.create_at (t : Tree) (dt : RedBlackTree) : OwningSnapshot :=
  { root := t.root, meta := compute_buffer_meta dt, buffers := t.buffers }

/-- The constructor `ReferenceSnapshot(const Tree*, const RedBlackTree& dt)`: the root is
`dt`, and the meta data is computed for `dt`. -/
def ReferenceSnapshot.create_at (_t : Tree) (dt : RedBlackTree) : ReferenceSnapshot :=
  { root := dt, meta := compute_buffer_meta dt }

end PieceTree


namespace PieceTree

/-! ## More example documents and call sequences -/

namespace Example

/-- The calls `insert(0, "hello"); remove(3, 2)`: they leave the document `hel`, held in
one piece that is a window of the mod buffer `hello`. -/
def trimmed : List Tree.Op := [ins 0 hello, del 3 2]

/-- The tree after the calls of `trimmed`. -/
def treeHel : Tree := (Tree.run trimmed Tree.init).getD Tree.init

/-- The tree after the call `insert(0, "hello")`. -/
def treeHello : Tree := (Tree.run [ins 0 hello] Tree.init).getD Tree.init

/-- The calls `insert(0, "a"); remove(1, 1)`: the removed range lies past the end of the
document `a`. -/
def pastEnd : List Tree.Op := [ins 0 [97], del 1 1]

/-- The texts `foo\n`, the empty text and `bar`. -/
def fooBar : List (List CharT) := [[102, 111, 111, 10], [], [98, 97, 114]]

/-- The tree after the calls of `clamped`: the document `hel`. -/
def treeClamped : Tree := (Tree.run clamped Tree.init).getD Tree.init

/-- The tree after the calls of `pastEnd`: the document `a`. -/
def treePastEnd : Tree := (Tree.run pastEnd Tree.init).getD Tree.init

/-- The tree after the calls of `staleRedo`: the document `a`, an empty undo stack and one
redo entry. -/
def treeStale : Tree := (Tree.run staleRedo Tree.init).getD Tree.init

/-- A node for a piece of `len` code units of the mod buffer that starts at column
`first` of its first line. -/
def span (first len : Nat) : NodeData :=
  { piece :=
      { index := BufferIndex.ModBuf
        first := { line := 0, column := first }
        last := { line := 0, column := first + len }
        length := len
        newline_count := 0 } }

/-- The red-black tree of the three pieces `span 0 5`, `span 5 5` and `span 10 5`, each
inserted at the end. -/
def threeSpans : RedBlackTree :=
  ((RedBlackTree.run
      [RedBlackTree.Op.insert (span 0 5) 0, RedBlackTree.Op.insert (span 5 5) 5,
        RedBlackTree.Op.insert (span 10 5) 10]
      RedBlackTree.empty).getD RedBlackTree.empty)

/-- The red-black tree of the four pieces `span 0 5`, `span 5 5`, `span 10 5` and
`span 15 5`, each inserted at the end: a black root with two black children, the right
one with a red right child. -/
def fourSpans : RedBlackTree :=
  ((threeSpans.insert (span 15 5) 15).getD RedBlackTree.empty)

/-- A tree with a black root whose left child is a red node with a red left child, built
with the constructor `RedBlackTree(Color, lft, val, rgt)`. -/
def redRed : RedBlackTree :=
  RedBlackTree.ctor Color.Black
    (RedBlackTree.ctor Color.Red
      (RedBlackTree.ctor Color.Red RedBlackTree.empty (span 0 5) RedBlackTree.empty)
      (span 5 5) RedBlackTree.empty)
    (span 10 5) RedBlackTree.empty

/-- The tree after the calls of `scenario1`: the document `hello\nworld`. -/
def tree1 : Tree := (Tree.run scenario1 Tree.init).getD Tree.init

/-- The tree after the calls of `scenario1` and `remove(0, 6)`: the document `world`. -/
def treeWorld : Tree := (Tree.run (scenario1 ++ [del 0 6]) Tree.init).getD Tree.init

/-- The tree a builder creates from the one text `a`. -/
def builtA : Tree := ((TreeBuilder.ofTexts [[97]]).create).getD Tree.init

/-- The tree a builder creates from the texts of `fooBar`. -/
def builtFooBar : Tree := ((TreeBuilder.ofTexts fooBar).create).getD Tree.init

end Example

end PieceTree


namespace PieceTree

/-! ## Lemmas: lists of pieces -/

@[simp] theorem sumLen_nil : sumLen [] = 0 := rfl

@[simp] theorem sumLen_cons (p : Piece) (ps : List Piece) :
    sumLen (p :: ps) = p.length + sumLen ps := by
  simp [sumLen]

@[simp] theorem sumLen_append (ps qs : List Piece) :
    sumLen (ps ++ qs) = sumLen ps + sumLen qs := by
  simp [sumLen]

@[simp] theorem sumLf_nil : sumLf [] = 0 := rfl

@[simp] theorem sumLf_cons (p : Piece) (ps : List Piece) :
    sumLf (p :: ps) = p.newline_count + sumLf ps := by
  simp [sumLf]

@[simp] theorem sumLf_append (ps qs : List Piece) :
    sumLf (ps ++ qs) = sumLf ps + sumLf qs := by
  simp [sumLf]

theorem retract_of_le {x b : Nat} (h : b ≤ x) : retract x b = x - b := by
  simp [retract, h]

theorem distance_of_le {a b : Nat} (h : a ≤ b) : distance a b = b - a := by
  simp [distance, retract, h]

theorem extend_of_lt {x b : Nat} (h : x + b < 2 ^ 64) : extend x b = x + b := by
  unfold extend
  exact Nat.mod_eq_of_lt h

namespace RedBlackTree

/-! ## Lemmas: the red-black tree -/

@[simp] theorem is_empty_empty : is_empty empty = true := rfl
@[simp] theorem is_empty_node (c : Color) (l : RedBlackTree) (d : NodeData)
    (r : RedBlackTree) : is_empty (node c l d r) = false := rfl
@[simp] theorem root_empty : root empty = none := rfl
@[simp] theorem root_node (c : Color) (l : RedBlackTree) (d : NodeData)
    (r : RedBlackTree) : root (node c l d r) = some d := rfl
@[simp] theorem left_empty : left empty = none := rfl
@[simp] theorem left_node (c : Color) (l : RedBlackTree) (d : NodeData)
    (r : RedBlackTree) : left (node c l d r) = some l := rfl
@[simp] theorem right_empty : right empty = none := rfl
@[simp] theorem right_node (c : Color) (l : RedBlackTree) (d : NodeData)
    (r : RedBlackTree) : right (node c l d r) = some r := rfl
@[simp] theorem root_color_empty : root_color empty = none := rfl
@[simp] theorem root_color_node (c : Color) (l : RedBlackTree) (d : NodeData)
    (r : RedBlackTree) : root_color (node c l d r) = some c := rfl

@[simp] theorem is_empty_ctor (c : Color) (l : RedBlackTree) (d : NodeData)
    (r : RedBlackTree) : is_empty (ctor c l d r) = false := rfl
@[simp] theorem root_ctor (c : Color) (l : RedBlackTree) (d : NodeData)
    (r : RedBlackTree) : root (ctor c l d r) = some (attribute_of d l) := rfl
@[simp] theorem left_ctor (c : Color) (l : RedBlackTree) (d : NodeData)
    (r : RedBlackTree) : left (ctor c l d r) = some l := rfl
@[simp] theorem right_ctor (c : Color) (l : RedBlackTree) (d : NodeData)
    (r : RedBlackTree) : right (ctor c l d r) = some r := rfl
@[simp] theorem root_color_ctor (c : Color) (l : RedBlackTree) (d : NodeData)
    (r : RedBlackTree) : root_color (ctor c l d r) = some c := rfl

@[simp] theorem attribute_of_piece (d : NodeData) (l : RedBlackTree) :
    (attribute_of d l).piece = d.piece := rfl

@[simp] theorem ctor_attribute_of (c : Color) (l l0 : RedBlackTree) (d : NodeData)
    (r : RedBlackTree) : ctor c l (attribute_of d l0) r = ctor c l d r := rfl

@[simp] theorem toList_empty : toList empty = [] := rfl
@[simp] theorem toList_node (c : Color) (l : RedBlackTree) (d : NodeData)
    (r : RedBlackTree) : toList (node c l d r) = toList l ++ d.piece :: toList r := rfl
@[simp] theorem toList_ctor (c : Color) (l : RedBlackTree) (d : NodeData)
    (r : RedBlackTree) : toList (ctor c l d r) = toList l ++ d.piece :: toList r := rfl

@[simp] theorem color_empty : color empty = Color.Black := rfl
@[simp] theorem color_node (c : Color) (l : RedBlackTree) (d : NodeData)
    (r : RedBlackTree) : color (node c l d r) = c := rfl
@[simp] theorem color_ctor (c : Color) (l : RedBlackTree) (d : NodeData)
    (r : RedBlackTree) : color (ctor c l d r) = c := rfl

@[simp] theorem bheight_empty : bheight empty = 0 := rfl
theorem bheight_node (c : Color) (l : RedBlackTree) (d : NodeData)
    (r : RedBlackTree) :
    bheight (node c l d r) = if c = Color.Black then bheight l + 1 else bheight l := rfl
@[simp] theorem bheight_red (l : RedBlackTree) (d : NodeData) (r : RedBlackTree) :
    bheight (node Color.Red l d r) = bheight l := rfl
@[simp] theorem bheight_black (l : RedBlackTree) (d : NodeData) (r : RedBlackTree) :
    bheight (node Color.Black l d r) = bheight l + 1 := rfl
@[simp] theorem bheight_ctor_red (l : RedBlackTree) (d : NodeData) (r : RedBlackTree) :
    bheight (ctor Color.Red l d r) = bheight l := rfl
@[simp] theorem bheight_ctor_black (l : RedBlackTree) (d : NodeData) (r : RedBlackTree) :
    bheight (ctor Color.Black l d r) = bheight l + 1 := rfl

@[simp] theorem insList_nil (x : Piece) (at_ total : Nat) : insList x at_ [] total = [x] := rfl
theorem insList_cons (x : Piece) (at_ : Nat) (p : Piece) (ps : List Piece) (total : Nat) :
    insList x at_ (p :: ps) total
      = if at_ < total + p.length then x :: p :: ps
        else p :: insList x at_ ps (total + p.length) := rfl
@[simp] theorem remList_nil (at_ total : Nat) : remList at_ [] total = [] := rfl
theorem remList_cons (at_ : Nat) (p : Piece) (ps : List Piece) (total : Nat) :
    remList at_ (p :: ps) total
      = if at_ = total then ps
        else if at_ < total then p :: ps
        else p :: remList at_ ps (total + p.length) := rfl

@[simp] theorem size_empty : size empty = 0 := rfl
@[simp] theorem size_node (c : Color) (l : RedBlackTree) (d : NodeData)
    (r : RedBlackTree) : size (node c l d r) = size l + 1 + size r := rfl
@[simp] theorem size_ctor (c : Color) (l : RedBlackTree) (d : NodeData)
    (r : RedBlackTree) : size (ctor c l d r) = size l + 1 + size r := rfl

theorem size_eq_length (t : RedBlackTree) : size t = (toList t).length := by
  induction t with
  | empty => rfl
  | node c l d r ihl ihr => simp [ihl, ihr]; omega

@[simp] theorem invc_empty : invc empty = true := rfl
@[simp] theorem invc2_empty : invc2 empty = true := rfl
@[simp] theorem invh_empty : invh empty = true := rfl
@[simp] theorem Aug_empty : Aug empty = true := rfl

theorem invc_node (c : Color) (l : RedBlackTree) (d : NodeData) (r : RedBlackTree) :
    invc (node c l d r) = true ↔
      (c = Color.Black ∨ (c = Color.Red ∧ color l = Color.Black ∧ color r = Color.Black))
        ∧ invc l = true ∧ invc r = true := by
  simp [invc, and_assoc]

theorem invc_ctor (c : Color) (l : RedBlackTree) (d : NodeData) (r : RedBlackTree) :
    invc (ctor c l d r) = true ↔
      (c = Color.Black ∨ (c = Color.Red ∧ color l = Color.Black ∧ color r = Color.Black))
        ∧ invc l = true ∧ invc r = true :=
  invc_node c l _ r

theorem invc2_node (c : Color) (l : RedBlackTree) (d : NodeData) (r : RedBlackTree) :
    invc2 (node c l d r) = true ↔
      (c = Color.Black ∨ c = Color.Red) ∧ invc l = true ∧ invc r = true := by
  simp [invc2, and_assoc]

theorem invc2_ctor (c : Color) (l : RedBlackTree) (d : NodeData) (r : RedBlackTree) :
    invc2 (ctor c l d r) = true ↔
      (c = Color.Black ∨ c = Color.Red) ∧ invc l = true ∧ invc r = true :=
  invc2_node c l _ r

theorem invh_node (c : Color) (l : RedBlackTree) (d : NodeData) (r : RedBlackTree) :
    invh (node c l d r) = true ↔
      bheight l = bheight r ∧ invh l = true ∧ invh r = true := by
  simp [invh, and_assoc]

theorem invh_ctor (c : Color) (l : RedBlackTree) (d : NodeData) (r : RedBlackTree) :
    invh (ctor c l d r) = true ↔
      bheight l = bheight r ∧ invh l = true ∧ invh r = true :=
  invh_node c l _ r

theorem invc_imp_invc2 {t : RedBlackTree} (h : invc t = true) : invc2 t = true := by
  cases t with
  | empty => rfl
  | node c l d r =>
    rw [invc_node] at h
    rw [invc2_node]
    rcases h with ⟨h1 | h1, h2, h3⟩
    · exact ⟨Or.inl h1, h2, h3⟩
    · exact ⟨Or.inr h1.1, h2, h3⟩

theorem invc2_black_imp_invc {t : RedBlackTree} (h : invc2 t = true)
    (hc : color t = Color.Black) : invc t = true := by
  cases t with
  | empty => rfl
  | node c l d r =>
    rw [invc2_node] at h
    rw [invc_node]
    simp only [color_node] at hc
    exact ⟨Or.inl hc, h.2.1, h.2.2⟩

theorem Aug_node (c : Color) (l : RedBlackTree) (d : NodeData) (r : RedBlackTree) :
    Aug (node c l d r) = true ↔
      d.left_subtree_length = sumLen (toList l) ∧ d.left_subtree_lf_count = sumLf (toList l)
        ∧ Aug l = true ∧ Aug r = true := by
  simp [Aug, and_assoc]

theorem tree_length_eq {t : RedBlackTree} (h : Aug t = true) :
    tree_length t = sumLen (toList t) := by
  induction t with
  | empty => rfl
  | node c l d r _ ihr =>
    rw [Aug_node] at h
    simp [tree_length, h.1, ihr h.2.2.2]
    omega

theorem tree_lf_count_eq {t : RedBlackTree} (h : Aug t = true) :
    tree_lf_count t = sumLf (toList t) := by
  induction t with
  | empty => rfl
  | node c l d r _ ihr =>
    rw [Aug_node] at h
    simp [tree_lf_count, h.2.1, ihr h.2.2.2]
    omega

theorem Aug_ctor {l r : RedBlackTree} (c : Color) (d : NodeData) (hl : Aug l = true)
    (hr : Aug r = true) : Aug (ctor c l d r) = true := by
  rw [ctor, Aug_node]
  exact ⟨tree_length_eq hl, tree_lf_count_eq hl, hl, hr⟩

theorem Aug_ctor_iff (c : Color) (l : RedBlackTree) (d : NodeData) (r : RedBlackTree)
    (h : Aug (ctor c l d r) = true) : Aug l = true ∧ Aug r = true := by
  rw [ctor, Aug_node] at h
  exact ⟨h.2.2.1, h.2.2.2⟩

@[simp] theorem paint_empty (c : Color) : paint empty c = none := rfl

@[simp] theorem paint_node (c0 c : Color) (l : RedBlackTree) (d : NodeData)
    (r : RedBlackTree) : paint (node c0 l d r) c = some (ctor c l d r) := rfl

@[simp] theorem paint_ctor (c0 c : Color) (l : RedBlackTree) (d : NodeData)
    (r : RedBlackTree) : paint (ctor c0 l d r) c = some (ctor c l d r) := rfl

theorem doubled_left_iff (t : RedBlackTree) :
    doubled_left t = true ↔
      ∃ a u b v cc, t = node Color.Red (node Color.Red a u b) v cc := by
  constructor
  · intro h
    cases t with
    | empty => simp [doubled_left] at h
    | node c l d r =>
      cases l with
      | empty => simp [doubled_left] at h
      | node c2 a u b =>
        simp [doubled_left] at h
        obtain ⟨h1, h2⟩ := h
        subst h1; subst h2
        exact ⟨a, u, b, d, r, rfl⟩
  · rintro ⟨a, u, b, v, cc, rfl⟩
    simp [doubled_left]

theorem doubled_right_iff (t : RedBlackTree) :
    doubled_right t = true ↔
      ∃ a u b v cc, t = node Color.Red a u (node Color.Red b v cc) := by
  constructor
  · intro h
    cases t with
    | empty => simp [doubled_right] at h
    | node c l d r =>
      cases r with
      | empty => simp [doubled_right] at h
      | node c2 a u b =>
        simp [doubled_right] at h
        obtain ⟨h1, h2⟩ := h
        subst h1; subst h2
        exact ⟨l, d, a, u, b, rfl⟩
  · rintro ⟨a, u, b, v, cc, rfl⟩
    simp [doubled_right]

theorem doubled_left_false_of_invc {t : RedBlackTree} (h : invc t = true) :
    doubled_left t = false := by
  cases hd : doubled_left t with
  | false => rfl
  | true =>
    obtain ⟨a, u, b, v, cc, rfl⟩ := (doubled_left_iff t).1 hd
    simp [invc_node] at h

theorem doubled_right_false_of_invc {t : RedBlackTree} (h : invc t = true) :
    doubled_right t = false := by
  cases hd : doubled_right t with
  | false => rfl
  | true =>
    obtain ⟨a, u, b, v, cc, rfl⟩ := (doubled_right_iff t).1 hd
    simp [invc_node] at h

/-- The shapes `balance` distinguishes and its result for each of them. -/
theorem balance_cases (c : Color) (l : RedBlackTree) (x : NodeData) (r : RedBlackTree) :
    (c = Color.Black ∧ ∃ a u b v cc, l = node Color.Red (node Color.Red a u b) v cc ∧
        balance c l x r
          = some (ctor Color.Red (ctor Color.Black a u b) v (ctor Color.Black cc x r))) ∨
    (c = Color.Black ∧ doubled_left l = false ∧
      ∃ a u b v cc, l = node Color.Red a u (node Color.Red b v cc) ∧
        balance c l x r
          = some (ctor Color.Red (ctor Color.Black a u b) v (ctor Color.Black cc x r))) ∨
    (c = Color.Black ∧ doubled_left l = false ∧ doubled_right l = false ∧
      ∃ b v cc w d, r = node Color.Red (node Color.Red b v cc) w d ∧
        balance c l x r
          = some (ctor Color.Red (ctor Color.Black l x b) v (ctor Color.Black cc w d))) ∨
    (c = Color.Black ∧ doubled_left l = false ∧ doubled_right l = false ∧
      doubled_left r = false ∧
      ∃ b v cc w d, r = node Color.Red b v (node Color.Red cc w d) ∧
        balance c l x r
          = some (ctor Color.Red (ctor Color.Black l x b) v (ctor Color.Black cc w d))) ∨
    ((c ≠ Color.Black ∨ (doubled_left l = false ∧ doubled_right l = false ∧
        doubled_left r = false ∧ doubled_right r = false)) ∧
      balance c l x r = some (ctor c l x r)) := by
  by_cases hc : c = Color.Black
  swap
  · right; right; right; right
    exact ⟨Or.inl hc, by simp [balance, hc]⟩
  subst hc
  cases h1 : doubled_left l with
  | true =>
    left
    obtain ⟨a, u, b, v, cc, rfl⟩ := (doubled_left_iff l).1 h1
    exact ⟨rfl, a, u, b, v, cc, rfl, by simp [balance, h1]⟩
  | false =>
    right
    cases h2 : doubled_right l with
    | true =>
      left
      obtain ⟨a, u, b, v, cc, rfl⟩ := (doubled_right_iff l).1 h2
      exact ⟨rfl, rfl, a, u, b, v, cc, rfl, by simp [balance, h1, h2]⟩
    | false =>
      right
      cases h3 : doubled_left r with
      | true =>
        left
        obtain ⟨a, u, b, v, cc, rfl⟩ := (doubled_left_iff r).1 h3
        exact ⟨rfl, rfl, rfl, a, u, b, v, cc, rfl, by simp [balance, h1, h2, h3]⟩
      | false =>
        right
        cases h4 : doubled_right r with
        | true =>
          left
          obtain ⟨a, u, b, v, cc, rfl⟩ := (doubled_right_iff r).1 h4
          exact ⟨rfl, rfl, rfl, rfl, a, u, b, v, cc, rfl,
            by simp [balance, h1, h2, h3, h4]⟩
        | false =>
          right
          exact ⟨Or.inr ⟨rfl, rfl, rfl, rfl⟩, by simp [balance, h1, h2, h3, h4]⟩

end RedBlackTree

end PieceTree


namespace PieceTree

namespace RedBlackTree

/-! ## Lemmas: `balance`, `ins`, `insert` -/

theorem balance_defined (c : Color) (l : RedBlackTree) (x : NodeData) (r : RedBlackTree) :
    ∃ t, balance c l x r = some t := by
  rcases balance_cases c l x r with ⟨_, _, _, _, _, _, _, he⟩ | ⟨_, _, _, _, _, _, _, _, he⟩ |
    ⟨_, _, _, _, _, _, _, _, _, he⟩ | ⟨_, _, _, _, _, _, _, _, _, _, he⟩ | ⟨_, he⟩ <;>
  exact ⟨_, he⟩

theorem balance_toList {c : Color} {l : RedBlackTree} {x : NodeData} {r t : RedBlackTree}
    (h : balance c l x r = some t) : toList t = toList l ++ x.piece :: toList r := by
  rcases balance_cases c l x r with ⟨_, a, u, b, v, cc, rfl, he⟩ |
    ⟨_, _, a, u, b, v, cc, rfl, he⟩ | ⟨_, _, _, b, v, cc, w, d, rfl, he⟩ |
    ⟨_, _, _, _, b, v, cc, w, d, rfl, he⟩ | ⟨_, he⟩ <;>
  · rw [he] at h
    cases h
    simp

theorem balance_Aug {c : Color} {l : RedBlackTree} {x : NodeData} {r t : RedBlackTree}
    (hl : Aug l = true) (hr : Aug r = true) (h : balance c l x r = some t) :
    Aug t = true := by
  rcases balance_cases c l x r with ⟨_, a, u, b, v, cc, rfl, he⟩ |
    ⟨_, _, a, u, b, v, cc, rfl, he⟩ | ⟨_, _, _, b, v, cc, w, d, rfl, he⟩ |
    ⟨_, _, _, _, b, v, cc, w, d, rfl, he⟩ | ⟨_, he⟩ <;>
  · rw [he] at h
    cases h
    try simp only [Aug_node] at hl hr
    first
      | exact Aug_ctor _ _ (Aug_ctor _ _ hl.2.2.1.2.2.1 hl.2.2.1.2.2.2)
          (Aug_ctor _ _ hl.2.2.2 hr)
      | exact Aug_ctor _ _ (Aug_ctor _ _ hl.2.2.1 hl.2.2.2.2.2.1)
          (Aug_ctor _ _ hl.2.2.2.2.2.2 hr)
      | exact Aug_ctor _ _ (Aug_ctor _ _ hl hr.2.2.1.2.2.1)
          (Aug_ctor _ _ hr.2.2.1.2.2.2 hr.2.2.2)
      | exact Aug_ctor _ _ (Aug_ctor _ _ hl hr.2.2.1)
          (Aug_ctor _ _ hr.2.2.2.2.2.1 hr.2.2.2.2.2.2)
      | exact Aug_ctor _ _ hl hr

theorem balance_not_black {c : Color} (hc : c ≠ Color.Black) (l : RedBlackTree)
    (x : NodeData) (r : RedBlackTree) : balance c l x r = some (ctor c l x r) := by
  simp [balance, hc]

theorem balance_black_invh {l : RedBlackTree} {x : NodeData} {r t : RedBlackTree}
    (hl : invh l = true) (hr : invh r = true) (hb : bheight l = bheight r)
    (h : balance Color.Black l x r = some t) :
    invh t = true ∧ bheight t = bheight l + 1 := by
  rcases balance_cases Color.Black l x r with ⟨_, a, u, b, v, cc, rfl, he⟩ |
    ⟨_, _, a, u, b, v, cc, rfl, he⟩ | ⟨_, _, _, b, v, cc, w, d, rfl, he⟩ |
    ⟨_, _, _, _, b, v, cc, w, d, rfl, he⟩ | ⟨_, he⟩ <;>
  · rw [he] at h
    cases h
    simp only [invh_node, invh_ctor, bheight_red, bheight_black, bheight_ctor_red,
      bheight_ctor_black] at hl hr hb ⊢
    simp only [hl, hr, and_true, true_and]
    omega

/-- A tree that satisfies the colour invariant below its root and has no doubled red node
at the root satisfies it at the root too. -/
theorem invc_of_invc2_not_doubled {t : RedBlackTree} (h : invc2 t = true)
    (d1 : doubled_left t = false) (d2 : doubled_right t = false) : invc t = true := by
  cases t with
  | empty => rfl
  | node c a u b =>
    rw [invc2_node] at h
    rw [invc_node]
    refine ⟨?_, h.2⟩
    rcases h.1 with hc | hc
    · exact Or.inl hc
    · subst hc
      right
      refine ⟨rfl, ?_, ?_⟩
      · cases a with
        | empty => rfl
        | node c2 _ _ _ =>
          cases c2 with
          | Red => simp [doubled_left] at d1
          | Black => rfl
          | DoubleBlack => simp [invc_node] at h
      · cases b with
        | empty => rfl
        | node c2 _ _ _ =>
          cases c2 with
          | Red => simp [doubled_right] at d2
          | Black => rfl
          | DoubleBlack => simp [invc_node] at h

theorem balance_black_invc {l : RedBlackTree} {x : NodeData} {r t : RedBlackTree}
    (h12 : (invc2 l = true ∧ invc r = true) ∨ (invc l = true ∧ invc2 r = true))
    (h : balance Color.Black l x r = some t) : invc t = true := by
  rcases balance_cases Color.Black l x r with ⟨_, a, u, b, v, cc, rfl, he⟩ |
    ⟨_, _, a, u, b, v, cc, rfl, he⟩ | ⟨_, _, _, b, v, cc, w, d, rfl, he⟩ |
    ⟨_, _, _, _, b, v, cc, w, d, rfl, he⟩ | ⟨hd, he⟩
  iterate 4
    rw [he] at h
    cases h
    simp only [invc_node, invc_ctor, invc2_node, color_node, color_ctor, reduceCtorEq,
      false_and, or_false, false_or, true_and, and_true, or_true, true_or] at h12 ⊢
    tauto
  · rw [he] at h
    cases h
    rw [invc_ctor]
    rcases hd with hd | ⟨d1, d2, d3, d4⟩
    · exact absurd rfl hd
    · refine ⟨Or.inl rfl, ?_, ?_⟩
      · rcases h12 with ⟨h1, _⟩ | ⟨h1, _⟩
        · exact invc_of_invc2_not_doubled h1 d1 d2
        · exact h1
      · rcases h12 with ⟨_, h1⟩ | ⟨_, h1⟩
        · exact h1
        · exact invc_of_invc2_not_doubled h1 d3 d4

theorem insList_append_lt (x : Piece) (at_ : Nat) (A : List Piece) (p : Piece)
    (B : List Piece) (total : Nat) (h : at_ < total + sumLen A + p.length) :
    insList x at_ (A ++ p :: B) total = insList x at_ A total ++ p :: B := by
  induction A generalizing total with
  | nil =>
    simp only [sumLen_nil, Nat.add_zero] at h
    simp [insList_cons, h]
  | cons a A ih =>
    simp only [sumLen_cons] at h
    rw [List.cons_append, insList_cons, insList_cons]
    split
    · rfl
    · rw [ih (total + a.length) (by omega)]
      rfl

theorem insList_append_ge (x : Piece) (at_ : Nat) (A : List Piece) (p : Piece)
    (B : List Piece) (total : Nat) (h : total + sumLen A + p.length ≤ at_) :
    insList x at_ (A ++ p :: B) total
      = A ++ p :: insList x at_ B (total + sumLen A + p.length) := by
  induction A generalizing total with
  | nil =>
    simp only [sumLen_nil, Nat.add_zero] at h
    simp [insList_cons, Nat.not_lt.2 h]
  | cons a A ih =>
    simp only [sumLen_cons] at h
    rw [List.cons_append, insList_cons, if_neg (by omega), ih (total + a.length) (by omega)]
    simp only [sumLen_cons, List.cons_append]
    rw [show total + a.length + sumLen A + p.length
        = total + (a.length + sumLen A) + p.length by omega]

theorem ins_defined (x : NodeData) (at_ : Nat) (t : RedBlackTree) (total : Nat) :
    ∃ t1, ins x at_ t total = some t1 := by
  induction t generalizing total with
  | empty => exact ⟨_, rfl⟩
  | node c l y r ihl ihr =>
    simp only [ins]
    split
    · obtain ⟨l1, hl1⟩ := ihl total
      rw [hl1]
      exact balance_defined _ _ _ _
    · obtain ⟨r1, hr1⟩ := ihr (total + y.left_subtree_length + y.piece.length)
      rw [hr1]
      exact balance_defined _ _ _ _

theorem ins_Aug {x : NodeData} {at_ : Nat} {t t1 : RedBlackTree} {total : Nat}
    (ha : Aug t = true) (h : ins x at_ t total = some t1) : Aug t1 = true := by
  induction t generalizing total t1 with
  | empty =>
    simp only [ins, Option.some.injEq] at h
    subst h
    exact Aug_ctor _ _ rfl rfl
  | node c l y r ihl ihr =>
    rw [Aug_node] at ha
    simp only [ins] at h
    split at h
    · obtain ⟨l1, hl1⟩ := ins_defined x at_ l total
      rw [hl1] at h
      exact balance_Aug (ihl ha.2.2.1 hl1) ha.2.2.2 h
    · obtain ⟨r1, hr1⟩ := ins_defined x at_ r (total + y.left_subtree_length + y.piece.length)
      rw [hr1] at h
      exact balance_Aug ha.2.2.1 (ihr ha.2.2.2 hr1) h

theorem ins_toList {x : NodeData} {at_ : Nat} {t t1 : RedBlackTree} {total : Nat}
    (ha : Aug t = true) (h : ins x at_ t total = some t1) :
    toList t1 = insList x.piece at_ (toList t) total := by
  induction t generalizing total t1 with
  | empty =>
    simp only [ins, Option.some.injEq] at h
    subst h
    simp [insList]
  | node c l y r ihl ihr =>
    rw [Aug_node] at ha
    simp only [ins] at h
    split at h
    · rename_i hlt
      obtain ⟨l1, hl1⟩ := ins_defined x at_ l total
      rw [hl1] at h
      rw [balance_toList h, ihl ha.2.2.1 hl1, toList_node, insList_append_lt]
      rw [← ha.1]; exact hlt
    · rename_i hge
      obtain ⟨r1, hr1⟩ := ins_defined x at_ r (total + y.left_subtree_length + y.piece.length)
      rw [hr1] at h
      rw [balance_toList h, ihr ha.2.2.2 hr1, toList_node, insList_append_ge, ha.1]
      rw [← ha.1]; omega

theorem ins_ne_empty {x : NodeData} {at_ : Nat} {t t1 : RedBlackTree} {total : Nat}
    (h : ins x at_ t total = some t1) : ∃ c l d r, t1 = node c l d r := by
  cases t with
  | empty =>
    simp only [ins, Option.some.injEq] at h
    exact ⟨_, _, _, _, h.symm⟩
  | node c l y r =>
    have hb : ∀ {c l x r t}, balance c l x r = some t → ∃ c l d r, t = node c l d r := by
      intro c l x r t hb
      rcases balance_cases c l x r with ⟨_, _, _, _, _, _, _, he⟩ |
        ⟨_, _, _, _, _, _, _, _, he⟩ | ⟨_, _, _, _, _, _, _, _, _, he⟩ |
        ⟨_, _, _, _, _, _, _, _, _, _, he⟩ | ⟨_, he⟩ <;>
      · rw [he] at hb
        cases hb
        exact ⟨_, _, _, _, rfl⟩
    simp only [ins] at h
    split at h
    · obtain ⟨l1, hl1⟩ := ins_defined x at_ l total
      rw [hl1] at h
      exact hb h
    · obtain ⟨r1, hr1⟩ := ins_defined x at_ r (total + y.left_subtree_length + y.piece.length)
      rw [hr1] at h
      exact hb h

/-- The invariants of `ins`: the heights are kept, the colour invariant holds below the
root, and at the root when the tree was black. -/
theorem ins_inv {x : NodeData} {at_ : Nat} {t t1 : RedBlackTree} {total : Nat}
    (hc : invc t = true) (hh : invh t = true) (h : ins x at_ t total = some t1) :
    invh t1 = true ∧ bheight t1 = bheight t ∧ invc2 t1 = true ∧
      (color t = Color.Black → invc t1 = true) := by
  induction t generalizing total t1 with
  | empty =>
    simp only [ins, Option.some.injEq] at h
    subst h
    simp [invh_ctor, invc2_ctor, invc_ctor]
  | node c l y r ihl ihr =>
    rw [invc_node] at hc
    rw [invh_node] at hh
    obtain ⟨hcol, hcl, hcr⟩ := hc
    obtain ⟨hb, hhl, hhr⟩ := hh
    simp only [ins] at h
    split at h
    · obtain ⟨l1, hl1⟩ := ins_defined x at_ l total
      rw [hl1] at h
      obtain ⟨i1, i2, i3, i4⟩ := ihl hcl hhl hl1
      rcases hcol with hcol | ⟨hcol, hl_black, hr_black⟩
      · subst hcol
        obtain ⟨j1, j2⟩ := balance_black_invh i1 hhr (by omega) h
        have j3 := balance_black_invc (Or.inl ⟨i3, hcr⟩) h
        refine ⟨j1, ?_, invc_imp_invc2 j3, fun _ => j3⟩
        simp; omega
      · subst hcol
        have h2 : balance Color.Red l1 y r = some t1 := h
        rw [balance_not_black (by simp)] at h2
        cases h2
        have i5 := i4 hl_black
        simp [invh_ctor, invc2_ctor, i1, i2, i5, hhr, hcr, hb]
    · obtain ⟨r1, hr1⟩ := ins_defined x at_ r (total + y.left_subtree_length + y.piece.length)
      rw [hr1] at h
      obtain ⟨i1, i2, i3, i4⟩ := ihr hcr hhr hr1
      rcases hcol with hcol | ⟨hcol, hl_black, hr_black⟩
      · subst hcol
        obtain ⟨j1, j2⟩ := balance_black_invh hhl i1 (by omega) h
        have j3 := balance_black_invc (Or.inr ⟨hcl, i3⟩) h
        refine ⟨j1, ?_, invc_imp_invc2 j3, fun _ => j3⟩
        simp; omega
      · subst hcol
        have h2 : balance Color.Red l y r1 = some t1 := h
        rw [balance_not_black (by simp)] at h2
        cases h2
        have i5 := i4 hr_black
        simp [invh_ctor, invc2_ctor, i1, i2, i5, hhl, hcl, hb]

/-- What `RedBlackTree::insert` returns on a correctly augmented tree. -/
theorem insert_spec (t : RedBlackTree) (x : NodeData) (at_ : Nat) (ha : Aug t = true) :
    ∃ t1, insert t x at_ = some t1 ∧ Aug t1 = true ∧
      toList t1 = insList x.piece at_ (toList t) 0 ∧
      (rbValid t = true → rbValid t1 = true) := by
  obtain ⟨t0, h0⟩ := ins_defined x at_ t 0
  obtain ⟨c, l, d, r, rfl⟩ := ins_ne_empty h0
  have hA := ins_Aug ha h0
  have hL := ins_toList ha h0
  refine ⟨ctor Color.Black l d r, ?_, ?_, ?_, ?_⟩
  · simp [insert, h0]
  · rw [Aug_node] at hA
    exact Aug_ctor _ _ hA.2.2.1 hA.2.2.2
  · rw [← hL]; simp
  · intro hv
    simp only [rbValid, Bool.and_eq_true, beq_iff_eq] at hv
    obtain ⟨i1, i2, i3, i4⟩ := ins_inv hv.1.2 hv.2 h0
    rw [invh_node] at i1
    rw [invc2_node] at i3
    simp only [rbValid, Bool.and_eq_true, beq_iff_eq, color_ctor, true_and]
    rw [invc_ctor, invh_ctor]
    exact ⟨⟨Or.inl rfl, i3.2⟩, i1⟩

/-- Insertion is defined on every tree and keeps the red-black properties. -/
theorem insert_valid (t : RedBlackTree) (x : NodeData) (at_ : Nat) (hv : rbValid t = true) :
    ∃ t1, insert t x at_ = some t1 ∧ rbValid t1 = true ∧
      root_color t1 = some Color.Black := by
  obtain ⟨t0, h0⟩ := ins_defined x at_ t 0
  obtain ⟨c, l, d, r, rfl⟩ := ins_ne_empty h0
  refine ⟨ctor Color.Black l d r, ?_, ?_, ?_⟩
  · simp [insert, h0]
  · simp only [rbValid, Bool.and_eq_true, beq_iff_eq] at hv
    obtain ⟨i1, i2, i3, i4⟩ := ins_inv hv.1.2 hv.2 h0
    rw [invh_node] at i1
    rw [invc2_node] at i3
    simp only [rbValid, Bool.and_eq_true, beq_iff_eq, color_ctor, true_and]
    rw [invc_ctor, invh_ctor]
    exact ⟨⟨Or.inl rfl, i3.2⟩, i1⟩
  · simp

end RedBlackTree

end PieceTree


namespace PieceTree

namespace RedBlackTree

/-! ## Lemmas: `balance_node`, `balance_left`, `balance_right`, `fuse`, `rem`, `remove` -/

theorem red_cond (t : RedBlackTree) :
    (!t.is_empty && t.root_color == some Color.Red) = true ↔
      ∃ a u b, t = node Color.Red a u b := by
  cases t with
  | empty => simp
  | node c a u b =>
    constructor
    · intro h
      simp at h
      subst h
      exact ⟨a, u, b, rfl⟩
    · rintro ⟨_, _, _, h⟩
      cases h
      simp

theorem black_cond (t : RedBlackTree) :
    (!t.is_empty && t.root_color == some Color.Black) = true ↔
      ∃ a u b, t = node Color.Black a u b := by
  cases t with
  | empty => simp
  | node c a u b =>
    constructor
    · intro h
      simp at h
      subst h
      exact ⟨a, u, b, rfl⟩
    · rintro ⟨_, _, _, h⟩
      cases h
      simp

theorem red_cond_false {t : RedBlackTree} (h : ¬ ∃ a u b, t = node Color.Red a u b) :
    (!t.is_empty && t.root_color == some Color.Red) = false := by
  cases hc : (!t.is_empty && t.root_color == some Color.Red) with
  | false => rfl
  | true => exact absurd ((red_cond t).1 hc) h

theorem black_cond_false {t : RedBlackTree} (h : ¬ ∃ a u b, t = node Color.Black a u b) :
    (!t.is_empty && t.root_color == some Color.Black) = false := by
  cases hc : (!t.is_empty && t.root_color == some Color.Black) with
  | false => rfl
  | true => exact absurd ((black_cond t).1 hc) h

/-- The two branches of the one-argument `balance`. -/
theorem balance_node_cases (c : Color) (l : RedBlackTree) (x : NodeData)
    (r : RedBlackTree) :
    (∃ a u b cc v d, l = node Color.Red a u b ∧ r = node Color.Red cc v d ∧
      balance_node (node c l x r)
        = some (ctor Color.Red (ctor Color.Black a u b) x (ctor Color.Black cc v d))) ∨
    (¬ ((∃ a u b, l = node Color.Red a u b) ∧ (∃ a u b, r = node Color.Red a u b)) ∧
      balance_node (node c l x r) = balance c l x r) := by
  by_cases h1 : ∃ a u b, l = node Color.Red a u b
  · by_cases h2 : ∃ a u b, r = node Color.Red a u b
    · left
      obtain ⟨a, u, b, rfl⟩ := h1
      obtain ⟨cc, v, d, rfl⟩ := h2
      exact ⟨a, u, b, cc, v, d, rfl, rfl, by simp [balance_node]⟩
    · right
      refine ⟨fun h => h2 h.2, ?_⟩
      unfold balance_node
      simp only [left_node, root_node, right_node, Option.bind_eq_bind, Option.some_bind,
        red_cond_false h2, Bool.and_false, Bool.false_eq_true, ↓reduceIte, root_color_node,
        Bool.and_assoc]
  · right
    refine ⟨fun h => h1 h.1, ?_⟩
    unfold balance_node
    simp only [left_node, root_node, right_node, Option.bind_eq_bind, Option.some_bind,
      red_cond_false h1, Bool.false_and, Bool.false_eq_true, ↓reduceIte, root_color_node]

/-- The four branches of `balance_left`. -/
theorem balance_left_cases (c : Color) (l : RedBlackTree) (x : NodeData)
    (r : RedBlackTree) :
    (∃ a u b, l = node Color.Red a u b ∧
      balance_left (node c l x r) = some (ctor Color.Red (ctor Color.Black a u b) x r)) ∨
    ((¬ ∃ a u b, l = node Color.Red a u b) ∧ ∃ a u b, r = node Color.Black a u b ∧
      balance_left (node c l x r)
        = balance_node (ctor Color.Black l x (ctor Color.Red a u b))) ∨
    ((¬ ∃ a u b, l = node Color.Red a u b) ∧
      ∃ a u b v cc, r = node Color.Red (node Color.Black a u b) v cc ∧
      balance_left (node c l x r)
        = (paint cc Color.Red).bind (fun q =>
            (balance_node (ctor Color.Black b v q)).bind (fun nr =>
              some (ctor Color.Red (ctor Color.Black l x a) u nr)))) ∨
    ((¬ ∃ a u b, l = node Color.Red a u b) ∧ (¬ ∃ a u b, r = node Color.Black a u b) ∧
      (¬ ∃ a u b v cc, r = node Color.Red (node Color.Black a u b) v cc) ∧
      balance_left (node c l x r) = some (node c l x r)) := by
  by_cases h1 : ∃ a u b, l = node Color.Red a u b
  · left
    obtain ⟨a, u, b, rfl⟩ := h1
    exact ⟨a, u, b, rfl, by simp [balance_left]⟩
  · right
    by_cases h2 : ∃ a u b, r = node Color.Black a u b
    · left
      obtain ⟨a, u, b, rfl⟩ := h2
      refine ⟨h1, a, u, b, rfl, ?_⟩
      unfold balance_left
      simp only [left_node, root_node, right_node, Option.bind_eq_bind, Option.some_bind,
        red_cond_false h1, Bool.false_eq_true, ↓reduceIte, is_empty_node, root_color_node,
        paint_node]
      simp
    · right
      by_cases h3 : ∃ a u b v cc, r = node Color.Red (node Color.Black a u b) v cc
      · left
        obtain ⟨a, u, b, v, cc, rfl⟩ := h3
        refine ⟨h1, a, u, b, v, cc, rfl, ?_⟩
        unfold balance_left
        simp only [left_node, root_node, right_node, Option.bind_eq_bind, Option.some_bind,
          red_cond_false h1, Bool.false_eq_true, ↓reduceIte, is_empty_node, root_color_node,
          paint_node]
        simp
      · right
        refine ⟨h1, h2, h3, ?_⟩
        unfold balance_left
        simp only [left_node, root_node, right_node, Option.bind_eq_bind, Option.some_bind,
          red_cond_false h1, black_cond_false h2, Bool.false_eq_true, ↓reduceIte]
        cases r with
        | empty => simp
        | node rc rl v cc =>
          by_cases hr : rc = Color.Red
          · subst hr
            have h4 : ¬ ∃ a u b, rl = node Color.Black a u b := by
              rintro ⟨a, u, b, rfl⟩
              exact h3 ⟨a, u, b, v, cc, rfl⟩
            simp [black_cond_false h4]
          · simp [hr]

/-- The four branches of `balance_right`. -/
theorem balance_right_cases (c : Color) (l : RedBlackTree) (x : NodeData)
    (r : RedBlackTree) :
    (∃ a u b, r = node Color.Red a u b ∧
      balance_right (node c l x r) = some (ctor Color.Red l x (ctor Color.Black a u b))) ∨
    ((¬ ∃ a u b, r = node Color.Red a u b) ∧ ∃ a u b, l = node Color.Black a u b ∧
      balance_right (node c l x r)
        = balance_node (ctor Color.Black (ctor Color.Red a u b) x r)) ∨
    ((¬ ∃ a u b, r = node Color.Red a u b) ∧
      ∃ cc v a u b, l = node Color.Red cc v (node Color.Black a u b) ∧
      balance_right (node c l x r)
        = (paint cc Color.Red).bind (fun q =>
            (balance_node (ctor Color.Black q v a)).bind (fun nl =>
              some (ctor Color.Red nl u (ctor Color.Black b x r))))) ∨
    ((¬ ∃ a u b, r = node Color.Red a u b) ∧ (¬ ∃ a u b, l = node Color.Black a u b) ∧
      (¬ ∃ cc v a u b, l = node Color.Red cc v (node Color.Black a u b)) ∧
      balance_right (node c l x r) = some (node c l x r)) := by
  by_cases h1 : ∃ a u b, r = node Color.Red a u b
  · left
    obtain ⟨a, u, b, rfl⟩ := h1
    exact ⟨a, u, b, rfl, by simp [balance_right]⟩
  · right
    by_cases h2 : ∃ a u b, l = node Color.Black a u b
    · left
      obtain ⟨a, u, b, rfl⟩ := h2
      refine ⟨h1, a, u, b, rfl, ?_⟩
      unfold balance_right
      simp only [left_node, root_node, right_node, Option.bind_eq_bind, Option.some_bind,
        red_cond_false h1, Bool.false_eq_true, ↓reduceIte, is_empty_node, root_color_node,
        paint_node]
      simp
    · right
      by_cases h3 : ∃ cc v a u b, l = node Color.Red cc v (node Color.Black a u b)
      · left
        obtain ⟨cc, v, a, u, b, rfl⟩ := h3
        refine ⟨h1, cc, v, a, u, b, rfl, ?_⟩
        unfold balance_right
        simp only [left_node, root_node, right_node, Option.bind_eq_bind, Option.some_bind,
          red_cond_false h1, Bool.false_eq_true, ↓reduceIte, is_empty_node, root_color_node,
          paint_node]
        simp
      · right
        refine ⟨h1, h2, h3, ?_⟩
        unfold balance_right
        simp only [left_node, root_node, right_node, Option.bind_eq_bind, Option.some_bind,
          red_cond_false h1, black_cond_false h2, Bool.false_eq_true, ↓reduceIte]
        cases l with
        | empty => simp
        | node lc cc v lr =>
          by_cases hr : lc = Color.Red
          · subst hr
            have h4 : ¬ ∃ a u b, lr = node Color.Black a u b := by
              rintro ⟨a, u, b, rfl⟩
              exact h3 ⟨cc, v, a, u, b, rfl⟩
            simp [black_cond_false h4]
          · simp [hr]

theorem balance_node_toList {c : Color} {l : RedBlackTree} {x : NodeData}
    {r t : RedBlackTree} (h : balance_node (node c l x r) = some t) :
    toList t = toList l ++ x.piece :: toList r := by
  rcases balance_node_cases c l x r with ⟨a, u, b, cc, v, d, rfl, rfl, he⟩ | ⟨_, he⟩
  · rw [he] at h
    cases h
    simp
  · rw [he] at h
    exact balance_toList h

theorem balance_node_Aug {c : Color} {l : RedBlackTree} {x : NodeData}
    {r t : RedBlackTree} (hl : Aug l = true) (hr : Aug r = true)
    (h : balance_node (node c l x r) = some t) : Aug t = true := by
  rcases balance_node_cases c l x r with ⟨a, u, b, cc, v, d, rfl, rfl, he⟩ | ⟨_, he⟩
  · rw [he] at h
    cases h
    rw [Aug_node] at hl hr
    exact Aug_ctor _ _ (Aug_ctor _ _ hl.2.2.1 hl.2.2.2) (Aug_ctor _ _ hr.2.2.1 hr.2.2.2)
  · rw [he] at h
    exact balance_Aug hl hr h

theorem balance_node_black_inv {l : RedBlackTree} (x : NodeData) {r : RedBlackTree}
    (hhl : invh l = true) (hhr : invh r = true) (hb : bheight l = bheight r)
    (hc : (invc2 l = true ∧ invc r = true) ∨ (invc l = true ∧ invc2 r = true)) :
    ∃ t, balance_node (node Color.Black l x r) = some t ∧ invh t = true ∧
      bheight t = bheight l + 1 ∧ invc t = true := by
  rcases balance_node_cases Color.Black l x r with ⟨a, u, b, cc, v, d, rfl, rfl, he⟩ | ⟨_, he⟩
  · refine ⟨_, he, ?_, ?_, ?_⟩
    · simp only [invh_node, invh_ctor, bheight_red, bheight_black, bheight_ctor_red,
        bheight_ctor_black] at hhl hhr hb ⊢
      simp only [hhl, hhr, and_true, true_and]
      omega
    · simp
    · simp only [invc_node, invc_ctor, invc2_node, color_node, color_ctor, reduceCtorEq,
        false_and, or_false, false_or, true_and, and_true, or_true, true_or] at hc ⊢
      tauto
  · obtain ⟨t, ht⟩ := balance_defined Color.Black l x r
    rw [ht] at he
    obtain ⟨i1, i2⟩ := balance_black_invh hhl hhr hb ht
    exact ⟨t, he, i1, i2, balance_black_invc hc ht⟩

theorem balance_left_toList {c : Color} {l : RedBlackTree} {x : NodeData}
    {r t : RedBlackTree} (h : balance_left (node c l x r) = some t) :
    toList t = toList l ++ x.piece :: toList r := by
  rcases balance_left_cases c l x r with ⟨a, u, b, rfl, he⟩ | ⟨_, a, u, b, rfl, he⟩ |
    ⟨_, a, u, b, v, cc, rfl, he⟩ | ⟨_, _, _, he⟩
  · rw [he] at h
    cases h
    simp
  · rw [he] at h
    rw [balance_node_toList h]
    simp
  · rw [he] at h
    obtain ⟨q, hq, h⟩ := Option.bind_eq_some.1 h
    obtain ⟨nr, hnr, h⟩ := Option.bind_eq_some.1 h
    cases h
    cases cc with
    | empty => simp at hq
    | node c4 cl cx cr =>
      simp only [paint_node, Option.some.injEq] at hq
      subst hq
      rw [toList_ctor, balance_node_toList hnr]
      simp
  · rw [he] at h
    cases h
    rfl

theorem balance_left_Aug {c : Color} {l : RedBlackTree} {x : NodeData}
    {r t : RedBlackTree} (hn : Aug (node c l x r) = true)
    (h : balance_left (node c l x r) = some t) : Aug t = true := by
  have hl : Aug l = true := ((Aug_node c l x r).1 hn).2.2.1
  have hr : Aug r = true := ((Aug_node c l x r).1 hn).2.2.2
  rcases balance_left_cases c l x r with ⟨a, u, b, rfl, he⟩ | ⟨_, a, u, b, rfl, he⟩ |
    ⟨_, a, u, b, v, cc, rfl, he⟩ | ⟨_, _, _, he⟩
  · rw [he] at h
    cases h
    rw [Aug_node] at hl
    exact Aug_ctor _ _ (Aug_ctor _ _ hl.2.2.1 hl.2.2.2) hr
  · rw [he] at h
    rw [Aug_node] at hr
    exact balance_node_Aug hl (Aug_ctor _ _ hr.2.2.1 hr.2.2.2) h
  · rw [he] at h
    obtain ⟨q, hq, h⟩ := Option.bind_eq_some.1 h
    obtain ⟨nr, hnr, h⟩ := Option.bind_eq_some.1 h
    cases h
    simp only [Aug_node] at hr
    cases cc with
    | empty => simp at hq
    | node c4 cl cx cr =>
      simp only [paint_node, Option.some.injEq] at hq
      subst hq
      have hcc := hr.2.2.2
      rw [Aug_node] at hcc
      exact Aug_ctor _ _ (Aug_ctor _ _ hl hr.2.2.1.2.2.1)
        (balance_node_Aug hr.2.2.1.2.2.2 (Aug_ctor _ _ hcc.2.2.1 hcc.2.2.2) hnr)
  · rw [he] at h
    cases h
    exact hn

/-- A tree of positive black height is not empty. -/
theorem exists_node_of_bheight_pos {t : RedBlackTree} (h : 0 < bheight t) :
    ∃ c l d r, t = node c l d r := by
  cases t with
  | empty => simp at h
  | node c l d r => exact ⟨c, l, d, r, rfl⟩

/-- A non-empty tree that satisfies the colour invariant has a red or a black root. -/
theorem color_cases_of_invc2 {c : Color} {l : RedBlackTree} {d : NodeData}
    {r : RedBlackTree} (h : invc2 (node c l d r) = true) :
    c = Color.Black ∨ c = Color.Red :=
  ((invc2_node c l d r).1 h).1

theorem invc_of_invc2_not_red {t : RedBlackTree} (h : invc2 t = true)
    (hn : ¬ ∃ a u b, t = node Color.Red a u b) : invc t = true := by
  cases t with
  | empty => rfl
  | node c a u b =>
    rcases color_cases_of_invc2 h with rfl | rfl
    · exact invc2_black_imp_invc h rfl
    · exact absurd ⟨a, u, b, rfl⟩ hn

/-- The invariants of `balance_left`: the left subtree is one black node short. -/
theorem balance_left_inv (c : Color) {l : RedBlackTree} (x : NodeData) {r : RedBlackTree}
    (hhl : invh l = true) (hhr : invh r = true) (hb : bheight l + 1 = bheight r)
    (hcl : invc2 l = true) (hcr : invc r = true) :
    ∃ t, balance_left (node c l x r) = some t ∧ invh t = true ∧
      bheight t = bheight r ∧ invc2 t = true ∧ (color r = Color.Black → invc t = true) := by
  rcases balance_left_cases c l x r with ⟨a, u, b, rfl, he⟩ | ⟨n1, a, u, b, rfl, he⟩ |
    ⟨n1, a, u, b, v, cc, rfl, he⟩ | ⟨n1, n2, n3, he⟩
  · refine ⟨_, he, ?_, ?_, ?_, ?_⟩
    · simp only [invh_node, invh_ctor, bheight_red, bheight_black, bheight_ctor_red,
        bheight_ctor_black] at hhl hhr hb ⊢
      simp only [hhl, hhr, and_true, true_and]
      omega
    · simp only [bheight_red, bheight_ctor_red, bheight_ctor_black] at hb ⊢
      omega
    · simp only [invc_ctor, invc2_node, invc2_ctor, color_ctor, reduceCtorEq,
        false_and, or_false, false_or, true_and, and_true, or_true, true_or] at hcl ⊢
      tauto
    · intro hr
      simp only [invc_ctor, invc2_node, color_ctor, reduceCtorEq,
        false_and, or_false, false_or, true_and, and_true, or_true, true_or] at hcl ⊢
      tauto
  · have hl := invc_of_invc2_not_red hcl n1
    rw [invh_node] at hhr
    rw [invc_node] at hcr
    simp only [bheight_black] at hb
    obtain ⟨t, ht, i1, i2, i3⟩ := balance_node_black_inv (l := l) (attribute_of x l)
      (r := ctor Color.Red a u b) hhl
      (by rw [invh_ctor]; exact hhr) (by simp only [bheight_ctor_red]; omega)
      (Or.inr ⟨hl, by rw [invc2_ctor]; exact ⟨Or.inr rfl, hcr.2⟩⟩)
    refine ⟨t, he.trans ht, i1, ?_, invc_imp_invc2 i3, fun _ => i3⟩
    simp only [bheight_black]
    omega
  · have hl := invc_of_invc2_not_red hcl n1
    simp only [invh_node, bheight_red, bheight_black] at hhr hb
    simp only [invc_node, color_node, reduceCtorEq, false_and, or_false, false_or,
      true_and, or_true, true_or] at hcr
    obtain ⟨hcc, ⟨ha, hbb⟩, hccinv⟩ := hcr
    have hpos : 0 < bheight cc := by omega
    obtain ⟨c4, cl, cx, cr, rfl⟩ := exists_node_of_bheight_pos hpos
    simp only [color_node] at hcc
    subst hcc
    simp only [invh_node, bheight_black] at hhr
    rw [invc_node] at hccinv
    obtain ⟨t, ht, i1, i2, i3⟩ := balance_node_black_inv (l := b) (attribute_of v b)
      (r := ctor Color.Red cl cx cr) hhr.2.1.2.2
      (by rw [invh_ctor]; exact hhr.2.2) (by simp only [bheight_ctor_red]; omega)
      (Or.inr ⟨hbb, by rw [invc2_ctor]; exact ⟨Or.inr rfl, hccinv.2⟩⟩)
    have ht2 : balance_node (ctor Color.Black b v (ctor Color.Red cl cx cr)) = some t := ht
    refine ⟨ctor Color.Red (ctor Color.Black l x a) u t, ?_, ?_, ?_, ?_, ?_⟩
    · rw [he]
      simp only [paint_node, Option.some_bind, ht2]
    · simp only [invh_ctor, bheight_ctor_black]
      refine ⟨by omega, ⟨by omega, hhl, hhr.2.1.2.1⟩, i1⟩
    · simp only [bheight_ctor_red, bheight_ctor_black, bheight_red, bheight_black]
      omega
    · rw [invc2_ctor, invc_ctor]
      exact ⟨Or.inr rfl, ⟨Or.inl rfl, hl, ha⟩, i3⟩
    · intro hr
      simp at hr
  · exfalso
    have hpos : 0 < bheight r := by omega
    obtain ⟨rc, rl, v, cc, rfl⟩ := exists_node_of_bheight_pos hpos
    rcases color_cases_of_invc2 (invc_imp_invc2 hcr) with rfl | rfl
    · exact n2 ⟨rl, v, cc, rfl⟩
    · simp only [invc_node, color_node, reduceCtorEq, false_and, or_false, false_or,
        true_and] at hcr
      simp only [bheight_red] at hpos
      obtain ⟨c5, a, u, b, rfl⟩ := exists_node_of_bheight_pos hpos
      simp only [color_node] at hcr
      obtain ⟨⟨rfl, _⟩, _⟩ := hcr
      exact n3 ⟨a, u, b, v, cc, rfl⟩

end RedBlackTree

end PieceTree


namespace PieceTree

namespace RedBlackTree

theorem balance_right_toList {c : Color} {l : RedBlackTree} {x : NodeData}
    {r t : RedBlackTree} (h : balance_right (node c l x r) = some t) :
    toList t = toList l ++ x.piece :: toList r := by
  rcases balance_right_cases c l x r with ⟨a, u, b, rfl, he⟩ | ⟨_, a, u, b, rfl, he⟩ |
    ⟨_, cc, v, a, u, b, rfl, he⟩ | ⟨_, _, _, he⟩
  · rw [he] at h
    cases h
    simp
  · rw [he] at h
    rw [balance_node_toList h]
    simp
  · rw [he] at h
    obtain ⟨q, hq, h⟩ := Option.bind_eq_some.1 h
    obtain ⟨nr, hnr, h⟩ := Option.bind_eq_some.1 h
    cases h
    cases cc with
    | empty => simp at hq
    | node c4 cl cx cr =>
      simp only [paint_node, Option.some.injEq] at hq
      subst hq
      rw [toList_ctor, balance_node_toList hnr]
      simp
  · rw [he] at h
    cases h
    rfl

theorem balance_right_Aug {c : Color} {l : RedBlackTree} {x : NodeData}
    {r t : RedBlackTree} (hn : Aug (node c l x r) = true)
    (h : balance_right (node c l x r) = some t) : Aug t = true := by
  have hl : Aug l = true := ((Aug_node c l x r).1 hn).2.2.1
  have hr : Aug r = true := ((Aug_node c l x r).1 hn).2.2.2
  rcases balance_right_cases c l x r with ⟨a, u, b, rfl, he⟩ | ⟨_, a, u, b, rfl, he⟩ |
    ⟨_, cc, v, a, u, b, rfl, he⟩ | ⟨_, _, _, he⟩
  · rw [he] at h
    cases h
    rw [Aug_node] at hr
    exact Aug_ctor _ _ hl (Aug_ctor _ _ hr.2.2.1 hr.2.2.2)
  · rw [he] at h
    rw [Aug_node] at hl
    exact balance_node_Aug (Aug_ctor _ _ hl.2.2.1 hl.2.2.2) hr h
  · rw [he] at h
    obtain ⟨q, hq, h⟩ := Option.bind_eq_some.1 h
    obtain ⟨nr, hnr, h⟩ := Option.bind_eq_some.1 h
    cases h
    simp only [Aug_node] at hl
    cases cc with
    | empty => simp at hq
    | node c4 cl cx cr =>
      simp only [paint_node, Option.some.injEq] at hq
      subst hq
      have hcc := hl.2.2.1
      rw [Aug_node] at hcc
      exact Aug_ctor _ _
        (balance_node_Aug (Aug_ctor _ _ hcc.2.2.1 hcc.2.2.2) hl.2.2.2.2.2.1 hnr)
        (Aug_ctor _ _ hl.2.2.2.2.2.2 hr)
  · rw [he] at h
    cases h
    exact hn

/-- The invariants of `balance_right`: the right subtree is one black node short. -/
theorem balance_right_inv (c : Color) {l : RedBlackTree} (x : NodeData)
    {r : RedBlackTree} (hhl : invh l = true) (hhr : invh r = true)
    (hb : bheight l = bheight r + 1) (hcl : invc l = true) (hcr : invc2 r = true) :
    ∃ t, balance_right (node c l x r) = some t ∧ invh t = true ∧
      bheight t = bheight l ∧ invc2 t = true ∧ (color l = Color.Black → invc t = true) := by
  rcases balance_right_cases c l x r with ⟨a, u, b, rfl, he⟩ | ⟨n1, a, u, b, rfl, he⟩ |
    ⟨n1, cc, v, a, u, b, rfl, he⟩ | ⟨n1, n2, n3, he⟩
  · refine ⟨_, he, ?_, ?_, ?_, ?_⟩
    · simp only [invh_node, invh_ctor, bheight_red, bheight_black, bheight_ctor_red,
        bheight_ctor_black] at hhl hhr hb ⊢
      simp only [hhl, hhr, and_true, true_and]
      omega
    · simp only [bheight_ctor_red]
    · simp only [invc_ctor, invc2_node, invc2_ctor, color_ctor, reduceCtorEq,
        false_and, or_false, false_or, true_and, and_true, or_true, true_or] at hcr ⊢
      tauto
    · intro hl
      simp only [invc_ctor, invc2_node, color_ctor, reduceCtorEq,
        false_and, or_false, false_or, true_and, and_true, or_true, true_or] at hcr ⊢
      tauto
  · have hr := invc_of_invc2_not_red hcr n1
    rw [invh_node] at hhl
    rw [invc_node] at hcl
    simp only [bheight_black] at hb
    obtain ⟨t, ht, i1, i2, i3⟩ := balance_node_black_inv (l := ctor Color.Red a u b)
      (attribute_of x (ctor Color.Red a u b)) (r := r)
      (by rw [invh_ctor]; exact hhl) hhr (by simp only [bheight_ctor_red]; omega)
      (Or.inl ⟨by rw [invc2_ctor]; exact ⟨Or.inr rfl, hcl.2⟩, hr⟩)
    refine ⟨t, he.trans ht, i1, ?_, invc_imp_invc2 i3, fun _ => i3⟩
    simp only [bheight_black, bheight_ctor_red] at i2 ⊢
    omega
  · have hr := invc_of_invc2_not_red hcr n1
    simp only [invh_node, bheight_red, bheight_black] at hhl hb
    simp only [invc_node, color_node, reduceCtorEq, false_and, or_false, false_or,
      true_and, and_true, or_true, true_or] at hcl
    obtain ⟨hcc, hccinv, ha, hbb⟩ := hcl
    have hpos : 0 < bheight cc := by omega
    obtain ⟨c4, cl, cx, cr, rfl⟩ := exists_node_of_bheight_pos hpos
    simp only [color_node] at hcc
    subst hcc
    simp only [invh_node, bheight_black] at hhl hb
    rw [invc_node] at hccinv
    obtain ⟨t, ht, i1, i2, i3⟩ := balance_node_black_inv (l := ctor Color.Red cl cx cr)
      (attribute_of v (ctor Color.Red cl cx cr)) (r := a)
      (by rw [invh_ctor]; exact hhl.2.1) hhl.2.2.2.1
      (by simp only [bheight_ctor_red]; omega)
      (Or.inl ⟨by rw [invc2_ctor]; exact ⟨Or.inr rfl, hccinv.2⟩, ha⟩)
    have ht2 : balance_node (ctor Color.Black (ctor Color.Red cl cx cr) v a) = some t := ht
    refine ⟨ctor Color.Red t u (ctor Color.Black b x r), ?_, ?_, ?_, ?_, ?_⟩
    · rw [he]
      simp only [paint_node, Option.some_bind, ht2]
    · simp only [invh_ctor, bheight_ctor_black]
      simp only [bheight_ctor_red] at i2
      refine ⟨by omega, i1, by omega, hhl.2.2.2.2, hhr⟩
    · simp only [bheight_ctor_red, bheight_red, bheight_black] at i2 ⊢
      omega
    · rw [invc2_ctor, invc_ctor]
      exact ⟨Or.inr rfl, i3, Or.inl rfl, hbb, hr⟩
    · intro hl
      simp at hl
  · exfalso
    have hpos : 0 < bheight l := by omega
    obtain ⟨lc, cc, v, lr, rfl⟩ := exists_node_of_bheight_pos hpos
    rcases color_cases_of_invc2 (invc_imp_invc2 hcl) with rfl | rfl
    · exact n2 ⟨cc, v, lr, rfl⟩
    · simp only [invc_node, color_node, reduceCtorEq, false_and, or_false, false_or,
        true_and] at hcl
      simp only [invh_node, bheight_red] at hhl hpos
      have hpos2 : 0 < bheight lr := by omega
      obtain ⟨c5, a, u, b, rfl⟩ := exists_node_of_bheight_pos hpos2
      simp only [color_node] at hcl
      obtain ⟨⟨_, rfl⟩, _⟩ := hcl
      exact n3 ⟨cc, v, a, u, b, rfl⟩

theorem fuse_loop_empty_left (n : Nat) (r : RedBlackTree) :
    fuse_loop (n + 1) empty r = some r := by
  simp [fuse_loop]

theorem fuse_loop_empty_right (n : Nat) (l : RedBlackTree) :
    fuse_loop (n + 1) l empty = some l := by
  cases l <;> simp [fuse_loop]

theorem fuse_loop_black_red (n : Nat) (ll : RedBlackTree) (lx : NodeData)
    (lr rl : RedBlackTree) (rx : NodeData) (rr : RedBlackTree) :
    fuse_loop (n + 1) (node Color.Black ll lx lr) (node Color.Red rl rx rr)
      = (fuse_loop n (node Color.Black ll lx lr) rl).bind
          (fun f => some (ctor Color.Red f rx rr)) := by
  simp [fuse_loop]

theorem fuse_loop_red_black (n : Nat) (ll : RedBlackTree) (lx : NodeData)
    (lr rl : RedBlackTree) (rx : NodeData) (rr : RedBlackTree) :
    fuse_loop (n + 1) (node Color.Red ll lx lr) (node Color.Black rl rx rr)
      = (fuse_loop n lr (node Color.Black rl rx rr)).bind
          (fun f => some (ctor Color.Red ll lx f)) := by
  simp [fuse_loop]

theorem fuse_loop_red_red (n : Nat) (ll : RedBlackTree) (lx : NodeData)
    (lr rl : RedBlackTree) (rx : NodeData) (rr : RedBlackTree) :
    fuse_loop (n + 1) (node Color.Red ll lx lr) (node Color.Red rl rx rr)
      = (fuse_loop n lr rl).bind (fun fused =>
          match fused with
          | node Color.Red fl fx fr =>
            some (ctor Color.Red (ctor Color.Red ll lx fl) fx (ctor Color.Red fr rx rr))
          | _ => some (ctor Color.Red ll lx (ctor Color.Red fused rx rr))) := by
  simp only [fuse_loop, is_empty_node, Bool.false_eq_true, ↓reduceIte, root_color_node,
    left_node, root_node, right_node, Option.bind_eq_bind, Option.some_bind, reduceCtorEq,
    false_and, and_self, true_and, and_false]
  congr 1
  funext fused
  cases fused with
  | empty => simp
  | node fc fl fx fr => cases fc <;> simp

theorem fuse_loop_black_black (n : Nat) (ll : RedBlackTree) (lx : NodeData)
    (lr rl : RedBlackTree) (rx : NodeData) (rr : RedBlackTree) :
    fuse_loop (n + 1) (node Color.Black ll lx lr) (node Color.Black rl rx rr)
      = (fuse_loop n lr rl).bind (fun fused =>
          match fused with
          | node Color.Red fl fx fr =>
            some (ctor Color.Red (ctor Color.Black ll lx fl) fx (ctor Color.Black fr rx rr))
          | _ => balance_left (ctor Color.Red ll lx (ctor Color.Black fused rx rr))) := by
  simp only [fuse_loop, is_empty_node, Bool.false_eq_true, ↓reduceIte, root_color_node,
    left_node, root_node, right_node, Option.bind_eq_bind, Option.some_bind, reduceCtorEq,
    false_and, and_self, true_and, and_false]
  congr 1
  funext fused
  cases fused with
  | empty => simp
  | node fc fl fx fr => cases fc <;> simp

theorem fuse_loop_red_red_of_red {n : Nat} {ll : RedBlackTree} {lx : NodeData}
    {lr rl : RedBlackTree} {rx : NodeData} {rr fl : RedBlackTree} {fx : NodeData}
    {fr : RedBlackTree} (hf : fuse_loop n lr rl = some (node Color.Red fl fx fr)) :
    fuse_loop (n + 1) (node Color.Red ll lx lr) (node Color.Red rl rx rr)
      = some (ctor Color.Red (ctor Color.Red ll lx fl) fx (ctor Color.Red fr rx rr)) := by
  rw [fuse_loop_red_red, hf, Option.some_bind]

theorem fuse_loop_red_red_of_not_red {n : Nat} {ll : RedBlackTree} {lx : NodeData}
    {lr rl : RedBlackTree} {rx : NodeData} {rr fused : RedBlackTree}
    (hf : fuse_loop n lr rl = some fused)
    (hred : ¬ ∃ fl fx fr, fused = node Color.Red fl fx fr) :
    fuse_loop (n + 1) (node Color.Red ll lx lr) (node Color.Red rl rx rr)
      = some (ctor Color.Red ll lx (ctor Color.Red fused rx rr)) := by
  rw [fuse_loop_red_red, hf, Option.some_bind]
  cases fused with
  | empty => rfl
  | node fc fl fx fr =>
    cases fc with
    | Red => exact absurd ⟨fl, fx, fr, rfl⟩ hred
    | Black => rfl
    | DoubleBlack => rfl

theorem fuse_loop_black_black_of_red {n : Nat} {ll : RedBlackTree} {lx : NodeData}
    {lr rl : RedBlackTree} {rx : NodeData} {rr fl : RedBlackTree} {fx : NodeData}
    {fr : RedBlackTree} (hf : fuse_loop n lr rl = some (node Color.Red fl fx fr)) :
    fuse_loop (n + 1) (node Color.Black ll lx lr) (node Color.Black rl rx rr)
      = some (ctor Color.Red (ctor Color.Black ll lx fl) fx (ctor Color.Black fr rx rr)) := by
  rw [fuse_loop_black_black, hf, Option.some_bind]

theorem fuse_loop_black_black_of_not_red {n : Nat} {ll : RedBlackTree} {lx : NodeData}
    {lr rl : RedBlackTree} {rx : NodeData} {rr fused : RedBlackTree}
    (hf : fuse_loop n lr rl = some fused)
    (hred : ¬ ∃ fl fx fr, fused = node Color.Red fl fx fr) :
    fuse_loop (n + 1) (node Color.Black ll lx lr) (node Color.Black rl rx rr)
      = balance_left (ctor Color.Red ll lx (ctor Color.Black fused rx rr)) := by
  rw [fuse_loop_black_black, hf, Option.some_bind]
  cases fused with
  | empty => rfl
  | node fc fl fx fr =>
    cases fc with
    | Red => exact absurd ⟨fl, fx, fr, rfl⟩ hred
    | Black => rfl
    | DoubleBlack => rfl

/-- What `fuse` returns on two trees of equal black height: the concatenation of both, of
the same black height. -/
theorem fuse_loop_spec : ∀ (fuel : Nat) (l r : RedBlackTree), size l + size r < fuel →
    invh l = true → invh r = true → bheight l = bheight r →
    invc l = true → invc r = true →
    ∃ t, fuse_loop fuel l r = some t ∧ toList t = toList l ++ toList r ∧
      (Aug l = true → Aug r = true → Aug t = true) ∧ invh t = true ∧
      bheight t = bheight l ∧ invc2 t = true ∧
      (color l = Color.Black → color r = Color.Black → invc t = true) := by
  intro fuel
  induction fuel with
  | zero => intro l r h; omega
  | succ n ih =>
    intro l r hsz hhl hhr hb hcl hcr
    cases l with
    | empty =>
      refine ⟨r, fuse_loop_empty_left n r, by simp, fun _ h => h, hhr, hb.symm,
        invc_imp_invc2 hcr, fun _ _ => hcr⟩
    | node lc ll lx lr =>
      cases r with
      | empty =>
        refine ⟨_, fuse_loop_empty_right n _, by simp, fun h _ => h, hhl, rfl,
          invc_imp_invc2 hcl, fun _ _ => hcl⟩
      | node rc rl rx rr =>
        simp only [size_node] at hsz
        have hcl0 := hcl
        have hcr0 := hcr
        rw [invc_node] at hcl hcr
        rw [invh_node] at hhl hhr
        obtain ⟨hlc, hcll, hclr⟩ := hcl
        obtain ⟨hrc, hcrl, hcrr⟩ := hcr
        obtain ⟨hbl, hhll, hhlr⟩ := hhl
        obtain ⟨hbr, hhrl, hhrr⟩ := hhr
        rcases hlc with rfl | ⟨rfl, hll_b, hlr_b⟩ <;> rcases hrc with rfl | ⟨rfl, hrl_b, hrr_b⟩
        · -- black, black
          simp only [bheight_black] at hb
          obtain ⟨fused, hf, f1, f2, f3, f4, f5, f6⟩ :=
            ih lr rl (by omega) hhlr hhrl (by omega) hclr hcrl
          by_cases hred : ∃ fl fx fr, fused = node Color.Red fl fx fr
          · obtain ⟨fl, fx, fr, rfl⟩ := hred
            rw [fuse_loop_black_black_of_red hf]
            simp only [toList_node] at f1
            simp only [invh_node, bheight_red] at f3 f4
            rw [invc2_node] at f5
            refine ⟨_, rfl, ?_, ?_, ?_, ?_, ?_, ?_⟩
            · simp only [toList_ctor, toList_node, List.append_assoc, List.cons_append]
              rw [← List.append_assoc (toList lr), ← f1]
              simp
            · intro hal har
              rw [Aug_node] at hal har
              have hfa := f2 hal.2.2.2 har.2.2.1
              rw [Aug_node] at hfa
              exact Aug_ctor _ _ (Aug_ctor _ _ hal.2.2.1 hfa.2.2.1)
                (Aug_ctor _ _ hfa.2.2.2 har.2.2.2)
            · simp only [invh_ctor, bheight_ctor_black]
              exact ⟨by omega, ⟨by omega, hhll, f3.2.1⟩, by omega, f3.2.2, hhrr⟩
            · simp only [bheight_ctor_red, bheight_ctor_black, bheight_black]
            · rw [invc2_ctor, invc_ctor, invc_ctor]
              exact ⟨Or.inr rfl, ⟨Or.inl rfl, hcll, f5.2.1⟩, Or.inl rfl, f5.2.2, hcrr⟩
            · intro _ _
              rw [invc_ctor, invc_ctor, invc_ctor]
              exact ⟨Or.inr ⟨rfl, rfl, rfl⟩, ⟨Or.inl rfl, hcll, f5.2.1⟩, Or.inl rfl,
                f5.2.2, hcrr⟩
          · have hfi : invc fused = true := invc_of_invc2_not_red f5 hred
            rw [fuse_loop_black_black_of_not_red hf hred]
            obtain ⟨t, ht, i1, i2, i3, i4⟩ := balance_left_inv Color.Red (l := ll)
              (attribute_of lx ll) (r := ctor Color.Black fused rx rr) hhll
              (by rw [invh_ctor]; exact ⟨by omega, f3, hhrr⟩)
              (by simp only [bheight_ctor_black]; omega) (invc_imp_invc2 hcll)
              (by rw [invc_ctor]; exact ⟨Or.inl rfl, hfi, hcrr⟩)
            have ht2 : balance_left (ctor Color.Red ll lx (ctor Color.Black fused rx rr))
                = some t := ht
            refine ⟨t, ht2, ?_, ?_, i1, ?_, i3, fun _ _ => i4 rfl⟩
            · rw [balance_left_toList ht]
              simp [f1]
            · intro hal har
              rw [Aug_node] at hal har
              refine balance_left_Aug ?_ ht
              exact Aug_ctor _ _ hal.2.2.1
                (Aug_ctor _ _ (f2 hal.2.2.2 har.2.2.1) har.2.2.2)
            · simp only [bheight_ctor_black, bheight_black] at i2 ⊢
              omega
        · -- black, red
          simp only [bheight_black, bheight_red] at hb
          obtain ⟨f, hf, f1, f2, f3, f4, f5, f6⟩ :=
            ih (node Color.Black ll lx lr) rl (by simp only [size_node]; omega)
              ((invh_node _ _ _ _).2 ⟨hbl, hhll, hhlr⟩) hhrl
              (by simp only [bheight_black]; omega) hcl0 hcrl
          rw [fuse_loop_black_red, hf, Option.some_bind]
          simp only [bheight_black] at f4
          refine ⟨_, rfl, ?_, ?_, ?_, ?_, ?_, ?_⟩
          · simp only [toList_ctor, f1, toList_node, List.append_assoc]
          · intro hal har
            rw [Aug_node] at har
            exact Aug_ctor _ _ (f2 hal har.2.2.1) har.2.2.2
          · rw [invh_ctor]
            exact ⟨by omega, f3, hhrr⟩
          · simp only [bheight_ctor_red, bheight_black]
            omega
          · rw [invc2_ctor]
            exact ⟨Or.inr rfl, f6 rfl hrl_b, hcrr⟩
          · intro _ h
            simp at h
        · -- red, black
          simp only [bheight_black, bheight_red] at hb
          obtain ⟨f, hf, f1, f2, f3, f4, f5, f6⟩ :=
            ih lr (node Color.Black rl rx rr) (by simp only [size_node]; omega) hhlr
              ((invh_node _ _ _ _).2 ⟨hbr, hhrl, hhrr⟩)
              (by simp only [bheight_black]; omega) hclr hcr0
          rw [fuse_loop_red_black, hf, Option.some_bind]
          refine ⟨_, rfl, ?_, ?_, ?_, ?_, ?_, ?_⟩
          · simp only [toList_ctor, f1, toList_node, List.append_assoc, List.cons_append]
          · intro hal har
            rw [Aug_node] at hal
            exact Aug_ctor _ _ hal.2.2.1 (f2 hal.2.2.2 har)
          · rw [invh_ctor]
            exact ⟨by omega, hhll, f3⟩
          · simp only [bheight_ctor_red, bheight_red]
          · rw [invc2_ctor]
            exact ⟨Or.inr rfl, hcll, f6 hlr_b rfl⟩
          · intro h _
            simp at h
        · -- red, red
          simp only [bheight_red] at hb
          obtain ⟨fused, hf, f1, f2, f3, f4, f5, f6⟩ :=
            ih lr rl (by omega) hhlr hhrl (by omega) hclr hcrl
          have hfi : invc fused = true := f6 hlr_b hrl_b
          by_cases hred : ∃ fl fx fr, fused = node Color.Red fl fx fr
          · obtain ⟨fl, fx, fr, rfl⟩ := hred
            rw [fuse_loop_red_red_of_red hf]
            simp only [toList_node] at f1
            simp only [invh_node, bheight_red] at f3 f4
            simp only [invc_node, reduceCtorEq, false_or, true_and] at hfi
            refine ⟨_, rfl, ?_, ?_, ?_, ?_, ?_, ?_⟩
            · simp only [toList_ctor, toList_node, List.append_assoc, List.cons_append]
              rw [← List.append_assoc (toList lr), ← f1]
              simp
            · intro hal har
              rw [Aug_node] at hal har
              have hfa := f2 hal.2.2.2 har.2.2.1
              rw [Aug_node] at hfa
              exact Aug_ctor _ _ (Aug_ctor _ _ hal.2.2.1 hfa.2.2.1)
                (Aug_ctor _ _ hfa.2.2.2 har.2.2.2)
            · simp only [invh_ctor, bheight_ctor_red]
              exact ⟨by omega, ⟨by omega, hhll, f3.2.1⟩, by omega, f3.2.2, hhrr⟩
            · simp only [bheight_ctor_red, bheight_red]
            · rw [invc2_ctor, invc_ctor, invc_ctor]
              exact ⟨Or.inr rfl, ⟨Or.inr ⟨rfl, hll_b, hfi.1.1⟩, hcll, hfi.2.1⟩,
                Or.inr ⟨rfl, hfi.1.2, hrr_b⟩, hfi.2.2, hcrr⟩
            · intro h _
              simp at h
          · have hfb : color fused = Color.Black := by
              cases fused with
              | empty => rfl
              | node fc fl fx fr =>
                rcases color_cases_of_invc2 f5 with rfl | rfl
                · rfl
                · exact absurd ⟨fl, fx, fr, rfl⟩ hred
            rw [fuse_loop_red_red_of_not_red hf hred]
            refine ⟨_, rfl, ?_, ?_, ?_, ?_, ?_, ?_⟩
            · simp only [toList_ctor, f1, toList_node, List.append_assoc, List.cons_append]
            · intro hal har
              rw [Aug_node] at hal har
              exact Aug_ctor _ _ hal.2.2.1
                (Aug_ctor _ _ (f2 hal.2.2.2 har.2.2.1) har.2.2.2)
            · simp only [invh_ctor, bheight_ctor_red]
              exact ⟨by omega, hhll, by omega, f3, hhrr⟩
            · simp only [bheight_ctor_red, bheight_red]
            · rw [invc2_ctor, invc_ctor]
              exact ⟨Or.inr rfl, hcll, Or.inr ⟨rfl, hfb, hrr_b⟩, hfi, hcrr⟩
            · intro h _
              simp at h

/-- What `RedBlackTree::fuse` returns. -/
theorem fuse_spec {l r : RedBlackTree} (hhl : invh l = true) (hhr : invh r = true)
    (hb : bheight l = bheight r) (hcl : invc l = true) (hcr : invc r = true) :
    ∃ t, fuse l r = some t ∧ toList t = toList l ++ toList r ∧
      (Aug l = true → Aug r = true → Aug t = true) ∧ invh t = true ∧
      bheight t = bheight l ∧ invc2 t = true ∧
      (color l = Color.Black → color r = Color.Black → invc t = true) :=
  fuse_loop_spec _ l r (Nat.lt_succ_self _) hhl hhr hb hcl hcr

end RedBlackTree

end PieceTree


namespace PieceTree

theorem remList_append_lt (at_ : Nat) (A B : List Piece) (total : Nat)
    (h : at_ < total + sumLen A) :
    remList at_ (A ++ B) total = remList at_ A total ++ B := by
  induction A generalizing total with
  | nil =>
    simp only [sumLen_nil, Nat.add_zero] at h
    cases B with
    | nil => rfl
    | cons p ps =>
      simp only [List.nil_append, RedBlackTree.remList_cons, RedBlackTree.remList_nil]
      rw [if_neg (by omega), if_pos h]
  | cons a A ih =>
    simp only [sumLen_cons] at h
    rw [List.cons_append, RedBlackTree.remList_cons, RedBlackTree.remList_cons]
    split
    · rfl
    · split
      · rfl
      · rw [ih (total + a.length) (by omega)]
        rfl

theorem remList_append_eq (at_ : Nat) (A : List Piece) (p : Piece) (B : List Piece)
    (total : Nat) (h : at_ = total + sumLen A) (hpos : ∀ q ∈ A, 0 < q.length) :
    remList at_ (A ++ p :: B) total = A ++ B := by
  induction A generalizing total with
  | nil =>
    simp only [sumLen_nil, Nat.add_zero] at h
    simp [RedBlackTree.remList_cons, h]
  | cons a A ih =>
    simp only [sumLen_cons] at h
    have ha : 0 < a.length := hpos a (List.mem_cons_self _ _)
    rw [List.cons_append, RedBlackTree.remList_cons, if_neg (by omega), if_neg (by omega),
      ih (total + a.length) (by omega) (fun q hq => hpos q (List.mem_cons_of_mem _ hq))]
    rfl

theorem remList_append_gt (at_ : Nat) (A : List Piece) (p : Piece) (B : List Piece)
    (total : Nat) (h : total + sumLen A < at_) :
    remList at_ (A ++ p :: B) total
      = A ++ p :: remList at_ B (total + sumLen A + p.length) := by
  induction A generalizing total with
  | nil =>
    simp only [sumLen_nil, Nat.add_zero] at h
    simp only [List.nil_append, RedBlackTree.remList_cons, sumLen_nil, Nat.add_zero]
    rw [if_neg (by omega), if_neg (by omega)]
  | cons a A ih =>
    simp only [sumLen_cons] at h
    rw [List.cons_append, RedBlackTree.remList_cons, if_neg (by omega), if_neg (by omega),
      ih (total + a.length) (by omega)]
    simp only [sumLen_cons, List.cons_append]
    rw [show total + a.length + sumLen A + p.length
        = total + (a.length + sumLen A) + p.length by omega]

namespace RedBlackTree

theorem remove_left_black (c : Color) (a : RedBlackTree) (u : NodeData)
    (b : RedBlackTree) (y : NodeData) (r nl : RedBlackTree) :
    remove_left (node c (node Color.Black a u b) y r) nl
      = balance_left (ctor Color.Red nl y r) := by
  simp [remove_left]

theorem remove_left_not_black (c : Color) {l : RedBlackTree} (y : NodeData)
    (r nl : RedBlackTree) (h : ¬ ∃ a u b, l = node Color.Black a u b) :
    remove_left (node c l y r) nl = some (ctor Color.Red nl y r) := by
  unfold remove_left
  simp only [root_node, right_node, left_node, Option.bind_eq_bind, Option.some_bind,
    black_cond_false h, Bool.false_eq_true, ↓reduceIte]
  rfl

theorem remove_right_black (c : Color) (l : RedBlackTree) (y : NodeData)
    (a : RedBlackTree) (u : NodeData) (b nr : RedBlackTree) :
    remove_right (node c l y (node Color.Black a u b)) nr
      = balance_right (ctor Color.Red l y nr) := by
  simp [remove_right]

theorem remove_right_not_black (c : Color) (l : RedBlackTree) (y : NodeData)
    {r : RedBlackTree} (nr : RedBlackTree) (h : ¬ ∃ a u b, r = node Color.Black a u b) :
    remove_right (node c l y r) nr = some (ctor Color.Red l y nr) := by
  unfold remove_right
  simp only [root_node, right_node, left_node, Option.bind_eq_bind, Option.some_bind,
    black_cond_false h, Bool.false_eq_true, ↓reduceIte]
  rfl

theorem remPieces_node (c : Color) (l : RedBlackTree) (y : NodeData) (r : RedBlackTree)
    (at_ total : Nat) :
    remPieces (node c l y r) at_ total =
      if at_ < total + y.left_subtree_length then
        remPieces l at_ total ++ y.piece :: toList r
      else if at_ = total + y.left_subtree_length then toList l ++ toList r
      else toList l ++ y.piece ::
        remPieces r at_ (total + y.left_subtree_length + y.piece.length) := rfl

theorem rem_node (c : Color) (l : RedBlackTree) (y : NodeData) (r : RedBlackTree)
    (at_ total : Nat) :
    rem (node c l y r) at_ total =
      if at_ < total + y.left_subtree_length then
        (rem l at_ total).bind (fun new_left => remove_left (node c l y r) new_left)
      else if at_ = total + y.left_subtree_length then fuse l r
      else (rem r at_ (total + y.left_subtree_length + y.piece.length)).bind
        (fun new_right => remove_right (node c l y r) new_right) := rfl

/-- The shape of a tree that satisfies the colour invariant: empty, red or black. -/
theorem shape_of_invc2 (t : RedBlackTree) (h : invc2 t = true) :
    t = empty ∨ (∃ a u b, t = node Color.Red a u b) ∨ (∃ a u b, t = node Color.Black a u b) := by
  cases t with
  | empty => exact Or.inl rfl
  | node c a u b =>
    rcases color_cases_of_invc2 h with rfl | rfl
    · exact Or.inr (Or.inr ⟨a, u, b, rfl⟩)
    · exact Or.inr (Or.inl ⟨a, u, b, rfl⟩)

/-- What `rem` returns: the invariants of Kahrs-style removal and the list of pieces that
is left. -/
theorem rem_spec : ∀ (t : RedBlackTree) (at_ total : Nat), invh t = true → invc t = true →
    ∃ t1, rem t at_ total = some t1 ∧ invh t1 = true ∧ invc2 t1 = true ∧
      (color t = Color.Red → bheight t1 = bheight t ∧ invc t1 = true) ∧
      (color t = Color.Black → bheight t1 = bheight t - 1) ∧
      (toList t1).Sublist (toList t) ∧
      toList t1 = remPieces t at_ total ∧
      (Aug t = true → Aug t1 = true ∧
        ((∀ p ∈ toList t, 0 < p.length) → toList t1 = remList at_ (toList t) total)) := by
  intro t
  induction t with
  | empty =>
    intro at_ total _ _
    exact ⟨empty, rfl, rfl, rfl, fun h => by simp at h, fun _ => rfl, List.Sublist.refl _,
      rfl, fun _ => ⟨rfl, fun _ => rfl⟩⟩
  | node c l y r ihl ihr =>
    intro at_ total hh hc
    have hc0 := hc
    rw [invc_node] at hc
    rw [invh_node] at hh
    obtain ⟨hcol, hcl, hcr⟩ := hc
    obtain ⟨hb, hhl, hhr⟩ := hh
    rw [rem_node]
    by_cases h1 : at_ < total + y.left_subtree_length
    · rw [if_pos h1]
      obtain ⟨nl, hnl, j1, j2, j3, j4, j5, j7, j6⟩ := ihl at_ total hhl hcl
      rw [hnl, Option.some_bind]
      have hpure : ∀ t1, toList t1 = toList nl ++ y.piece :: toList r →
          toList t1 = remPieces (node c l y r) at_ total := by
        intro t1 ht1
        rw [ht1, remPieces_node, if_pos h1, j7]
      have hlist : ∀ t1, toList t1 = toList nl ++ y.piece :: toList r →
          (toList t1).Sublist (toList (node c l y r)) ∧
          (Aug (node c l y r) = true → (∀ p ∈ toList (node c l y r), 0 < p.length) →
            toList t1 = remList at_ (toList (node c l y r)) total) := by
        intro t1 ht1
        rw [ht1, toList_node]
        refine ⟨List.Sublist.append j5 (List.Sublist.refl _), ?_⟩
        intro ha hp
        rw [Aug_node] at ha
        rw [remList_append_lt _ _ _ _ (by rw [← ha.1]; exact h1),
          (j6 ha.2.2.1).2 (fun p hp2 => hp p (by simp [hp2]))]
      rcases shape_of_invc2 l (invc_imp_invc2 hcl) with rfl | ⟨a, u, b, rfl⟩ | ⟨a, u, b, rfl⟩
      · -- the left subtree is empty
        simp only [rem, Option.some.injEq] at hnl
        subst hnl
        rw [remove_left_not_black _ _ _ _ (by simp)]
        simp only [bheight_empty] at hb
        refine ⟨_, rfl, ?_, ?_, ?_, ?_, (hlist _ (by simp)).1, hpure _ (by simp), ?_⟩
        · rw [invh_ctor]; exact ⟨hb, rfl, hhr⟩
        · rw [invc2_ctor]; exact ⟨Or.inr rfl, rfl, hcr⟩
        · intro hcr2
          simp only [color_node] at hcr2
          subst hcr2
          simp only [reduceCtorEq, false_or, true_and, color_empty] at hcol
          refine ⟨by simp, ?_⟩
          rw [invc_ctor]
          exact ⟨Or.inr ⟨rfl, rfl, hcol⟩, rfl, hcr⟩
        · intro hcb
          simp only [color_node] at hcb
          subst hcb
          simp
        · intro ha
          have ha2 := (Aug_node _ _ _ _).1 ha
          exact ⟨Aug_ctor _ _ rfl ha2.2.2.2, (hlist _ (by simp)).2 ha⟩
      · -- the left subtree is red
        rw [remove_left_not_black _ _ _ _ (by simp)]
        obtain ⟨k1, k2⟩ := j3 rfl
        have hcb : c = Color.Black := by
          rcases hcol with h | h
          · exact h
          · simp at h
        subst hcb
        refine ⟨_, rfl, ?_, ?_, ?_, ?_, (hlist _ (by simp)).1, hpure _ (by simp), ?_⟩
        · rw [invh_ctor]; exact ⟨by omega, j1, hhr⟩
        · rw [invc2_ctor]; exact ⟨Or.inr rfl, k2, hcr⟩
        · intro h; simp at h
        · intro _
          simp only [bheight_ctor_red, bheight_black]
          omega
        · intro ha
          have ha2 := (Aug_node _ _ _ _).1 ha
          exact ⟨Aug_ctor _ _ (j6 ha2.2.2.1).1 ha2.2.2.2, (hlist _ (by simp)).2 ha⟩
      · -- the left subtree is black
        rw [remove_left_black]
        have k1 := j4 rfl
        simp only [bheight_black, Nat.add_sub_cancel] at k1 hb
        obtain ⟨t1, ht1, i1, i2, i3, i4⟩ := balance_left_inv Color.Red (l := nl)
          (attribute_of y nl) (r := r) j1 hhr (by omega) j2 hcr
        have ht2 : balance_left (ctor Color.Red nl y r) = some t1 := ht1
        have hl1 : toList t1 = toList nl ++ y.piece :: toList r := by
          rw [balance_left_toList ht1]; rfl
        refine ⟨t1, ht2, i1, i3, ?_, ?_, (hlist _ hl1).1, hpure _ hl1, ?_⟩
        · intro hcr2
          simp only [color_node] at hcr2
          subst hcr2
          simp only [reduceCtorEq, false_or, true_and, color_node] at hcol
          refine ⟨?_, i4 hcol⟩
          simp only [bheight_red, bheight_black]
          omega
        · intro hcb
          simp only [color_node] at hcb
          subst hcb
          simp only [bheight_black]
          omega
        · intro ha
          have ha2 := (Aug_node _ _ _ _).1 ha
          exact ⟨balance_left_Aug (Aug_ctor _ _ (j6 ha2.2.2.1).1 ha2.2.2.2) ht1,
            (hlist _ hl1).2 ha⟩
    · rw [if_neg h1]
      by_cases h2 : at_ = total + y.left_subtree_length
      · rw [if_pos h2]
        obtain ⟨t1, ht1, f1, f2, f3, f4, f5, f6⟩ := fuse_spec hhl hhr hb hcl hcr
        refine ⟨t1, ht1, f3, f5, ?_, ?_, ?_, ?_, ?_⟩
        · intro hcr2
          simp only [color_node] at hcr2
          subst hcr2
          simp only [reduceCtorEq, false_or, true_and] at hcol
          exact ⟨by simp only [bheight_red]; exact f4, f6 hcol.1 hcol.2⟩
        · intro hcb
          simp only [color_node] at hcb
          subst hcb
          simp only [bheight_black, Nat.add_sub_cancel]
          exact f4
        · rw [f1, toList_node]
          exact List.Sublist.append (List.Sublist.refl _) (List.sublist_cons_self _ _)
        · rw [f1, remPieces_node, if_neg h1, if_pos h2]
        · intro ha
          have ha2 := (Aug_node _ _ _ _).1 ha
          refine ⟨f2 ha2.2.2.1 ha2.2.2.2, fun hp => ?_⟩
          rw [f1, toList_node, remList_append_eq _ _ _ _ _ (by rw [← ha2.1]; exact h2)
            (fun p hp2 => hp p (by simp [hp2]))]
      · rw [if_neg h2]
        obtain ⟨nr, hnr, j1, j2, j3, j4, j5, j7, j6⟩ :=
          ihr at_ (total + y.left_subtree_length + y.piece.length) hhr hcr
        rw [hnr, Option.some_bind]
        have hpure : ∀ t1, toList t1 = toList l ++ y.piece :: toList nr →
            toList t1 = remPieces (node c l y r) at_ total := by
          intro t1 ht1
          rw [ht1, remPieces_node, if_neg h1, if_neg h2, j7]
        have hlist : ∀ t1, toList t1 = toList l ++ y.piece :: toList nr →
            (toList t1).Sublist (toList (node c l y r)) ∧
            (Aug (node c l y r) = true → (∀ p ∈ toList (node c l y r), 0 < p.length) →
              toList t1 = remList at_ (toList (node c l y r)) total) := by
          intro t1 ht1
          rw [ht1, toList_node]
          refine ⟨List.Sublist.append (List.Sublist.refl _) (List.Sublist.cons₂ _ j5), ?_⟩
          intro ha hp
          rw [Aug_node] at ha
          rw [remList_append_gt _ _ _ _ _ (by rw [← ha.1]; omega),
            (j6 ha.2.2.2).2 (fun p hp2 => hp p (by simp [hp2])), ← ha.1]
        rcases shape_of_invc2 r (invc_imp_invc2 hcr) with rfl | ⟨a, u, b, rfl⟩ | ⟨a, u, b, rfl⟩
        · -- the right subtree is empty
          simp only [rem, Option.some.injEq] at hnr
          subst hnr
          rw [remove_right_not_black _ _ _ _ (by simp)]
          simp only [bheight_empty] at hb
          refine ⟨_, rfl, ?_, ?_, ?_, ?_, (hlist _ (by simp)).1, hpure _ (by simp), ?_⟩
          · rw [invh_ctor]; exact ⟨hb, hhl, rfl⟩
          · rw [invc2_ctor]; exact ⟨Or.inr rfl, hcl, rfl⟩
          · intro hcr2
            simp only [color_node] at hcr2
            subst hcr2
            simp only [reduceCtorEq, false_or, true_and, color_empty] at hcol
            refine ⟨by simp, ?_⟩
            rw [invc_ctor]
            exact ⟨Or.inr ⟨rfl, hcol.1, rfl⟩, hcl, rfl⟩
          · intro hcb
            simp only [color_node] at hcb
            subst hcb
            simp
          · intro ha
            have ha2 := (Aug_node _ _ _ _).1 ha
            exact ⟨Aug_ctor _ _ ha2.2.2.1 rfl, (hlist _ (by simp)).2 ha⟩
        · -- the right subtree is red
          rw [remove_right_not_black _ _ _ _ (by simp)]
          obtain ⟨k1, k2⟩ := j3 rfl
          have hcb : c = Color.Black := by
            rcases hcol with h | h
            · exact h
            · simp at h
          subst hcb
          refine ⟨_, rfl, ?_, ?_, ?_, ?_, (hlist _ (by simp)).1, hpure _ (by simp), ?_⟩
          · rw [invh_ctor]; exact ⟨by omega, hhl, j1⟩
          · rw [invc2_ctor]; exact ⟨Or.inr rfl, hcl, k2⟩
          · intro h; simp at h
          · intro _
            simp only [bheight_ctor_red, bheight_black]
            omega
          · intro ha
            have ha2 := (Aug_node _ _ _ _).1 ha
            exact ⟨Aug_ctor _ _ ha2.2.2.1 (j6 ha2.2.2.2).1, (hlist _ (by simp)).2 ha⟩
        · -- the right subtree is black
          rw [remove_right_black]
          have k1 := j4 rfl
          simp only [bheight_black, Nat.add_sub_cancel] at k1 hb
          obtain ⟨t1, ht1, i1, i2, i3, i4⟩ := balance_right_inv Color.Red (l := l)
            (attribute_of y l) (r := nr) hhl j1 (by omega) hcl j2
          have ht2 : balance_right (ctor Color.Red l y nr) = some t1 := ht1
          have hl1 : toList t1 = toList l ++ y.piece :: toList nr := by
            rw [balance_right_toList ht1]; rfl
          refine ⟨t1, ht2, i1, i3, ?_, ?_, (hlist _ hl1).1, hpure _ hl1, ?_⟩
          · intro hcr2
            simp only [color_node] at hcr2
            subst hcr2
            simp only [reduceCtorEq, false_or, true_and, color_node] at hcol
            refine ⟨?_, i4 hcol.1⟩
            simp only [bheight_red]
            omega
          · intro hcb
            simp only [color_node] at hcb
            subst hcb
            simp only [bheight_black]
            omega
          · intro ha
            have ha2 := (Aug_node _ _ _ _).1 ha
            exact ⟨balance_right_Aug (Aug_ctor _ _ ha2.2.2.1 (j6 ha2.2.2.2).1) ht1,
              (hlist _ hl1).2 ha⟩

/-- What `RedBlackTree::remove` returns on a red-black tree: a red-black tree whose pieces
are those of the argument without the piece that starts at `at_`. -/
theorem remove_spec (t : RedBlackTree) (at_ : Nat) (hv : rbValid t = true) :
    ∃ t1, remove t at_ = some t1 ∧ rbValid t1 = true ∧
      (toList t1).Sublist (toList t) ∧
      toList t1 = remPieces t at_ 0 ∧
      (Aug t = true → Aug t1 = true ∧
        ((∀ p ∈ toList t, 0 < p.length) → toList t1 = remList at_ (toList t) 0)) := by
  simp only [rbValid, Bool.and_eq_true, beq_iff_eq] at hv
  obtain ⟨t0, h0, j1, j2, j3, j4, j5, j7, j6⟩ := rem_spec t at_ 0 hv.2 hv.1.2
  cases t0 with
  | empty =>
    refine ⟨empty, by simp [remove, h0], rfl, j5, j7, j6⟩
  | node c l d r =>
    refine ⟨ctor Color.Black l d r, by simp [remove, h0], ?_, j5, j7, ?_⟩
    · rw [invh_node] at j1
      rw [invc2_node] at j2
      simp only [rbValid, Bool.and_eq_true, beq_iff_eq, color_ctor, true_and]
      rw [invc_ctor, invh_ctor]
      exact ⟨⟨Or.inl rfl, j2.2⟩, j1⟩
    · intro ha
      obtain ⟨k1, k2⟩ := j6 ha
      rw [Aug_node] at k1
      exact ⟨Aug_ctor _ _ k1.2.2.1 k1.2.2.2, k2⟩

end RedBlackTree

end PieceTree


namespace PieceTree

/-! ## Lemmas: line starts and cursors -/

theorem loop_nil (i : Nat) : populate_line_starts_loop [] i = [] := rfl

theorem loop_cons (c : CharT) (cs : List CharT) (i : Nat) :
    populate_line_starts_loop (c :: cs) i
      = if c = LF then (i + 1) :: populate_line_starts_loop cs (i + 1)
        else populate_line_starts_loop cs (i + 1) := rfl

theorem loop_shift (cs : List CharT) (i : Nat) :
    populate_line_starts_loop cs i = (populate_line_starts_loop cs 0).map (fun s => s + i) := by
  induction cs generalizing i with
  | nil => rfl
  | cons c cs ih =>
    simp only [populate_line_starts_loop]
    rw [ih (i + 1), ih (0 + 1)]
    split
    · simp only [List.map_cons, List.map_map, Nat.zero_add]
      congr 1
      · omega
      · apply List.map_congr_left
        intro a _
        simp only [Function.comp]
        omega
    · simp only [List.map_map]
      apply List.map_congr_left
      intro a _
      simp only [Function.comp]
      omega

theorem loop_append (a b : List CharT) (i : Nat) :
    populate_line_starts_loop (a ++ b) i
      = populate_line_starts_loop a i ++ populate_line_starts_loop b (i + a.length) := by
  induction a generalizing i with
  | nil => simp [loop_nil]
  | cons c cs ih =>
    rw [List.cons_append, loop_cons, loop_cons, List.length_cons]
    rw [ih (i + 1)]
    rw [show i + 1 + cs.length = i + (cs.length + 1) by omega]
    split <;> simp

theorem loop_length (cs : List CharT) (i : Nat) :
    (populate_line_starts_loop cs i).length = cs.count LF := by
  induction cs generalizing i with
  | nil => rfl
  | cons c cs ih =>
    simp only [populate_line_starts_loop, List.count_cons]
    split
    · rename_i h
      simp [ih, h]
    · rename_i h
      simp [ih, h]

theorem populate_line_starts_length (buf : List CharT) :
    (populate_line_starts buf).length = buf.count LF + 1 := by
  simp [populate_line_starts, loop_length]

theorem populate_line_starts_append (a b : List CharT) :
    populate_line_starts (a ++ b)
      = populate_line_starts a
          ++ ((populate_line_starts b).map (fun s => s + a.length)).drop 1 := by
  simp only [populate_line_starts, loop_append, List.map_cons, List.drop_succ_cons,
    List.drop_zero, List.cons_append, Nat.zero_add]
  rw [loop_shift b a.length]

/-- The `k`-th offset the loop records is at most `o` exactly when more than `k` line
feeds occur among the first `o` code units. -/
theorem loop_getD_le (cs : List CharT) (k o : Nat)
    (hk : k < (populate_line_starts_loop cs 0).length) :
    (populate_line_starts_loop cs 0).getD k 0 ≤ o ↔ k + 1 ≤ (cs.take o).count LF := by
  induction cs generalizing k o with
  | nil => simp [populate_line_starts_loop] at hk
  | cons c cs ih =>
    simp only [populate_line_starts_loop] at hk ⊢
    rw [loop_shift cs (0 + 1)] at hk ⊢
    cases o with
    | zero =>
      simp only [List.take_zero, List.count_nil, Nat.le_zero_eq, Nat.add_one_ne_zero,
        iff_false, not_le]
      split
      · cases k with
        | zero => simp
        | succ k =>
          rename_i hc
          rw [if_pos hc] at hk
          simp only [List.length_cons, List.length_map, Nat.add_lt_add_iff_right] at hk
          rw [List.getD_cons_succ, List.getD_eq_getElem _ _ (by simpa using hk)]
          simp
      · rename_i hc
        rw [if_neg hc] at hk
        simp only [List.length_map] at hk
        rw [List.getD_eq_getElem _ _ (by simpa using hk)]
        simp
    | succ o =>
      simp only [List.take_succ_cons, List.count_cons]
      split
      · rename_i hc
        rw [if_pos hc] at hk
        simp only [List.length_cons, List.length_map] at hk
        cases k with
        | zero => simp [hc]
        | succ k =>
          have hk2 : k < (populate_line_starts_loop cs 0).length := by omega
          rw [List.getD_cons_succ, List.getD_eq_getElem _ _ (by simpa using hk2)]
          have := ih k o hk2
          rw [List.getD_eq_getElem _ _ hk2] at this
          simp only [List.getElem_map, hc, beq_self_eq_true, ↓reduceIte]
          omega
      · rename_i hc
        rw [if_neg hc] at hk
        simp only [List.length_map] at hk
        rw [List.getD_eq_getElem _ _ (by simpa using hk)]
        have := ih k o hk
        rw [List.getD_eq_getElem _ _ hk] at this
        have hc2 : (c == LF) = false := by simpa using hc
        simp only [List.getElem_map, hc2, Bool.false_eq_true, ↓reduceIte, Nat.add_zero]
        omega

/-- The fundamental property of line starts: the `k`-th line starts at or before offset
`o` exactly when at least `k` line feeds occur among the first `o` code units. -/
theorem line_start_le_iff (buf : List CharT) (k o : Nat)
    (hk : k < (populate_line_starts buf).length) :
    (populate_line_starts buf).getD k 0 ≤ o ↔ k ≤ lfBefore buf o := by
  unfold populate_line_starts at hk ⊢
  cases k with
  | zero => simp
  | succ k =>
    simp only [List.length_cons, Nat.add_lt_add_iff_right] at hk
    rw [List.getD_cons_succ, loop_getD_le buf k o hk]
    rfl

theorem lfBefore_mono (buf : List CharT) {a b : Nat} (h : a ≤ b) :
    lfBefore buf a ≤ lfBefore buf b := by
  unfold lfBefore
  obtain ⟨d, rfl⟩ := Nat.exists_eq_add_of_le h
  rw [List.take_add, List.count_append]
  omega

theorem lfBefore_le_count (buf : List CharT) (o : Nat) : lfBefore buf o ≤ buf.count LF := by
  unfold lfBefore
  exact List.Sublist.count_le (List.take_sublist o buf) LF

theorem lfBefore_of_length_le (buf : List CharT) {o : Nat} (h : buf.length ≤ o) :
    lfBefore buf o = buf.count LF := by
  unfold lfBefore
  rw [List.take_of_length_le h]

theorem lfBefore_succ (buf : List CharT) (o : Nat) (h : o < buf.length) :
    lfBefore buf (o + 1) = lfBefore buf o + if buf.getD o 0 = LF then 1 else 0 := by
  unfold lfBefore
  rw [List.take_succ, List.count_append, List.getD_eq_getElem _ _ h, List.getElem?_eq_getElem h]
  simp [List.count_cons]

end PieceTree


namespace PieceTree

/-! ## Lemmas: canonical cursors, windows, `buffer_position` -/

theorem CharBuffer.line_starts_length {cb : CharBuffer} (h : cb.OK) :
    cb.line_starts.length = cb.buffer.count LF + 1 := by
  rw [h, populate_line_starts_length]

theorem CharBuffer.start_le_iff {cb : CharBuffer} (h : cb.OK) (k o : Nat)
    (hk : k < cb.line_starts.length) :
    cb.line_starts.getD k 0 ≤ o ↔ k ≤ lfBefore cb.buffer o := by
  rw [h] at hk ⊢
  exact line_start_le_iff cb.buffer k o hk

theorem CharBuffer.lfBefore_lt_length {cb : CharBuffer} (h : cb.OK) (o : Nat) :
    lfBefore cb.buffer o < cb.line_starts.length := by
  rw [CharBuffer.line_starts_length h]
  have := lfBefore_le_count cb.buffer o
  omega

/-- The line of a canonical cursor is the number of line feeds before its offset. -/
theorem CharBuffer.cursor_line {cb : CharBuffer} (h : cb.OK) {c : BufferCursor}
    (hc : cb.CursorOK c) : c.line = lfBefore cb.buffer (cb.offsetOf c) := by
  obtain ⟨h1, _, h3⟩ := hc
  have hle : c.line ≤ lfBefore cb.buffer (cb.offsetOf c) :=
    (CharBuffer.start_le_iff h c.line _ h1).1 (by unfold CharBuffer.offsetOf; omega)
  by_cases hn : c.line + 1 < cb.line_starts.length
  · have := h3 hn
    have h4 := (CharBuffer.start_le_iff h (c.line + 1) (cb.offsetOf c) hn)
    have : ¬ (c.line + 1 ≤ lfBefore cb.buffer (cb.offsetOf c)) := fun h5 => by
      have := h4.2 h5
      omega
    omega
  · have := CharBuffer.lfBefore_lt_length h (cb.offsetOf c)
    omega

theorem CharBuffer.cursorAt_offset {cb : CharBuffer} (h : cb.OK) (o : Nat) :
    cb.offsetOf (cb.cursorAt o) = o := by
  unfold CharBuffer.offsetOf CharBuffer.cursorAt
  have := (CharBuffer.start_le_iff h (lfBefore cb.buffer o) o
    (CharBuffer.lfBefore_lt_length h o)).2 (Nat.le_refl _)
  simp only
  omega

theorem CharBuffer.cursorAt_ok {cb : CharBuffer} (h : cb.OK) {o : Nat}
    (ho : o ≤ cb.buffer.length) : cb.CursorOK (cb.cursorAt o) := by
  refine ⟨CharBuffer.lfBefore_lt_length h o, ?_, ?_⟩
  · rw [CharBuffer.cursorAt_offset h]; exact ho
  · intro hn
    rw [CharBuffer.cursorAt_offset h]
    have h4 := (CharBuffer.start_le_iff h (lfBefore cb.buffer o + 1) o hn)
    by_contra hcon
    have := h4.1 (by simpa using hcon)
    omega

theorem CharBuffer.cursor_eq_cursorAt {cb : CharBuffer} (h : cb.OK) {c : BufferCursor}
    (hc : cb.CursorOK c) : c = cb.cursorAt (cb.offsetOf c) := by
  have hl := CharBuffer.cursor_line h hc
  cases c with
  | mk line column =>
    simp only [CharBuffer.cursorAt, BufferCursor.mk.injEq]
    simp only at hl
    refine ⟨hl, ?_⟩
    rw [← hl]
    simp [CharBuffer.offsetOf]

theorem buffer_offset_eq (b : BufferCollection) (idx : BufferIndex) (c : BufferCursor) :
    b.buffer_offset idx c = (b.buffer_at idx).offsetOf c := rfl

/-- The binary search of `buffer_position` finds the line of the offset. -/
theorem buffer_position_loop_eq {cb : CharBuffer} (h : cb.OK) (offset : Nat) :
    ∀ (fuel low high mid0 ms0 : Nat), low ≤ lfBefore cb.buffer offset →
      lfBefore cb.buffer offset ≤ high → high < cb.line_starts.length → high - low < fuel →
      Tree.buffer_position_loop cb.line_starts offset fuel low high mid0 ms0
        = (lfBefore cb.buffer offset, cb.line_starts.getD (lfBefore cb.buffer offset) 0) := by
  intro fuel
  induction fuel with
  | zero => intro low high mid0 ms0 _ _ _ h4; omega
  | succ n ih =>
    intro low high mid0 ms0 h1 h2 h3 h4
    unfold Tree.buffer_position_loop
    have hlh : low ≤ high := by omega
    rw [if_pos hlh]
    simp only
    by_cases hmid : low + (high - low) / 2 = high
    · rw [if_pos hmid]
      have : low = high := by omega
      have hL : lfBefore cb.buffer offset = high := by omega
      rw [hmid, hL]
    · rw [if_neg hmid]
      have hm1 : low + (high - low) / 2 < high := by omega
      have hm2 : low ≤ low + (high - low) / 2 := by omega
      have e1 := CharBuffer.start_le_iff h (low + (high - low) / 2) offset (by omega)
      have e2 := CharBuffer.start_le_iff h (low + (high - low) / 2 + 1) offset (by omega)
      by_cases hlt : offset < cb.line_starts.getD (low + (high - low) / 2) 0
      · rw [if_pos hlt]
        have hL : lfBefore cb.buffer offset < low + (high - low) / 2 := by
          by_contra hcon
          have := e1.2 (by omega)
          omega
        rw [retract_of_le (by omega)]
        exact ih _ _ _ _ h1 (by omega) (by omega) (by omega)
      · rw [if_neg hlt]
        by_cases hge : offset ≥ cb.line_starts.getD (low + (high - low) / 2 + 1) 0
        · rw [if_pos hge]
          have hL := e2.1 hge
          exact ih _ _ _ _ hL h2 h3 (by omega)
        · rw [if_neg hge]
          have hL1 := e1.1 (by omega)
          have hL2 : ¬ (low + (high - low) / 2 + 1 ≤ lfBefore cb.buffer offset) :=
            fun hcon => hge (e2.2 hcon)
          have hL : lfBefore cb.buffer offset = low + (high - low) / 2 := by omega
          rw [hL]

theorem BufferCollection.buffer_at_ok {b : BufferCollection} (hb : b.OK) {idx : BufferIndex}
    (hi : b.IndexOK idx) : (b.buffer_at idx).OK := by
  cases idx with
  | ModBuf => exact hb.2
  | Orig i =>
    simp only [BufferCollection.IndexOK] at hi
    simp only [BufferCollection.buffer_at]
    rw [List.getD_eq_getElem _ _ hi]
    exact hb.1 _ (List.getElem_mem _)

/-- A consistent piece is the window between the offsets of its two cursors. -/
theorem BufferCollection.piece_eq_window {b : BufferCollection} (hb : b.OK) {p : Piece}
    (hp : b.PieceOK p) :
    p = b.window p.index ((b.buffer_at p.index).offsetOf p.first)
          ((b.buffer_at p.index).offsetOf p.last) ∧
      b.WindowOK p.index ((b.buffer_at p.index).offsetOf p.first)
          ((b.buffer_at p.index).offsetOf p.last) := by
  obtain ⟨h1, h2, h3, h4, h5, h6⟩ := hp
  have hcb := BufferCollection.buffer_at_ok hb h1
  refine ⟨?_, h1, hcb, h4, h3.2.1⟩
  cases p with
  | mk index first last length newline_count =>
    simp only [BufferCollection.window, Piece.mk.injEq, true_and]
    simp only at h2 h3 h5 h6 hcb
    refine ⟨CharBuffer.cursor_eq_cursorAt hcb h2, CharBuffer.cursor_eq_cursorAt hcb h3, h5, ?_⟩
    rw [h6, ← CharBuffer.cursor_line hcb h2, ← CharBuffer.cursor_line hcb h3]

theorem BufferCollection.window_ok {b : BufferCollection} {idx : BufferIndex} {f l : Nat}
    (hw : b.WindowOK idx f l) : b.PieceOK (b.window idx f l) := by
  obtain ⟨h1, h2, h3, h4⟩ := hw
  refine ⟨h1, CharBuffer.cursorAt_ok h2 (by omega), CharBuffer.cursorAt_ok h2 h4, ?_, ?_, ?_⟩
  · simp only [BufferCollection.window]
    rw [CharBuffer.cursorAt_offset h2, CharBuffer.cursorAt_offset h2]
    exact h3
  · simp only [BufferCollection.window]
    rw [CharBuffer.cursorAt_offset h2, CharBuffer.cursorAt_offset h2]
  · simp only [BufferCollection.window, CharBuffer.cursorAt]

theorem BufferCollection.window_first_off {b : BufferCollection} {idx : BufferIndex}
    {f l : Nat} (hw : b.WindowOK idx f l) :
    b.buffer_offset idx (b.window idx f l).first = f :=
  CharBuffer.cursorAt_offset hw.2.1 f

theorem BufferCollection.window_last_off {b : BufferCollection} {idx : BufferIndex}
    {f l : Nat} (hw : b.WindowOK idx f l) :
    b.buffer_offset idx (b.window idx f l).last = l :=
  CharBuffer.cursorAt_offset hw.2.1 l

theorem BufferCollection.pieceText_window {b : BufferCollection} {idx : BufferIndex}
    {f l : Nat} (hw : b.WindowOK idx f l) :
    b.pieceText (b.window idx f l) = ((b.buffer_at idx).buffer.drop f).take (l - f) := by
  unfold BufferCollection.pieceText
  rw [show (b.window idx f l).index = idx from rfl, BufferCollection.window_first_off hw,
    BufferCollection.window_last_off hw]

/-- Embeds `buffer_position` on a window returns the canonical cursor of the offset. -/
theorem buffer_position_window {b : BufferCollection} {idx : BufferIndex} {f l : Nat}
    (hw : b.WindowOK idx f l) {rem : Nat} (hr : f + rem ≤ l) :
    Tree.buffer_position b (b.window idx f l) rem = (b.buffer_at idx).cursorAt (f + rem) := by
  obtain ⟨h1, h2, h3, h4⟩ := hw
  unfold Tree.buffer_position
  have hoff : (b.buffer_at idx).line_starts.getD (b.window idx f l).first.line 0
      + (b.window idx f l).first.column = f := CharBuffer.cursorAt_offset h2 f
  simp only [show (b.window idx f l).index = idx from rfl, hoff]
  have hfl : (b.window idx f l).first.line = lfBefore (b.buffer_at idx).buffer f := rfl
  have hll : (b.window idx f l).last.line = lfBefore (b.buffer_at idx).buffer l := rfl
  rw [hfl, hll]
  rw [buffer_position_loop_eq h2 (f + rem) _ _ _ _ _
    (lfBefore_mono _ (by omega)) (lfBefore_mono _ hr)
    (CharBuffer.lfBefore_lt_length h2 l) (by omega)]
  simp only [CharBuffer.cursorAt, BufferCursor.mk.injEq, true_and]
  have := (CharBuffer.start_le_iff h2 (lfBefore (b.buffer_at idx).buffer (f + rem)) (f + rem)
    (CharBuffer.lfBefore_lt_length h2 _)).2 (Nat.le_refl _)
  rw [retract_of_le this]

end PieceTree


namespace PieceTree

/-! ## Lemmas: trimming pieces, the text of a window, appending to the mod buffer -/

theorem line_feed_count_eq (b : BufferCollection) (idx : BufferIndex)
    (s e : BufferCursor) : Tree.line_feed_count b idx s e = retract e.line s.line := by
  unfold Tree.line_feed_count
  split
  · rfl
  · simp only
    split
    · rfl
    · split <;> rfl

@[simp] theorem BufferCollection.window_index (b : BufferCollection) (idx : BufferIndex)
    (f l : Nat) : (b.window idx f l).index = idx := rfl

@[simp] theorem BufferCollection.window_length (b : BufferCollection) (idx : BufferIndex)
    (f l : Nat) : (b.window idx f l).length = l - f := rfl

theorem BufferCollection.window_first (b : BufferCollection) (idx : BufferIndex)
    (f l : Nat) : (b.window idx f l).first = (b.buffer_at idx).cursorAt f := rfl

theorem BufferCollection.window_last (b : BufferCollection) (idx : BufferIndex)
    (f l : Nat) : (b.window idx f l).last = (b.buffer_at idx).cursorAt l := rfl

theorem BufferCollection.window_newline_count (b : BufferCollection) (idx : BufferIndex)
    (f l : Nat) : (b.window idx f l).newline_count
      = lfBefore (b.buffer_at idx).buffer l - lfBefore (b.buffer_at idx).buffer f := rfl

theorem trim_piece_right_window {b : BufferCollection} {idx : BufferIndex} {f l : Nat}
    (hw : b.WindowOK idx f l) {m : Nat} (h1 : f ≤ m) (h2 : m ≤ l) :
    Tree.trim_piece_right b (b.window idx f l) ((b.buffer_at idx).cursorAt m)
      = b.window idx f m := by
  have hcb := hw.2.1
  unfold Tree.trim_piece_right
  simp only [line_feed_count_eq, BufferCollection.window_index, BufferCollection.window_first,
    BufferCollection.window_last, BufferCollection.window_length, buffer_offset_eq,
    CharBuffer.cursorAt_offset hcb, distance_of_le h2]
  rw [retract_of_le (by omega)]
  simp only [BufferCollection.window, CharBuffer.cursorAt, Piece.mk.injEq, true_and]
  refine ⟨by omega, ?_⟩
  rw [retract_of_le (lfBefore_mono _ h1)]

theorem trim_piece_left_window {b : BufferCollection} {idx : BufferIndex} {f l : Nat}
    (hw : b.WindowOK idx f l) {m : Nat} (h1 : f ≤ m) (h2 : m ≤ l) :
    Tree.trim_piece_left b (b.window idx f l) ((b.buffer_at idx).cursorAt m)
      = b.window idx m l := by
  have hcb := hw.2.1
  unfold Tree.trim_piece_left
  simp only [line_feed_count_eq, BufferCollection.window_index, BufferCollection.window_first,
    BufferCollection.window_last, BufferCollection.window_length, buffer_offset_eq,
    CharBuffer.cursorAt_offset hcb, distance_of_le h1]
  rw [retract_of_le (by omega)]
  simp only [BufferCollection.window, CharBuffer.cursorAt, Piece.mk.injEq, true_and]
  refine ⟨by omega, ?_⟩
  rw [retract_of_le (lfBefore_mono _ h2)]

theorem BufferCollection.WindowOK.left {b : BufferCollection} {idx : BufferIndex}
    {f l : Nat} (hw : b.WindowOK idx f l) {m : Nat} (h1 : f ≤ m) (h2 : m ≤ l) :
    b.WindowOK idx f m :=
  ⟨hw.1, hw.2.1, h1, Nat.le_trans h2 hw.2.2.2⟩

theorem BufferCollection.WindowOK.right {b : BufferCollection} {idx : BufferIndex}
    {f l : Nat} (hw : b.WindowOK idx f l) {m : Nat} (_h1 : f ≤ m) (h2 : m ≤ l) :
    b.WindowOK idx m l :=
  ⟨hw.1, hw.2.1, h2, hw.2.2.2⟩

/-- The text of a window is the text of its two halves. -/
theorem BufferCollection.pieceText_split {b : BufferCollection} {idx : BufferIndex}
    {f l : Nat} (hw : b.WindowOK idx f l) {m : Nat} (h1 : f ≤ m) (h2 : m ≤ l) :
    b.pieceText (b.window idx f l)
      = b.pieceText (b.window idx f m) ++ b.pieceText (b.window idx m l) := by
  rw [BufferCollection.pieceText_window hw, BufferCollection.pieceText_window (hw.left h1 h2),
    BufferCollection.pieceText_window (hw.right h1 h2)]
  obtain ⟨d, rfl⟩ := Nat.exists_eq_add_of_le h1
  obtain ⟨e, rfl⟩ := Nat.exists_eq_add_of_le h2
  rw [show f + d + e - f = d + e by omega, show f + d - f = d by omega,
    show f + d + e - (f + d) = e by omega, List.take_add, List.drop_drop]

theorem BufferCollection.pieceText_window_length {b : BufferCollection} {idx : BufferIndex}
    {f l : Nat} (hw : b.WindowOK idx f l) :
    (b.pieceText (b.window idx f l)).length = l - f := by
  rw [BufferCollection.pieceText_window hw, List.length_take, List.length_drop]
  have := hw.2.2.2
  omega

theorem BufferCollection.pieceText_window_count {b : BufferCollection} {idx : BufferIndex}
    {f l : Nat} (hw : b.WindowOK idx f l) :
    (b.pieceText (b.window idx f l)).count LF
      = lfBefore (b.buffer_at idx).buffer l - lfBefore (b.buffer_at idx).buffer f := by
  rw [BufferCollection.pieceText_window hw]
  unfold lfBefore
  obtain ⟨d, rfl⟩ := Nat.exists_eq_add_of_le hw.2.2.1
  rw [List.take_add, List.count_append, show f + d - f = d by omega]
  omega

theorem BufferCollection.pieceText_length {b : BufferCollection} (hb : b.OK) {p : Piece}
    (hp : b.PieceOK p) : (b.pieceText p).length = p.length := by
  obtain ⟨h1, h2⟩ := BufferCollection.piece_eq_window hb hp
  rw [h1, BufferCollection.pieceText_window_length h2]
  rfl

theorem BufferCollection.pieceText_count {b : BufferCollection} (hb : b.OK) {p : Piece}
    (hp : b.PieceOK p) : (b.pieceText p).count LF = p.newline_count := by
  obtain ⟨h1, h2⟩ := BufferCollection.piece_eq_window hb hp
  rw [h1, BufferCollection.pieceText_window_count h2]
  rfl

theorem BufferCollection.textOf_nil (b : BufferCollection) : b.textOf [] = [] := rfl

theorem BufferCollection.textOf_cons (b : BufferCollection) (p : Piece) (ps : List Piece) :
    b.textOf (p :: ps) = b.pieceText p ++ b.textOf ps := by
  simp [BufferCollection.textOf]

theorem BufferCollection.textOf_append (b : BufferCollection) (ps qs : List Piece) :
    b.textOf (ps ++ qs) = b.textOf ps ++ b.textOf qs := by
  simp [BufferCollection.textOf]

theorem BufferCollection.textOf_length {b : BufferCollection} (hb : b.OK) {ps : List Piece}
    (hp : ∀ p ∈ ps, b.PieceOK p) : (b.textOf ps).length = sumLen ps := by
  induction ps with
  | nil => rfl
  | cons p ps ih =>
    rw [BufferCollection.textOf_cons, List.length_append, sumLen_cons,
      BufferCollection.pieceText_length hb (hp p (List.mem_cons_self _ _)),
      ih (fun q hq => hp q (List.mem_cons_of_mem _ hq))]

theorem BufferCollection.textOf_count {b : BufferCollection} (hb : b.OK) {ps : List Piece}
    (hp : ∀ p ∈ ps, b.PieceOK p) : (b.textOf ps).count LF = sumLf ps := by
  induction ps with
  | nil => rfl
  | cons p ps ih =>
    rw [BufferCollection.textOf_cons, List.count_append, sumLf_cons,
      BufferCollection.pieceText_count hb (hp p (List.mem_cons_self _ _)),
      ih (fun q hq => hp q (List.mem_cons_of_mem _ hq))]

end PieceTree


namespace PieceTree

/-! ## Lemmas: `node_at` on the list of pieces -/

/-- Two ways of splitting a list around one element: the three relative positions. -/
theorem append_cons_eq_cases {α : Type} (L R A B : List α) (q p : α)
    (h : L ++ q :: R = A ++ p :: B) :
    (∃ C, L = A ++ p :: C ∧ B = C ++ q :: R) ∨ (L = A ∧ q = p ∧ R = B) ∨
      (∃ C, A = L ++ q :: C ∧ R = C ++ p :: B) := by
  rcases List.append_eq_append_iff.1 h with ⟨a, h1, h2⟩ | ⟨c, h1, h2⟩
  · cases a with
    | nil =>
      simp only [List.nil_append, List.cons.injEq] at h2
      simp only [List.append_nil] at h1
      exact Or.inr (Or.inl ⟨h1.symm, h2.1, h2.2⟩)
    | cons x a =>
      simp only [List.cons_append, List.cons.injEq] at h2
      obtain ⟨rfl, h3⟩ := h2
      exact Or.inr (Or.inr ⟨a, h1, h3⟩)
  · cases c with
    | nil =>
      simp only [List.nil_append, List.cons.injEq] at h2
      simp only [List.append_nil] at h1
      exact Or.inr (Or.inl ⟨h1, h2.1.symm, h2.2.symm⟩)
    | cons x c =>
      simp only [List.cons_append, List.cons.injEq] at h2
      obtain ⟨rfl, h3⟩ := h2
      exact Or.inl ⟨c, h1, h3⟩

/-- An offset inside a list of pieces lies in exactly one piece. -/
theorem exists_split_of_lt (l : List Piece) (off : Nat) (h : off < sumLen l) :
    ∃ A p B, l = A ++ p :: B ∧ sumLen A ≤ off ∧ off < sumLen A + p.length := by
  induction l generalizing off with
  | nil => simp at h
  | cons q l ih =>
    by_cases hq : off < q.length
    · exact ⟨[], q, l, rfl, by simp, by simpa using hq⟩
    · simp only [sumLen_cons] at h
      obtain ⟨A, p, B, h1, h2, h3⟩ := ih (off - q.length) (by omega)
      refine ⟨q :: A, p, B, by rw [h1]; rfl, ?_, ?_⟩
      · simp only [sumLen_cons]; omega
      · simp only [sumLen_cons]; omega

/-- A non-empty list has a last element. -/
theorem exists_last_of_ne_nil {α : Type} (l : List α) (h : l ≠ []) :
    ∃ A p, l = A ++ [p] :=
  ⟨l.dropLast, l.getLast h, (List.dropLast_append_getLast h).symm⟩

namespace Tree

/-- What `node_at` returns for an offset inside the piece `p`. -/
theorem node_at_loop_hit (b : BufferCollection) :
    ∀ (t : RedBlackTree), t.Aug = true → ∀ (off start nl rank : Nat) (A : List Piece)
      (p : Piece) (B : List Piece), t.toList = A ++ p :: B → sumLen A ≤ off →
      off < sumLen A + p.length →
      ∃ d, d.piece = p ∧ node_at_loop b t off start nl rank =
        { node := some d
          rank := rank + A.length
          remainder := off - sumLen A
          start_offset := start + sumLen A
          line := nl + sumLf A
            + retract (buffer_position b p (off - sumLen A)).line p.first.line + 1 } := by
  intro t
  induction t with
  | empty => intro _ off start nl rank A p B h; simp at h
  | node c l d r ihl ihr =>
    intro ha off start nl rank A p B h h1 h2
    rw [RedBlackTree.Aug_node] at ha
    obtain ⟨e1, e2, al, ar⟩ := ha
    rw [RedBlackTree.toList_node] at h
    unfold node_at_loop
    rcases append_cons_eq_cases _ _ _ _ _ _ h with ⟨C, h3, _⟩ | ⟨h3, h4, _⟩ | ⟨C, h3, h4⟩
    · have : off < d.left_subtree_length := by
        rw [e1, h3]; simp only [sumLen_append, sumLen_cons]; omega
      rw [if_pos this]
      exact ihl al off start nl rank A p C h3 h1 h2
    · have hn : ¬ d.left_subtree_length > off := by rw [e1, h3]; omega
      have hy : d.left_subtree_length + d.piece.length > off := by rw [e1, h3, h4]; omega
      rw [if_neg hn, if_pos hy]
      refine ⟨d, h4, ?_⟩
      rw [retract_of_le (by omega), RedBlackTree.size_eq_length, e1, e2, h3, h4]
    · have hA : sumLen A = d.left_subtree_length + d.piece.length + sumLen C := by
        rw [h3, e1]; simp only [sumLen_append, sumLen_cons]; omega
      have hn : ¬ d.left_subtree_length > off := by omega
      have hy : ¬ d.left_subtree_length + d.piece.length > off := by omega
      rw [if_neg hn, if_neg hy]
      have hr : r.is_empty = false := by
        cases r with
        | empty => simp at h4
        | node _ _ _ _ => rfl
      simp only [hr, Bool.false_eq_true, ↓reduceIte]
      rw [retract_of_le (by omega)]
      obtain ⟨d1, hd1, hres⟩ := ihr ar (off - (d.left_subtree_length + d.piece.length))
        (start + (d.left_subtree_length + d.piece.length))
        (nl + (d.left_subtree_lf_count + d.piece.newline_count))
        (rank + l.size + 1) C p B h4 (by omega) (by omega)
      refine ⟨d1, hd1, ?_⟩
      rw [hres]
      have hL : A.length = l.size + 1 + C.length := by
        rw [h3, RedBlackTree.size_eq_length]; simp; omega
      have hF : sumLf A = d.left_subtree_lf_count + d.piece.newline_count + sumLf C := by
        rw [h3, e2]; simp only [sumLf_append, sumLf_cons]; omega
      have hO : off - (d.left_subtree_length + d.piece.length) - sumLen C = off - sumLen A := by
        omega
      rw [hO]
      simp only [NodePosition.mk.injEq, true_and]
      refine ⟨by omega, by omega, by omega⟩

/-- What `node_at` returns for an offset at or past the end of a non-empty tree: the last
piece, with its whole length as remainder. -/
theorem node_at_loop_past (b : BufferCollection) :
    ∀ (t : RedBlackTree), t.Aug = true → ∀ (off start nl rank : Nat) (A : List Piece)
      (p : Piece), t.toList = A ++ [p] → sumLen t.toList ≤ off →
      ∃ d, d.piece = p ∧ node_at_loop b t off start nl rank =
        { node := some d
          rank := rank + A.length
          remainder := p.length
          start_offset := start + sumLen A
          line := nl + sumLf A + p.newline_count + 1 } := by
  intro t
  induction t with
  | empty => intro _ off start nl rank A p h; simp at h
  | node c l d r ihl ihr =>
    intro ha off start nl rank A p h h1
    rw [RedBlackTree.Aug_node] at ha
    obtain ⟨e1, e2, al, ar⟩ := ha
    rw [RedBlackTree.toList_node] at h h1
    simp only [sumLen_append, sumLen_cons] at h1
    unfold node_at_loop
    have hn : ¬ d.left_subtree_length > off := by rw [e1]; omega
    have hy : ¬ d.left_subtree_length + d.piece.length > off := by rw [e1]; omega
    rw [if_neg hn, if_neg hy]
    cases r with
    | empty =>
      simp only [RedBlackTree.is_empty_empty, ↓reduceIte]
      simp only [RedBlackTree.toList_empty] at h
      have h5 := List.append_inj' h rfl
      simp only [List.cons.injEq, and_true] at h5
      obtain ⟨h6, h7⟩ := h5
      refine ⟨d, h7, ?_⟩
      rw [RedBlackTree.size_eq_length, e1, e2, h6, h7]
      simp only [NodePosition.mk.injEq, true_and]
      omega
    | node c2 l2 d2 r2 =>
      simp only [RedBlackTree.is_empty_node, Bool.false_eq_true, ↓reduceIte]
      obtain ⟨A2, p2, hA2⟩ := exists_last_of_ne_nil (RedBlackTree.node c2 l2 d2 r2).toList
        (by simp)
      rw [hA2, ← List.cons_append, ← List.append_assoc] at h
      have h5 := List.append_inj' h rfl
      simp only [List.cons.injEq, and_true] at h5
      obtain ⟨h6, h7⟩ := h5
      subst h7
      rw [retract_of_le (by omega)]
      obtain ⟨d1, hd1, hres⟩ := ihr ar (off - (d.left_subtree_length + d.piece.length))
        (start + (d.left_subtree_length + d.piece.length))
        (nl + (d.left_subtree_lf_count + d.piece.newline_count))
        (rank + l.size + 1) A2 p2 hA2 (by rw [e1]; omega)
      refine ⟨d1, hd1, ?_⟩
      rw [hres, ← h6, RedBlackTree.size_eq_length, e1, e2]
      simp only [NodePosition.mk.injEq, true_and, sumLen_append, sumLen_cons, sumLf_append,
        sumLf_cons, List.length_append, List.length_cons]
      omega

end Tree

end PieceTree


namespace PieceTree

/-! ## Lemmas: `at` and `line_at` -/

theorem getD_take_drop (buf : List CharT) (f n i : Nat) (hi : i < n) :
    ((buf.drop f).take n).getD i 0 = buf.getD (f + i) 0 := by
  simp only [List.getD_eq_getElem?_getD, List.getElem?_take, hi, ↓reduceIte, List.getElem?_drop]

theorem count_take_take_drop (buf : List CharT) (f n i : Nat) (hi : i ≤ n) :
    (((buf.drop f).take n).take i).count LF = lfBefore buf (f + i) - lfBefore buf f := by
  rw [List.take_take, Nat.min_eq_left hi]
  unfold lfBefore
  rw [List.take_add, List.count_append]
  omega

theorem BufferCollection.pieceText_getD {b : BufferCollection} (_hb : b.OK) {p : Piece}
    (hp : b.PieceOK p) (i : Nat) (hi : i < p.length) :
    (b.pieceText p).getD i 0
      = (b.buffer_at p.index).buffer.getD (b.buffer_offset p.index p.first + i) 0 := by
  unfold BufferCollection.pieceText
  rw [getD_take_drop]
  have := hp.2.2.2.2.1
  rw [buffer_offset_eq, buffer_offset_eq]
  omega

/-- The line feeds among the first `i` code units of a piece, read off `buffer_position`. -/
theorem BufferCollection.pieceText_take_count {b : BufferCollection} (hb : b.OK) {p : Piece}
    (hp : b.PieceOK p) (i : Nat) (hi : i ≤ p.length) :
    ((b.pieceText p).take i).count LF
      = retract (Tree.buffer_position b p i).line p.first.line := by
  obtain ⟨h1, h2⟩ := BufferCollection.piece_eq_window hb hp
  have hlen : p.length = (b.buffer_at p.index).offsetOf p.last
      - (b.buffer_at p.index).offsetOf p.first := hp.2.2.2.2.1
  generalize (b.buffer_at p.index).offsetOf p.first = f at h1 h2 hlen
  generalize (b.buffer_at p.index).offsetOf p.last = l at h1 h2 hlen
  generalize p.index = idx at h1 h2
  have hfl := h2.2.2.1
  rw [h1, buffer_position_window h2 (by omega), BufferCollection.pieceText_window h2,
    count_take_take_drop _ _ _ _ (by omega), BufferCollection.window_first]
  simp only [CharBuffer.cursorAt]
  rw [retract_of_le (lfBefore_mono _ (by omega))]

theorem getD_append_mid (X Y Z : List CharT) (i : Nat) (hi : i < Y.length) :
    (X ++ Y ++ Z).getD (X.length + i) 0 = Y.getD i 0 := by
  rw [List.append_assoc, List.getD_append_right _ _ _ _ (by omega),
    Nat.add_sub_cancel_left, List.getD_append _ _ _ _ hi]

theorem count_take_append_mid (X Y Z : List CharT) (i : Nat) (hi : i ≤ Y.length) :
    ((X ++ Y ++ Z).take (X.length + i)).count LF = X.count LF + (Y.take i).count LF := by
  rw [List.append_assoc, List.take_append, List.count_append, List.take_append_of_le_length hi]

namespace Tree

theorem Consistent.buffers_ok {t : Tree} (h : t.Consistent) : t.buffers.OK := h.1

theorem Consistent.pieces_ok {t : Tree} (h : t.Consistent) :
    ∀ p ∈ t.root.toList, t.buffers.PieceOK p := h.2.1.1

theorem Consistent.valid {t : Tree} (h : t.Consistent) : t.root.rbValid = true := h.2.1.2.1

theorem Consistent.aug {t : Tree} (h : t.Consistent) : t.root.Aug = true := h.2.1.2.2

theorem Consistent.meta_eq {t : Tree} (h : t.Consistent) :
    t.meta = PieceTree.compute_buffer_meta t.root := h.2.2.1

theorem Consistent.length_eq {t : Tree} (h : t.Consistent) :
    t.meta.total_content_length = sumLen t.root.toList := by
  rw [h.meta_eq]
  exact RedBlackTree.tree_length_eq h.aug

theorem Consistent.lf_eq {t : Tree} (h : t.Consistent) :
    t.meta.lf_count = sumLf t.root.toList := by
  rw [h.meta_eq]
  exact RedBlackTree.tree_lf_count_eq h.aug

theorem Consistent.content_length {t : Tree} (h : t.Consistent) :
    t.content.length = sumLen t.root.toList :=
  BufferCollection.textOf_length h.buffers_ok h.pieces_ok

theorem Consistent.content_count {t : Tree} (h : t.Consistent) :
    t.content.count LF = sumLf t.root.toList :=
  BufferCollection.textOf_count h.buffers_ok h.pieces_ok

/-- The document around one piece of the tree. -/
theorem Consistent.content_split {t : Tree} (h : t.Consistent) {A B : List Piece} {p : Piece}
    (hl : t.root.toList = A ++ p :: B) :
    t.content = t.buffers.textOf A ++ t.buffers.pieceText p ++ t.buffers.textOf B ∧
      (t.buffers.textOf A).length = sumLen A ∧ (t.buffers.textOf A).count LF = sumLf A ∧
      (t.buffers.pieceText p).length = p.length ∧ t.buffers.PieceOK p := by
  have hp := h.pieces_ok
  rw [hl] at hp
  refine ⟨?_, ?_, ?_, ?_, ?_⟩
  · unfold content
    rw [hl, BufferCollection.textOf_append, BufferCollection.textOf_cons, List.append_assoc]
  · exact BufferCollection.textOf_length h.buffers_ok (fun q hq => hp q (by simp [hq]))
  · exact BufferCollection.textOf_count h.buffers_ok (fun q hq => hp q (by simp [hq]))
  · exact BufferCollection.pieceText_length h.buffers_ok (hp p (by simp))
  · exact hp p (by simp)

/-- The code unit `at` returns is the code unit of the document at that offset. -/
theorem at_eq_content {t : Tree} (h : t.Consistent) (o : Nat) (ho : o < t.content.length) :
    t.at_ o = t.content.getD o 0 := by
  rw [h.content_length] at ho
  obtain ⟨A, p, B, hl, h1, h2⟩ := exists_split_of_lt _ _ ho
  obtain ⟨d, hd, hres⟩ := node_at_loop_hit t.buffers t.root h.aug o 0 0 0 A p B hl h1 h2
  obtain ⟨c1, c2, c3, c4, c5⟩ := h.content_split hl
  unfold at_ char_at node_at
  rw [hres]
  simp only
  rw [hd, c1]
  have : o = (t.buffers.textOf A).length + (o - sumLen A) := by omega
  rw [this, getD_append_mid _ _ _ _ (by omega),
    BufferCollection.pieceText_getD h.buffers_ok c5 _ (by omega), c2]
  congr 1
  omega

/-- The line `line_at` returns is one more than the number of line feeds before the
offset. -/
theorem line_at_eq {t : Tree} (h : t.Consistent) (o : Nat) (ho : o < t.content.length) :
    t.line_at o = 1 + lfBefore t.content o := by
  rw [h.content_length] at ho
  obtain ⟨A, p, B, hl, h1, h2⟩ := exists_split_of_lt _ _ ho
  obtain ⟨d, hd, hres⟩ := node_at_loop_hit t.buffers t.root h.aug o 0 0 0 A p B hl h1 h2
  obtain ⟨c1, c2, c3, c4, c5⟩ := h.content_split hl
  have hne : t.is_empty = false := by
    unfold is_empty
    rw [h.length_eq]
    simp only [beq_eq_false_iff_ne, ne_eq]
    omega
  unfold line_at node_at
  rw [hne, hres]
  simp only [Bool.false_eq_true, ↓reduceIte]
  unfold lfBefore
  have : o = (t.buffers.textOf A).length + (o - sumLen A) := by omega
  rw [c1, this, count_take_append_mid _ _ _ _ (by omega), c3,
    BufferCollection.pieceText_take_count h.buffers_ok c5 _ (by omega), c2]
  have e : sumLen A + (o - sumLen A) - sumLen A = o - sumLen A := by omega
  rw [e]
  omega

theorem line_at_empty {t : Tree} (h : t.Consistent) (hc : t.content = []) (o : Nat) :
    t.line_at o = Line.Beginning := by
  have : t.meta.total_content_length = 0 := by
    rw [h.length_eq, ← h.content_length, hc]; rfl
  unfold line_at is_empty
  simp [this]

end Tree

end PieceTree


namespace PieceTree

/-! ## Lemmas: appending to the mod buffer, `build_piece` -/

theorem lfBefore_append_le (a b : List CharT) {o : Nat} (ho : o ≤ a.length) :
    lfBefore (a ++ b) o = lfBefore a o := by
  unfold lfBefore
  rw [List.take_append_of_le_length ho]

theorem line_starts_getD_append (a b : List CharT) {k : Nat}
    (hk : k < (populate_line_starts a).length) :
    (populate_line_starts (a ++ b)).getD k 0 = (populate_line_starts a).getD k 0 := by
  rw [populate_line_starts_append, List.getD_append _ _ _ _ hk]

theorem CharBuffer.endCursor_eq {cb : CharBuffer} (h : cb.OK) :
    cb.endCursor = cb.cursorAt cb.buffer.length := by
  unfold CharBuffer.endCursor CharBuffer.cursorAt
  rw [lfBefore_of_length_le _ (Nat.le_refl _), CharBuffer.line_starts_length h]
  rfl

theorem CharBuffer.cursorAt_prefix {cb cb1 : CharBuffer} (h : cb.OK) (h1 : cb1.OK)
    (hp : cb.buffer <+: cb1.buffer) {o : Nat} (ho : o ≤ cb.buffer.length) :
    cb1.cursorAt o = cb.cursorAt o := by
  obtain ⟨x, hx⟩ := hp
  unfold CharBuffer.cursorAt
  have e1 : lfBefore cb1.buffer o = lfBefore cb.buffer o := by
    rw [← hx, lfBefore_append_le _ _ ho]
  rw [e1]
  have hk := CharBuffer.lfBefore_lt_length h o
  have e2 : cb1.line_starts.getD (lfBefore cb.buffer o) 0
      = cb.line_starts.getD (lfBefore cb.buffer o) 0 := by
    rw [h1, ← hx, h] at *
    exact line_starts_getD_append _ _ hk
  rw [e2]

namespace BufferCollection

theorem Extends.refl (b : BufferCollection) : b.Extends b := ⟨rfl, List.prefix_refl _⟩

theorem Extends.trans {b b1 b2 : BufferCollection} (h1 : b.Extends b1) (h2 : b1.Extends b2) :
    b.Extends b2 := ⟨h2.1.trans h1.1, List.IsPrefix.trans h1.2 h2.2⟩

theorem Extends.buffer_at {b b1 : BufferCollection} (he : b.Extends b1) (idx : BufferIndex) :
    (b.buffer_at idx).buffer <+: (b1.buffer_at idx).buffer := by
  cases idx with
  | ModBuf => exact he.2
  | Orig i =>
    simp only [BufferCollection.buffer_at, he.1]
    exact List.prefix_refl _

theorem Extends.indexOK {b b1 : BufferCollection} (he : b.Extends b1) {idx : BufferIndex}
    (h : b.IndexOK idx) : b1.IndexOK idx := by
  cases idx with
  | ModBuf => trivial
  | Orig i =>
    simp only [BufferCollection.IndexOK] at h ⊢
    rw [he.1]; exact h

/-- A window of the old collection is the same window of the grown collection. -/
theorem Extends.window {b b1 : BufferCollection} (he : b.Extends b1) (hb1 : b1.OK)
    {idx : BufferIndex} {f l : Nat} (hw : b.WindowOK idx f l) :
    b1.window idx f l = b.window idx f l ∧ b1.WindowOK idx f l := by
  obtain ⟨w1, w2, w3, w4⟩ := hw
  have hi := he.indexOK w1
  have hcb1 := BufferCollection.buffer_at_ok hb1 hi
  have hpre := he.buffer_at idx
  refine ⟨?_, hi, hcb1, w3, Nat.le_trans w4 hpre.length_le⟩
  unfold BufferCollection.window
  rw [CharBuffer.cursorAt_prefix w2 hcb1 hpre (by omega),
    CharBuffer.cursorAt_prefix w2 hcb1 hpre w4]
  obtain ⟨x, hx⟩ := hpre
  rw [← hx, lfBefore_append_le _ _ w4, lfBefore_append_le _ _ (by omega)]

theorem Extends.pieceOK {b b1 : BufferCollection} (he : b.Extends b1) (hb : b.OK)
    (hb1 : b1.OK) {p : Piece} (hp : b.PieceOK p) : b1.PieceOK p := by
  obtain ⟨h1, h2⟩ := BufferCollection.piece_eq_window hb hp
  obtain ⟨h3, h4⟩ := he.window hb1 h2
  rw [h1, ← h3]
  exact BufferCollection.window_ok h4

theorem Extends.pieceText {b b1 : BufferCollection} (he : b.Extends b1) (hb : b.OK)
    (hb1 : b1.OK) {p : Piece} (hp : b.PieceOK p) : b1.pieceText p = b.pieceText p := by
  obtain ⟨h1, h2⟩ := BufferCollection.piece_eq_window hb hp
  obtain ⟨h3, h4⟩ := he.window hb1 h2
  rw [h1]
  conv => lhs; rw [← h3]
  rw [BufferCollection.pieceText_window h4, BufferCollection.pieceText_window h2]
  obtain ⟨x, hx⟩ := he.buffer_at p.index
  have hl := h2.2.2.2
  have hfl := h2.2.2.1
  generalize (b.buffer_at p.index).offsetOf p.first = f at *
  generalize (b.buffer_at p.index).offsetOf p.last = l at *
  rw [← hx, List.drop_append_of_le_length (by omega),
    List.take_append_of_le_length (by rw [List.length_drop]; omega)]

theorem Extends.textOf {b b1 : BufferCollection} (he : b.Extends b1) (hb : b.OK)
    (hb1 : b1.OK) {ps : List Piece} (hp : ∀ p ∈ ps, b.PieceOK p) :
    b1.textOf ps = b.textOf ps := by
  induction ps with
  | nil => rfl
  | cons p ps ih =>
    rw [BufferCollection.textOf_cons, BufferCollection.textOf_cons,
      he.pieceText hb hb1 (hp p (List.mem_cons_self _ _)),
      ih (fun q hq => hp q (List.mem_cons_of_mem _ hq))]

end BufferCollection

namespace Tree

theorem RootOK.extends {b b1 : BufferCollection} {r : RedBlackTree} (h : RootOK b r)
    (he : b.Extends b1) (hb : b.OK) (hb1 : b1.OK) : RootOK b1 r :=
  ⟨fun p hp => he.pieceOK hb hb1 (h.1 p hp), h.2⟩

/-- What `build_piece` does: the text is appended to the mod buffer, the piece returned is
the window of the appended text, and `last_insert` moves to the end of the buffer. -/
theorem build_piece_spec (t : Tree) (txt : List CharT) (hb : t.buffers.OK)
    (hl : t.last_insert = t.buffers.mod_buffer.endCursor) :
    (t.build_piece txt).2.buffers.OK ∧
    t.buffers.Extends (t.build_piece txt).2.buffers ∧
    (t.build_piece txt).2.buffers.mod_buffer.buffer = t.buffers.mod_buffer.buffer ++ txt ∧
    (t.build_piece txt).1 = (t.build_piece txt).2.buffers.window BufferIndex.ModBuf
      t.buffers.mod_buffer.buffer.length (t.buffers.mod_buffer.buffer.length + txt.length) ∧
    (t.build_piece txt).2.buffers.WindowOK BufferIndex.ModBuf
      t.buffers.mod_buffer.buffer.length (t.buffers.mod_buffer.buffer.length + txt.length) ∧
    (t.build_piece txt).2.last_insert
      = (t.build_piece txt).2.buffers.mod_buffer.endCursor := by
  have hmod : t.buffers.mod_buffer.OK := hb.2
  have hls : t.buffers.mod_buffer.line_starts
      ++ ((populate_line_starts txt).map
          (fun s => s + t.buffers.mod_buffer.buffer.length)).drop 1
      = populate_line_starts (t.buffers.mod_buffer.buffer ++ txt) := by
    rw [populate_line_starts_append, hmod]
  have hok1 : (t.build_piece txt).2.buffers.mod_buffer.OK := by
    unfold build_piece CharBuffer.OK
    simp only
    exact hls
  have hok : (t.build_piece txt).2.buffers.OK := ⟨hb.1, hok1⟩
  have hext : t.buffers.Extends (t.build_piece txt).2.buffers :=
    ⟨rfl, List.prefix_append _ _⟩
  have hbuf : (t.build_piece txt).2.buffers.mod_buffer.buffer
      = t.buffers.mod_buffer.buffer ++ txt := rfl
  have hend : (t.build_piece txt).2.last_insert
      = (t.build_piece txt).2.buffers.mod_buffer.endCursor := by
    unfold build_piece CharBuffer.endCursor
    simp only [BufferCursor.mk.injEq]
    have hpos : 1 ≤ (t.buffers.mod_buffer.line_starts
      ++ ((populate_line_starts txt).map
          (fun s => s + t.buffers.mod_buffer.buffer.length)).drop 1).length := by
      rw [hls, populate_line_starts_length]; omega
    rw [retract_of_le hpos]
    refine ⟨rfl, ?_⟩
    apply retract_of_le
    have h2 := CharBuffer.cursorAt_offset hok1
      ((t.build_piece txt).2.buffers.mod_buffer.buffer.length)
    rw [← CharBuffer.endCursor_eq hok1] at h2
    unfold CharBuffer.offsetOf CharBuffer.endCursor at h2
    simp only [build_piece] at h2
    omega
  have hw : (t.build_piece txt).2.buffers.WindowOK BufferIndex.ModBuf
      t.buffers.mod_buffer.buffer.length (t.buffers.mod_buffer.buffer.length + txt.length) :=
    ⟨trivial, hok1, by omega, by
      show _ ≤ (t.build_piece txt).2.buffers.mod_buffer.buffer.length
      rw [hbuf, List.length_append]⟩
  refine ⟨hok, hext, hbuf, ?_, hw, hend⟩
  have hfirst : (t.build_piece txt).1.first
      = (t.build_piece txt).2.buffers.mod_buffer.cursorAt t.buffers.mod_buffer.buffer.length := by
    show t.last_insert = _
    rw [hl, CharBuffer.endCursor_eq hmod,
      CharBuffer.cursorAt_prefix hmod hok1 hext.2 (Nat.le_refl _)]
  have hlast : (t.build_piece txt).1.last
      = (t.build_piece txt).2.buffers.mod_buffer.cursorAt
          (t.buffers.mod_buffer.buffer.length + txt.length) := by
    show (t.build_piece txt).2.last_insert = _
    rw [hend, CharBuffer.endCursor_eq hok1, hbuf, List.length_append]
  have hlen : (t.build_piece txt).1.length = txt.length := by
    show retract (t.buffers.mod_buffer.buffer ++ txt).length t.buffers.mod_buffer.buffer.length
      = txt.length
    rw [retract_of_le (by rw [List.length_append]; omega), List.length_append]
    omega
  have hnl : (t.build_piece txt).1.newline_count
      = retract (t.build_piece txt).1.last.line (t.build_piece txt).1.first.line := by
    show line_feed_count _ _ _ _ = _
    rw [line_feed_count_eq]
    rfl
  have hidx : (t.build_piece txt).1.index = BufferIndex.ModBuf := rfl
  generalize (t.build_piece txt).1 = pc at *
  generalize (t.build_piece txt).2.buffers = b2 at *
  cases pc with
  | mk index first last length newline_count =>
    simp only at hfirst hlast hlen hnl hidx
    subst hidx hfirst hlast hlen
    simp only [BufferCollection.window, Piece.mk.injEq, true_and]
    refine ⟨rfl, rfl, by omega, ?_⟩
    rw [hnl]
    simp only [CharBuffer.cursorAt]
    exact retract_of_le (lfBefore_mono _ (by omega))

theorem build_piece_frame (t : Tree) (txt : List CharT) :
    (t.build_piece txt).2.root = t.root ∧ (t.build_piece txt).2.meta = t.meta ∧
    (t.build_piece txt).2.undo_stack = t.undo_stack ∧
    (t.build_piece txt).2.redo_stack = t.redo_stack ∧
    (t.build_piece txt).2.end_last_insert = t.end_last_insert :=
  ⟨rfl, rfl, rfl, rfl, rfl⟩

end Tree

end PieceTree


namespace PieceTree

/-! ## Lemmas: the tree operations keep roots consistent -/

theorem mem_insList {x : Piece} {at_ : Nat} {l : List Piece} {total : Nat} {p : Piece}
    (h : p ∈ insList x at_ l total) : p = x ∨ p ∈ l := by
  induction l generalizing total with
  | nil => simp only [insList, List.mem_singleton] at h; exact Or.inl h
  | cons q l ih =>
    rw [RedBlackTree.insList_cons] at h
    split at h
    · simp only [List.mem_cons] at h ⊢
      rcases h with h | h | h
      · exact Or.inl h
      · exact Or.inr (Or.inl h)
      · exact Or.inr (Or.inr h)
    · simp only [List.mem_cons] at h ⊢
      rcases h with h | h
      · exact Or.inr (Or.inl h)
      · rcases ih h with h | h
        · exact Or.inl h
        · exact Or.inr (Or.inr h)

theorem length_insList (x : Piece) (at_ : Nat) (l : List Piece) (total : Nat) :
    (insList x at_ l total).length = l.length + 1 := by
  induction l generalizing total with
  | nil => rfl
  | cons q l ih =>
    rw [RedBlackTree.insList_cons]
    split
    · rfl
    · simp [ih]

theorem sumLen_insList (x : Piece) (at_ : Nat) (l : List Piece) (total : Nat) :
    sumLen (insList x at_ l total) = sumLen l + x.length := by
  induction l generalizing total with
  | nil => simp [insList]
  | cons q l ih =>
    rw [RedBlackTree.insList_cons]
    split
    · simp only [sumLen_cons]; omega
    · simp only [sumLen_cons, ih]; omega

namespace Tree

theorem RootOK.empty (b : BufferCollection) : RootOK b RedBlackTree.empty :=
  ⟨fun p hp => by simp at hp, rfl, rfl⟩

/-- Insertion of a consistent piece into a consistent root. -/
theorem RootOK.insert {b : BufferCollection} {r : RedBlackTree} (h : RootOK b r)
    {x : NodeData} (hx : b.PieceOK x.piece) (at_ : Nat) :
    ∃ r1, r.insert x at_ = some r1 ∧ RootOK b r1 ∧
      r1.toList = insList x.piece at_ r.toList 0 := by
  obtain ⟨r1, h1, h2, h3, h4⟩ := RedBlackTree.insert_spec r x at_ h.2.2
  refine ⟨r1, h1, ⟨?_, h4 h.2.1, h2⟩, h3⟩
  intro p hp
  rw [h3] at hp
  rcases mem_insList hp with rfl | hp
  · exact hx
  · exact h.1 p hp

/-- Removal from a consistent root. -/
theorem RootOK.remove {b : BufferCollection} {r : RedBlackTree} (h : RootOK b r)
    (at_ : Nat) :
    ∃ r1, r.remove at_ = some r1 ∧ RootOK b r1 ∧ r1.toList = r.remPieces at_ 0 ∧
      r1.toList.Sublist r.toList := by
  obtain ⟨r1, h1, h2, h3, h4, h5⟩ := RedBlackTree.remove_spec r at_ h.2.1
  exact ⟨r1, h1, ⟨fun p hp => h.1 p (h3.subset hp), h2, (h5 h.2.2).1⟩, h4, h3⟩

/-- What `node_at` returns on a non-empty tree: always a node of the tree. -/
theorem node_at_some (b : BufferCollection) (t : RedBlackTree) (ha : t.Aug = true)
    (hne : t.is_empty = false) (off : Nat) :
    ∃ d A B, (node_at b t off).node = some d ∧ t.toList = A ++ d.piece :: B ∧
      (node_at b t off).start_offset = sumLen A ∧ (node_at b t off).rank = A.length ∧
      (node_at b t off).remainder ≤ d.piece.length ∧
      (off < sumLen t.toList → sumLen A ≤ off ∧ off < sumLen A + d.piece.length ∧
        (node_at b t off).remainder = off - sumLen A) ∧
      (sumLen t.toList ≤ off → B = [] ∧ (node_at b t off).remainder = d.piece.length) := by
  by_cases ho : off < sumLen t.toList
  · obtain ⟨A, p, B, hl, h1, h2⟩ := exists_split_of_lt _ _ ho
    obtain ⟨d, hd, hres⟩ := node_at_loop_hit b t ha off 0 0 0 A p B hl h1 h2
    subst hd
    unfold node_at
    rw [hres]
    refine ⟨d, A, B, rfl, hl, by simp, by simp, by simp only; omega, ?_, ?_⟩
    · intro _; exact ⟨h1, h2, rfl⟩
    · intro h; omega
  · have hne2 : t.toList ≠ [] := by
      cases t with
      | empty => simp at hne
      | node _ _ _ _ => simp
    obtain ⟨A, p, hl⟩ := exists_last_of_ne_nil _ hne2
    obtain ⟨d, hd, hres⟩ := node_at_loop_past b t ha off 0 0 0 A p hl (by omega)
    subst hd
    unfold node_at
    rw [hres]
    refine ⟨d, A, [], rfl, hl, by simp, by simp, by simp, ?_, ?_⟩
    · intro h; omega
    · intro _; exact ⟨rfl, rfl⟩

/-- The two halves of a consistent piece cut at `remainder` are consistent. -/
theorem trim_ok {b : BufferCollection} (hb : b.OK) {p : Piece} (hp : b.PieceOK p)
    {rem : Nat} (hr : rem ≤ p.length) :
    b.PieceOK (trim_piece_right b p (buffer_position b p rem)) ∧
    b.PieceOK (trim_piece_left b p (buffer_position b p rem)) ∧
    (trim_piece_right b p (buffer_position b p rem)).length = rem ∧
    (trim_piece_left b p (buffer_position b p rem)).length = p.length - rem := by
  obtain ⟨h1, h2⟩ := BufferCollection.piece_eq_window hb hp
  have hlen : p.length = (b.buffer_at p.index).offsetOf p.last
      - (b.buffer_at p.index).offsetOf p.first := hp.2.2.2.2.1
  generalize (b.buffer_at p.index).offsetOf p.first = f at h1 h2 hlen
  generalize (b.buffer_at p.index).offsetOf p.last = l at h1 h2 hlen
  generalize p.index = idx at h1 h2
  have hfl := h2.2.2.1
  subst h1
  simp only [BufferCollection.window_length] at hr hlen ⊢
  rw [buffer_position_window h2 (by omega), trim_piece_right_window h2 (by omega) (by omega),
    trim_piece_left_window h2 (by omega) (by omega)]
  refine ⟨BufferCollection.window_ok (h2.left (by omega) (by omega)),
    BufferCollection.window_ok (h2.right (by omega) (by omega)), ?_, ?_⟩
  · simp only [BufferCollection.window_length]; omega
  · simp only [BufferCollection.window_length]; omega

/-- Assembling the invariant of a tree that grew out of a consistent tree. -/
theorem Consistent.of_parts {t t1 : Tree} (h : t.Consistent) (hb1 : t1.buffers.OK)
    (he : t.buffers.Extends t1.buffers) (hr : RootOK t1.buffers t1.root)
    (hm : t1.meta = PieceTree.compute_buffer_meta t1.root)
    (hl : t1.last_insert = t1.buffers.mod_buffer.endCursor)
    (hu : ∀ e ∈ t1.undo_stack, e ∈ t.undo_stack ∨ e.root = t.root)
    (hd : ∀ e ∈ t1.redo_stack, e ∈ t.redo_stack ∨ e.root = t.root) : t1.Consistent := by
  obtain ⟨c1, c2, c3, c4, c5, c6⟩ := h
  refine ⟨hb1, hr, hm, hl, ?_, ?_⟩
  · intro e he1
    rcases hu e he1 with h | h
    · exact (c5 e h).extends he c1 hb1
    · rw [h]; exact c2.extends he c1 hb1
  · intro e he1
    rcases hd e he1 with h | h
    · exact (c6 e h).extends he c1 hb1
    · rw [h]; exact c2.extends he c1 hb1

end Tree

end PieceTree


namespace PieceTree

namespace Tree

/-! ## Lemmas: `internal_insert` keeps the tree consistent -/

/-- A consistent root over the buffers `build_piece` leaves makes a consistent tree. -/
theorem step_of_root (t : Tree) (txt : List CharT) (h : t.Consistent) (r : RedBlackTree)
    (hr : RootOK (t.build_piece txt).2.buffers r) :
    Step t ({ (t.build_piece txt).2 with root := r }).compute_buffer_meta := by
  obtain ⟨b1, b2, b3, b4, b5, b6⟩ := build_piece_spec t txt h.1 h.2.2.2.1
  refine ⟨Consistent.of_parts h b1 b2 hr rfl b6 (fun e he => Or.inl he)
    (fun e he => Or.inl he), b2, rfl, rfl, rfl⟩

theorem built_piece_ok (t : Tree) (txt : List CharT) (h : t.Consistent) :
    (t.build_piece txt).2.buffers.PieceOK (t.build_piece txt).1 := by
  obtain ⟨b1, b2, b3, b4, b5, b6⟩ := build_piece_spec t txt h.1 h.2.2.2.1
  rw [b4]
  exact BufferCollection.window_ok b5

theorem built_root_ok (t : Tree) (txt : List CharT) (h : t.Consistent) :
    RootOK (t.build_piece txt).2.buffers (t.build_piece txt).2.root := by
  obtain ⟨b1, b2, b3, b4, b5, b6⟩ := build_piece_spec t txt h.1 h.2.2.2.1
  exact h.2.1.extends b2 h.1 b1

/-- The plain path of `internal_insert`: build the piece and insert it. -/
theorem insert_built (t : Tree) (txt : List CharT) (offset : Nat) (h : t.Consistent) :
    ∃ r1, (t.build_piece txt).2.root.insert { piece := (t.build_piece txt).1 } offset
        = some r1 ∧
      Step t ({ (t.build_piece txt).2 with root := r1 }).compute_buffer_meta := by
  obtain ⟨r1, h1, h2, _⟩ := (built_root_ok t txt h).insert
    (x := { piece := (t.build_piece txt).1 }) (built_piece_ok t txt h) offset
  exact ⟨r1, h1, step_of_root t txt h r1 h2⟩

/-- The piece `combine_pieces` builds: the window of the old piece, extended to the new
end of the mod buffer. -/
theorem combined_window (t : Tree) (txt : List CharT) (h : t.Consistent) {p : Piece}
    (hp : t.buffers.PieceOK p) (hi : p.index = BufferIndex.ModBuf)
    (hlast : p.last = t.last_insert) :
    ∃ f, p = t.buffers.window BufferIndex.ModBuf f t.buffers.mod_buffer.buffer.length ∧
      t.buffers.WindowOK BufferIndex.ModBuf f t.buffers.mod_buffer.buffer.length ∧
      ({ (t.build_piece txt).1 with
        first := p.first
        newline_count := (t.build_piece txt).1.newline_count + p.newline_count
        length := (t.build_piece txt).1.length + p.length } : Piece)
        = (t.build_piece txt).2.buffers.window BufferIndex.ModBuf f
            (t.buffers.mod_buffer.buffer.length + txt.length) ∧
      (t.build_piece txt).2.buffers.WindowOK BufferIndex.ModBuf f
        (t.buffers.mod_buffer.buffer.length + txt.length) := by
  obtain ⟨b1, b2, b3, b4, b5, b6⟩ := build_piece_spec t txt h.1 h.2.2.2.1
  have hmod : t.buffers.mod_buffer.OK := h.1.2
  obtain ⟨h1, h2⟩ := BufferCollection.piece_eq_window h.1 hp
  have hl : (t.buffers.buffer_at p.index).offsetOf p.last = t.buffers.mod_buffer.buffer.length := by
    rw [hi, hlast, h.2.2.2.1, CharBuffer.endCursor_eq hmod]
    exact CharBuffer.cursorAt_offset hmod _
  rw [hl, hi] at h1 h2
  generalize (t.buffers.buffer_at BufferIndex.ModBuf).offsetOf p.first = f at h1 h2
  obtain ⟨h3, h4⟩ := b2.window b1 h2
  have hfl := h2.2.2.1
  have hw : (t.build_piece txt).2.buffers.WindowOK BufferIndex.ModBuf f
      (t.buffers.mod_buffer.buffer.length + txt.length) :=
    ⟨trivial, b5.2.1, by omega, b5.2.2.2⟩
  refine ⟨f, h1, h2, ?_, hw⟩
  rw [b4]
  conv => lhs; rw [h1, ← h3]
  simp only [BufferCollection.window, Piece.mk.injEq, true_and]
  refine ⟨by omega, ?_⟩
  have m1 := lfBefore_mono ((t.build_piece txt).2.buffers.buffer_at BufferIndex.ModBuf).buffer
    hfl
  have m2 := lfBefore_mono ((t.build_piece txt).2.buffers.buffer_at BufferIndex.ModBuf).buffer
    (show t.buffers.mod_buffer.buffer.length ≤ t.buffers.mod_buffer.buffer.length + txt.length
      by omega)
  omega

/-- The piece `combine_pieces` builds is consistent. -/
theorem combined_ok (t : Tree) (txt : List CharT) (h : t.Consistent) {p : Piece}
    (hp : t.buffers.PieceOK p) (hi : p.index = BufferIndex.ModBuf)
    (hlast : p.last = t.last_insert) :
    (t.build_piece txt).2.buffers.PieceOK
      { (t.build_piece txt).1 with
        first := p.first
        newline_count := (t.build_piece txt).1.newline_count + p.newline_count
        length := (t.build_piece txt).1.length + p.length } := by
  obtain ⟨f, _, _, h3, h4⟩ := combined_window t txt h hp hi hlast
  rw [h3]
  exact BufferCollection.window_ok h4

/-- The text of the piece `combine_pieces` builds: the old text followed by the new. -/
theorem combined_text (t : Tree) (txt : List CharT) (h : t.Consistent) {p : Piece}
    (hp : t.buffers.PieceOK p) (hi : p.index = BufferIndex.ModBuf)
    (hlast : p.last = t.last_insert) :
    (t.build_piece txt).2.buffers.pieceText
      { (t.build_piece txt).1 with
        first := p.first
        newline_count := (t.build_piece txt).1.newline_count + p.newline_count
        length := (t.build_piece txt).1.length + p.length }
      = t.buffers.pieceText p ++ txt := by
  obtain ⟨f, h1, h2, h3, h4⟩ := combined_window t txt h hp hi hlast
  obtain ⟨b1, b2, b3, b4, b5, b6⟩ := build_piece_spec t txt h.1 h.2.2.2.1
  rw [h3, BufferCollection.pieceText_window h4]
  conv => rhs; rw [h1, BufferCollection.pieceText_window h2]
  have hfl := h2.2.2.1
  show (((t.build_piece txt).2.buffers.mod_buffer.buffer).drop f).take _ = _
  rw [b3]
  show _ = ((t.buffers.mod_buffer.buffer).drop f).take _ ++ txt
  generalize t.buffers.mod_buffer.buffer = buf at *
  rw [List.drop_append_of_le_length hfl, List.take_append_eq_append_take,
    List.take_of_length_le (by rw [List.length_drop]; omega),
    List.take_of_length_le (by rw [List.length_drop]; omega),
    List.take_of_length_le (by rw [List.length_drop])]

/-- The coalescing path of `internal_insert`: replace the last piece by its extension. -/
theorem combine_built (t : Tree) (txt : List CharT) (h : t.Consistent) (pos : NodePosition)
    (d : NodeData) (hd : pos.node = some d) (hmem : d.piece ∈ t.root.toList)
    (hi : d.piece.index = BufferIndex.ModBuf) (hlast : d.piece.last = t.last_insert) :
    ∃ t1, (t.build_piece txt).2.combine_pieces pos (t.build_piece txt).1 = some t1 ∧
      Step t t1.compute_buffer_meta := by
  have hroot := built_root_ok t txt h
  obtain ⟨r1, h1, h2, _⟩ := hroot.remove pos.start_offset
  obtain ⟨r2, h3, h4, _⟩ := h2.insert
    (x := { piece := { (t.build_piece txt).1 with
        first := d.piece.first
        newline_count := (t.build_piece txt).1.newline_count + d.piece.newline_count
        length := (t.build_piece txt).1.length + d.piece.length } })
    (combined_ok t txt h (h.2.1.1 _ hmem) hi hlast) pos.start_offset
  refine ⟨{ (t.build_piece txt).2 with root := r2 }, ?_, step_of_root t txt h r2 h4⟩
  unfold combine_pieces
  simp only [hd, Option.bind_eq_bind, Option.some_bind, h1, h3, Option.pure_def]

/-- The right half `internal_insert` builds when it splits a piece. -/
theorem split_right_eq {b : BufferCollection} (hb : b.OK) {p : Piece} (hp : b.PieceOK p)
    {rem : Nat} (hr : rem ≤ p.length) :
    ({ p with
        first := buffer_position b p rem
        length := (distance (b.buffer_offset p.index (buffer_position b p rem))
          (b.buffer_offset p.index p.last))
        newline_count := line_feed_count b p.index (buffer_position b p rem) p.last } : Piece)
      = trim_piece_left b p (buffer_position b p rem) := by
  obtain ⟨h1, h2⟩ := BufferCollection.piece_eq_window hb hp
  have hlen : p.length = (b.buffer_at p.index).offsetOf p.last
      - (b.buffer_at p.index).offsetOf p.first := hp.2.2.2.2.1
  generalize (b.buffer_at p.index).offsetOf p.first = f at h1 h2 hlen
  generalize (b.buffer_at p.index).offsetOf p.last = l at h1 h2 hlen
  generalize p.index = idx at h1 h2
  have hfl := h2.2.2.1
  subst h1
  simp only [BufferCollection.window_length] at hr hlen
  rw [buffer_position_window h2 (by omega)]
  unfold trim_piece_left
  simp only [BufferCollection.window_index, BufferCollection.window_last,
    BufferCollection.window_first, BufferCollection.window_length, buffer_offset_eq,
    CharBuffer.cursorAt_offset h2.2.1, Piece.mk.injEq, true_and, and_true]
  rw [distance_of_le (by omega), distance_of_le (by omega), retract_of_le (by omega)]
  omega

/-- The splitting path of `internal_insert`. -/
theorem split_built (t : Tree) (txt : List CharT) (h : t.Consistent) (d : NodeData)
    (hmem : d.piece ∈ t.root.toList) (rem : Nat) (hr : rem ≤ d.piece.length)
    (start : Nat) :
    ∃ r1 r2 r3 r4, (t.build_piece txt).2.root.remove start = some r1 ∧
      r1.insert { piece := (trim_piece_right t.buffers d.piece
          (buffer_position t.buffers d.piece rem)) } start = some r2 ∧
      r2.insert { piece := (t.build_piece txt).1 }
          (start + (trim_piece_right t.buffers d.piece
            (buffer_position t.buffers d.piece rem)).length) = some r3 ∧
      r3.insert { piece :=
          { d.piece with
            first := buffer_position t.buffers d.piece rem
            length := (distance
              (t.buffers.buffer_offset d.piece.index (buffer_position t.buffers d.piece rem))
              (t.buffers.buffer_offset d.piece.index d.piece.last))
            newline_count := (line_feed_count t.buffers d.piece.index
              (buffer_position t.buffers d.piece rem) d.piece.last) } }
          (start + (trim_piece_right t.buffers d.piece
            (buffer_position t.buffers d.piece rem)).length
            + (t.build_piece txt).1.length) = some r4 ∧
      Step t ({ (t.build_piece txt).2 with root := r4 }).compute_buffer_meta := by
  obtain ⟨b1, b2, b3, b4, b5, b6⟩ := build_piece_spec t txt h.1 h.2.2.2.1
  have hp := h.2.1.1 _ hmem
  obtain ⟨k1, k2, _, _⟩ := trim_ok h.1 hp hr
  rw [split_right_eq h.1 hp hr]
  have hroot := built_root_ok t txt h
  obtain ⟨r1, h1, h2, _⟩ := hroot.remove start
  obtain ⟨r2, h3, h4, _⟩ := h2.insert (x := { piece := (trim_piece_right t.buffers d.piece
    (buffer_position t.buffers d.piece rem)) }) (b2.pieceOK h.1 b1 k1) start
  obtain ⟨r3, h5, h6, _⟩ := h4.insert (x := { piece := (t.build_piece txt).1 })
    (built_piece_ok t txt h) (start + (trim_piece_right t.buffers d.piece
            (buffer_position t.buffers d.piece rem)).length)
  obtain ⟨r4, h7, h8, _⟩ := h6.insert (x := { piece := (trim_piece_left t.buffers d.piece
    (buffer_position t.buffers d.piece rem)) }) (b2.pieceOK h.1 b1 k2)
    (start + (trim_piece_right t.buffers d.piece
            (buffer_position t.buffers d.piece rem)).length + (t.build_piece txt).1.length)
  exact ⟨r1, r2, r3, r4, h1, h3, h5, h7, step_of_root t txt h r4 h8⟩

theorem Consistent.set_end {t : Tree} (h : t.Consistent) (e : Nat) :
    ({ t with end_last_insert := e } : Tree).Consistent := h

theorem root_nonempty_toList {r : RedBlackTree} (h : ¬ r.is_empty = true) :
    r.is_empty = false := by
  cases r with
  | empty => simp at h
  | node _ _ _ _ => rfl

/-- The function `internal_insert` is defined on every consistent tree; it keeps the tree
consistent, extends the buffers, leaves the history alone and records the end of the
insertion. -/
theorem internal_insert_spec (t0 : Tree) (offset : Nat) (txt : List CharT)
    (h0 : t0.Consistent) :
    ∃ t1, t0.internal_insert offset txt = some t1 ∧ t1.Consistent ∧
      t0.buffers.Extends t1.buffers ∧ t1.undo_stack = t0.undo_stack ∧
      t1.redo_stack = t0.redo_stack ∧ t1.end_last_insert = extend offset txt.length := by
  unfold internal_insert
  lift_lets
  intro t built built2 r0 off result remainder node_start_offset plain prev_node_result
    new_piece
  have h : t.Consistent := h0.set_end _
  by_cases he : t.root.is_empty = true
  · rw [if_pos he]
    obtain ⟨r1, h1, h2⟩ := insert_built t txt 0 h
    refine ⟨_, ?_, h2⟩
    simp only [built, built2, h1, Option.bind_eq_bind, Option.some_bind, Option.pure_def]
  · rw [if_neg he]
    have hne := root_nonempty_toList he
    obtain ⟨d0, A0, B0, n1, n2, n3, n4, n5, n6, n7⟩ :=
      node_at_some t.buffers t.root h.aug hne offset
    have hres : result = r0 := by
      simp only [result, r0, n1, Option.isNone_some, Bool.false_eq_true, ↓reduceIte]
    have hnode : result.node = some d0 := by rw [hres]; exact n1
    have hmem0 : d0.piece ∈ t.root.toList := by rw [n2]; simp
    have hrem : remainder ≤ d0.piece.length := by
      simp only [remainder, hres, r0]; exact n5
    simp only [hnode, Option.bind_eq_bind, Option.some_bind]
    have hplain : ∃ t1, plain = some t1 ∧ Step t t1 := by
      obtain ⟨r1, h1, h2⟩ := insert_built t txt offset h
      refine ⟨_, ?_, h2⟩
      simp only [plain, built, built2, h1, Option.bind_eq_bind, Option.some_bind,
        Option.pure_def]
    by_cases hs : node_start_offset = offset
    · rw [if_pos hs]
      by_cases hz : offset ≠ 0
      · rw [if_pos hz]
        obtain ⟨d1, A1, B1, m1, m2, _⟩ :=
          node_at_some t.buffers t.root h.aug hne (retract offset)
        have hprev : prev_node_result.node = some d1 := m1
        simp only [hprev, Option.some_bind]
        by_cases hc : d1.piece.index = BufferIndex.ModBuf ∧ d1.piece.last = t.last_insert
        · rw [if_pos hc]
          obtain ⟨t1, k1, k2⟩ := combine_built t txt h prev_node_result d1 hprev
            (by rw [m2]; simp) hc.1 hc.2
          refine ⟨_, ?_, k2⟩
          simp only [built, k1, Option.some_bind, Option.pure_def]
        · rw [if_neg hc]
          exact hplain
      · rw [if_neg hz]
        exact hplain
    · rw [if_neg hs]
      by_cases hi : offset < node_start_offset + d0.piece.length
      · have : (!decide (offset < node_start_offset + d0.piece.length)) = false := by
          simp [hi]
        simp only [this, Bool.false_eq_true, ↓reduceIte]
        obtain ⟨r1, r2, r3, r4, k1, k2, k3, k4, k5⟩ :=
          split_built t txt h d0 hmem0 remainder hrem node_start_offset
        refine ⟨_, ?_, k5⟩
        simp only [built, built2, new_piece, k1, k2, k3, k4, Option.some_bind,
          Option.pure_def]
      · have : (!decide (offset < node_start_offset + d0.piece.length)) = true := by
          simp [hi]
        simp only [this, ↓reduceIte]
        by_cases hc : d0.piece.index = BufferIndex.ModBuf ∧ d0.piece.last = t.last_insert
        · rw [if_pos hc]
          obtain ⟨t1, k1, k2⟩ := combine_built t txt h result d0 hnode hmem0 hc.1 hc.2
          refine ⟨_, ?_, k2⟩
          simp only [built, k1, Option.some_bind, Option.pure_def]
        · rw [if_neg hc]
          obtain ⟨r1, h1, h2⟩ := insert_built t txt offset h
          refine ⟨_, ?_, h2⟩
          simp only [built, built2, h1, Option.some_bind, Option.pure_def]

end Tree

end PieceTree


namespace PieceTree

namespace RedBlackTree

/-! ## Lemmas: the pieces `rem` leaves, without assumptions on their lengths -/

/-- Removal never takes the document below the offset it is addressed with. -/
theorem remPieces_sum_ge : ∀ (t : RedBlackTree) (at_ total : Nat), Aug t = true →
    at_ ≤ total + sumLen (toList t) → at_ ≤ total + sumLen (remPieces t at_ total) := by
  intro t
  induction t with
  | empty => intro at_ total _ h; simpa using h
  | node c l y r ihl ihr =>
    intro at_ total ha h
    rw [Aug_node] at ha
    obtain ⟨e1, e2, al, ar⟩ := ha
    rw [toList_node] at h
    simp only [sumLen_append, sumLen_cons] at h
    rw [remPieces_node]
    split
    · rename_i h1
      have := ihl at_ total al (by rw [← e1]; omega)
      simp only [sumLen_append, sumLen_cons]
      omega
    · split
      · rename_i h1 h2
        simp only [sumLen_append]
        rw [← e1]; omega
      · rename_i h1 h2
        have := ihr at_ (total + y.left_subtree_length + y.piece.length) ar
          (by rw [e1]; omega)
        simp only [sumLen_append, sumLen_cons]
        rw [e1] at this ⊢
        omega

/-- When the last piece is empty and the offset is the end of the document, `rem` takes a
node away. -/
theorem remPieces_progress : ∀ (t : RedBlackTree) (at_ total : Nat) (A : List Piece)
    (p : Piece), Aug t = true → toList t = A ++ [p] → p.length = 0 →
    at_ = total + sumLen A → (remPieces t at_ total).length < (toList t).length := by
  intro t
  induction t with
  | empty => intro at_ total A p _ h; simp at h
  | node c l y r ihl ihr =>
    intro at_ total A p ha hl hp hat
    rw [Aug_node] at ha
    obtain ⟨e1, e2, al, ar⟩ := ha
    rw [toList_node] at hl
    have hsum : sumLen (toList l) + y.piece.length + sumLen (toList r) = sumLen A := by
      have := congrArg sumLen hl
      simp only [sumLen_append, sumLen_cons, sumLen_nil] at this
      omega
    rw [remPieces_node, toList_node]
    have h1 : ¬ at_ < total + y.left_subtree_length := by rw [e1]; omega
    rw [if_neg h1]
    split
    · simp
    · rename_i h2
      cases r with
      | empty =>
        exfalso
        simp only [toList_empty] at hl hsum
        have h5 := List.append_inj' hl rfl
        simp only [List.cons.injEq, and_true] at h5
        rw [h5.2, hp] at hsum
        apply h2
        rw [e1]; simp only [sumLen_nil] at hsum; omega
      | node c2 l2 y2 r2 =>
        obtain ⟨A2, p2, hA2⟩ := PieceTree.exists_last_of_ne_nil (node c2 l2 y2 r2).toList
          (by simp)
        have hl2 := hl
        rw [hA2, ← List.cons_append, ← List.append_assoc] at hl2
        have h5 := List.append_inj' hl2 rfl
        simp only [List.cons.injEq, and_true] at h5
        obtain ⟨h6, h7⟩ := h5
        subst h7
        have := ihr at_ (total + y.left_subtree_length + y.piece.length) A2 p2 ar hA2 hp
          (by rw [hat, ← h6, e1]; simp only [sumLen_append, sumLen_cons]; omega)
        simp only [List.length_append, List.length_cons]
        omega

end RedBlackTree

end PieceTree


namespace PieceTree

namespace Tree

/-! ## Lemmas: `internal_remove` keeps the tree consistent -/

theorem node_at_empty (b : BufferCollection) (off : Nat) :
    (node_at b RedBlackTree.empty off).node = none := rfl

/-- An empty piece `node_at` returns is the last piece, and the offset is its start. -/
theorem node_at_zero_length (b : BufferCollection) (t : RedBlackTree) (ha : t.Aug = true)
    (off : Nat) (d : NodeData) (hd : (node_at b t off).node = some d)
    (hz : d.piece.length = 0) :
    ∃ A, t.toList = A ++ [d.piece] ∧ (node_at b t off).start_offset = sumLen A ∧
      sumLen t.toList ≤ off := by
  have hne : t.is_empty = false := by
    cases t with
    | empty => rw [node_at_empty] at hd; simp at hd
    | node _ _ _ _ => rfl
  obtain ⟨d1, A, B, n1, n2, n3, n4, n5, n6, n7⟩ := node_at_some b t ha hne off
  rw [n1] at hd
  simp only [Option.some.injEq] at hd
  subst hd
  by_cases ho : off < sumLen t.toList
  · have := n6 ho
    omega
  · obtain ⟨hB, _⟩ := n7 (by omega)
    subst hB
    exact ⟨A, n2, n3, by omega⟩

/-- The loop of `remove_node_range` ends within its fuel and leaves a consistent root. -/
theorem remove_node_range_loop_spec (b : BufferCollection) (length at_ : Nat) :
    ∀ (fuel : Nat) (root : RedBlackTree) (first : NodePosition) (deleted : Nat),
      RootOK b root → at_ ≤ sumLen root.toList →
      (∀ d, first.node = some d → d.piece.length = 0 →
        ∃ A, root.toList = A ++ [d.piece] ∧ at_ = sumLen A) →
      (length - deleted) + root.size < fuel →
      ∃ r1, remove_node_range_loop b length at_ fuel root first deleted = some r1 ∧
        RootOK b r1 := by
  intro fuel
  induction fuel with
  | zero => intro root first deleted _ _ _ hm; omega
  | succ n ih =>
    intro root first deleted hr hat hz hm
    unfold remove_node_range_loop
    by_cases hc : deleted < length ∧ first.node.isSome = true
    · rw [if_pos hc]
      obtain ⟨d, hd⟩ := Option.isSome_iff_exists.1 hc.2
      obtain ⟨r1, h1, h2, h3, h4⟩ := hr.remove at_
      simp only [hd, Option.bind_eq_bind, Option.some_bind, h1]
      have hsz : r1.size ≤ root.size := by
        rw [RedBlackTree.size_eq_length, RedBlackTree.size_eq_length]
        exact h4.length_le
      have hat1 : at_ ≤ sumLen r1.toList := by
        have := RedBlackTree.remPieces_sum_ge root at_ 0 hr.2.2 (by omega)
        rw [h3]; omega
      apply ih r1 (node_at b r1 at_) (deleted + d.piece.length) h2 hat1
      · intro d1 hd1 hz1
        obtain ⟨A, k1, k2, k3⟩ := node_at_zero_length b r1 h2.2.2 at_ d1 hd1 hz1
        refine ⟨A, k1, ?_⟩
        have := congrArg sumLen k1
        simp only [sumLen_append, sumLen_cons, sumLen_nil] at this
        omega
      · by_cases hl : d.piece.length = 0
        · obtain ⟨A, k1, k2⟩ := hz d hd hl
          have := RedBlackTree.remPieces_progress root at_ 0 A d.piece hr.2.2 k1 hl
            (by omega)
          rw [← h3, ← RedBlackTree.size_eq_length, ← RedBlackTree.size_eq_length] at this
          omega
        · omega
    · rw [if_neg hc]
      exact ⟨root, rfl, hr⟩

/-- A consistent root over the same buffers makes a consistent tree. -/
theorem same_buffers_step (t : Tree) (h : t.Consistent) (r : RedBlackTree)
    (hr : RootOK t.buffers r) :
    Step t ({ t with root := r }).compute_buffer_meta ∧
      (({ t with root := r }).compute_buffer_meta).buffers = t.buffers ∧
      (({ t with root := r }).compute_buffer_meta).last_insert = t.last_insert :=
  ⟨⟨Consistent.of_parts h h.1 (BufferCollection.Extends.refl _) hr rfl h.2.2.2.1
      (fun _ he => Or.inl he) (fun _ he => Or.inl he),
    BufferCollection.Extends.refl _, rfl, rfl, rfl⟩, rfl, rfl⟩

/-- The function `remove_node_range` is defined after `node_at` found its first node. -/
theorem remove_node_range_spec (t : Tree) (h : t.Consistent) (off length : Nat)
    (hne : t.root.is_empty = false) :
    ∃ r1, t.remove_node_range (node_at t.buffers t.root off) length
        = some { t with root := r1 } ∧ RootOK t.buffers r1 := by
  obtain ⟨d, A, B, n1, n2, n3, n4, n5, n6, n7⟩ := node_at_some t.buffers t.root h.aug hne off
  unfold remove_node_range
  simp only [n1, Option.bind_eq_bind, Option.some_bind]
  obtain ⟨r1, k1, k2⟩ := remove_node_range_loop_spec t.buffers
    (extend (retract length (retract d.piece.length (node_at t.buffers t.root off).remainder))
      d.piece.length)
    (node_at t.buffers t.root off).start_offset
    (extend (retract length (retract d.piece.length (node_at t.buffers t.root off).remainder))
      d.piece.length + t.root.size + 1) t.root (node_at t.buffers t.root off) 0 h.2.1
    (by rw [n3, n2]; simp only [sumLen_append, sumLen_cons]; omega)
    (by
      intro d1 hd1 hz1
      obtain ⟨A1, j1, j2, _⟩ := node_at_zero_length t.buffers t.root h.aug off d1 hd1 hz1
      exact ⟨A1, j1, j2⟩)
    (by omega)
  exact ⟨r1, by simp only [k1, Option.some_bind, Option.pure_def], k2⟩

/-- Two positions of equal rank name the same piece. -/
theorem piece_eq_of_rank {l A1 B1 A2 B2 : List Piece} {p1 p2 : Piece}
    (h1 : l = A1 ++ p1 :: B1) (h2 : l = A2 ++ p2 :: B2) (hr : A1.length = A2.length) :
    p1 = p2 := by
  rw [h1] at h2
  have := (List.append_inj h2 hr).2
  simp only [List.cons.injEq] at this
  exact this.1

/-- The function `internal_remove` is defined on every consistent tree with a non-empty
root; it keeps the tree consistent and leaves the buffers and the history alone. -/
theorem internal_remove_spec (t : Tree) (offset count : Nat) (h : t.Consistent)
    (hne : t.root.is_empty = false) :
    ∃ t1, t.internal_remove offset count = some t1 ∧ Step t t1 ∧
      t1.buffers = t.buffers ∧ t1.last_insert = t.last_insert := by
  unfold internal_remove
  lift_lets
  intro first last
  obtain ⟨d1, A1, B1, n1, n2, n3, n4, n5, n6, n7⟩ :=
    node_at_some t.buffers t.root h.aug hne offset
  obtain ⟨d2, A2, B2, m1, m2, m3, m4, m5, m6, m7⟩ :=
    node_at_some t.buffers t.root h.aug hne (extend offset count)
  have hf : first.node = some d1 := n1
  have hl : last.node = some d2 := m1
  have hp1 : t.buffers.PieceOK d1.piece := h.2.1.1 _ (by rw [n2]; simp)
  have hp2 : t.buffers.PieceOK d2.piece := h.2.1.1 _ (by rw [m2]; simp)
  have hr1 : first.remainder ≤ d1.piece.length := n5
  have hr2 : last.remainder ≤ d2.piece.length := m5
  obtain ⟨q1, q2, _, _⟩ := trim_ok h.1 hp1 hr1
  obtain ⟨q3, q4, _, _⟩ := trim_ok h.1 hp2 hr2
  simp only [hf, Option.bind_eq_bind, Option.some_bind]
  obtain ⟨r1, e1, e2, _⟩ := h.2.1.remove first.start_offset
  by_cases hc : first.node.isSome = last.node.isSome ∧
      (first.node.isSome = true → first.rank = last.rank)
  · have hc2 : (some d1).isSome = last.node.isSome ∧
        ((some d1).isSome = true → first.rank = last.rank) := by rw [← hf]; exact hc
    rw [if_pos hc2]
    have hrank : first.rank = last.rank := hc.2 (by rw [hf]; rfl)
    have hpe : d1.piece = d2.piece :=
      piece_eq_of_rank n2 m2 (by rw [← n4, ← m4]; exact hrank)
    have hr3 : last.remainder ≤ d1.piece.length := by rw [hpe]; exact hr2
    obtain ⟨q5, q6, _, _⟩ := trim_ok h.1 hp1 hr3
    by_cases hs : first.start_offset = offset
    · rw [if_pos hs]
      by_cases hcnt : count = d1.piece.length
      · rw [if_pos hcnt]
        refine ⟨_, ?_, same_buffers_step t h r1 e2⟩
        simp only [e1, Option.some_bind, Option.pure_def]
      · rw [if_neg hcnt]
        obtain ⟨r2, e3, e4, _⟩ := e2.insert
          (x := { piece := (trim_piece_left t.buffers d1.piece
            (buffer_position t.buffers d1.piece last.remainder)) }) q6 first.start_offset
        refine ⟨_, ?_, same_buffers_step t h r2 e4⟩
        simp only [e1, e3, Option.some_bind, Option.pure_def]
    · rw [if_neg hs]
      by_cases hend : first.start_offset + d1.piece.length = extend offset count
      · rw [if_pos hend]
        obtain ⟨r2, e3, e4, _⟩ := e2.insert
          (x := { piece := (trim_piece_right t.buffers d1.piece
            (buffer_position t.buffers d1.piece first.remainder)) }) q1 first.start_offset
        refine ⟨_, ?_, same_buffers_step t h r2 e4⟩
        simp only [e1, e3, Option.some_bind, Option.pure_def]
      · rw [if_neg hend]
        obtain ⟨r2, e3, e4, _⟩ := e2.insert
          (x := { piece := (trim_piece_left t.buffers d1.piece
            (buffer_position t.buffers d1.piece last.remainder)) }) q6 first.start_offset
        obtain ⟨r3, e5, e6, _⟩ := e4.insert
          (x := { piece := (trim_piece_right t.buffers d1.piece
            (buffer_position t.buffers d1.piece first.remainder)) }) q1 first.start_offset
        refine ⟨_, ?_, same_buffers_step t h r3 e6⟩
        simp only [shrink_piece, e1, e3, e5, Option.some_bind, Option.pure_def]
  · have hc2 : ¬ ((some d1).isSome = last.node.isSome ∧
        ((some d1).isSome = true → first.rank = last.rank)) := by rw [← hf]; exact hc
    rw [if_neg hc2]
    obtain ⟨rr, g1, g2⟩ := remove_node_range_spec t h offset count hne
    have g3 : t.remove_node_range first count = some { t with root := rr } := g1
    simp only [hl, g3, Option.some_bind, Option.pure_def]
    -- the root after the trimmed last piece has been put back
    have hmid : ∃ rm, RootOK t.buffers rm ∧
        (if last.remainder ≠ 0 ∧ (trim_piece_left t.buffers d2.piece
              (buffer_position t.buffers d2.piece last.remainder)).length ≠ 0 then
            (rr.insert { piece := (trim_piece_left t.buffers d2.piece
              (buffer_position t.buffers d2.piece last.remainder)) } first.start_offset)
          else some rr) = some rm := by
      split
      · obtain ⟨r2, e3, e4, _⟩ := g2.insert
          (x := { piece := (trim_piece_left t.buffers d2.piece
            (buffer_position t.buffers d2.piece last.remainder)) }) q4 first.start_offset
        exact ⟨r2, e4, e3⟩
      · exact ⟨rr, g2, rfl⟩
    obtain ⟨rm, hm1, hm2⟩ := hmid
    by_cases hlast : last.remainder ≠ 0 ∧ (trim_piece_left t.buffers d2.piece
        (buffer_position t.buffers d2.piece last.remainder)).length ≠ 0
    · rw [if_pos hlast] at hm2
      rw [if_pos hlast]
      simp only [hm2, Option.bind_eq_bind, Option.some_bind]
      by_cases hfirst : (trim_piece_right t.buffers d1.piece
          (buffer_position t.buffers d1.piece first.remainder)).length ≠ 0
      · rw [if_pos hfirst]
        obtain ⟨r3, e5, e6, _⟩ := hm1.insert
          (x := { piece := (trim_piece_right t.buffers d1.piece
            (buffer_position t.buffers d1.piece first.remainder)) }) q1 first.start_offset
        refine ⟨_, ?_, same_buffers_step t h r3 e6⟩
        simp only [e5, Option.some_bind, Option.pure_def]
      · rw [if_neg hfirst]
        exact ⟨_, rfl, same_buffers_step t h rm hm1⟩
    · rw [if_neg hlast] at hm2
      rw [if_neg hlast]
      simp only [Option.some.injEq] at hm2
      subst hm2
      by_cases hfirst : (trim_piece_right t.buffers d1.piece
          (buffer_position t.buffers d1.piece first.remainder)).length ≠ 0
      · rw [if_pos hfirst]
        obtain ⟨r3, e5, e6, _⟩ := hm1.insert
          (x := { piece := (trim_piece_right t.buffers d1.piece
            (buffer_position t.buffers d1.piece first.remainder)) }) q1 first.start_offset
        refine ⟨_, ?_, same_buffers_step t h r3 e6⟩
        simp only [e5, Option.some_bind, Option.pure_def]
      · rw [if_neg hfirst]
        exact ⟨_, rfl, same_buffers_step t h rr hm1⟩

end Tree

end PieceTree


namespace PieceTree

namespace Tree

/-! ## Lemmas: the public mutations keep the tree consistent -/

theorem Consistent.append_undo {t : Tree} (h : t.Consistent) (op_offset : Nat) :
    (t.append_undo t.root op_offset).Consistent := by
  obtain ⟨c1, c2, c3, c4, c5, c6⟩ := h
  refine ⟨c1, c2, c3, c4, ?_, ?_⟩
  · intro e he
    simp only [Tree.append_undo, List.mem_cons] at he
    rcases he with rfl | he
    · exact c2
    · exact c5 e he
  · intro e he
    simp [Tree.append_undo] at he

theorem init_consistent : Tree.init.Consistent := by decide

/-- The function `insert` is defined on every consistent tree and keeps it consistent. -/
theorem insert_consistent (t : Tree) (offset : Nat) (txt : List CharT)
    (sh : SuppressHistory) (h : t.Consistent) :
    ∃ t1, t.insert offset txt sh = some t1 ∧ t1.Consistent ∧
      t.buffers.Extends t1.buffers := by
  unfold Tree.insert
  split
  · exact ⟨t, rfl, h, BufferCollection.Extends.refl _⟩
  · simp only
    split
    · obtain ⟨t1, h1, h2, h3, _⟩ :=
        internal_insert_spec (t.append_undo t.root offset) offset txt (h.append_undo offset)
      exact ⟨t1, h1, h2, h3⟩
    · obtain ⟨t1, h1, h2, h3, _⟩ := internal_insert_spec t offset txt h
      exact ⟨t1, h1, h2, h3⟩

/-- The function `remove` is defined on every consistent tree and keeps it consistent. -/
theorem remove_consistent (t : Tree) (offset count : Nat) (sh : SuppressHistory)
    (h : t.Consistent) :
    ∃ t1, t.remove offset count sh = some t1 ∧ t1.Consistent ∧ t1.buffers = t.buffers := by
  unfold Tree.remove
  split
  · exact ⟨t, rfl, h, rfl⟩
  · rename_i hc
    have hne : t.root.is_empty = false := by
      cases hr : t.root.is_empty with
      | true => exact absurd (Or.inr hr) hc
      | false => rfl
    simp only
    split
    · obtain ⟨t1, h1, h2, h3, _⟩ :=
        internal_remove_spec (t.append_undo t.root offset) offset count
          (h.append_undo offset) hne
      exact ⟨t1, h1, h2.1, h3⟩
    · obtain ⟨t1, h1, h2, h3, _⟩ := internal_remove_spec t offset count h hne
      exact ⟨t1, h1, h2.1, h3⟩

theorem try_undo_consistent (t : Tree) (op_offset : Nat) (h : t.Consistent) :
    (t.try_undo op_offset).1.Consistent ∧ (t.try_undo op_offset).1.buffers = t.buffers := by
  unfold Tree.try_undo
  split
  · exact ⟨h, rfl⟩
  · rename_i e rest he
    obtain ⟨c1, c2, c3, c4, c5, c6⟩ := h
    refine ⟨⟨c1, c5 e (by rw [he]; simp), rfl, c4, ?_, ?_⟩, rfl⟩
    · intro e1 he1
      exact c5 e1 (by rw [he]; exact List.mem_cons_of_mem _ he1)
    · intro e1 he1
      simp only [Tree.compute_buffer_meta, List.mem_cons] at he1
      rcases he1 with rfl | he1
      · exact c2
      · exact c6 e1 he1

theorem try_redo_consistent (t : Tree) (op_offset : Nat) (h : t.Consistent) :
    (t.try_redo op_offset).1.Consistent ∧ (t.try_redo op_offset).1.buffers = t.buffers := by
  unfold Tree.try_redo
  split
  · exact ⟨h, rfl⟩
  · rename_i e rest he
    obtain ⟨c1, c2, c3, c4, c5, c6⟩ := h
    refine ⟨⟨c1, c6 e (by rw [he]; simp), rfl, c4, ?_, ?_⟩, rfl⟩
    · intro e1 he1
      simp only [Tree.compute_buffer_meta, List.mem_cons] at he1
      rcases he1 with rfl | he1
      · exact c2
      · exact c5 e1 he1
    · intro e1 he1
      exact c6 e1 (by rw [he]; exact List.mem_cons_of_mem _ he1)

/-- Every mutation is defined on a consistent tree and keeps it consistent. -/
theorem apply_consistent (t : Tree) (op : Op) (h : t.Consistent) :
    ∃ t1, t.apply op = some t1 ∧ t1.Consistent ∧ t.buffers.Extends t1.buffers := by
  cases op with
  | insert offset txt sh => exact insert_consistent t offset txt sh h
  | remove offset count sh =>
    obtain ⟨t1, h1, h2, h3⟩ := remove_consistent t offset count sh h
    exact ⟨t1, h1, h2, by rw [h3]; exact BufferCollection.Extends.refl _⟩
  | undo a =>
    obtain ⟨h1, h2⟩ := try_undo_consistent t a h
    exact ⟨_, rfl, h1, by rw [h2]; exact BufferCollection.Extends.refl _⟩
  | redo a =>
    obtain ⟨h1, h2⟩ := try_redo_consistent t a h
    exact ⟨_, rfl, h1, by rw [h2]; exact BufferCollection.Extends.refl _⟩

/-- Every sequence of mutations is defined on a consistent tree and keeps it consistent. -/
theorem run_consistent (ops : List Op) (t : Tree) (h : t.Consistent) :
    ∃ t1, run ops t = some t1 ∧ t1.Consistent ∧ t.buffers.Extends t1.buffers := by
  induction ops generalizing t with
  | nil => exact ⟨t, rfl, h, BufferCollection.Extends.refl _⟩
  | cons op ops ih =>
    obtain ⟨t1, h1, h2, h3⟩ := apply_consistent t op h
    obtain ⟨t2, h4, h5, h6⟩ := ih t1 h2
    refine ⟨t2, ?_, h5, h3.trans h6⟩
    simp only [run, h1, Option.some_bind, h4]

end Tree

end PieceTree


namespace PieceTree

namespace Tree

/-! ## Lemmas: the history stacks -/

theorem isEmpty_false_of_ne_nil {txt : List CharT} (h : txt ≠ []) : txt.isEmpty = false := by
  cases txt with
  | nil => exact absurd rfl h
  | cons _ _ => rfl

/-- What `insert` does to the tree and to the history. -/
theorem insert_full_spec (t : Tree) (offset : Nat) (txt : List CharT) (sh : SuppressHistory)
    (h : t.Consistent) (hne : txt ≠ []) :
    ∃ t1, t.insert offset txt sh = some t1 ∧ t1.Consistent ∧
      t.buffers.Extends t1.buffers ∧
      (if sh = SuppressHistory.No ∧ (t.end_last_insert ≠ offset ∨ t.root.is_empty = true)
        then t1.undo_stack = { root := t.root, op_offset := offset } :: t.undo_stack ∧
          t1.redo_stack = []
        else t1.undo_stack = t.undo_stack ∧ t1.redo_stack = t.redo_stack) ∧
      t1.end_last_insert = extend offset txt.length ∧
      t1.meta = PieceTree.compute_buffer_meta t1.root := by
  unfold Tree.insert
  rw [isEmpty_false_of_ne_nil hne]
  simp only [Bool.false_eq_true, ↓reduceIte]
  by_cases hc : sh = SuppressHistory.No ∧ (t.end_last_insert ≠ offset ∨ t.root.is_empty = true)
  · rw [if_pos hc]
    obtain ⟨t1, h1, h2, h3, h4, h5, h6⟩ :=
      internal_insert_spec (t.append_undo t.root offset) offset txt (h.append_undo offset)
    refine ⟨t1, h1, h2, h3, ?_, h6, h2.2.2.1⟩
    rw [if_pos hc]
    exact ⟨h4, h5⟩
  · rw [if_neg hc]
    obtain ⟨t1, h1, h2, h3, h4, h5, h6⟩ := internal_insert_spec t offset txt h
    refine ⟨t1, h1, h2, h3, ?_, h6, h2.2.2.1⟩
    rw [if_neg hc]
    exact ⟨h4, h5⟩

/-- What `remove` does to the tree and to the history when it has work to do. -/
theorem remove_full_spec (t : Tree) (offset count : Nat) (h : t.Consistent)
    (hne : t.root.is_empty = false) (hc : 0 < count) :
    ∃ t1, t.remove offset count SuppressHistory.No = some t1 ∧ t1.Consistent ∧
      t1.buffers = t.buffers ∧
      t1.undo_stack = { root := t.root, op_offset := offset } :: t.undo_stack ∧
      t1.redo_stack = [] := by
  unfold Tree.remove
  have : ¬ (count = 0 ∨ t.root.is_empty = true) := by
    rw [hne]; simp; omega
  rw [if_neg this]
  simp only [↓reduceIte]
  obtain ⟨t1, h1, h2, h3, _⟩ :=
    internal_remove_spec (t.append_undo t.root offset) offset count (h.append_undo offset) hne
  exact ⟨t1, h1, h2.1, h3, h2.2.2.1, h2.2.2.2.1⟩

/-- Installing a root: the document, the length and the line feed count are those of the
root. -/
theorem try_undo_cons (t : Tree) (a : Nat) (e : UndoRedoEntry) (rest : List UndoRedoEntry)
    (h : t.undo_stack = e :: rest) :
    t.try_undo a =
      (({ t with
          redo_stack := { root := t.root, op_offset := a } :: t.redo_stack
          root := e.root
          undo_stack := rest }).compute_buffer_meta,
       { success := true, op_offset := e.op_offset }) := by
  unfold Tree.try_undo
  rw [h]

theorem try_redo_cons (t : Tree) (a : Nat) (e : UndoRedoEntry) (rest : List UndoRedoEntry)
    (h : t.redo_stack = e :: rest) :
    t.try_redo a =
      (({ t with
          undo_stack := { root := t.root, op_offset := a } :: t.undo_stack
          root := e.root
          redo_stack := rest }).compute_buffer_meta,
       { success := true, op_offset := e.op_offset }) := by
  unfold Tree.try_redo
  rw [h]

theorem try_undo_nil (t : Tree) (a : Nat) (h : t.undo_stack = []) :
    t.try_undo a = (t, { success := false, op_offset := 0 }) := by
  unfold Tree.try_undo
  rw [h]

theorem try_redo_nil (t : Tree) (a : Nat) (h : t.redo_stack = []) :
    t.try_redo a = (t, { success := false, op_offset := 0 }) := by
  unfold Tree.try_redo
  rw [h]

/-- Two trees with the same root over buffers of which one extends the other hold the
same document, with the same length and line counts once the meta data is computed. -/
theorem same_root_same_document (t t1 : Tree) (h : t.Consistent) (hb1 : t1.buffers.OK)
    (he : t.buffers.Extends t1.buffers) (hr : t1.root = t.root)
    (hm : t1.meta = PieceTree.compute_buffer_meta t1.root) :
    t1.content = t.content ∧ t1.length = t.length ∧ t1.lf_count = t.lf_count ∧
      t1.line_count = t.line_count := by
  have hmeta : t1.meta = t.meta := by rw [hm, hr, h.meta_eq]
  refine ⟨?_, ?_, ?_, ?_⟩
  · unfold content
    rw [hr]
    exact he.textOf h.1 hb1 h.pieces_ok
  · unfold length; rw [hmeta]
  · unfold lf_count; rw [hmeta]
  · unfold line_count lf_count; rw [hmeta]

end Tree

end PieceTree


namespace PieceTree

/-! ## Lemmas: `line_start` and the line ranges -/

/-- The `m`-th line start of a buffer (`m ≥ 1`) is the offset right after the `m`-th line
feed. -/
theorem CharBuffer.line_start_after_lf {cb : CharBuffer} (h : cb.OK) (m : Nat) (h1 : 1 ≤ m)
    (h2 : m < cb.line_starts.length) :
    1 ≤ cb.line_starts.getD m 0 ∧ cb.line_starts.getD m 0 ≤ cb.buffer.length ∧
      cb.buffer.getD (cb.line_starts.getD m 0 - 1) 0 = LF ∧
      lfBefore cb.buffer (cb.line_starts.getD m 0 - 1) = m - 1 ∧
      lfBefore cb.buffer (cb.line_starts.getD m 0) = m := by
  have e := fun o => CharBuffer.start_le_iff h m o h2
  generalize cb.line_starts.getD m 0 = X at e
  have hlen := CharBuffer.line_starts_length h
  have hX1 : 1 ≤ X := by
    by_contra hc
    have h0 : X ≤ 0 := by omega
    have := (e 0).1 h0
    simp [lfBefore] at this
    omega
  have hX2 : X ≤ cb.buffer.length := by
    apply (e _).2
    rw [lfBefore_of_length_le _ (Nat.le_refl _)]
    omega
  have k1 : m ≤ lfBefore cb.buffer X := (e X).1 (Nat.le_refl _)
  have k2 : ¬ m ≤ lfBefore cb.buffer (X - 1) := fun hc => by
    have := (e (X - 1)).2 hc
    omega
  have k3 := lfBefore_succ cb.buffer (X - 1) (by omega)
  rw [show X - 1 + 1 = X by omega] at k3
  refine ⟨hX1, hX2, ?_, ?_, ?_⟩
  · by_contra hc
    rw [if_neg hc] at k3
    omega
  · split at k3 <;> omega
  · split at k3 <;> omega

/-- The two accumulators on a consistent piece: the offset, inside the piece, of its
`j + 1`-st line feed, and the offset right after it. -/
theorem accumulate_spec {b : BufferCollection} (hb : b.OK) {p : Piece} (hp : b.PieceOK p)
    (j : Nat) (hj : j < p.newline_count) :
    ∃ n, n < p.length ∧ Tree.accumulate_value b p j = n + 1 ∧
      Tree.accumulate_value_no_lf b p j = n ∧ (b.pieceText p).getD n 0 = LF ∧
      ((b.pieceText p).take n).count LF = j := by
  obtain ⟨h1, h2⟩ := BufferCollection.piece_eq_window hb hp
  have hnl : p.newline_count = p.last.line - p.first.line := hp.2.2.2.2.2
  have hlen : p.length = (b.buffer_at p.index).offsetOf p.last
      - (b.buffer_at p.index).offsetOf p.first := hp.2.2.2.2.1
  have hl1 := CharBuffer.cursor_line h2.2.1 hp.2.1
  have hl2 := CharBuffer.cursor_line h2.2.1 hp.2.2.1
  have hlast_lt : p.last.line < (b.buffer_at p.index).line_starts.length := hp.2.2.1.1
  have hcb := h2.2.1
  have hfl := h2.2.2.1
  have hll := h2.2.2.2
  obtain ⟨a1, a2, a3, a4, a5⟩ := CharBuffer.line_start_after_lf hcb (p.first.line + (j + 1))
    (by omega) (by omega)
  have e := fun o => CharBuffer.start_le_iff hcb (p.first.line + (j + 1)) o (by omega)
  have hfX : (b.buffer_at p.index).offsetOf p.first
      < (b.buffer_at p.index).line_starts.getD (p.first.line + (j + 1)) 0 := by
    by_contra hc
    have := (e _).1 (Nat.le_of_not_lt hc)
    omega
  have hXl : (b.buffer_at p.index).line_starts.getD (p.first.line + (j + 1)) 0
      ≤ (b.buffer_at p.index).offsetOf p.last := by
    apply (e _).2
    omega
  have hpt := BufferCollection.pieceText_window h2
  rw [← h1] at hpt
  have hoff1 : (b.buffer_at p.index).line_starts.getD p.first.line 0 + p.first.column
      = (b.buffer_at p.index).offsetOf p.first := rfl
  have hacc1 : Tree.accumulate_value b p j
      = retract ((b.buffer_at p.index).line_starts.getD (p.first.line + (j + 1)) 0)
          ((b.buffer_at p.index).offsetOf p.first) := by
    unfold Tree.accumulate_value
    simp only
    rw [if_neg (by omega), hoff1]
  have hacc2 : Tree.accumulate_value_no_lf b p j
      = retract (retract ((b.buffer_at p.index).line_starts.getD (p.first.line + (j + 1)) 0) 1)
          ((b.buffer_at p.index).offsetOf p.first) := by
    unfold Tree.accumulate_value_no_lf
    simp only
    rw [if_neg (by omega), hoff1, if_neg (by omega)]
    rw [retract_of_le a1, if_pos a3]
  rw [hacc1, hacc2]
  generalize (b.buffer_at p.index).line_starts.getD (p.first.line + (j + 1)) 0 = X at *
  generalize (b.buffer_at p.index).offsetOf p.first = f at *
  generalize (b.buffer_at p.index).offsetOf p.last = l at *
  refine ⟨X - 1 - f, by omega, ?_, ?_, ?_, ?_⟩
  · rw [retract_of_le (by omega)]
    omega
  · rw [retract_of_le (show 1 ≤ X by omega), retract_of_le (by omega)]
  · rw [hpt, getD_take_drop _ _ _ _ (by omega)]
    rw [show f + (X - 1 - f) = X - 1 by omega]
    exact a3
  · rw [hpt, count_take_take_drop _ _ _ _ (by omega)]
    rw [show f + (X - 1 - f) = X - 1 by omega, a4, ← hl1]
    omega

/-- A line feed rank inside a list of pieces falls into exactly one piece. -/
theorem exists_split_lf (l : List Piece) (k : Nat) (h1 : 1 ≤ k) (h2 : k ≤ sumLf l) :
    ∃ A p B, l = A ++ p :: B ∧ sumLf A < k ∧ k ≤ sumLf A + p.newline_count := by
  induction l generalizing k with
  | nil => simp at h2; omega
  | cons q l ih =>
    by_cases hq : k ≤ q.newline_count
    · exact ⟨[], q, l, rfl, by simp; omega, by simpa using hq⟩
    · simp only [sumLf_cons] at h2
      obtain ⟨A, p, B, e1, e2, e3⟩ := ih (k - q.newline_count) (by omega) (by omega)
      refine ⟨q :: A, p, B, by rw [e1]; rfl, ?_, ?_⟩
      · simp only [sumLf_cons]; omega
      · simp only [sumLf_cons]; omega

namespace Tree

theorem line_start_one (acc : BufferCollection → Piece → Nat → Nat) (b : BufferCollection)
    (t : RedBlackTree) (offset : Nat) : line_start acc b t 1 offset = offset := by
  induction t with
  | empty => rfl
  | node c l d r ihl _ =>
    unfold line_start
    simp only [show retract 1 1 = 0 from rfl, ge_iff_le, Nat.zero_le, ↓reduceIte]
    exact ihl

/-- The value of `line_start` for a line whose preceding line feed lies in the piece `p`. -/
theorem line_start_hit (acc : BufferCollection → Piece → Nat → Nat) (b : BufferCollection) :
    ∀ (t : RedBlackTree), t.Aug = true → ∀ (line offset : Nat) (A : List Piece) (p : Piece)
      (B : List Piece), t.toList = A ++ p :: B → sumLf A < line - 1 →
      line - 1 ≤ sumLf A + p.newline_count → line < 2 ^ 64 →
      line_start acc b t line offset
        = offset + (sumLen A + acc b p (line - 1 - sumLf A - 1)) := by
  intro t
  induction t with
  | empty => intro _ line offset A p B h; simp at h
  | node c l d r ihl ihr =>
    intro ha line offset A p B h h1 h2 h3
    rw [RedBlackTree.Aug_node] at ha
    obtain ⟨e1, e2, al, ar⟩ := ha
    rw [RedBlackTree.toList_node] at h
    unfold line_start
    simp only
    rw [retract_of_le (show 1 ≤ line by omega)]
    rcases append_cons_eq_cases _ _ _ _ _ _ h with ⟨C, h4, _⟩ | ⟨h4, h5, _⟩ | ⟨C, h4, h5⟩
    · have : d.left_subtree_lf_count ≥ line - 1 := by
        rw [e2, h4]; simp only [sumLf_append, sumLf_cons]; omega
      rw [if_pos this]
      exact ihl al line offset A p C h4 h1 h2 h3
    · have hn : ¬ d.left_subtree_lf_count ≥ line - 1 := by rw [e2, h4]; omega
      have hy : d.left_subtree_lf_count + d.piece.newline_count ≥ line - 1 := by
        rw [e2, h4, h5]; omega
      rw [if_neg hn, if_pos hy]
      have hne : line - 1 - d.left_subtree_lf_count ≠ 0 := by omega
      rw [if_pos hne, e1, e2, h4, h5]
    · have hF : sumLf A = d.left_subtree_lf_count + d.piece.newline_count + sumLf C := by
        rw [h4, e2]; simp only [sumLf_append, sumLf_cons]; omega
      have hL : sumLen A = d.left_subtree_length + d.piece.length + sumLen C := by
        rw [h4, e1]; simp only [sumLen_append, sumLen_cons]; omega
      have hn : ¬ d.left_subtree_lf_count ≥ line - 1 := by omega
      have hy : ¬ d.left_subtree_lf_count + d.piece.newline_count ≥ line - 1 := by omega
      rw [if_neg hn, if_neg hy, extend_of_lt (by omega)]
      rw [ihr ar _ _ C p B h5 (by omega) (by omega) (by omega), hL]
      have : line - 1 - (d.left_subtree_lf_count + d.piece.newline_count) + 1 - 1 - sumLf C - 1
          = line - 1 - sumLf A - 1 := by omega
      rw [this]
      omega

/-- The value of `line_start` for a line past the last line feed: the end of the text. -/
theorem line_start_past (acc : BufferCollection → Piece → Nat → Nat) (b : BufferCollection) :
    ∀ (t : RedBlackTree), t.Aug = true → ∀ (line offset : Nat), 1 ≤ line →
      sumLf t.toList < line - 1 → line < 2 ^ 64 →
      line_start acc b t line offset = offset + sumLen t.toList := by
  intro t
  induction t with
  | empty => intro _ line offset _ _ _; rfl
  | node c l d r ihl ihr =>
    intro ha line offset h1 h2 h3
    rw [RedBlackTree.Aug_node] at ha
    obtain ⟨e1, e2, al, ar⟩ := ha
    rw [RedBlackTree.toList_node] at h2 ⊢
    simp only [sumLf_append, sumLf_cons, sumLen_append, sumLen_cons] at h2 ⊢
    unfold line_start
    simp only
    rw [retract_of_le h1]
    have hn : ¬ d.left_subtree_lf_count ≥ line - 1 := by rw [e2]; omega
    have hy : ¬ d.left_subtree_lf_count + d.piece.newline_count ≥ line - 1 := by
      rw [e2]; omega
    rw [if_neg hn, if_neg hy, extend_of_lt (by omega)]
    rw [ihr ar _ _ (by omega) (by rw [e2]; omega) (by omega), e1]
    omega

/-- The line feed that ends line `k` of a consistent tree (`1 ≤ k ≤` the number of line
feeds): `line_start` with `accumulate_value_no_lf` returns its offset and `line_start` with
`accumulate_value` the offset after it, both asked for line `k + 1`. -/
theorem line_start_document {t : Tree} (h : t.Consistent) (k : Nat) (h1 : 1 ≤ k)
    (h2 : k ≤ t.content.count LF) (h3 : k + 1 < 2 ^ 64) :
    ∃ n, n < t.content.length ∧ t.content.getD n 0 = LF ∧
      (t.content.take n).count LF = k - 1 ∧
      line_start accumulate_value t.buffers t.root (k + 1) 0 = n + 1 ∧
      line_start accumulate_value_no_lf t.buffers t.root (k + 1) 0 = n := by
  rw [h.content_count] at h2
  obtain ⟨A, p, B, hl, e1, e2⟩ := exists_split_lf _ _ h1 h2
  obtain ⟨c1, c2, c3, c4, c5⟩ := h.content_split hl
  obtain ⟨n, a1, a2, a3, a4, a5⟩ := accumulate_spec h.1 c5 (k - sumLf A - 1) (by omega)
  refine ⟨sumLen A + n, ?_, ?_, ?_, ?_, ?_⟩
  · rw [c1]; simp only [List.length_append]; omega
  · rw [c1, ← c2, getD_append_mid _ _ _ _ (by omega)]; exact a4
  · rw [c1, ← c2, count_take_append_mid _ _ _ _ (by omega), c3, a5]; omega
  · rw [line_start_hit _ _ _ h.aug (k + 1) 0 A p B hl (by omega) (by omega) h3]
    rw [show k + 1 - 1 - sumLf A - 1 = k - sumLf A - 1 by omega, a2]
    omega
  · rw [line_start_hit _ _ _ h.aug (k + 1) 0 A p B hl (by omega) (by omega) h3]
    rw [show k + 1 - 1 - sumLf A - 1 = k - sumLf A - 1 by omega, a3]
    omega

/-- Past the last line feed `line_start` returns the length of the document. -/
theorem line_start_document_end {t : Tree} (h : t.Consistent)
    (acc : BufferCollection → Piece → Nat → Nat) (line : Nat)
    (h1 : t.content.count LF + 1 < line) (h3 : line < 2 ^ 64) :
    line_start acc t.buffers t.root line 0 = t.content.length := by
  rw [h.content_count] at h1
  rw [line_start_past _ _ _ h.aug line 0 (by omega) (by omega) h3, h.content_length]
  omega

end Tree

theorem getElem?_of_getD {l : List CharT} {n : Nat} {c : CharT} (hn : n < l.length)
    (h : l.getD n 0 = c) : l[n]? = some c := by
  rw [List.getD_eq_getElem?_getD, List.getElem?_eq_getElem hn] at h
  rw [List.getElem?_eq_getElem hn]
  exact congrArg some h

namespace Tree

theorem Consistent.line_count_eq {t : Tree} (h : t.Consistent) :
    t.line_count = t.content.count LF + 1 := by
  unfold line_count lf_count
  rw [h.lf_eq, h.content_count]

theorem count_le_length (s : List CharT) : s.count LF ≤ s.length := List.count_le_length _ _

end Tree

end PieceTree


namespace PieceTree

/-! ## Lemmas: typing into an empty tree -/

namespace RedBlackTree

theorem toList_eq_nil {t : RedBlackTree} (h : toList t = []) : t = empty := by
  cases t with
  | empty => rfl
  | node _ _ _ _ => simp at h

theorem toList_singleton {t : RedBlackTree} {p : Piece} (h : toList t = [p]) :
    ∃ c d, t = node c empty d empty ∧ d.piece = p := by
  cases t with
  | empty => simp at h
  | node c l d r =>
    rw [toList_node] at h
    cases hl : toList l with
    | nil =>
      rw [hl] at h
      simp only [List.nil_append, List.cons.injEq] at h
      rw [toList_eq_nil hl, toList_eq_nil h.2]
      exact ⟨c, d, rfl, h.1⟩
    | cons q qs =>
      rw [hl] at h
      simp at h

end RedBlackTree

namespace Tree

/-- The first insertion into the empty tree. -/
theorem typing_first (txt : List CharT) (hne : txt ≠ []) (hlen : txt.length < 2 ^ 64) :
    ∃ t, Tree.init.insert 0 txt SuppressHistory.No = some t ∧ Typed t txt := by
  obtain ⟨t1, h1, h2, _, _, h5, _⟩ :=
    insert_full_spec Tree.init 0 txt SuppressHistory.No init_consistent hne
  have key : Tree.init.insert 0 txt SuppressHistory.No
      = some ({ ((Tree.init.append_undo RedBlackTree.empty 0).build_piece txt).2 with
          root := RedBlackTree.ctor Color.Black RedBlackTree.empty
            { piece := ((Tree.init.append_undo RedBlackTree.empty 0).build_piece txt).1 }
            RedBlackTree.empty
          end_last_insert := extend 0 txt.length } : Tree).compute_buffer_meta := by
    unfold Tree.insert
    rw [isEmpty_false_of_ne_nil hne]
    rfl
  rw [h1] at key
  simp only [Option.some.injEq] at key
  have k2 : t1.root.toList
      = [((Tree.init.append_undo RedBlackTree.empty 0).build_piece txt).1] := by
    rw [key]; rfl
  have k3 : t1.buffers
      = ((Tree.init.append_undo RedBlackTree.empty 0).build_piece txt).2.buffers := by
    rw [key]; rfl
  have k4 : t1.last_insert
      = ((Tree.init.append_undo RedBlackTree.empty 0).build_piece txt).2.last_insert := by
    rw [key]; rfl
  have k5 : t1.undo_stack = [{ root := RedBlackTree.empty, op_offset := 0 }] := by
    rw [key]; rfl
  have k6 : t1.redo_stack = [] := by
    rw [key]; rfl
  refine ⟨t1, h1, h2, ⟨_, k2, rfl, k4.symm⟩, ?_, ?_, k5, k6⟩
  · obtain ⟨b1, b2, b3, b4, b5, b6⟩ := build_piece_spec
      (Tree.init.append_undo RedBlackTree.empty 0) txt init_consistent.1
      init_consistent.2.2.2.1
    unfold content
    rw [k2, k3, BufferCollection.textOf_cons, BufferCollection.textOf_nil, List.append_nil, b4,
      BufferCollection.pieceText_window b5]
    show (((Tree.init.append_undo RedBlackTree.empty 0).build_piece txt).2.buffers.mod_buffer.buffer.drop
      _).take _ = _
    rw [b3]
    show (([] ++ txt).drop 0).take (0 + txt.length - 0) = txt
    simp
  · rw [h5]
    exact (extend_of_lt (by omega)).trans (Nat.zero_add _)

/-- A continued insertion: the text is appended to the one piece of the tree. -/
theorem internal_insert_continue (t0 : Tree) (txt : List CharT) (h0 : t0.Consistent)
    (p : Piece) (hp : t0.root.toList = [p]) (hi : p.index = BufferIndex.ModBuf)
    (hlast : p.last = t0.last_insert) (hpos : 0 < p.length) :
    ∃ t1 q, t0.internal_insert p.length txt = some t1 ∧ t1.Consistent ∧
      t1.root.toList = [q] ∧ q.index = BufferIndex.ModBuf ∧ q.last = t1.last_insert ∧
      t1.content = t0.content ++ txt ∧ t1.undo_stack = t0.undo_stack ∧
      t1.redo_stack = t0.redo_stack ∧ t1.end_last_insert = extend p.length txt.length := by
  obtain ⟨c, d, hroot, hd⟩ := RedBlackTree.toList_singleton hp
  unfold internal_insert
  lift_lets
  intro t built built2 r0 off result remainder node_start_offset plain prev_node_result
    new_piece
  have h : t.Consistent := h0.set_end _
  have hne : t.root.is_empty = false := by
    show t0.root.is_empty = false
    rw [hroot]; rfl
  have he : ¬ t.root.is_empty = true := by rw [hne]; simp
  rw [if_neg he]
  obtain ⟨d0, A0, B0, n1, n2, n3, n4, n5, n6, n7⟩ :=
    node_at_some t.buffers t.root h.aug hne p.length
  have hA : A0 = [] ∧ d0.piece = p := by
    have : t.root.toList = [p] := hp
    rw [this] at n2
    cases A0 with
    | nil =>
      simp only [List.nil_append, List.cons.injEq] at n2
      exact ⟨rfl, n2.1.symm⟩
    | cons a A =>
      cases A <;> simp at n2
  obtain ⟨hA0, hd0⟩ := hA
  subst hA0
  have hres : result = r0 := by
    simp only [result, r0, n1, Option.isNone_some, Bool.false_eq_true, ↓reduceIte]
  have hnode : result.node = some d0 := by rw [hres]; exact n1
  have hstart : node_start_offset = 0 := by
    simp only [node_start_offset, hres, r0]
    rw [n3]; rfl
  simp only [hnode, Option.bind_eq_bind, Option.some_bind]
  have hs : ¬ node_start_offset = p.length := by omega
  rw [if_neg hs]
  have hin : (!decide (p.length < node_start_offset + d0.piece.length)) = true := by
    rw [hstart, hd0]; simp
  simp only [hin, ↓reduceIte]
  have hc : d0.piece.index = BufferIndex.ModBuf ∧ d0.piece.last = t.last_insert := by
    rw [hd0]; exact ⟨hi, hlast⟩
  rw [if_pos hc]
  -- the two tree operations of `combine_pieces`
  have hbroot := built_root_ok t txt h
  obtain ⟨r1, e1, e2, e3, _⟩ := hbroot.remove result.start_offset
  have hr1 : r1.toList = [] := by
    rw [e3]
    show RedBlackTree.remPieces t0.root result.start_offset 0 = []
    have hz : result.start_offset = 0 := hstart
    have haug := h0.aug
    rw [hroot, RedBlackTree.Aug_node] at haug
    have hl0 : d.left_subtree_length = 0 := by rw [haug.1]; rfl
    rw [hz, hroot, RedBlackTree.remPieces_node, hl0]
    simp
  obtain ⟨r2, e4, e5, e6⟩ := e2.insert
    (x := { piece := { (t.build_piece txt).1 with
        first := d0.piece.first
        newline_count := (t.build_piece txt).1.newline_count + d0.piece.newline_count
        length := (t.build_piece txt).1.length + d0.piece.length } })
    (combined_ok t txt h (h.2.1.1 _ (by rw [n2]; simp)) hc.1 hc.2) result.start_offset
  rw [hr1] at e6
  have hcomb : built.2.combine_pieces result built.1
      = some { (t.build_piece txt).2 with root := r2 } := by
    unfold combine_pieces
    simp only [hnode, Option.bind_eq_bind, Option.some_bind, built, e1, e4, Option.pure_def]
  simp only [hcomb, Option.some_bind, Option.pure_def]
  obtain ⟨s1, s2, s3, s4, s5⟩ := step_of_root t txt h r2 e5
  refine ⟨_, _, rfl, s1, e6, rfl, rfl, ?_, s3, s4, s5⟩
  show (t.build_piece txt).2.buffers.textOf r2.toList = _
  rw [e6, RedBlackTree.insList_nil, BufferCollection.textOf_cons, BufferCollection.textOf_nil,
    List.append_nil]
  have := combined_text t txt h (h.2.1.1 _ (by rw [n2]; simp)) hc.1 hc.2
  rw [this, hd0]
  show _ = t0.buffers.textOf t0.root.toList ++ txt
  rw [hp, BufferCollection.textOf_cons, BufferCollection.textOf_nil, List.append_nil]

/-- One more insertion at the end of the text typed so far. -/
theorem typing_next (t : Tree) (s txt : List CharT) (h : Typed t s) (hs : s ≠ [])
    (hne : txt ≠ []) (hlen : s.length + txt.length < 2 ^ 64) :
    ∃ t1, t.insert s.length txt SuppressHistory.No = some t1 ∧ Typed t1 (s ++ txt) := by
  obtain ⟨hc, ⟨p, hp, hi, hlast⟩, hcont, hend, hu, hr⟩ := h
  have hk : s.length = p.length := by
    rw [← hcont, hc.content_length, hp]; simp
  have hpos : 0 < p.length := by
    rw [← hk]; exact List.length_pos.2 hs
  obtain ⟨t1, q, k1, k2, k3, k4, k5, k6, k7, k8, k9⟩ :=
    internal_insert_continue t txt hc p hp hi hlast hpos
  have hroot : t.root.is_empty = false := by
    obtain ⟨c, d, e, _⟩ := RedBlackTree.toList_singleton hp
    rw [e]; rfl
  refine ⟨t1, ?_, k2, ⟨q, k3, k4, k5⟩, by rw [k6, hcont], ?_, by rw [k7, hu],
    by rw [k8, hr]⟩
  · unfold Tree.insert
    rw [isEmpty_false_of_ne_nil hne]
    simp only [Bool.false_eq_true, ↓reduceIte]
    have : ¬ (True ∧ (t.end_last_insert ≠ s.length ∨ t.root.is_empty = true)) := by
      rw [hend, hroot]; simp
    rw [if_neg this, hk]
    exact k1
  · rw [k9, ← hk, extend_of_lt hlen, List.length_append]

/-- Typing the text `cs` after the text `s`. -/
theorem typing_run (cs : List CharT) :
    ∀ (t : Tree) (s : List CharT), Typed t s → s ≠ [] → s.length + cs.length < 2 ^ 64 →
      ∃ t1, run (typing s.length cs) t = some t1 ∧ Typed t1 (s ++ cs) := by
  induction cs with
  | nil =>
    intro t s h _ _
    exact ⟨t, rfl, by rw [List.append_nil]; exact h⟩
  | cons c cs ih =>
    intro t s h hs hlen
    simp only [List.length_cons] at hlen
    obtain ⟨t1, h1, h2⟩ := typing_next t s [c] h hs (by simp) (by simp; omega)
    obtain ⟨t2, h3, h4⟩ := ih t1 (s ++ [c]) h2 (by simp) (by simp; omega)
    refine ⟨t2, ?_, by simpa using h4⟩
    simp only [typing, run, Tree.apply, h1, Option.some_bind]
    simpa using h3

end Tree

end PieceTree


namespace PieceTree

namespace TreeWalker

/-! ## Lemmas: the forward walker -/

theorem stackPieces_nil : stackPieces [] = [] := rfl

theorem stackPieces_cons (e : StackEntry) (rest : List StackEntry) :
    stackPieces (e :: rest) = entryPieces e ++ stackPieces rest := rfl

theorem entryPieces_left (n : RedBlackTree) :
    entryPieces { node := n, dir := Direction.Left } = n.toList := by
  cases n <;> rfl

theorem entryPieces_empty (dir : Direction) :
    entryPieces { node := RedBlackTree.empty, dir := dir } = [] := rfl

theorem window_nil (w : TreeWalker) (h : w.first_ptr = w.last_ptr) : w.window = [] := by
  unfold window
  rw [h, Nat.sub_self, List.take_zero]

theorem window_cons (w : TreeWalker) (h1 : w.first_ptr < w.last_ptr)
    (h2 : w.last_ptr ≤ (w.buffers.buffer_at w.ptr_index).buffer.length) :
    w.window = w.advance.1 :: w.advance.2.window := by
  unfold window advance
  simp only
  have ha : w.first_ptr < (w.buffers.buffer_at w.ptr_index).buffer.length := by omega
  rw [List.drop_eq_getElem_cons ha,
    show w.last_ptr - w.first_ptr = (w.last_ptr - (w.first_ptr + 1)) + 1 by omega,
    List.take_succ_cons, List.getD_eq_getElem _ _ ha]

theorem piece_offsets {b : BufferCollection} {p : Piece} (hp : b.PieceOK p) :
    b.buffer_offset p.index p.first ≤ b.buffer_offset p.index p.last ∧
    b.buffer_offset p.index p.last ≤ (b.buffer_at p.index).buffer.length ∧
    b.buffer_offset p.index p.last - b.buffer_offset p.index p.first = p.length := by
  obtain ⟨_, _, h3, h4, h5, _⟩ := hp
  exact ⟨h4, h3.2.1, h5.symm⟩

/-- The text of a consistent piece that is not empty is not empty. -/
theorem pieceText_ne_nil {b : BufferCollection} (hb : b.OK) {p : Piece} (hp : b.PieceOK p)
    (hpos : 0 < p.length) : b.pieceText p ≠ [] := by
  intro hc
  have := BufferCollection.pieceText_length hb hp
  rw [hc] at this
  simp at this
  omega

/-- The text of consistent pieces none of which is empty is empty only for no piece. -/
theorem textOf_eq_nil {b : BufferCollection} (hb : b.OK) {ps : List Piece}
    (hp : ∀ p ∈ ps, b.PieceOK p) (hpos : ∀ p ∈ ps, 0 < p.length) (h : b.textOf ps = []) :
    ps = [] := by
  cases ps with
  | nil => rfl
  | cons p ps =>
    rw [BufferCollection.textOf_cons] at h
    exact absurd (List.append_eq_nil.1 h).1
      (pieceText_ne_nil hb (hp p (List.mem_cons_self _ _)) (hpos p (List.mem_cons_self _ _)))

/-- A walker that is exhausted has nothing left to yield. -/
theorem exhausted_pieces {w : TreeWalker} (hi : w.Inv) (h : w.exhausted = true) :
    w.first_ptr = w.last_ptr ∧ stackPieces w.stack = [] := by
  obtain ⟨buffers, root, meta, stack, total, idx, first, last⟩ := w
  obtain ⟨_, _, _, _, _, _, _, h8⟩ := hi
  simp only at h8
  cases stack with
  | nil => exact ⟨h8 rfl, rfl⟩
  | cons e rest =>
    obtain ⟨n, d⟩ := e
    simp only [exhausted] at h
    by_cases hf : first = last
    · refine ⟨hf, ?_⟩
      simp only [hf, ne_eq, not_true_eq_false, if_false] at h
      cases rest with
      | cons e2 rest2 => simp at h
      | nil =>
        simp only [List.length_nil, Nat.zero_add, gt_iff_lt, Nat.lt_irrefl, if_false] at h
        cases n with
        | empty => rfl
        | node c l x r =>
          simp only at h
          split at h
          · rename_i hc
            obtain ⟨hc1, hc2⟩ := hc
            cases r with
            | empty => rw [hc1]; rfl
            | node _ _ _ _ => simp at hc2
          · simp at h
    · simp [hf] at h

/-- A walker with an empty window and no piece left to visit is exhausted. -/
theorem exhausted_of_pieces {w : TreeWalker} (hi : w.Inv) (h1 : w.first_ptr = w.last_ptr)
    (h2 : stackPieces w.stack = []) : w.exhausted = true := by
  obtain ⟨buffers, root, meta, stack, total, idx, first, last⟩ := w
  obtain ⟨_, _, _, _, _, _, h7, _⟩ := hi
  simp only at h1 h2 h7
  cases stack with
  | nil => rfl
  | cons e rest =>
    obtain ⟨n, d⟩ := e
    cases rest with
    | cons e2 rest2 =>
      obtain ⟨n2, d2⟩ := e2
      obtain ⟨k1, k2⟩ := h7 ⟨n2, d2⟩ (by simp)
      simp only at k1 k2
      cases n2 with
      | empty => simp at k2
      | node c l x r =>
        rw [k1] at h2
        simp [stackPieces, entryPieces] at h2
    | nil =>
      simp only [exhausted, h1, ne_eq, not_true_eq_false, if_false, List.length_nil,
        Nat.zero_add, gt_iff_lt, Nat.lt_irrefl]
      cases n with
      | empty => rfl
      | node c l x r =>
        cases d with
        | Left => simp [stackPieces, entryPieces] at h2
        | Center => simp [stackPieces, entryPieces] at h2
        | Right =>
          simp only [stackPieces, entryPieces, List.append_nil] at h2
          rw [RedBlackTree.toList_eq_nil h2]
          simp

theorem not_exhausted_of_window {w : TreeWalker} (hi : w.Inv) (h : w.first_ptr ≠ w.last_ptr) :
    w.exhausted = false := by
  cases hx : w.exhausted with
  | false => rfl
  | true => exact absurd (exhausted_pieces hi hx).1 h

theorem pending_of_exhausted {w : TreeWalker} (hi : w.Inv) (h : w.exhausted = true) :
    w.pending = [] := by
  obtain ⟨h1, h2⟩ := exhausted_pieces hi h
  unfold pending
  rw [window_nil w h1, h2]
  rfl

/-- Without empty pieces, a walker with nothing left to yield is exhausted. -/
theorem exhausted_of_pending {w : TreeWalker} (hi : w.Inv) (hp : w.Pos)
    (h : w.pending = []) : w.exhausted = true := by
  unfold pending at h
  obtain ⟨h1, h2⟩ := List.append_eq_nil.1 h
  have hw : w.first_ptr = w.last_ptr := by
    by_contra hne
    have hlt : w.first_ptr < w.last_ptr := Nat.lt_of_le_of_ne hi.2.1 hne
    rw [window_cons w hlt hi.2.2.1] at h1
    simp at h1
  exact exhausted_of_pieces hi hw (textOf_eq_nil hi.1 hi.2.2.2.2.1 hp h2)

end TreeWalker

end PieceTree


namespace PieceTree

namespace TreeWalker

/-! ## Lemmas: `populate_ptrs` moves to the next piece -/

theorem exhausted_cons_cons (w : TreeWalker) (e e2 : StackEntry) (rest : List StackEntry)
    (h : w.stack = e :: e2 :: rest) : w.exhausted = false := by
  unfold exhausted
  rw [h]
  simp only
  split
  · rfl
  · simp

theorem exhausted_not_right (w : TreeWalker) (e : StackEntry) (rest : List StackEntry)
    (h : w.stack = e :: rest) (hd : e.dir ≠ Direction.Right) (hn : e.node.is_empty = false) :
    w.exhausted = false := by
  unfold exhausted
  rw [h]
  simp only
  split
  · rfl
  · split
    · rfl
    · obtain ⟨n, d⟩ := e
      cases n with
      | empty => simp at hn
      | node c l x r =>
        simp only at hd ⊢
        rw [if_neg (fun hc => hd hc.1)]

theorem exhausted_tail (w : TreeWalker) (e : StackEntry) (rest : List StackEntry)
    (h : w.stack = e :: rest)
    (ht : ∀ e2 ∈ (e :: rest), e2.dir = Direction.Center ∧ e2.node.is_empty = false) :
    w.exhausted = false := by
  obtain ⟨h1, h2⟩ := ht e (List.mem_cons_self _ _)
  exact exhausted_not_right w e rest h (by rw [h1]; decide) h2

/-- What `populate_ptrs` does on a walker with an empty window that is not exhausted: it
moves the window to the next piece still to visit. -/
theorem populate_ptrs_loop_spec : ∀ (fuel : Nat) (w : TreeWalker),
    (∀ e ∈ w.stack, e.node.size ≤ w.root.size) →
    (∀ e ∈ w.stack.tail, e.dir = Direction.Center ∧ e.node.is_empty = false) →
    w.first_ptr = w.last_ptr → w.exhausted = false → topFuel w.stack < fuel →
    ∃ p, stackPieces w.stack = p :: stackPieces (populate_ptrs_loop fuel w).stack ∧
      (populate_ptrs_loop fuel w).ptr_index = p.index ∧
      (populate_ptrs_loop fuel w).first_ptr = w.buffers.buffer_offset p.index p.first ∧
      (populate_ptrs_loop fuel w).last_ptr = w.buffers.buffer_offset p.index p.last ∧
      (populate_ptrs_loop fuel w).buffers = w.buffers ∧
      (populate_ptrs_loop fuel w).root = w.root ∧
      (populate_ptrs_loop fuel w).meta = w.meta ∧
      (populate_ptrs_loop fuel w).total_offset = w.total_offset ∧
      (∀ e ∈ (populate_ptrs_loop fuel w).stack, e.node.size ≤ w.root.size) ∧
      (∀ e ∈ (populate_ptrs_loop fuel w).stack.tail,
        e.dir = Direction.Center ∧ e.node.is_empty = false) ∧
      (populate_ptrs_loop fuel w).stack ≠ [] := by
  intro fuel
  induction fuel with
  | zero => intro w _ _ _ _ h; omega
  | succ fuel ih =>
    intro w hs ht hf hx hfuel
    obtain ⟨buffers, root, meta, stack, total, idx, first, last⟩ := w
    simp only at hs ht hf hfuel
    cases stack with
    | nil => simp [exhausted] at hx
    | cons e rest =>
      obtain ⟨n, d⟩ := e
      simp only [List.tail_cons] at ht
      cases n with
      | empty =>
        have hstep : populate_ptrs_loop (fuel + 1)
            { buffers := buffers, root := root, meta := meta,
              stack := { node := RedBlackTree.empty, dir := d } :: rest,
              total_offset := total, ptr_index := idx, first_ptr := first, last_ptr := last }
            = populate_ptrs_loop fuel
              { buffers := buffers, root := root, meta := meta, stack := rest,
                total_offset := total, ptr_index := idx, first_ptr := first,
                last_ptr := last } := by
          rw [populate_ptrs_loop]
          simp only [hx]
          rfl
        rw [hstep]
        have hx2 : exhausted
            { buffers := buffers, root := root, meta := meta, stack := rest,
              total_offset := total, ptr_index := idx, first_ptr := first,
              last_ptr := last } = false := by
          cases rest with
          | nil => simp [exhausted, hf] at hx
          | cons e2 rest2 => exact exhausted_tail _ e2 rest2 rfl ht
        have hfuel2 : topFuel rest < fuel := by
          cases rest with
          | nil => simp [exhausted, hf] at hx
          | cons e2 rest2 =>
            obtain ⟨n2, d2⟩ := e2
            obtain ⟨k1, k2⟩ := ht ⟨n2, d2⟩ (List.mem_cons_self _ _)
            simp only at k1 k2
            cases n2 with
            | empty => simp at k2
            | node _ _ _ _ =>
              rw [k1]
              simp only [topFuel] at hfuel ⊢
              omega
        obtain ⟨p, h1, h2⟩ := ih _ (fun e he => hs e (List.mem_cons_of_mem _ he))
          (fun e he => ht e (List.mem_of_mem_tail he)) hf hx2 hfuel2
        exact ⟨p, h1, h2⟩
      | node c l x r =>
        have hsz := hs _ (List.mem_cons_self _ _)
        simp only [RedBlackTree.size_node] at hsz
        cases d with
        | Left =>
          cases l with
          | empty =>
            refine ⟨x.piece, ?_⟩
            rw [populate_ptrs_loop]
            simp only [hx]
            refine ⟨rfl, rfl, rfl, rfl, rfl, rfl, rfl, rfl, ?_, ?_, by simp⟩
            · intro e he
              simp only [Bool.false_eq_true, if_false, RedBlackTree.is_empty_empty,
                Bool.not_true, List.mem_cons] at he
              rcases he with he | he
              · rw [he]; simp only [RedBlackTree.size_node]; exact hsz
              · exact hs e (List.mem_cons_of_mem _ he)
            · intro e he
              exact ht e he
          | node c2 l2 x2 r2 =>
            have hstep : populate_ptrs_loop (fuel + 1)
                { buffers := buffers, root := root, meta := meta,
                  stack := { node := RedBlackTree.node c (RedBlackTree.node c2 l2 x2 r2) x r,
                             dir := Direction.Left } :: rest,
                  total_offset := total, ptr_index := idx, first_ptr := first,
                  last_ptr := last }
                = populate_ptrs_loop fuel
                  { buffers := buffers, root := root, meta := meta,
                    stack := { node := RedBlackTree.node c2 l2 x2 r2 } ::
                      { node := RedBlackTree.node c (RedBlackTree.node c2 l2 x2 r2) x r,
                        dir := Direction.Center } :: rest,
                    total_offset := total, ptr_index := idx, first_ptr := first,
                    last_ptr := last } := by
              rw [populate_ptrs_loop]
              simp only [hx]
              rfl
            rw [hstep]
            obtain ⟨p, h1, h2⟩ := ih
              { buffers := buffers, root := root, meta := meta,
                stack := { node := RedBlackTree.node c2 l2 x2 r2 } ::
                  { node := RedBlackTree.node c (RedBlackTree.node c2 l2 x2 r2) x r,
                    dir := Direction.Center } :: rest,
                total_offset := total, ptr_index := idx, first_ptr := first,
                last_ptr := last }
              (by
                intro e he
                simp only [List.mem_cons] at he
                rcases he with he | he | he
                · rw [he]; simp only [RedBlackTree.size_node] at hsz ⊢; omega
                · rw [he]; simp only [RedBlackTree.size_node]; exact hsz
                · exact hs e (List.mem_cons_of_mem _ he))
              (by
                intro e he
                simp only [List.tail_cons, List.mem_cons] at he
                rcases he with he | he
                · rw [he]; exact ⟨rfl, rfl⟩
                · exact ht e he)
              hf (exhausted_cons_cons _ _ _ _ rfl)
              (by
                simp only [topFuel, RedBlackTree.size_node] at hfuel ⊢
                omega)
            refine ⟨p, ?_, h2⟩
            rw [← h1]
            simp [stackPieces, entryPieces]
        | Center =>
          refine ⟨x.piece, ?_⟩
          rw [populate_ptrs_loop]
          simp only [hx]
          refine ⟨rfl, rfl, rfl, rfl, rfl, rfl, rfl, rfl, ?_, ?_, by simp⟩
          · intro e he
            simp only [Bool.false_eq_true, if_false, List.mem_cons] at he
            rcases he with he | he
            · rw [he]; simp only [RedBlackTree.size_node]; exact hsz
            · exact hs e (List.mem_cons_of_mem _ he)
          · intro e he
            exact ht e he
        | Right =>
          have hstep : populate_ptrs_loop (fuel + 1)
              { buffers := buffers, root := root, meta := meta,
                stack := { node := RedBlackTree.node c l x r, dir := Direction.Right } :: rest,
                total_offset := total, ptr_index := idx, first_ptr := first,
                last_ptr := last }
              = populate_ptrs_loop fuel
                { buffers := buffers, root := root, meta := meta,
                  stack := { node := r } :: rest,
                  total_offset := total, ptr_index := idx, first_ptr := first,
                  last_ptr := last } := by
            rw [populate_ptrs_loop]
            simp only [hx]
            rfl
          rw [hstep]
          have hx2 : exhausted
              { buffers := buffers, root := root, meta := meta,
                stack := { node := r } :: rest,
                total_offset := total, ptr_index := idx, first_ptr := first,
                last_ptr := last } = false := by
            cases rest with
            | cons e2 rest2 => exact exhausted_cons_cons _ _ _ _ rfl
            | nil =>
              cases r with
              | empty => simp [exhausted, hf] at hx
              | node _ _ _ _ => exact exhausted_not_right _ _ _ rfl (by intro h; cases h) rfl
          obtain ⟨p, h1, h2⟩ := ih
            { buffers := buffers, root := root, meta := meta,
              stack := { node := r } :: rest,
              total_offset := total, ptr_index := idx, first_ptr := first,
              last_ptr := last }
            (by
              intro e he
              simp only [List.mem_cons] at he
              rcases he with he | he
              · rw [he]; simp only; omega
              · exact hs e (List.mem_cons_of_mem _ he))
            (by
              intro e he
              exact ht e he)
            hf hx2
            (by
              cases r with
              | empty => simp only [topFuel, RedBlackTree.size_empty] at hfuel ⊢; omega
              | node _ _ _ _ =>
                simp only [topFuel, RedBlackTree.size_node] at hfuel ⊢
                omega)
          refine ⟨p, ?_, h2⟩
          rw [← h1]
          simp only [stackPieces, entryPieces_left]
          rfl

end TreeWalker

end PieceTree


namespace PieceTree

namespace TreeWalker

/-! ## Lemmas: `next` yields the pending text, one code unit after the other -/

theorem populate_ptrs_exhausted (w : TreeWalker) (h : w.exhausted = true) :
    w.populate_ptrs = w := by
  unfold populate_ptrs
  rw [show 3 * w.root.size + 2 = (3 * w.root.size + 1) + 1 from rfl, populate_ptrs_loop]
  simp only [h, if_true]

theorem topFuel_lt {w : TreeWalker} (hi : w.Inv) : topFuel w.stack < 3 * w.root.size + 2 := by
  obtain ⟨_, _, _, h4, _⟩ := hi
  cases hs : w.stack with
  | nil => simp [topFuel]
  | cons e rest =>
    have := h4 e (by rw [hs]; exact List.mem_cons_self _ _)
    obtain ⟨n, d⟩ := e
    cases n with
    | empty => simp [topFuel]
    | node c l x r =>
      simp only [RedBlackTree.size_node] at this
      cases d <;> simp only [topFuel] <;> omega

/-- On a walker with an empty window that is not exhausted, `populate_ptrs` moves the
window to the next piece and keeps the pending text. -/
theorem populate_ptrs_spec {w : TreeWalker} (hi : w.Inv) (hf : w.first_ptr = w.last_ptr)
    (hx : w.exhausted = false) :
    ∃ p, stackPieces w.stack = p :: stackPieces w.populate_ptrs.stack ∧
      w.populate_ptrs.window = w.buffers.pieceText p ∧
      w.populate_ptrs.last_ptr - w.populate_ptrs.first_ptr = p.length ∧
      w.populate_ptrs.Inv ∧ w.populate_ptrs.pending = w.pending ∧
      w.populate_ptrs.buffers = w.buffers ∧ w.populate_ptrs.root = w.root ∧
      w.populate_ptrs.meta = w.meta := by
  obtain ⟨i1, i2, i3, i4, i5, i6, i7, i8⟩ := hi
  obtain ⟨p, h1, h2, h3, h4, h5, h6, h7, _, h9, h10, h11⟩ :=
    populate_ptrs_loop_spec (3 * w.root.size + 2) w i4 i7 hf hx
      (topFuel_lt ⟨i1, i2, i3, i4, i5, i6, i7, i8⟩)
  have hp : w.buffers.PieceOK p := i5 p (by rw [h1]; exact List.mem_cons_self _ _)
  obtain ⟨o1, o2, o3⟩ := piece_offsets hp
  have hw : w.populate_ptrs.window = w.buffers.pieceText p := by
    unfold window populate_ptrs
    rw [h5, h2, h3, h4]
    rfl
  refine ⟨p, h1, hw, ?_, ⟨?_, ?_, ?_, ?_, ?_, ?_, h10, ?_⟩, ?_, h5, h6, h7⟩
  · unfold populate_ptrs
    rw [h3, h4]; exact o3
  · unfold populate_ptrs; rw [h5]; exact i1
  · unfold populate_ptrs; rw [h3, h4]; exact o1
  · unfold populate_ptrs; rw [h4, h5, h2]; exact o2
  · unfold populate_ptrs; rw [h6]; exact h9
  · intro q hq
    unfold populate_ptrs at hq ⊢
    rw [h5]
    exact i5 q (by rw [h1]; exact List.mem_cons_of_mem _ hq)
  · unfold populate_ptrs at *
    rw [h6]
    rw [h1] at i6
    simp only [List.length_cons] at i6
    omega
  · intro hc
    exact absurd hc h11
  · unfold pending
    rw [hw, window_nil w hf, h1, BufferCollection.textOf_cons, List.nil_append]
    unfold populate_ptrs
    rw [h5]

/-- Reading the code unit under the first pointer. -/
theorem advance_spec {w : TreeWalker} (hi : w.Inv) (h : w.first_ptr ≠ w.last_ptr) :
    w.pending = w.advance.1 :: w.advance.2.pending ∧ w.advance.2.Inv ∧
      w.advance.2.stack = w.stack ∧ w.advance.2.buffers = w.buffers ∧
      w.advance.2.root = w.root ∧ w.advance.2.meta = w.meta := by
  obtain ⟨i1, i2, i3, i4, i5, i6, i7, i8⟩ := hi
  have hlt : w.first_ptr < w.last_ptr := Nat.lt_of_le_of_ne i2 h
  refine ⟨?_, ⟨i1, ?_, i3, i4, i5, i6, i7, ?_⟩, rfl, rfl, rfl, rfl⟩
  · unfold pending
    rw [window_cons w hlt i3]
    rfl
  · exact hlt
  · intro hs
    exact absurd (i8 hs) h

/-- What `next` does: it returns the first code unit of the pending text and leaves the rest
pending; with nothing pending it returns the null code unit and leaves the walker
exhausted. -/
theorem next_loop_spec : ∀ (fuel : Nat) (w : TreeWalker), w.Inv →
    (stackPieces w.stack).length < fuel →
    (next_loop fuel w).2.Inv ∧ (next_loop fuel w).2.buffers = w.buffers ∧
    (next_loop fuel w).2.root = w.root ∧ (next_loop fuel w).2.meta = w.meta ∧
    (∀ p ∈ stackPieces (next_loop fuel w).2.stack, p ∈ stackPieces w.stack) ∧
    (w.pending = [] → (next_loop fuel w).1 = NUL ∧ (next_loop fuel w).2.exhausted = true) ∧
    (∀ c rest, w.pending = c :: rest →
      (next_loop fuel w).1 = c ∧ (next_loop fuel w).2.pending = rest) := by
  intro fuel
  induction fuel with
  | zero => intro w _ h; omega
  | succ fuel ih =>
    intro w hi hfuel
    rw [next_loop]
    by_cases hf : w.first_ptr = w.last_ptr
    · rw [if_pos hf]
      simp only
      cases hx : w.exhausted with
      | true =>
        rw [populate_ptrs_exhausted w hx]
        rw [hx, if_pos rfl]
        have hp := pending_of_exhausted hi hx
        refine ⟨hi, rfl, rfl, rfl, fun p hp => hp, fun _ => ⟨rfl, hx⟩, ?_⟩
        intro c rest hc
        rw [hp] at hc
        cases hc
      | false =>
        obtain ⟨p, h1, h2, h3, h4, h5, h6, h7, h8⟩ := populate_ptrs_spec hi hf hx
        cases hx1 : w.populate_ptrs.exhausted with
        | true =>
          rw [if_pos rfl]
          have hp := pending_of_exhausted h4 hx1
          rw [h5] at hp
          refine ⟨h4, h6, h7, h8, ?_, fun _ => ⟨rfl, hx1⟩, ?_⟩
          · intro q hq
            rw [h1]; exact List.mem_cons_of_mem _ hq
          · intro c rest hc
            rw [hp] at hc
            cases hc
        | false =>
          rw [if_neg (by simp)]
          by_cases hf1 : w.populate_ptrs.first_ptr = w.populate_ptrs.last_ptr
          · rw [if_pos hf1]
            obtain ⟨k1, k2, k3, k4, k5, k6, k7⟩ := ih w.populate_ptrs h4 (by
              rw [h1] at hfuel
              simp only [List.length_cons] at hfuel
              omega)
            refine ⟨k1, k2.trans h6, k3.trans h7, k4.trans h8, ?_, ?_, ?_⟩
            · intro q hq
              rw [h1]; exact List.mem_cons_of_mem _ (k5 q hq)
            · intro hc
              exact k6 (by rw [h5]; exact hc)
            · intro c rest hc
              exact k7 c rest (by rw [h5]; exact hc)
          · rw [if_neg hf1]
            obtain ⟨a1, a2, a3, a4, a5, a6⟩ := advance_spec h4 hf1
            refine ⟨a2, a4.trans h6, a5.trans h7, a6.trans h8, ?_, ?_, ?_⟩
            · intro q hq
              rw [a3] at hq
              rw [h1]; exact List.mem_cons_of_mem _ hq
            · intro hc
              rw [← h5, a1] at hc
              cases hc
            · intro c rest hc
              rw [← h5, a1] at hc
              cases hc
              exact ⟨rfl, rfl⟩
    · rw [if_neg hf]
      obtain ⟨a1, a2, a3, a4, a5, a6⟩ := advance_spec hi hf
      refine ⟨a2, a4, a5, a6, ?_, ?_, ?_⟩
      · intro q hq
        rw [a3] at hq
        exact hq
      · intro hc
        rw [a1] at hc
        cases hc
      · intro c rest hc
        rw [a1] at hc
        cases hc
        exact ⟨rfl, rfl⟩

/-- What `next` does, with the rounds `next` has. -/
theorem next_spec {w : TreeWalker} (hi : w.Inv) :
    w.next.2.Inv ∧ w.next.2.buffers = w.buffers ∧
    w.next.2.root = w.root ∧ w.next.2.meta = w.meta ∧
    (∀ p ∈ stackPieces w.next.2.stack, p ∈ stackPieces w.stack) ∧
    (w.pending = [] → w.next.1 = NUL ∧ w.next.2.exhausted = true) ∧
    (∀ c rest, w.pending = c :: rest → w.next.1 = c ∧ w.next.2.pending = rest) :=
  next_loop_spec (w.root.size + 2) w hi (by have := hi.2.2.2.2.2.1; omega)

theorem Pos.next {w : TreeWalker} (hi : w.Inv) (hp : w.Pos) : w.next.2.Pos :=
  fun p h => hp p ((next_spec hi).2.2.2.2.1 p h)

end TreeWalker

end PieceTree


namespace PieceTree

namespace TreeWalker

/-! ## Lemmas: a fresh walker has the rest of the document pending -/

theorem drop_three (A B C : List CharT) (o : Nat) (h1 : A.length ≤ o)
    (h2 : o < A.length + B.length) :
    (A ++ (B ++ C)).drop o = B.drop (o - A.length) ++ C := by
  rw [List.drop_append_eq_append_drop, List.drop_eq_nil_of_le h1, List.nil_append,
    List.drop_append_of_le_length (by omega)]

theorem drop_past (A B C : List CharT) (o : Nat) (h : A.length + B.length ≤ o) :
    (A ++ (B ++ C)).drop o = C.drop (o - (A.length + B.length)) := by
  rw [List.drop_append_eq_append_drop, List.drop_eq_nil_of_le (by omega), List.nil_append,
    List.drop_append_eq_append_drop, List.drop_eq_nil_of_le (by omega), List.nil_append]
  congr 1
  omega

/-- What `fast_forward_to` does below a node on top of the stack: the text of the node past
the offset becomes pending. -/
theorem fast_forward_loop_spec : ∀ (n : RedBlackTree) (offset : Nat) (w : TreeWalker)
    (rest : List StackEntry), n.Aug = true → w.stack = { node := n } :: rest →
    w.first_ptr = w.last_ptr → w.Inv →
    (fast_forward_loop n offset w).Inv ∧
    (fast_forward_loop n offset w).pending
      = (w.buffers.textOf n.toList).drop offset ++ w.buffers.textOf (stackPieces rest) ∧
    (fast_forward_loop n offset w).buffers = w.buffers ∧
    (fast_forward_loop n offset w).root = w.root ∧
    (fast_forward_loop n offset w).meta = w.meta ∧
    (∀ p ∈ stackPieces (fast_forward_loop n offset w).stack, p ∈ stackPieces w.stack) := by
  intro n
  induction n with
  | empty =>
    intro offset w rest _ hs hf hi
    rw [fast_forward_loop]
    refine ⟨hi, ?_, rfl, rfl, rfl, fun p hp => hp⟩
    unfold pending
    rw [window_nil w hf, hs, stackPieces_cons, entryPieces_empty]
    simp [BufferCollection.textOf_nil]
  | node c l d r ihl ihr =>
    intro offset w rest ha hs hf hi
    obtain ⟨i1, i2, i3, i4, i5, i6, i7, i8⟩ := hi
    rw [RedBlackTree.Aug_node] at ha
    obtain ⟨a1, _, a3, a4⟩ := ha
    have hsp : stackPieces w.stack
        = l.toList ++ d.piece :: r.toList ++ stackPieces rest := by
      rw [hs]; rfl
    have hpl : ∀ p ∈ l.toList, w.buffers.PieceOK p :=
      fun p hp => i5 p (by rw [hsp]; simp [hp])
    have hpd : w.buffers.PieceOK d.piece := i5 _ (by rw [hsp]; simp)
    have hll : (w.buffers.textOf l.toList).length = d.left_subtree_length := by
      rw [BufferCollection.textOf_length i1 hpl, a1]
    have hdl : (w.buffers.pieceText d.piece).length = d.piece.length :=
      BufferCollection.pieceText_length i1 hpd
    have hsz := i4 _ (by rw [hs]; exact List.mem_cons_self _ _)
    simp only [RedBlackTree.size_node] at hsz
    have htail : ∀ e ∈ rest, e.dir = Direction.Center ∧ e.node.is_empty = false := by
      intro e he
      exact i7 e (by rw [hs]; exact he)
    have hrest : ∀ e ∈ rest, e.node.size ≤ w.root.size :=
      fun e he => i4 e (by rw [hs]; exact List.mem_cons_of_mem _ he)
    have htext : w.buffers.textOf (RedBlackTree.node c l d r).toList
        = w.buffers.textOf l.toList
          ++ (w.buffers.pieceText d.piece ++ w.buffers.textOf r.toList) := by
      rw [RedBlackTree.toList_node, BufferCollection.textOf_append,
        BufferCollection.textOf_cons]
    rw [fast_forward_loop]
    by_cases h1 : d.left_subtree_length > offset
    · rw [if_pos h1]
      have hi2 : Inv { w with stack := { node := l } :: set_back_dir w.stack Direction.Center } := by
        refine ⟨i1, i2, i3, ?_, ?_, ?_, ?_, by simp⟩
        · intro e he
          rw [hs] at he
          simp only [set_back_dir, List.mem_cons] at he
          rcases he with he | he | he
          · rw [he]; simp only; omega
          · rw [he]; simp only [RedBlackTree.size_node]; exact hsz
          · exact hrest e he
        · intro p hp
          apply i5 p
          rw [hs] at hp
          rw [hsp]
          simp only [set_back_dir, stackPieces, entryPieces_left] at hp
          simp only [entryPieces, List.mem_append, List.mem_cons] at hp
          simp only [List.mem_append, List.mem_cons]
          tauto
        · rw [hsp] at i6
          rw [hs]
          simp only [set_back_dir, stackPieces, entryPieces_left]
          simp only [entryPieces, List.length_append, List.length_cons] at i6 ⊢
          omega
        · intro e he
          rw [hs] at he
          simp only [set_back_dir, List.tail_cons, List.mem_cons] at he
          rcases he with he | he
          · rw [he]; exact ⟨rfl, rfl⟩
          · exact htail e he
      obtain ⟨k1, k2, k3, k4, k5, k6⟩ := ihl offset
        { w with stack := { node := l } :: set_back_dir w.stack Direction.Center }
        (set_back_dir w.stack Direction.Center) a3 rfl hf hi2
      refine ⟨k1, ?_, k3, k4, k5, ?_⟩
      · rw [k2, htext, List.drop_append_of_le_length (by omega), hs]
        simp only [set_back_dir, stackPieces, entryPieces, BufferCollection.textOf_append,
          BufferCollection.textOf_cons, List.append_assoc]
      · intro p hp
        have := k6 p hp
        rw [hs] at this
        rw [hsp]
        simp only [set_back_dir, stackPieces, entryPieces_left] at this
        simp only [entryPieces, List.mem_append, List.mem_cons] at this
        simp only [List.mem_append, List.mem_cons]
        tauto
    · rw [if_neg h1]
      by_cases h2 : d.left_subtree_length + d.piece.length > offset
      · rw [if_pos h2]
        simp only
        obtain ⟨o1, o2, o3⟩ := piece_offsets hpd
        have hr : retract offset d.left_subtree_length = offset - d.left_subtree_length :=
          retract_of_le (by omega)
        rw [hr]
        refine ⟨⟨i1, ?_, o2, ?_, ?_, ?_, ?_, ?_⟩, ?_, trivial, trivial, trivial, ?_⟩
        · simp only; omega
        · intro e he
          rw [hs] at he
          simp only [set_back_dir, List.mem_cons] at he
          rcases he with he | he
          · rw [he]; simp only [RedBlackTree.size_node]; exact hsz
          · exact hrest e he
        · intro p hp
          apply i5 p
          rw [hs] at hp
          rw [hsp]
          simp only [set_back_dir, stackPieces, entryPieces, List.mem_append] at hp
          simp only [List.mem_append, List.mem_cons]
          tauto
        · rw [hsp] at i6
          rw [hs]
          simp only [set_back_dir, stackPieces, entryPieces, List.length_append,
            List.length_cons] at i6 ⊢
          omega
        · intro e he
          rw [hs] at he
          exact htail e he
        · rw [hs]; simp [set_back_dir]
        · unfold pending window
          simp only
          rw [htext, drop_three _ _ _ _ (by omega) (by omega), hll, hs]
          simp only [set_back_dir, stackPieces, entryPieces, BufferCollection.textOf_append,
            List.append_assoc]
          congr 1
          unfold BufferCollection.pieceText
          rw [List.drop_take, List.drop_drop]
          congr 1
          omega
        · intro p hp
          rw [hs] at hp
          rw [hsp]
          simp only [set_back_dir, stackPieces, entryPieces, List.mem_append] at hp
          simp only [List.mem_append, List.mem_cons]
          tauto
      · rw [if_neg h2]
        simp only
        have hr : retract offset (d.left_subtree_length + d.piece.length)
            = offset - (d.left_subtree_length + d.piece.length) := retract_of_le (by omega)
        rw [hr]
        have hi2 : Inv { w with stack := { node := r } :: w.stack.tail } := by
          refine ⟨i1, i2, i3, ?_, ?_, ?_, ?_, by simp⟩
          · intro e he
            rw [hs] at he
            simp only [List.tail_cons, List.mem_cons] at he
            rcases he with he | he
            · rw [he]; simp only; omega
            · exact hrest e he
          · intro p hp
            apply i5 p
            rw [hs] at hp
            rw [hsp]
            simp only [List.tail_cons, stackPieces, entryPieces_left, List.mem_append] at hp
            simp only [List.mem_append, List.mem_cons]
            tauto
          · rw [hsp] at i6
            rw [hs]
            simp only [List.tail_cons, stackPieces, entryPieces_left, List.length_append,
              List.length_cons] at i6 ⊢
            omega
          · intro e he
            rw [hs] at he
            exact htail e he
        obtain ⟨k1, k2, k3, k4, k5, k6⟩ := ihr
          (offset - (d.left_subtree_length + d.piece.length))
          { w with stack := { node := r } :: w.stack.tail } w.stack.tail a4 rfl hf hi2
        refine ⟨k1, ?_, k3, k4, k5, ?_⟩
        · rw [k2, htext, drop_past _ _ _ _ (by omega), hll, hdl, hs]
          rfl
        · intro p hp
          have := k6 p hp
          rw [hs] at this
          rw [hsp]
          simp only [List.tail_cons, stackPieces, entryPieces_left, List.mem_append] at this
          simp only [List.mem_append, List.mem_cons]
          tauto

/-- A fresh walker over a root with correct augmentation and consistent pieces: the text
of the root past the offset is pending. -/
theorem make_spec {b : BufferCollection} (hb : b.OK) {root : RedBlackTree}
    (ha : root.Aug = true) (hp : ∀ p ∈ root.toList, b.PieceOK p) (meta : BufferMeta)
    (offset : Nat) :
    (make b root meta offset).Inv ∧
    (make b root meta offset).pending = (b.textOf root.toList).drop offset ∧
    (make b root meta offset).buffers = b ∧ (make b root meta offset).root = root ∧
    (make b root meta offset).meta = meta ∧
    (∀ p ∈ stackPieces (make b root meta offset).stack, p ∈ root.toList) := by
  have hi : Inv (⟨b, root, meta, [{ node := root }], offset, BufferIndex.ModBuf, 0, 0⟩ :
      TreeWalker) := by
    refine ⟨hb, Nat.le_refl _, Nat.zero_le _, ?_, ?_, ?_, ?_, fun _ => rfl⟩
    · intro e he
      simp only [List.mem_singleton] at he
      rw [he]
    · intro p h
      simp only [stackPieces, entryPieces_left, List.append_nil] at h
      exact hp p h
    · simp only [stackPieces, entryPieces_left, List.append_nil]
      rw [RedBlackTree.size_eq_length]
    · intro e he
      simp at he
  obtain ⟨k1, k2, k3, k4, k5, k6⟩ := fast_forward_loop_spec root offset _ [] ha rfl rfl hi
  refine ⟨k1, ?_, k3, k4, k5, ?_⟩
  · unfold make fast_forward_to
    rw [k2]
    simp [stackPieces, BufferCollection.textOf_nil]
  · intro p h
    have := k6 p h
    simpa [stackPieces, entryPieces_left] using this

end TreeWalker

end PieceTree


namespace PieceTree

namespace TreeWalker

/-! ## Lemmas: the loops that read a walker -/

theorem pending_cases {w : TreeWalker} (hi : w.Inv) (hp : w.Pos) (hx : w.exhausted = false) :
    ∃ c rest, w.pending = c :: rest := by
  cases h : w.pending with
  | nil => rw [exhausted_of_pending hi hp h] at hx; cases hx
  | cons c rest => exact ⟨c, rest, rfl⟩

/-- Reading a walker over a tree without empty pieces until it is exhausted yields the
pending text. -/
theorem drain_loop_spec : ∀ (fuel : Nat) (w : TreeWalker) (buf : List CharT), w.Inv → w.Pos →
    w.pending.length ≤ fuel → drain_loop fuel w buf = buf ++ w.pending := by
  intro fuel
  induction fuel with
  | zero =>
    intro w buf _ _ h
    rw [List.length_eq_zero.1 (Nat.le_zero.1 h), drain_loop, List.append_nil]
  | succ fuel ih =>
    intro w buf hi hp h
    rw [drain_loop]
    cases hx : w.exhausted with
    | true => rw [if_pos rfl, pending_of_exhausted hi hx, List.append_nil]
    | false =>
      rw [if_neg (by simp)]
      obtain ⟨c, rest, hc⟩ := pending_cases hi hp hx
      obtain ⟨k1, _, _, _, _, _, k7⟩ := next_spec hi
      obtain ⟨k8, k9⟩ := k7 c rest hc
      simp only
      rw [ih w.next.2 _ k1 (Pos.next hi hp) (by rw [k9]; rw [hc] at h; simpa using h),
        k8, k9, hc, List.append_assoc]
      rfl

end TreeWalker

namespace Tree

open TreeWalker

/-- The loop of `assemble_line` over a tree without empty pieces appends the pending text
up to its first line feed. -/
theorem assemble_line_loop_spec : ∀ (fuel : Nat) (w : TreeWalker) (buf : List CharT),
    w.Inv → w.Pos → w.pending.length ≤ fuel →
    assemble_line_loop fuel w buf = buf ++ w.pending.takeWhile (fun c => decide (c ≠ LF)) := by
  intro fuel
  induction fuel with
  | zero =>
    intro w buf _ _ h
    rw [List.length_eq_zero.1 (Nat.le_zero.1 h), assemble_line_loop]
    simp
  | succ fuel ih =>
    intro w buf hi hp h
    rw [assemble_line_loop]
    cases hx : w.exhausted with
    | true =>
      rw [if_pos rfl, pending_of_exhausted hi hx]
      simp
    | false =>
      rw [if_neg (by simp)]
      obtain ⟨c, rest, hc⟩ := pending_cases hi hp hx
      obtain ⟨k1, _, _, _, _, _, k7⟩ := next_spec hi
      obtain ⟨k8, k9⟩ := k7 c rest hc
      simp only
      rw [k8, hc, List.takeWhile_cons]
      by_cases hlf : c = LF
      · rw [if_pos hlf]
        simp [hlf]
      · rw [if_neg hlf, ih w.next.2 _ k1 (Pos.next hi hp)
          (by rw [k9]; rw [hc] at h; simpa using h), k9]
        simp [hlf]

end Tree

open TreeWalker

/-- The loop of `trim_crlf` computes the flag of `crlfOf` on the pending text, and over a tree
without empty pieces the line of `crlfOf` as well. -/
theorem trim_crlf_loop_spec : ∀ (fuel : Nat) (w : TreeWalker) (buf : List CharT)
    (prev_char : Nat), w.Inv → w.pending.length ≤ fuel →
    (trim_crlf_loop fuel w buf prev_char).2 = (crlfOf w.pending buf prev_char).2 ∧
    (w.Pos → trim_crlf_loop fuel w buf prev_char = crlfOf w.pending buf prev_char) := by
  intro fuel
  induction fuel with
  | zero =>
    intro w buf prev_char _ h
    rw [List.length_eq_zero.1 (Nat.le_zero.1 h), trim_crlf_loop, crlfOf]
    exact ⟨rfl, fun _ => rfl⟩
  | succ fuel ih =>
    intro w buf prev_char hi h
    rw [trim_crlf_loop]
    cases hx : w.exhausted with
    | true =>
      rw [if_pos rfl, pending_of_exhausted hi hx, crlfOf]
      exact ⟨rfl, fun _ => rfl⟩
    | false =>
      rw [if_neg (by simp)]
      obtain ⟨k1, _, _, _, k5, k6, k7⟩ := next_spec hi
      simp only
      cases hc : w.pending with
      | nil =>
        obtain ⟨k8, k9⟩ := k6 hc
        have hnl : NUL ≠ LF := by decide
        rw [k8, if_neg hnl]
        obtain ⟨j1, _⟩ := ih w.next.2 (buf ++ [NUL]) (NUL % 2 ^ 8) k1
          (by rw [pending_of_exhausted k1 k9]; exact Nat.zero_le _)
        rw [pending_of_exhausted k1 k9, crlfOf] at j1
        refine ⟨?_, ?_⟩
        · rw [j1, crlfOf]
        · intro hp
          rw [exhausted_of_pending hi hp hc] at hx
          cases hx
      | cons c rest =>
        obtain ⟨k8, k9⟩ := k7 c rest hc
        rw [k8, crlfOf]
        by_cases hlf : c = LF
        · rw [if_pos hlf, if_pos hlf]
          by_cases hcr : prev_char = CR
          · rw [if_pos hcr]
            exact ⟨rfl, fun _ => rfl⟩
          · rw [if_neg hcr]
            exact ⟨rfl, fun _ => rfl⟩
        · rw [if_neg hlf, if_neg hlf]
          obtain ⟨j1, j2⟩ := ih w.next.2 (buf ++ [c]) (c % 2 ^ 8) k1
            (by rw [k9]; rw [hc] at h; simpa using h)
          rw [k9] at j1 j2
          exact ⟨j1, fun hp => j2 (Pos.next hi hp)⟩

/-! ## Lemmas: the two line loops on a text -/

theorem takeWhile_line (line rest : List CharT) (h : LF ∉ line) :
    (line ++ LF :: rest).takeWhile (fun c => decide (c ≠ LF)) = line := by
  rw [List.takeWhile_append_of_pos, List.takeWhile_cons]
  · simp
  · intro a ha
    simp only [ne_eq, decide_eq_true_eq]
    intro hc
    exact h (hc ▸ ha)

theorem takeWhile_no_lf (text : List CharT) (h : LF ∉ text) :
    text.takeWhile (fun c => decide (c ≠ LF)) = text := by
  rw [List.takeWhile_eq_self_iff]
  intro a ha
  simp only [ne_eq, decide_eq_true_eq]
  intro hc
  exact h (hc ▸ ha)

theorem getLast?_getD_cons (c : CharT) (prev_char : Nat) (line : List CharT) :
    ((c :: line).getLast?.map (fun x => x % 2 ^ 8)).getD prev_char
      = (line.getLast?.map (fun x => x % 2 ^ 8)).getD (c % 2 ^ 8) := by
  cases line with
  | nil => rfl
  | cons b l =>
    rw [List.getLast?_cons_cons]
    cases h : (b :: l).getLast? with
    | none => simp at h
    | some x => rfl

/-- The loop of `trim_crlf` on a line that ends in a line feed: the last code unit of the
line counts as a carriage return when its low byte is `0x0D`. -/
theorem crlfOf_line : ∀ (line rest buf : List CharT) (prev_char : Nat), LF ∉ line →
    crlfOf (line ++ LF :: rest) buf prev_char
      = if (line.getLast?.map (fun x => x % 2 ^ 8)).getD prev_char = CR then
          ((buf ++ line).dropLast, IncompleteCRLF.No)
        else (buf ++ line, IncompleteCRLF.Yes) := by
  intro line
  induction line with
  | nil =>
    intro rest buf prev_char _
    simp only [List.nil_append, crlfOf, if_true, List.getLast?_nil, Option.map_none',
      Option.getD_none, List.append_nil]
  | cons c line ih =>
    intro rest buf prev_char h
    have hc : c ≠ LF := fun hc => h (by rw [hc]; exact List.mem_cons_self _ _)
    rw [List.cons_append, crlfOf, if_neg hc,
      ih rest (buf ++ [c]) (c % 2 ^ 8) (fun hm => h (List.mem_cons_of_mem _ hm)),
      getLast?_getD_cons]
    simp only [List.append_assoc, List.singleton_append]

/-- The loop of `trim_crlf` on a text without a line feed. -/
theorem crlfOf_no_lf : ∀ (text buf : List CharT) (prev_char : Nat), LF ∉ text →
    crlfOf text buf prev_char = (buf ++ text, IncompleteCRLF.No) := by
  intro text
  induction text with
  | nil =>
    intro buf prev_char _
    rw [crlfOf, List.append_nil]
  | cons c text ih =>
    intro buf prev_char h
    have hc : c ≠ LF := fun hc => h (by rw [hc]; exact List.mem_cons_self _ _)
    rw [crlfOf, if_neg hc,
      ih (buf ++ [c]) (c % 2 ^ 8) (fun hm => h (List.mem_cons_of_mem _ hm))]
    simp only [List.append_assoc, List.singleton_append]

end PieceTree


namespace PieceTree

/-! ## Lemmas: the lines of the document and the line ranges -/

theorem lfBefore_add (s : List CharT) (f d : Nat) :
    lfBefore s (f + d) = lfBefore s f + ((s.drop f).take d).count LF := by
  unfold lfBefore
  rw [List.take_add, List.count_append]

/-- From an offset to a later line feed with no line feed in between: the text from the
offset on is the text up to the line feed, the line feed, and the rest. -/
theorem drop_line (s : List CharT) (f n : Nat) (hn : n < s.length) (hlf : s.getD n 0 = LF)
    (hfn : f ≤ n) (hc : lfBefore s f = lfBefore s n) :
    s.drop f = (s.drop f).take (n - f) ++ LF :: s.drop (n + 1) ∧
      LF ∉ (s.drop f).take (n - f) := by
  constructor
  · conv => lhs; rw [← List.take_append_drop (n - f) (s.drop f)]
    rw [List.drop_drop, show f + (n - f) = n by omega, List.drop_eq_getElem_cons hn,
      ← List.getD_eq_getElem _ 0 hn, hlf]
  · have := lfBefore_add s f (n - f)
    rw [show f + (n - f) = n by omega] at this
    exact List.count_eq_zero.1 (by omega)

/-- From an offset with all line feeds before it: no line feed follows. -/
theorem drop_last_line (s : List CharT) (f : Nat) (hc : lfBefore s f = s.count LF) :
    LF ∉ s.drop f := by
  have h1 : s.count LF = lfBefore s f + (s.drop f).count LF := by
    unfold lfBefore
    rw [← List.count_append, List.take_append_drop]
  exact List.count_eq_zero.1 (by omega)

namespace Tree

/-- Where line `L` starts: `L - 1` line feeds lie before `get_line_range(L).first`. -/
theorem line_first {t : Tree} (h : t.Consistent) (hb : t.content.length < 2 ^ 63) (L : Nat)
    (h1 : 1 ≤ L) (h2 : L ≤ t.line_count) :
    (t.get_line_range L).first ≤ t.content.length ∧
      lfBefore t.content (t.get_line_range L).first = L - 1 := by
  have hlc := h.line_count_eq
  have hcl := Tree.count_le_length t.content
  unfold get_line_range
  simp only
  by_cases h3 : L = 1
  · rw [h3, line_start_one]
    exact ⟨Nat.zero_le _, rfl⟩
  · obtain ⟨n, a1, a2, a3, a4, _⟩ := line_start_document h (L - 1) (by omega) (by omega)
      (by omega)
    rw [show L - 1 + 1 = L by omega] at a4
    rw [a4, lfBefore_succ _ _ a1, if_pos a2]
    refine ⟨by omega, ?_⟩
    unfold lfBefore
    rw [a3]
    omega

/-- The text of line `L` and what follows it in the document. -/
theorem line_split {t : Tree} (h : t.Consistent) (hb : t.content.length < 2 ^ 63) (L : Nat)
    (h1 : 1 ≤ L) (h2 : L ≤ t.line_count) :
    (t.get_line_range L).first ≤ (t.get_line_range L).last ∧
    (t.get_line_range L).last ≤ t.content.length ∧
    LF ∉ (t.content.drop (t.get_line_range L).first).take
      ((t.get_line_range L).last - (t.get_line_range L).first) ∧
    (L < t.line_count → (t.get_line_range L).last < t.content.length ∧
      t.content.getD (t.get_line_range L).last 0 = LF ∧
      t.content.drop (t.get_line_range L).first
        = (t.content.drop (t.get_line_range L).first).take
            ((t.get_line_range L).last - (t.get_line_range L).first)
          ++ LF :: t.content.drop ((t.get_line_range L).last + 1) ∧
      (t.get_line_range (L + 1)).first = (t.get_line_range L).last + 1) ∧
    (L = t.line_count → (t.get_line_range L).last = t.content.length ∧
      t.content.drop (t.get_line_range L).first
        = (t.content.drop (t.get_line_range L).first).take
            ((t.get_line_range L).last - (t.get_line_range L).first)) := by
  have hlc := h.line_count_eq
  have hcl := Tree.count_le_length t.content
  obtain ⟨f1, f2⟩ := line_first h hb L h1 h2
  have hext : extend L 1 = L + 1 := extend_of_lt (by omega)
  have hlast : (t.get_line_range L).last
      = line_start accumulate_value_no_lf t.buffers t.root (L + 1) 0 := by
    unfold get_line_range
    simp only [hext]
  have hfirst : ∀ K, (t.get_line_range K).first
      = line_start accumulate_value t.buffers t.root K 0 := fun K => rfl
  generalize (t.get_line_range L).first = f at *
  by_cases h3 : L < t.line_count
  · obtain ⟨n, a1, a2, a3, a4, a5⟩ := line_start_document h L h1 (by omega) (by omega)
    rw [hlast, a5, hfirst (L + 1), a4]
    have hfn : f ≤ n := by
      by_contra hc
      have := lfBefore_mono t.content (show n + 1 ≤ f by omega)
      rw [lfBefore_succ _ _ a1, if_pos a2] at this
      unfold lfBefore at this f2
      omega
    obtain ⟨d1, d2⟩ := drop_line t.content f n a1 a2 hfn (by unfold lfBefore at f2 ⊢; omega)
    exact ⟨hfn, by omega, d2, fun _ => ⟨a1, a2, d1, rfl⟩, fun hc => by omega⟩
  · have hL : L = t.line_count := by omega
    have hend := line_start_document_end h accumulate_value_no_lf (L + 1) (by omega) (by omega)
    rw [hlast, hend]
    have hno := drop_last_line t.content f (by omega)
    have hall : (t.content.drop f).take (t.content.length - f) = t.content.drop f :=
      List.take_of_length_le (by rw [List.length_drop])
    refine ⟨f1, Nat.le_refl _, by rw [hall]; exact hno, fun hc => by omega,
      fun _ => ⟨rfl, hall.symm⟩⟩

end Tree

end PieceTree


namespace PieceTree

namespace Tree

open TreeWalker

/-! ## Lemmas: the line content queries -/

/-- The walker of a consistent tree at an offset has the document past the offset
pending. -/
theorem create_spec {t : Tree} (h : t.Consistent) (offset : Nat) :
    (TreeWalker.create t offset).Inv ∧
    (TreeWalker.create t offset).pending = t.content.drop offset ∧
    (TreeWalker.create t offset).root = t.root ∧
    (TreeWalker.create t offset).meta = t.meta ∧
    ((∀ p ∈ t.root.toList, 0 < p.length) → (TreeWalker.create t offset).Pos) := by
  obtain ⟨k1, k2, _, k4, k5, k6⟩ :=
    make_spec h.buffers_ok h.aug h.pieces_ok t.meta offset
  exact ⟨k1, k2, k4, k5, fun hp p hm => hp p (k6 p hm)⟩

theorem pending_le {t : Tree} (h : t.Consistent) (offset : Nat) :
    (t.content.drop offset).length
      ≤ t.meta.total_content_length + t.root.size + 1 := by
  have h1 : t.meta.total_content_length = t.content.length := by
    rw [h.content_length]; exact h.length_eq
  rw [List.length_drop]
  omega

/-- The document of a tree with an empty root is empty. -/
theorem content_of_empty {t : Tree} (he : t.root.is_empty = true) : t.content = [] := by
  unfold content
  cases hr : t.root with
  | empty => rfl
  | node _ _ _ _ => rw [hr] at he; cases he

/-- On a consistent tree without empty pieces `get_line_content` yields the document from the
start of the line up to the next line feed. -/
theorem get_line_content_eq {t : Tree} (h : t.Consistent)
    (hpos : ∀ p ∈ t.root.toList, 0 < p.length) (L : Nat) (h1 : 1 ≤ L) :
    t.get_line_content L
      = (t.content.drop (t.get_line_range L).first).takeWhile (fun c => decide (c ≠ LF)) := by
  unfold get_line_content
  rw [if_neg (by unfold Line.IndexBeginning; omega)]
  unfold assemble_line
  cases he : t.root.is_empty with
  | true =>
    rw [if_pos rfl, content_of_empty he]
    simp
  | false =>
    rw [if_neg (by simp)]
    simp only
    obtain ⟨k1, k2, _, _, k5⟩ := create_spec h
      (line_start accumulate_value t.buffers t.root L 0)
    rw [assemble_line_loop_spec _ _ _ k1 (k5 hpos) (by rw [k2]; exact pending_le h _), k2]
    rfl

/-- The line `get_line_content` yields is the range `get_line_range` returns. -/
theorem get_line_content_range {t : Tree} (h : t.Consistent)
    (hpos : ∀ p ∈ t.root.toList, 0 < p.length) (hb : t.content.length < 2 ^ 63) (L : Nat)
    (h1 : 1 ≤ L) (h2 : L ≤ t.line_count) :
    t.get_line_content L
      = (t.content.drop (t.get_line_range L).first).take
          ((t.get_line_range L).last - (t.get_line_range L).first) := by
  rw [get_line_content_eq h hpos L h1]
  obtain ⟨_, _, s3, s4, s5⟩ := line_split h hb L h1 h2
  by_cases h3 : L < t.line_count
  · obtain ⟨_, _, e, _⟩ := s4 h3
    conv => lhs; rw [e]
    exact takeWhile_line _ _ s3
  · obtain ⟨_, e⟩ := s5 (by omega)
    conv => lhs; rw [e]
    exact takeWhile_no_lf _ s3

theorem joinLines_cons_cons (a b : List CharT) (rest : List (List CharT)) :
    joinLines (a :: b :: rest) = a ++ LF :: joinLines (b :: rest) := rfl

/-- The lines from line `L` on, put together again, are the document from the start of
line `L`. -/
theorem joinLines_from {t : Tree} (h : t.Consistent)
    (hpos : ∀ p ∈ t.root.toList, 0 < p.length) (hb : t.content.length < 2 ^ 63) :
    ∀ (n L : Nat), 1 ≤ L → L + n = t.line_count →
      joinLines ((List.range' L (n + 1)).map t.get_line_content)
        = t.content.drop (t.get_line_range L).first := by
  intro n
  induction n with
  | zero =>
    intro L h1 h2
    obtain ⟨_, _, _, _, s5⟩ := line_split h hb L h1 (by omega)
    obtain ⟨_, e⟩ := s5 (by omega)
    rw [e, ← get_line_content_range h hpos hb L h1 (by omega)]
    rfl
  | succ n ih =>
    intro L h1 h2
    obtain ⟨_, _, _, s4, _⟩ := line_split h hb L h1 (by omega)
    obtain ⟨_, _, e, e2⟩ := s4 (by omega)
    rw [List.range'_succ, List.range'_succ, List.map_cons, List.map_cons, joinLines_cons_cons,
      ← List.map_cons, ← List.range'_succ, ih (L + 1) (by omega) (by omega), e2,
      get_line_content_range h hpos hb L h1 (by omega)]
    exact e.symm

/-- The last code unit of a window of a text. -/
theorem getLast?_window (s : List CharT) (f l : Nat) (h1 : f < l) (h2 : l ≤ s.length) :
    ((s.drop f).take (l - f)).getLast? = s[l - 1]? := by
  rw [List.getLast?_eq_getElem?, List.length_take, List.length_drop,
    Nat.min_eq_left (by omega), List.getElem?_take, if_pos (by omega), List.getElem?_drop]
  congr 1
  omega

/-- The flag `get_line_content_crlf` returns on a consistent tree: `Yes` exactly for a line that
ends in a line feed with no code unit of low byte `0x0D` right before it. -/
theorem get_line_content_crlf_flag {t : Tree} (h : t.Consistent)
    (hb : t.content.length < 2 ^ 63) (L : Nat) (h1 : 1 ≤ L) (h2 : L ≤ t.line_count) :
    ((t.get_line_content_crlf L).2 = IncompleteCRLF.Yes ↔
      (L < t.line_count ∧
        ¬ ((t.get_line_range L).first < (t.get_line_range L).last ∧
            ∃ c, t.content[(t.get_line_range L).last - 1]? = some c ∧ c % 2 ^ 8 = CR))) := by
  have hlc := h.line_count_eq
  unfold get_line_content_crlf
  rw [if_neg (by unfold Line.IndexBeginning; omega)]
  cases he : t.root.is_empty with
  | true =>
    rw [if_pos rfl]
    have hc := content_of_empty he
    rw [hc] at hlc
    simp only [List.count_nil] at hlc
    constructor
    · intro hx; cases hx
    · intro hx; omega
  | false =>
    rw [if_neg (by simp)]
    simp only
    obtain ⟨k1, k2, k3, k4, _⟩ := create_spec h
      (line_start accumulate_value t.buffers t.root L 0)
    unfold trim_crlf
    obtain ⟨j1, _⟩ := trim_crlf_loop_spec
      ((TreeWalker.create t (line_start accumulate_value t.buffers t.root L 0)).meta.total_content_length
        + (TreeWalker.create t (line_start accumulate_value t.buffers t.root L 0)).root.size + 1)
      _ [] NUL k1 (by rw [k2, k3, k4]; exact pending_le h _)
    rw [j1, k2]
    obtain ⟨s1, s2, s3, s4, s5⟩ := line_split h hb L h1 h2
    have hf : (t.get_line_range L).first
        = line_start accumulate_value t.buffers t.root L 0 := rfl
    rw [← hf]
    by_cases h3 : L < t.line_count
    · obtain ⟨_, _, e, _⟩ := s4 h3
      rw [e, crlfOf_line _ _ _ _ s3]
      by_cases h4 : (t.get_line_range L).first < (t.get_line_range L).last
      · rw [getLast?_window _ _ _ h4 s2]
        cases hg : t.content[(t.get_line_range L).last - 1]? with
        | none =>
          simp only [Option.map_none', Option.getD_none, show NUL ≠ CR by decide, if_false,
            true_iff]
          exact ⟨h3, fun hc => by obtain ⟨_, c, hc1, _⟩ := hc; cases hc1⟩
        | some x =>
          simp only [Option.map_some', Option.getD_some]
          by_cases hx : x % 2 ^ 8 = CR
          · rw [if_pos hx]
            constructor
            · intro hc; cases hc
            · intro hc; exact absurd ⟨h4, x, rfl, hx⟩ hc.2
          · rw [if_neg hx]
            refine ⟨fun _ => ⟨h3, fun hc => ?_⟩, fun _ => rfl⟩
            obtain ⟨_, c, hc1, hc2⟩ := hc
            cases hc1
            exact hx hc2
      · have hz : (t.get_line_range L).last - (t.get_line_range L).first = 0 := by omega
        rw [hz, List.take_zero]
        simp only [List.getLast?_nil, Option.map_none', Option.getD_none,
          show NUL ≠ CR by decide, if_false, true_iff]
        exact ⟨h3, fun hc => h4 hc.1⟩
    · obtain ⟨_, e⟩ := s5 (by omega)
      rw [e, crlfOf_no_lf _ _ _ s3]
      constructor
      · intro hx; cases hx
      · intro hx; exact absurd hx.1 h3

end Tree

end PieceTree


namespace PieceTree

/-! ## Lemmas: the queries read only the part of the buffers the pieces cover -/

namespace BufferCollection

/-- The offsets of the cursors of a consistent piece are the same in a grown collection. -/
theorem Extends.offsets {b b1 : BufferCollection} (he : b.Extends b1) (hb : b.OK)
    (hb1 : b1.OK) {p : Piece} (hp : b.PieceOK p) :
    b1.buffer_offset p.index p.first = b.buffer_offset p.index p.first ∧
      b1.buffer_offset p.index p.last = b.buffer_offset p.index p.last := by
  obtain ⟨h1, h2⟩ := BufferCollection.piece_eq_window hb hp
  obtain ⟨h3, h4⟩ := he.window hb1 h2
  have f1 := BufferCollection.window_first_off h4
  have l1 := BufferCollection.window_last_off h4
  rw [h3, ← h1] at f1 l1
  exact ⟨f1, l1⟩

/-- A code unit inside the old buffer is the same in a grown collection. -/
theorem Extends.getD {b b1 : BufferCollection} (he : b.Extends b1) (idx : BufferIndex)
    {i : Nat} (hi : i < (b.buffer_at idx).buffer.length) :
    (b1.buffer_at idx).buffer.getD i 0 = (b.buffer_at idx).buffer.getD i 0 := by
  obtain ⟨x, hx⟩ := he.buffer_at idx
  rw [← hx, List.getD_append _ _ _ _ hi]

end BufferCollection

namespace Tree

open BufferCollection

/-- The cursor `buffer_position` finds in a consistent piece is the same in a grown
collection. -/
theorem buffer_position_congr {b b1 : BufferCollection} (he : b.Extends b1) (hb : b.OK)
    (hb1 : b1.OK) {p : Piece} (hp : b.PieceOK p) {rem : Nat} (hr : rem ≤ p.length) :
    buffer_position b1 p rem = buffer_position b p rem := by
  obtain ⟨h1, h2⟩ := BufferCollection.piece_eq_window hb hp
  obtain ⟨h3, h4⟩ := he.window hb1 h2
  have hlen : p.length = (b.buffer_at p.index).offsetOf p.last
      - (b.buffer_at p.index).offsetOf p.first := hp.2.2.2.2.1
  have hfl := h2.2.2.1
  have hll := h2.2.2.2
  have hcb := h2.2.1
  have hcb1 := h4.2.1
  have hpre := he.buffer_at p.index
  generalize (b.buffer_at p.index).offsetOf p.first = f at *
  generalize (b.buffer_at p.index).offsetOf p.last = l at *
  rw [h1]
  conv => lhs; rw [← h3]
  rw [buffer_position_window h4 (by omega), buffer_position_window h2 (by omega)]
  exact CharBuffer.cursorAt_prefix hcb hcb1 hpre (by omega)

/-- The position `node_at` returns is the same in a grown collection. -/
theorem node_at_loop_congr {b b1 : BufferCollection} (he : b.Extends b1) (hb : b.OK)
    (hb1 : b1.OK) : ∀ (n : RedBlackTree), (∀ p ∈ n.toList, b.PieceOK p) →
    ∀ (off start nl rank : Nat),
      node_at_loop b1 n off start nl rank = node_at_loop b n off start nl rank := by
  intro n
  induction n with
  | empty => intro _ off start nl rank; rfl
  | node c l d r ihl ihr =>
    intro hp off start nl rank
    rw [node_at_loop, node_at_loop]
    by_cases h1 : d.left_subtree_length > off
    · rw [if_pos h1, if_pos h1]
      exact ihl (fun p hm => hp p (by simp [hm])) _ _ _ _
    · rw [if_neg h1, if_neg h1]
      by_cases h2 : d.left_subtree_length + d.piece.length > off
      · rw [if_pos h2, if_pos h2]
        simp only
        rw [buffer_position_congr he hb hb1 (hp d.piece (by simp))
          (by rw [retract_of_le (by omega)]; omega)]
      · rw [if_neg h2, if_neg h2]
        by_cases h3 : r.is_empty = true
        · rw [if_pos h3, if_pos h3]
        · rw [if_neg h3, if_neg h3]
          exact ihr (fun p hm => hp p (by simp [hm])) _ _ _ _

theorem node_at_congr {b b1 : BufferCollection} (he : b.Extends b1) (hb : b.OK)
    (hb1 : b1.OK) {n : RedBlackTree} (hp : ∀ p ∈ n.toList, b.PieceOK p) (off : Nat) :
    node_at b1 n off = node_at b n off :=
  node_at_loop_congr he hb hb1 n hp off 0 0 0

/-- Two line feeds of a text with the same number of line feeds before them are one. -/
theorem lf_position_unique (s : List CharT) (n m : Nat) (hn : n < s.length)
    (hm : m < s.length) (h1 : s.getD n 0 = LF) (h2 : s.getD m 0 = LF)
    (hc : (s.take n).count LF = (s.take m).count LF) : n = m := by
  have e1 := lfBefore_succ s n hn
  have e2 := lfBefore_succ s m hm
  rw [if_pos h1] at e1
  rw [if_pos h2] at e2
  by_contra hne
  rcases Nat.lt_or_gt_of_ne hne with hlt | hlt
  · have := lfBefore_mono s (show n + 1 ≤ m from hlt)
    unfold lfBefore at *
    omega
  · have := lfBefore_mono s (show m + 1 ≤ n from hlt)
    unfold lfBefore at *
    omega

/-- The two accumulators on a consistent piece are the same in a grown collection. -/
theorem accumulate_congr {b b1 : BufferCollection} (he : b.Extends b1) (hb : b.OK)
    (hb1 : b1.OK) {p : Piece} (hp : b.PieceOK p) (j : Nat) (hj : j < p.newline_count) :
    accumulate_value b1 p j = accumulate_value b p j ∧
      accumulate_value_no_lf b1 p j = accumulate_value_no_lf b p j := by
  obtain ⟨n, a1, a2, a3, a4, a5⟩ := accumulate_spec hb hp j hj
  obtain ⟨m, c1, c2, c3, c4, c5⟩ := accumulate_spec hb1 (he.pieceOK hb hb1 hp) j hj
  rw [he.pieceText hb hb1 hp] at c4 c5
  have hl := BufferCollection.pieceText_length hb hp
  have := lf_position_unique (b.pieceText p) n m (by omega) (by omega) a4 c4 (by omega)
  rw [a2, a3, c2, c3, this]
  exact ⟨rfl, rfl⟩

/-- The offset `line_start` returns is the same in a grown collection. -/
theorem line_start_congr {b b1 : BufferCollection}
    (acc : BufferCollection → Piece → Nat → Nat)
    (hacc : ∀ p j, b.PieceOK p → j < p.newline_count → acc b1 p j = acc b p j) :
    ∀ (n : RedBlackTree), (∀ p ∈ n.toList, b.PieceOK p) → ∀ (line offset : Nat),
      line_start acc b1 n line offset = line_start acc b n line offset := by
  intro n
  induction n with
  | empty => intro _ line offset; rfl
  | node c l d r ihl ihr =>
    intro hp line offset
    rw [line_start, line_start]
    simp only
    by_cases h1 : d.left_subtree_lf_count ≥ retract line 1
    · rw [if_pos h1, if_pos h1]
      exact ihl (fun p hm => hp p (by simp [hm])) _ _
    · rw [if_neg h1, if_neg h1]
      by_cases h2 : d.left_subtree_lf_count + d.piece.newline_count ≥ retract line 1
      · rw [if_pos h2, if_pos h2]
        by_cases h3 : retract line 1 - d.left_subtree_lf_count ≠ 0
        · rw [if_pos h3, if_pos h3, hacc d.piece _ (hp d.piece (by simp)) (by omega)]
        · rw [if_neg h3, if_neg h3]
      · rw [if_neg h2, if_neg h2]
        exact ihr (fun p hm => hp p (by simp [hm])) _ _

/-- The code unit `char_at` returns for an offset inside the document is the same in a grown
collection. -/
theorem char_at_congr {b b1 : BufferCollection} (he : b.Extends b1) (hb : b.OK)
    (hb1 : b1.OK) {root : RedBlackTree} (hr : RootOK b root) (o : Nat)
    (ho : o < sumLen root.toList) : char_at b1 root o = char_at b root o := by
  have hc : (⟨b, root, b.mod_buffer.endCursor, 0, PieceTree.compute_buffer_meta root,
      [], []⟩ : Tree).Consistent :=
    ⟨hb, hr, rfl, rfl, (by intro e h; cases h), (by intro e h; cases h)⟩
  have hc1 : (⟨b1, root, b1.mod_buffer.endCursor, 0, PieceTree.compute_buffer_meta root,
      [], []⟩ : Tree).Consistent :=
    ⟨hb1, hr.extends he hb hb1, rfl, rfl, (by intro e h; cases h), (by intro e h; cases h)⟩
  have e := at_eq_content hc o (by rw [hc.content_length]; exact ho)
  have e1 := at_eq_content hc1 o (by rw [hc1.content_length]; exact ho)
  have ht : (⟨b1, root, b1.mod_buffer.endCursor, 0, PieceTree.compute_buffer_meta root,
      [], []⟩ : Tree).content
      = (⟨b, root, b.mod_buffer.endCursor, 0, PieceTree.compute_buffer_meta root,
      [], []⟩ : Tree).content := he.textOf hb hb1 hr.1
  rw [ht, ← e] at e1
  exact e1

/-- The offset `line_end_crlf` returns is the same in a grown collection. -/
theorem line_end_crlf_congr {b b1 : BufferCollection} (he : b.Extends b1) (hb : b.OK)
    (hb1 : b1.OK) {root : RedBlackTree} (hr : RootOK b root) :
    ∀ (n : RedBlackTree), n.Aug = true → (∀ p ∈ n.toList, b.PieceOK p) →
    ∀ (line offset : Nat), offset + sumLen n.toList ≤ sumLen root.toList →
      line_end_crlf b1 root n line offset = line_end_crlf b root n line offset := by
  intro n
  induction n with
  | empty => intro _ _ line offset _; rfl
  | node c l d r ihl ihr =>
    intro ha hp line offset hs
    rw [RedBlackTree.Aug_node] at ha
    obtain ⟨a1, _, a3, a4⟩ := ha
    simp only [RedBlackTree.toList_node, sumLen_append, sumLen_cons] at hs
    rw [line_end_crlf, line_end_crlf]
    simp only
    by_cases h1 : d.left_subtree_lf_count ≥ retract line 1
    · rw [if_pos h1, if_pos h1]
      exact ihl a3 (fun p hm => hp p (by simp [hm])) _ _ (by omega)
    · rw [if_neg h1, if_neg h1]
      by_cases h2 : d.left_subtree_lf_count + d.piece.newline_count ≥ retract line 1
      · rw [if_pos h2, if_pos h2]
        by_cases h3 : retract line 1 - d.left_subtree_lf_count ≠ 0
        · rw [if_pos h3, if_pos h3]
          have hpd := hp d.piece (by simp)
          obtain ⟨m, m1, _, m3, _, _⟩ := accumulate_spec hb hpd
            (retract line 1 - d.left_subtree_lf_count - 1) (by omega)
          rw [(accumulate_congr he hb hb1 hpd _ (by omega)).2, m3]
          by_cases h4 : d.left_subtree_length + m ≠ 0
          · rw [if_pos h4, if_pos h4]
            have hre : retract (d.left_subtree_length + m) 1 = d.left_subtree_length + m - 1 :=
              retract_of_le (by omega)
            rw [hre]
            have hx : extend (offset + (d.left_subtree_length + m - 1)) 1
                ≤ offset + (d.left_subtree_length + m - 1) + 1 := by
              unfold extend
              exact Nat.mod_le _ _
            rw [char_at_congr he hb hb1 hr _ (show offset + (d.left_subtree_length + m - 1)
                < sumLen root.toList by omega),
              char_at_congr he hb hb1 hr _ (show extend (offset
                + (d.left_subtree_length + m - 1)) 1 < sumLen root.toList by omega)]
          · rw [if_neg h4, if_neg h4]
        · exfalso; omega
      · rw [if_neg h2, if_neg h2]
        exact ihr a4 (fun p hm => hp p (by simp [hm])) _ _ (by omega)

end Tree

end PieceTree


namespace PieceTree

namespace TreeWalker

open BufferCollection

/-! ## Lemmas: a walker reads only the part of the buffers its pieces cover -/

theorem exhausted_withBuffers (w : TreeWalker) (b1 : BufferCollection) :
    (w.withBuffers b1).exhausted = w.exhausted := rfl

/-- The step `populate_ptrs` takes is the same over a grown collection. -/
theorem populate_ptrs_loop_withBuffers {b1 : BufferCollection} (hb1 : b1.OK) :
    ∀ (fuel : Nat) (w : TreeWalker), w.buffers.Extends b1 → w.buffers.OK →
    (∀ p ∈ stackPieces w.stack, w.buffers.PieceOK p) →
    populate_ptrs_loop fuel (w.withBuffers b1) = (populate_ptrs_loop fuel w).withBuffers b1 := by
  intro fuel
  induction fuel with
  | zero => intro w _ _ _; rfl
  | succ fuel ih =>
    intro w he hb hp
    rw [populate_ptrs_loop, populate_ptrs_loop, exhausted_withBuffers]
    cases hx : w.exhausted with
    | true => simp only [if_true]
    | false =>
      simp only [Bool.false_eq_true, if_false]
      obtain ⟨buffers, root, meta, stack, total, idx, first, last⟩ := w
      simp only [withBuffers] at he hb hp ⊢
      cases stack with
      | nil => rfl
      | cons e rest =>
        obtain ⟨n, d⟩ := e
        cases n with
        | empty =>
          simp only
          exact ih
            { buffers := buffers, root := root, meta := meta, stack := rest,
              total_offset := total, ptr_index := idx, first_ptr := first, last_ptr := last }
            he hb (fun p hm => hp p (by simpa [stackPieces, entryPieces] using hm))
        | node c l x r =>
          have hcenter : ∀ (hx : buffers.PieceOK x.piece),
              ({ buffers := b1, root := root, meta := meta,
                 stack := { node := RedBlackTree.node c l x r, dir := Direction.Right } :: rest,
                 total_offset := total, ptr_index := x.piece.index,
                 first_ptr := b1.buffer_offset x.piece.index x.piece.first,
                 last_ptr := b1.buffer_offset x.piece.index x.piece.last } : TreeWalker)
              = { buffers := b1, root := root, meta := meta,
                  stack := { node := RedBlackTree.node c l x r, dir := Direction.Right } :: rest,
                  total_offset := total, ptr_index := x.piece.index,
                  first_ptr := buffers.buffer_offset x.piece.index x.piece.first,
                  last_ptr := buffers.buffer_offset x.piece.index x.piece.last } := by
            intro hx
            obtain ⟨o1, o2⟩ := he.offsets hb hb1 hx
            rw [o1, o2]
          cases d with
          | Left =>
            cases l with
            | empty =>
              simp only [RedBlackTree.is_empty_empty, Bool.not_true, Bool.false_eq_true,
                if_false]
              exact hcenter (hp _ (by simp [stackPieces, entryPieces]))
            | node c2 l2 x2 r2 =>
              simp only [RedBlackTree.is_empty_node, Bool.not_false, if_true]
              exact ih
                { buffers := buffers, root := root, meta := meta,
                  stack := { node := RedBlackTree.node c2 l2 x2 r2 } ::
                    { node := RedBlackTree.node c (RedBlackTree.node c2 l2 x2 r2) x r,
                      dir := Direction.Center } :: rest,
                  total_offset := total, ptr_index := idx, first_ptr := first,
                  last_ptr := last }
                he hb (fun p hm => hp p (by
                  simp only [stackPieces, entryPieces, RedBlackTree.toList_node,
                    List.mem_append, List.mem_cons] at hm ⊢
                  tauto))
          | Center =>
            simp only
            exact hcenter (hp _ (by simp [stackPieces, entryPieces]))
          | Right =>
            simp only
            exact ih
              { buffers := buffers, root := root, meta := meta,
                stack := { node := r } :: rest,
                total_offset := total, ptr_index := idx, first_ptr := first,
                last_ptr := last }
              he hb (fun p hm => hp p (by
                simp only [stackPieces, entryPieces_left] at hm
                simp only [stackPieces, entryPieces]
                exact hm))

theorem populate_ptrs_withBuffers {b1 : BufferCollection} (hb1 : b1.OK) {w : TreeWalker}
    (he : w.buffers.Extends b1) (hi : w.Inv) :
    (w.withBuffers b1).populate_ptrs = w.populate_ptrs.withBuffers b1 :=
  populate_ptrs_loop_withBuffers hb1 _ w he hi.1 hi.2.2.2.2.1

theorem advance_withBuffers {b1 : BufferCollection} {w : TreeWalker}
    (he : w.buffers.Extends b1) (h : w.first_ptr < (w.buffers.buffer_at w.ptr_index).buffer.length) :
    (w.withBuffers b1).advance = (w.advance.1, w.advance.2.withBuffers b1) := by
  unfold advance withBuffers
  simp only
  rw [he.getD _ h]

/-- The code unit `next` returns is the same over a grown collection. -/
theorem next_loop_withBuffers {b1 : BufferCollection} (hb1 : b1.OK) :
    ∀ (fuel : Nat) (w : TreeWalker), w.buffers.Extends b1 → w.Inv →
    next_loop fuel (w.withBuffers b1)
      = ((next_loop fuel w).1, (next_loop fuel w).2.withBuffers b1) := by
  intro fuel
  induction fuel with
  | zero => intro w _ _; rfl
  | succ fuel ih =>
    intro w he hi
    rw [next_loop, next_loop]
    have hfp : (w.withBuffers b1).first_ptr = w.first_ptr := rfl
    have hlp : (w.withBuffers b1).last_ptr = w.last_ptr := rfl
    rw [hfp, hlp]
    by_cases hf : w.first_ptr = w.last_ptr
    · rw [if_pos hf, if_pos hf]
      simp only
      rw [populate_ptrs_withBuffers hb1 he hi, exhausted_withBuffers]
      cases hx1 : w.populate_ptrs.exhausted with
      | true => simp only [if_true]
      | false =>
        simp only [Bool.false_eq_true, if_false]
        have hx : w.exhausted = false := by
          cases hx : w.exhausted with
          | false => rfl
          | true => rw [populate_ptrs_exhausted w hx, hx] at hx1; cases hx1
        obtain ⟨p, _, _, _, h4, _, h6, _⟩ := populate_ptrs_spec hi hf hx
        have hfp1 : (w.populate_ptrs.withBuffers b1).first_ptr = w.populate_ptrs.first_ptr := rfl
        have hlp1 : (w.populate_ptrs.withBuffers b1).last_ptr = w.populate_ptrs.last_ptr := rfl
        rw [hfp1, hlp1]
        by_cases hf1 : w.populate_ptrs.first_ptr = w.populate_ptrs.last_ptr
        · rw [if_pos hf1, if_pos hf1]
          exact ih w.populate_ptrs (by rw [h6]; exact he) h4
        · rw [if_neg hf1, if_neg hf1]
          exact advance_withBuffers (by rw [h6]; exact he)
            (by have := h4.2.1; have := h4.2.2.1; omega)
    · rw [if_neg hf, if_neg hf]
      exact advance_withBuffers he (by have := hi.2.1; have := hi.2.2.1; omega)

theorem next_withBuffers {b1 : BufferCollection} (hb1 : b1.OK) {w : TreeWalker}
    (he : w.buffers.Extends b1) (hi : w.Inv) :
    (w.withBuffers b1).next = (w.next.1, w.next.2.withBuffers b1) :=
  next_loop_withBuffers hb1 _ w he hi

/-- The code units a walker yields until it is exhausted are the same over a grown
collection. -/
theorem drain_loop_withBuffers {b1 : BufferCollection} (hb1 : b1.OK) :
    ∀ (fuel : Nat) (w : TreeWalker) (buf : List CharT), w.buffers.Extends b1 → w.Inv →
    drain_loop fuel (w.withBuffers b1) buf = drain_loop fuel w buf := by
  intro fuel
  induction fuel with
  | zero => intro w buf _ _; rfl
  | succ fuel ih =>
    intro w buf he hi
    rw [drain_loop, drain_loop, exhausted_withBuffers]
    cases hx : w.exhausted with
    | true => rfl
    | false =>
      simp only [Bool.false_eq_true, if_false]
      rw [next_withBuffers hb1 he hi]
      obtain ⟨k1, k2, _⟩ := next_spec hi
      exact ih w.next.2 _ (by rw [k2]; exact he) k1

/-- The position `fast_forward_to` reaches is the same over a grown collection. -/
theorem fast_forward_loop_withBuffers {b1 : BufferCollection} (hb1 : b1.OK) :
    ∀ (n : RedBlackTree) (offset : Nat) (w : TreeWalker), w.buffers.Extends b1 →
    w.buffers.OK → (∀ p ∈ n.toList, w.buffers.PieceOK p) →
    fast_forward_loop n offset (w.withBuffers b1)
      = (fast_forward_loop n offset w).withBuffers b1 := by
  intro n
  induction n with
  | empty => intro offset w _ _ _; rfl
  | node c l d r ihl ihr =>
    intro offset w he hb hp
    rw [fast_forward_loop, fast_forward_loop]
    by_cases h1 : d.left_subtree_length > offset
    · rw [if_pos h1, if_pos h1]
      exact ihl offset
        { w with stack := { node := l } :: set_back_dir w.stack Direction.Center }
        he hb (fun p hm => hp p (by simp [hm]))
    · rw [if_neg h1, if_neg h1]
      by_cases h2 : d.left_subtree_length + d.piece.length > offset
      · rw [if_pos h2, if_pos h2]
        obtain ⟨o1, o2⟩ := he.offsets hb hb1 (hp d.piece (by simp))
        simp only [withBuffers]
        rw [o1, o2]
      · rw [if_neg h2, if_neg h2]
        exact ihr _
          { w with stack := { node := r } :: w.stack.tail }
          he hb (fun p hm => hp p (by simp [hm]))

/-- A fresh walker over a grown collection is the fresh walker over the old one, reading the
grown collection. -/
theorem make_withBuffers {b b1 : BufferCollection} (he : b.Extends b1) (hb : b.OK)
    (hb1 : b1.OK) {root : RedBlackTree} (hp : ∀ p ∈ root.toList, b.PieceOK p)
    (meta : BufferMeta) (offset : Nat) :
    make b1 root meta offset = (make b root meta offset).withBuffers b1 :=
  fast_forward_loop_withBuffers hb1 root offset
    (⟨b, root, meta, [{ node := root }], offset, BufferIndex.ModBuf, 0, 0⟩ : TreeWalker)
    he hb hp

end TreeWalker

namespace Tree

open TreeWalker

/-- The line `assemble_line` reads is the same over a grown collection. -/
theorem assemble_line_loop_withBuffers {b1 : BufferCollection} (hb1 : b1.OK) :
    ∀ (fuel : Nat) (w : TreeWalker) (buf : List CharT), w.buffers.Extends b1 → w.Inv →
    assemble_line_loop fuel (w.withBuffers b1) buf = assemble_line_loop fuel w buf := by
  intro fuel
  induction fuel with
  | zero => intro w buf _ _; rfl
  | succ fuel ih =>
    intro w buf he hi
    rw [assemble_line_loop, assemble_line_loop, exhausted_withBuffers]
    cases hx : w.exhausted with
    | true => rfl
    | false =>
      simp only [Bool.false_eq_true, if_false]
      rw [next_withBuffers hb1 he hi]
      obtain ⟨k1, k2, _⟩ := next_spec hi
      simp only
      by_cases hlf : w.next.1 = LF
      · rw [if_pos hlf, if_pos hlf]
      · rw [if_neg hlf, if_neg hlf]
        exact ih w.next.2 _ (by rw [k2]; exact he) k1

end Tree

open TreeWalker

/-- The line and the flag of `trim_crlf` are the same over a grown collection. -/
theorem trim_crlf_loop_withBuffers {b1 : BufferCollection} (hb1 : b1.OK) :
    ∀ (fuel : Nat) (w : TreeWalker) (buf : List CharT) (prev_char : Nat),
    w.buffers.Extends b1 → w.Inv →
    trim_crlf_loop fuel (w.withBuffers b1) buf prev_char
      = trim_crlf_loop fuel w buf prev_char := by
  intro fuel
  induction fuel with
  | zero => intro w buf prev_char _ _; rfl
  | succ fuel ih =>
    intro w buf prev_char he hi
    rw [trim_crlf_loop, trim_crlf_loop, exhausted_withBuffers]
    cases hx : w.exhausted with
    | true => rfl
    | false =>
      simp only [Bool.false_eq_true, if_false]
      rw [next_withBuffers hb1 he hi]
      obtain ⟨k1, k2, _⟩ := next_spec hi
      simp only
      by_cases hlf : w.next.1 = LF
      · rw [if_pos hlf, if_pos hlf]
      · rw [if_neg hlf, if_neg hlf]
        exact ih w.next.2 _ _ (by rw [k2]; exact he) k1

end PieceTree


namespace PieceTree

open TreeWalker BufferCollection

/-! ## Lemmas: the queries of a snapshot over a grown collection -/

theorem TreeWalker.drain_withBuffers {b1 : BufferCollection} (hb1 : b1.OK) {w : TreeWalker}
    (he : w.buffers.Extends b1) (hi : w.Inv) : (w.withBuffers b1).drain = w.drain :=
  drain_loop_withBuffers hb1 _ w [] he hi

theorem trim_crlf_withBuffers {b1 : BufferCollection} (hb1 : b1.OK) {w : TreeWalker}
    (he : w.buffers.Extends b1) (hi : w.Inv) (buf : List CharT) :
    trim_crlf buf (w.withBuffers b1) = trim_crlf buf w :=
  trim_crlf_loop_withBuffers hb1 _ w buf NUL he hi

namespace ReferenceSnapshot

/-- Every query of a reference snapshot whose root is consistent with a collection returns
the same over a grown collection. -/
theorem frame (s : ReferenceSnapshot) {b b1 : BufferCollection} (he : b.Extends b1)
    (hb : b.OK) (hb1 : b1.OK) (hr : Tree.RootOK b s.root) (x : Nat) :
    (s.walker b1 x).drain = (s.walker b x).drain ∧
    s.get_line_content b1 x = s.get_line_content b x ∧
    s.get_line_content_crlf b1 x = s.get_line_content_crlf b x ∧
    s.line_at b1 x = s.line_at b x ∧
    s.get_line_range b1 x = s.get_line_range b x ∧
    s.get_line_range_crlf b1 x = s.get_line_range_crlf b x ∧
    s.get_line_range_with_newline b1 x = s.get_line_range_with_newline b x := by
  obtain ⟨hp, _, ha⟩ := hr
  have hmk : ∀ o, make b1 s.root s.meta o = (make b s.root s.meta o).withBuffers b1 :=
    make_withBuffers he hb hb1 hp s.meta
  have hinv : ∀ o, (make b s.root s.meta o).Inv ∧ (make b s.root s.meta o).buffers = b :=
    fun o => ⟨(make_spec hb ha hp s.meta o).1, (make_spec hb ha hp s.meta o).2.2.1⟩
  have hext : ∀ o, (make b s.root s.meta o).buffers.Extends b1 := by
    intro o
    rw [(hinv o).2]
    exact he
  have hacc : ∀ p j, b.PieceOK p → j < p.newline_count →
      Tree.accumulate_value b1 p j = Tree.accumulate_value b p j :=
    fun p j h1 h2 => (Tree.accumulate_congr he hb hb1 h1 j h2).1
  have hacc2 : ∀ p j, b.PieceOK p → j < p.newline_count →
      Tree.accumulate_value_no_lf b1 p j = Tree.accumulate_value_no_lf b p j :=
    fun p j h1 h2 => (Tree.accumulate_congr he hb hb1 h1 j h2).2
  have hls : ∀ line, Tree.line_start Tree.accumulate_value b1 s.root line 0
      = Tree.line_start Tree.accumulate_value b s.root line 0 :=
    fun line => Tree.line_start_congr _ hacc s.root hp line 0
  have hls2 : ∀ line, Tree.line_start Tree.accumulate_value_no_lf b1 s.root line 0
      = Tree.line_start Tree.accumulate_value_no_lf b s.root line 0 :=
    fun line => Tree.line_start_congr _ hacc2 s.root hp line 0
  refine ⟨?_, ?_, ?_, ?_, ?_, ?_, ?_⟩
  · unfold walker
    rw [hmk x]
    exact drain_withBuffers hb1 (hext x) (hinv x).1
  · unfold get_line_content walker
    simp only
    rw [hls x, hmk]
    by_cases h1 : x = Line.IndexBeginning
    · rw [if_pos h1, if_pos h1]
    · rw [if_neg h1, if_neg h1]
      by_cases h2 : s.root.is_empty = true
      · rw [if_pos h2, if_pos h2]
      · rw [if_neg h2, if_neg h2]
        exact Tree.assemble_line_loop_withBuffers hb1 _ _ [] (hext _) (hinv _).1
  · unfold get_line_content_crlf walker
    simp only
    rw [hls x, hmk]
    by_cases h1 : x = Line.IndexBeginning
    · rw [if_pos h1, if_pos h1]
    · rw [if_neg h1, if_neg h1]
      by_cases h2 : s.root.is_empty = true
      · rw [if_pos h2, if_pos h2]
      · rw [if_neg h2, if_neg h2]
        exact trim_crlf_withBuffers hb1 (hext _) (hinv _).1 []
  · unfold line_at
    rw [Tree.node_at_congr he hb hb1 hp x]
  · unfold get_line_range
    rw [hls x, hls2]
  · unfold get_line_range_crlf
    rw [hls x, Tree.line_end_crlf_congr he hb hb1 ⟨hp, ‹_›, ha⟩ s.root ha hp _ 0
      (by rw [Nat.zero_add])]
  · unfold get_line_range_with_newline
    rw [hls x, hls]

end ReferenceSnapshot

end PieceTree


namespace PieceTree

namespace RedBlackTree

/-! ## Lemmas: the removal never reaches `assert(!"impossible")` -/

/-- With a red left subtree, a black right subtree, or a red right subtree whose left child
is a black node, `balance_left` takes one of its three cases. -/
theorem balance_left_checked_eq (c : Color) (l : RedBlackTree) (x : NodeData)
    (r : RedBlackTree)
    (h : (∃ a u b, l = node Color.Red a u b) ∨ (∃ a u b, r = node Color.Black a u b) ∨
      (∃ a u b v cc, r = node Color.Red (node Color.Black a u b) v cc)) :
    balance_left_checked (node c l x r) = balance_left (node c l x r) := by
  by_cases h1 : ∃ a u b, l = node Color.Red a u b
  · obtain ⟨a, u, b, rfl⟩ := h1
    simp [balance_left_checked, balance_left]
  · by_cases h2 : ∃ a u b, r = node Color.Black a u b
    · obtain ⟨a, u, b, rfl⟩ := h2
      unfold balance_left_checked balance_left
      simp only [left_node, root_node, right_node, Option.bind_eq_bind, Option.some_bind,
        red_cond_false h1, Bool.false_eq_true, ↓reduceIte, is_empty_node, root_color_node,
        paint_node]
      simp
    · have h3 : ∃ a u b v cc, r = node Color.Red (node Color.Black a u b) v cc := by
        rcases h with h | h | h
        · exact absurd h h1
        · exact absurd h h2
        · exact h
      obtain ⟨a, u, b, v, cc, rfl⟩ := h3
      unfold balance_left_checked balance_left
      simp only [left_node, root_node, right_node, Option.bind_eq_bind, Option.some_bind,
        red_cond_false h1, Bool.false_eq_true, ↓reduceIte, is_empty_node, root_color_node,
        paint_node]
      simp

/-- With a red right subtree, a black left subtree, or a red left subtree whose right child
is a black node, `balance_right` takes one of its three cases. -/
theorem balance_right_checked_eq (c : Color) (l : RedBlackTree) (x : NodeData)
    (r : RedBlackTree)
    (h : (∃ a u b, r = node Color.Red a u b) ∨ (∃ a u b, l = node Color.Black a u b) ∨
      (∃ cc v a u b, l = node Color.Red cc v (node Color.Black a u b))) :
    balance_right_checked (node c l x r) = balance_right (node c l x r) := by
  by_cases h1 : ∃ a u b, r = node Color.Red a u b
  · obtain ⟨a, u, b, rfl⟩ := h1
    simp [balance_right_checked, balance_right]
  · by_cases h2 : ∃ a u b, l = node Color.Black a u b
    · obtain ⟨a, u, b, rfl⟩ := h2
      unfold balance_right_checked balance_right
      simp only [left_node, root_node, right_node, Option.bind_eq_bind, Option.some_bind,
        red_cond_false h1, Bool.false_eq_true, ↓reduceIte, is_empty_node, root_color_node,
        paint_node]
      simp
    · have h3 : ∃ cc v a u b, l = node Color.Red cc v (node Color.Black a u b) := by
        rcases h with h | h | h
        · exact absurd h h1
        · exact absurd h h2
        · exact h
      obtain ⟨cc, v, a, u, b, rfl⟩ := h3
      unfold balance_right_checked balance_right
      simp only [left_node, root_node, right_node, Option.bind_eq_bind, Option.some_bind,
        red_cond_false h1, Bool.false_eq_true, ↓reduceIte, is_empty_node, root_color_node,
        paint_node]
      simp

/-- In `fuse` the argument of `balance_left` has a black right subtree. -/
theorem balance_left_checked_fuse (ll : RedBlackTree) (lx : NodeData)
    (fused : RedBlackTree) (rx : NodeData) (rr : RedBlackTree) :
    balance_left_checked (ctor Color.Red ll lx (ctor Color.Black fused rx rr))
      = balance_left (ctor Color.Red ll lx (ctor Color.Black fused rx rr)) :=
  balance_left_checked_eq _ _ _ _ (Or.inr (Or.inl ⟨_, _, _, rfl⟩))

theorem fuse_loop_checked_eq : ∀ (fuel : Nat) (l r : RedBlackTree),
    fuse_loop_checked fuel l r = fuse_loop fuel l r := by
  intro fuel
  induction fuel with
  | zero => intro l r; rfl
  | succ fuel ih =>
    intro l r
    rw [fuse_loop_checked, fuse_loop]
    simp only [ih, balance_left_checked_fuse]

theorem fuse_checked_eq (l r : RedBlackTree) : fuse_checked l r = fuse l r :=
  fuse_loop_checked_eq _ l r

/-- The right subtree of a node with a black left child, in a tree with the colour and the
height invariant: a black node, or a red node whose left child is a black node. -/
theorem sibling_of_black {c : Color} {a : RedBlackTree} {u : NodeData} {b : RedBlackTree}
    {y : NodeData} {r : RedBlackTree}
    (hc : invc (node c (node Color.Black a u b) y r) = true)
    (hh : invh (node c (node Color.Black a u b) y r) = true) :
    (∃ a u b, r = node Color.Black a u b) ∨
      (∃ a u b v cc, r = node Color.Red (node Color.Black a u b) v cc) := by
  rw [invc_node] at hc
  rw [invh_node] at hh
  obtain ⟨_, _, hcr⟩ := hc
  obtain ⟨hb, _, hhr⟩ := hh
  simp only [bheight_black] at hb
  obtain ⟨rc, rl, rx, rr, rfl⟩ := exists_node_of_bheight_pos (show 0 < bheight r by omega)
  rcases shape_of_invc2 _ (invc_imp_invc2 hcr) with h | ⟨a1, u1, b1, h⟩ | ⟨a1, u1, b1, h⟩
  · cases h
  · cases h
    rw [invc_node] at hcr
    rw [invh_node] at hhr
    simp only [bheight_red] at hb
    obtain ⟨lc, ll, lx, lr, rfl⟩ := exists_node_of_bheight_pos (show 0 < bheight rl by omega)
    rcases hcr.1 with h | h
    · cases h
    · have : lc = Color.Black := by simpa using h.2.1
      subst this
      exact Or.inr ⟨_, _, _, _, _, rfl⟩
  · exact Or.inl ⟨a1, u1, b1, h⟩

/-- The left subtree of a node with a black right child, in a tree with the colour and the
height invariant: a black node, or a red node whose right child is a black node. -/
theorem sibling_of_black_right {c : Color} {l : RedBlackTree} {y : NodeData}
    {a : RedBlackTree} {u : NodeData} {b : RedBlackTree}
    (hc : invc (node c l y (node Color.Black a u b)) = true)
    (hh : invh (node c l y (node Color.Black a u b)) = true) :
    (∃ a u b, l = node Color.Black a u b) ∨
      (∃ cc v a u b, l = node Color.Red cc v (node Color.Black a u b)) := by
  rw [invc_node] at hc
  rw [invh_node] at hh
  obtain ⟨_, hcl, _⟩ := hc
  obtain ⟨hb, hhl, _⟩ := hh
  simp only [bheight_black] at hb
  obtain ⟨lc, ll, lx, lr, rfl⟩ := exists_node_of_bheight_pos (show 0 < bheight l by omega)
  rcases shape_of_invc2 _ (invc_imp_invc2 hcl) with h | ⟨a1, u1, b1, h⟩ | ⟨a1, u1, b1, h⟩
  · cases h
  · cases h
    rw [invc_node] at hcl
    rw [invh_node] at hhl
    simp only [bheight_red] at hb
    have hb2 : bheight ll = bheight lr := by simpa using hhl.1
    obtain ⟨rc, rl, rx, rr, rfl⟩ := exists_node_of_bheight_pos (show 0 < bheight lr by omega)
    rcases hcl.1 with h | h
    · cases h
    · have : rc = Color.Black := by simpa using h.2.2
      subst this
      exact Or.inr ⟨_, _, _, _, _, rfl⟩
  · exact Or.inl ⟨a1, u1, b1, h⟩

theorem remove_left_checked_eq {c : Color} {l : RedBlackTree} {y : NodeData}
    {r : RedBlackTree} (hc : invc (node c l y r) = true) (hh : invh (node c l y r) = true)
    (nl : RedBlackTree) :
    remove_left_checked (node c l y r) nl = remove_left (node c l y r) nl := by
  by_cases h : ∃ a u b, l = node Color.Black a u b
  · obtain ⟨a, u, b, rfl⟩ := h
    rw [remove_left_black]
    have e : remove_left_checked (node c (node Color.Black a u b) y r) nl
        = balance_left_checked (ctor Color.Red nl y r) := by
      simp [remove_left_checked]
    rw [e]
    exact balance_left_checked_eq _ _ _ _ (Or.inr (sibling_of_black hc hh))
  · rw [remove_left_not_black c y r nl h]
    unfold remove_left_checked
    simp only [root_node, right_node, left_node, Option.bind_eq_bind, Option.some_bind,
      black_cond_false h, Bool.false_eq_true, ↓reduceIte]
    rfl

theorem remove_right_checked_eq {c : Color} {l : RedBlackTree} {y : NodeData}
    {r : RedBlackTree} (hc : invc (node c l y r) = true) (hh : invh (node c l y r) = true)
    (nr : RedBlackTree) :
    remove_right_checked (node c l y r) nr = remove_right (node c l y r) nr := by
  by_cases h : ∃ a u b, r = node Color.Black a u b
  · obtain ⟨a, u, b, rfl⟩ := h
    rw [remove_right_black]
    have e : remove_right_checked (node c l y (node Color.Black a u b)) nr
        = balance_right_checked (ctor Color.Red l y nr) := by
      simp [remove_right_checked]
    rw [e]
    exact balance_right_checked_eq _ _ _ _ (Or.inr (sibling_of_black_right hc hh))
  · rw [remove_right_not_black c l y nr h]
    unfold remove_right_checked
    simp only [root_node, right_node, left_node, Option.bind_eq_bind, Option.some_bind,
      black_cond_false h, Bool.false_eq_true, ↓reduceIte]
    rfl

/-- On a tree with the colour and the height invariant the removal of the debug build is the
removal of the release build: no assertion fires. -/
theorem rem_checked_eq : ∀ (t : RedBlackTree) (at_ total : Nat), invc t = true →
    invh t = true → rem_checked t at_ total = rem t at_ total := by
  intro t
  induction t with
  | empty => intro at_ total _ _; rfl
  | node c l y r ihl ihr =>
    intro at_ total hc hh
    have hc0 := hc
    have hh0 := hh
    rw [invc_node] at hc
    rw [invh_node] at hh
    rw [rem_node, rem_checked]
    by_cases h1 : at_ < total + y.left_subtree_length
    · rw [if_pos h1, if_pos h1]
      simp only [Option.bind_eq_bind]
      rw [ihl at_ total hc.2.1 hh.2.1]
      congr 1
      funext nl
      exact remove_left_checked_eq hc0 hh0 nl
    · rw [if_neg h1, if_neg h1]
      by_cases h2 : at_ = total + y.left_subtree_length
      · rw [if_pos h2, if_pos h2]
        exact fuse_checked_eq l r
      · rw [if_neg h2, if_neg h2]
        simp only [Option.bind_eq_bind]
        rw [ihr at_ _ hc.2.2 hh.2.2]
        congr 1
        funext nr
        exact remove_right_checked_eq hc0 hh0 nr

theorem remove_checked_eq (t : RedBlackTree) (at_ : Nat) (hv : rbValid t = true) :
    remove_checked t at_ = remove t at_ := by
  simp only [rbValid, Bool.and_eq_true, beq_iff_eq] at hv
  unfold remove_checked remove
  rw [rem_checked_eq t at_ 0 hv.1.2 hv.2]

/-- The colour invariant leaves no room for a node of colour `DoubleBlack`. -/
theorem noDoubleBlack_of_invc : ∀ (t : RedBlackTree), invc t = true → noDoubleBlack t = true := by
  intro t
  induction t with
  | empty => intro _; rfl
  | node c l d r ihl ihr =>
    intro h
    rw [invc_node] at h
    obtain ⟨h1, h2, h3⟩ := h
    simp only [noDoubleBlack, Bool.and_eq_true, bne_iff_ne, ne_eq]
    refine ⟨⟨?_, ihl h2⟩, ihr h3⟩
    rcases h1 with h1 | h1
    · rw [h1]; intro hc; cases hc
    · rw [h1.1]; intro hc; cases hc

/-- The root of a non-empty tree with the red-black properties is black. -/
theorem root_black_of_rbValid {t : RedBlackTree} (hv : rbValid t = true) :
    t = empty ∨ root_color t = some Color.Black := by
  cases t with
  | empty => exact Or.inl rfl
  | node c l d r =>
    simp only [rbValid, Bool.and_eq_true, beq_iff_eq] at hv
    exact Or.inr (by rw [root_color_node]; exact congrArg some hv.1.1)

end RedBlackTree

end PieceTree


namespace PieceTree

/-! ## Lemmas: where `insert` puts a piece and which piece `remove` drops -/

/-- An insertion at the end offset of a prefix of the pieces, in front of a piece that is not
empty, puts the new piece right after the prefix. -/
theorem insList_boundary (x : Piece) : ∀ (A B : List Piece) (total : Nat),
    (∀ p, B.head? = some p → 0 < p.length) →
    insList x (total + sumLen A) (A ++ B) total = A ++ x :: B := by
  intro A
  induction A with
  | nil =>
    intro B total hB
    cases B with
    | nil => rfl
    | cons p ps =>
      have := hB p rfl
      simp only [sumLen_nil, Nat.add_zero, List.nil_append, RedBlackTree.insList_cons]
      rw [if_pos (by omega)]
  | cons a A ih =>
    intro B total hB
    simp only [sumLen_cons, List.cons_append, RedBlackTree.insList_cons]
    rw [if_neg (by omega), show total + (a.length + sumLen A) = total + a.length + sumLen A by omega,
      ih B (total + a.length) hB]

end PieceTree


namespace PieceTree

/-! ## Lemmas: the tree a builder creates -/

namespace TreeBuilder

theorem foldl_accept (texts : List (List CharT)) : ∀ (b : TreeBuilder),
    (texts.foldl accept b).buffers
      = b.buffers ++ texts.map
          (fun txt => ({ buffer := txt, line_starts := populate_line_starts txt } : CharBuffer)) := by
  induction texts with
  | nil => intro b; simp
  | cons txt texts ih =>
    intro b
    rw [List.foldl_cons, ih]
    simp [accept]

theorem ofTexts_buffers (texts : List (List CharT)) :
    (ofTexts texts).buffers
      = texts.map
          (fun txt => ({ buffer := txt, line_starts := populate_line_starts txt } : CharBuffer)) := by
  unfold ofTexts
  rw [foldl_accept]
  rfl

end TreeBuilder

namespace Tree

/-- The piece `build_tree` makes for an original buffer is the window over the whole
buffer. -/
theorem whole_buffer_window (b : BufferCollection) (i : Nat) (buf : CharBuffer)
    (hbuf : buf.OK) (hi : b.buffer_at (BufferIndex.Orig i) = buf) :
    ({ index := BufferIndex.Orig i
       first := { line := 0, column := 0 }
       last := { line := buf.line_starts.length - 1
                 column := buf.buffer.length
                   - buf.line_starts.getD (buf.line_starts.length - 1) 0 }
       length := buf.buffer.length
       newline_count := buf.line_starts.length - 1 } : Piece)
      = b.window (BufferIndex.Orig i) 0 buf.buffer.length := by
  unfold BufferCollection.window
  rw [hi]
  have h0 : lfBefore buf.buffer 0 = 0 := by simp [lfBefore]
  have hl := CharBuffer.line_starts_length hbuf
  have he := CharBuffer.endCursor_eq hbuf
  unfold CharBuffer.endCursor at he
  rw [← he]
  simp only [CharBuffer.cursorAt, h0, Nat.zero_sub, Nat.sub_zero,
    lfBefore_of_length_le _ (Nat.le_refl _), Piece.mk.injEq, true_and]
  omega

/-- What the loop of `build_tree` does: one piece for every buffer that is not empty, in
order, each spanning its whole buffer. -/
theorem build_tree_loop_spec (b : BufferCollection) (hb : b.OK) :
    ∀ (rest pre : List CharBuffer) (root : RedBlackTree), b.orig_buffers = pre ++ rest →
    RootOK b root → (∀ p ∈ root.toList, 0 < p.length) →
    ∃ root1, build_tree_loop rest pre.length root (sumLen root.toList) = some root1 ∧
      RootOK b root1 ∧ (∀ p ∈ root1.toList, 0 < p.length) ∧
      root1.toList.map b.pieceText
        = root.toList.map b.pieceText
          ++ (rest.map (fun cb => cb.buffer)).filter (fun l => !l.isEmpty) := by
  intro rest
  induction rest with
  | nil =>
    intro pre root _ hr hpos
    exact ⟨root, rfl, hr, hpos, by simp⟩
  | cons buf rest ih =>
    intro pre root ho hr hpos
    have ho2 : b.orig_buffers = (pre ++ [buf]) ++ rest := by rw [ho]; simp
    have hlen : (pre ++ [buf]).length = pre.length + 1 := by simp
    rw [build_tree_loop]
    cases he : buf.buffer.isEmpty with
    | true =>
      rw [if_pos rfl]
      obtain ⟨root1, h1, h2, h3, h4⟩ := ih (pre ++ [buf]) root ho2 hr hpos
      rw [hlen] at h1
      refine ⟨root1, h1, h2, h3, ?_⟩
      rw [h4, List.map_cons, List.filter_cons]
      simp [he]
    | false =>
      rw [if_neg (by simp)]
      have hne : buf.buffer ≠ [] := by
        intro hc
        rw [hc] at he
        cases he
      have hidx : b.IndexOK (BufferIndex.Orig pre.length) := by
        simp only [BufferCollection.IndexOK, ho, List.length_append, List.length_cons]
        omega
      have hat : b.buffer_at (BufferIndex.Orig pre.length) = buf := by
        simp only [BufferCollection.buffer_at, ho]
        rw [List.getD_append_right _ _ _ _ (Nat.le_refl _), Nat.sub_self]
        rfl
      have hbuf : buf.OK := by
        have := BufferCollection.buffer_at_ok hb hidx
        rw [hat] at this
        exact this
      have hw : b.WindowOK (BufferIndex.Orig pre.length) 0 buf.buffer.length :=
        ⟨hidx, by rw [hat]; exact hbuf, Nat.zero_le _, by rw [hat]⟩
      simp only
      rw [whole_buffer_window b pre.length buf hbuf hat]
      obtain ⟨r1, k1, k2, k3⟩ := RootOK.insert hr
        (x := { piece := b.window (BufferIndex.Orig pre.length) 0 buf.buffer.length })
        (BufferCollection.window_ok hw) (sumLen root.toList)
      have k4 : r1.toList
          = root.toList ++ [b.window (BufferIndex.Orig pre.length) 0 buf.buffer.length] := by
        rw [k3]
        have := insList_boundary (b.window (BufferIndex.Orig pre.length) 0 buf.buffer.length)
          root.toList [] 0 (fun p hp => by cases hp)
        rw [Nat.zero_add, List.append_nil] at this
        exact this
      have hpos1 : ∀ p ∈ r1.toList, 0 < p.length := by
        intro p hp
        rw [k4] at hp
        rcases List.mem_append.1 hp with hp | hp
        · exact hpos p hp
        · simp only [List.mem_singleton] at hp
          rw [hp]
          show 0 < buf.buffer.length - 0
          have := List.length_pos.2 hne
          omega
      obtain ⟨root1, h1, h2, h3, h4⟩ := ih (pre ++ [buf]) r1 ho2 k2 hpos1
      rw [hlen, k4, sumLen_append] at h1
      simp only [sumLen_cons, sumLen_nil, Nat.add_zero] at h1
      rw [k1, Option.some_bind]
      refine ⟨root1, h1, h2, h3, ?_⟩
      rw [h4, k4, List.map_append]
      simp only [List.map_cons, List.map_nil, List.filter_cons, he, Bool.not_false, if_true,
        List.append_assoc, List.singleton_append]
      rw [BufferCollection.pieceText_window hw, hat]
      simp

/-- The tree `Tree(Buffers&&)` builds from well-formed buffers. -/
theorem of_buffers_spec (buffers : List CharBuffer) (hok : ∀ cb ∈ buffers, cb.OK) :
    ∃ t, of_buffers buffers = some t ∧ t.Consistent ∧
      t.buffers = { orig_buffers := buffers, mod_buffer := { buffer := [], line_starts := [0] } } ∧
      (∀ p ∈ t.root.toList, 0 < p.length) ∧
      t.root.toList.map t.buffers.pieceText
        = (buffers.map (fun cb => cb.buffer)).filter (fun l => !l.isEmpty) ∧
      t.undo_stack = [] ∧ t.redo_stack = [] := by
  have hb : BufferCollection.OK
      { orig_buffers := buffers, mod_buffer := { buffer := [], line_starts := [0] } } :=
    ⟨hok, rfl⟩
  obtain ⟨root1, h1, h2, h3, h4⟩ := build_tree_loop_spec _ hb buffers [] RedBlackTree.empty
    rfl (RootOK.empty _) (fun p hp => by simp at hp)
  simp only [List.length_nil, RedBlackTree.toList_empty, sumLen_nil, List.map_nil,
    List.nil_append] at h1 h4
  unfold of_buffers build_tree
  simp only [h1, Option.map_some']
  refine ⟨_, rfl, ⟨hb, h2, rfl, rfl, ?_, ?_⟩, rfl, h3, h4, rfl, rfl⟩
  · intro e he; cases he
  · intro e he; cases he

end Tree

end PieceTree


namespace PieceTree

/-! ## Lemmas: what the operations do to the buffers and the cursors -/

theorem Option.bind_prop {α β : Type} {P : β → Prop} {o : Option α} {f : α → Option β}
    (h : ∀ a, o = some a → ∀ b, f a = some b → P b) : ∀ b, o.bind f = some b → P b := by
  intro b hb
  cases o with
  | none => cases hb
  | some a => exact h a rfl b hb

/-- The entries of the loop of `populate_line_starts`: the offsets after a line feed. -/
theorem mem_loop (cs : List CharT) : ∀ (i s : Nat),
    s ∈ populate_line_starts_loop cs i ↔ i < s ∧ cs[s - i - 1]? = some LF := by
  induction cs with
  | nil => intro i s; simp [populate_line_starts_loop]
  | cons c cs ih =>
    intro i s
    rw [loop_cons]
    by_cases hs : s = i + 1
    · subst hs
      have e : i + 1 - i - 1 = 0 := by omega
      have hno : ¬ (i + 1 ∈ populate_line_starts_loop cs (i + 1)) := by
        rw [ih]; omega
      rw [e]
      by_cases hc : c = LF
      · rw [if_pos hc]; simp [hc]
      · rw [if_neg hc]
        simp only [hno, false_iff, List.getElem?_cons_zero, Option.some.injEq, not_and]
        intro _; exact hc
    · have key : (s ∈ populate_line_starts_loop cs (i + 1))
          ↔ (i < s ∧ (c :: cs)[s - i - 1]? = some LF) := by
        rw [ih]
        constructor
        · rintro ⟨h1, h2⟩
          refine ⟨by omega, ?_⟩
          have e : s - i - 1 = (s - (i + 1) - 1) + 1 := by omega
          rw [e, List.getElem?_cons_succ]
          exact h2
        · rintro ⟨h1, h2⟩
          refine ⟨by omega, ?_⟩
          have e : s - i - 1 = (s - (i + 1) - 1) + 1 := by omega
          rw [e, List.getElem?_cons_succ] at h2
          exact h2
      by_cases hc : c = LF
      · rw [if_pos hc, List.mem_cons]
        constructor
        · rintro (h1 | h1)
          · exact absurd h1 hs
          · exact key.1 h1
        · intro h1; exact Or.inr (key.2 h1)
      · rw [if_neg hc]
        exact key

/-- The entries of the loop of `populate_line_starts` are strictly increasing. -/
theorem loop_pairwise (cs : List CharT) : ∀ (i : Nat),
    (populate_line_starts_loop cs i).Pairwise (fun a b => a < b) := by
  induction cs with
  | nil => intro i; simp [populate_line_starts_loop]
  | cons c cs ih =>
    intro i
    rw [loop_cons]
    by_cases hc : c = LF
    · rw [if_pos hc, List.pairwise_cons]
      refine ⟨?_, ih (i + 1)⟩
      intro s hs
      exact ((mem_loop cs (i + 1) s).1 hs).1
    · rw [if_neg hc]
      exact ih (i + 1)

/-- What `populate_line_starts` computes: 0 first, strictly increasing entries, and besides
0 exactly the offsets that follow a line feed. -/
theorem populate_line_starts_spec (buf : List CharT) :
    (populate_line_starts buf).head? = some 0 ∧
    (populate_line_starts buf).Pairwise (fun a b => a < b) ∧
    (∀ i, 0 < i → (i ∈ populate_line_starts buf ↔ buf[i - 1]? = some LF)) := by
  refine ⟨rfl, ?_, ?_⟩
  · unfold populate_line_starts
    rw [List.pairwise_cons]
    refine ⟨?_, loop_pairwise buf 0⟩
    intro s hs
    exact ((mem_loop buf 0 s).1 hs).1
  · intro i hi
    unfold populate_line_starts
    rw [List.mem_cons, mem_loop]
    constructor
    · rintro (h | ⟨_, h⟩)
      · omega
      · simpa using h
    · intro h
      exact Or.inr ⟨hi, by simpa using h⟩

/-- The two cursors of a consistent piece are in `(line, column)` order. -/
theorem BufferCollection.PieceOK.cursor_le {b : BufferCollection} (hb : b.OK) {p : Piece}
    (hp : b.PieceOK p) :
    p.first.line < p.last.line ∨ (p.first.line = p.last.line ∧ p.first.column ≤ p.last.column) := by
  obtain ⟨h1, h2, h3, h4, _, _⟩ := hp
  have hcb := BufferCollection.buffer_at_ok hb h1
  have l1 := CharBuffer.cursor_line hcb h2
  have l2 := CharBuffer.cursor_line hcb h3
  have hm := lfBefore_mono (b.buffer_at p.index).buffer h4
  by_cases he : p.first.line = p.last.line
  · right
    refine ⟨he, ?_⟩
    unfold CharBuffer.offsetOf at h4
    rw [he] at h4
    omega
  · left
    omega

namespace Tree

theorem combine_pieces_frame (t : Tree) (pos : NodePosition) (p : Piece) :
    ∀ t1, t.combine_pieces pos p = some t1 →
      t1.buffers = t.buffers ∧ t1.last_insert = t.last_insert := by
  unfold combine_pieces
  simp only [Option.bind_eq_bind, Option.pure_def]
  refine Option.bind_prop (fun a _ => Option.bind_prop (fun b _ =>
    Option.bind_prop (fun c _ => ?_)))
  intro t1 h
  cases h
  exact ⟨rfl, rfl⟩

/-- The function `internal_insert` changes the buffers and `last_insert` as `build_piece`
does. -/
theorem internal_insert_frame (t0 : Tree) (offset : Nat) (txt : List CharT) :
    ∀ t1, t0.internal_insert offset txt = some t1 →
      t1.buffers = (t0.build_piece txt).2.buffers
        ∧ t1.last_insert = (t0.build_piece txt).2.last_insert := by
  unfold internal_insert
  lift_lets
  intro t built built2 r0 off result remainder node_start_offset plain prev_node_result
    new_piece
  have hleaf : ∀ (o : Option RedBlackTree) (t1 : Tree),
      o.bind (fun root => some ({ built2 with root := root } : Tree).compute_buffer_meta)
        = some t1 →
      t1.buffers = (t0.build_piece txt).2.buffers
        ∧ t1.last_insert = (t0.build_piece txt).2.last_insert := by
    intro o
    refine Option.bind_prop (fun r _ t1 h => ?_)
    cases h
    exact ⟨rfl, rfl⟩
  have hcomb : ∀ (pos : NodePosition) (t1 : Tree),
      (built2.combine_pieces pos built.1).bind (fun combined => some combined.compute_buffer_meta)
        = some t1 →
      t1.buffers = (t0.build_piece txt).2.buffers
        ∧ t1.last_insert = (t0.build_piece txt).2.last_insert := by
    intro pos
    refine Option.bind_prop (fun c hc t1 h => ?_)
    cases h
    obtain ⟨k1, k2⟩ := combine_pieces_frame _ _ _ _ hc
    exact ⟨k1, k2⟩
  have hplain : ∀ t1, plain = some t1 →
      t1.buffers = (t0.build_piece txt).2.buffers
        ∧ t1.last_insert = (t0.build_piece txt).2.last_insert := hleaf _
  by_cases he : t.root.is_empty = true
  · rw [if_pos he]
    exact hleaf _
  · rw [if_neg he]
    simp only [Option.bind_eq_bind]
    refine Option.bind_prop (fun node _ => ?_)
    beta_reduce
    by_cases hs : node_start_offset = offset
    · rw [if_pos hs]
      by_cases hz : offset ≠ 0
      · rw [if_pos hz]
        refine Option.bind_prop (fun prev _ => ?_)
        beta_reduce
        by_cases hc : prev.piece.index = BufferIndex.ModBuf ∧ prev.piece.last = t.last_insert
        · rw [if_pos hc]
          exact hcomb _
        · rw [if_neg hc]
          exact hplain
      · rw [if_neg hz]
        exact hplain
    · rw [if_neg hs]
      by_cases hi : offset < node_start_offset + node.piece.length
      · have : (!decide (offset < node_start_offset + node.piece.length)) = false := by
          simp [hi]
        simp only [this, Bool.false_eq_true, ↓reduceIte]
        refine Option.bind_prop (fun r1 _ => Option.bind_prop (fun r2 _ =>
          Option.bind_prop (fun r3 _ => ?_)))
        exact hleaf _
      · have : (!decide (offset < node_start_offset + node.piece.length)) = true := by
          simp [hi]
        simp only [this, ↓reduceIte]
        by_cases hc : node.piece.index = BufferIndex.ModBuf ∧ node.piece.last = t.last_insert
        · rw [if_pos hc]
          exact hcomb _
        · rw [if_neg hc]
          exact hleaf _

/-- The function `insert` is defined on every consistent tree; it appends the text to the
mod buffer and the line starts of the text, shifted, to its line starts, and leaves the
original buffers alone. -/
theorem insert_frame (t : Tree) (offset : Nat) (txt : List CharT) (sh : SuppressHistory)
    (h : t.Consistent) :
    ∃ t1, t.insert offset txt sh = some t1 ∧ t1.Consistent ∧
      t1.buffers.orig_buffers = t.buffers.orig_buffers ∧
      t1.buffers.mod_buffer.buffer = t.buffers.mod_buffer.buffer ++ txt ∧
      t1.buffers.mod_buffer.line_starts
        = t.buffers.mod_buffer.line_starts
          ++ ((populate_line_starts txt).map
              (fun s => s + t.buffers.mod_buffer.buffer.length)).drop 1 := by
  unfold Tree.insert
  split
  · rename_i he
    have : txt = [] := List.isEmpty_iff.1 he
    subst this
    exact ⟨t, rfl, h, rfl, by simp, by simp [populate_line_starts, populate_line_starts_loop]⟩
  · simp only
    split
    · obtain ⟨t1, h1, h2, _⟩ := internal_insert_spec (t.append_undo t.root offset) offset txt
        (Consistent.append_undo h offset)
      obtain ⟨k1, _⟩ := internal_insert_frame _ _ _ _ h1
      exact ⟨t1, h1, h2, by rw [k1]; rfl, by rw [k1]; rfl, by rw [k1]; rfl⟩
    · obtain ⟨t1, h1, h2, _⟩ := internal_insert_spec t offset txt h
      obtain ⟨k1, _⟩ := internal_insert_frame _ _ _ _ h1
      exact ⟨t1, h1, h2, by rw [k1]; rfl, by rw [k1]; rfl, by rw [k1]; rfl⟩

/-- The line `node_at` returns for an offset inside the document of a correctly augmented
root with consistent pieces: one more than the number of line feeds before the offset. -/
theorem node_at_line (b : BufferCollection) (hb : b.OK) (root : RedBlackTree)
    (ha : root.Aug = true) (hp : ∀ p ∈ root.toList, b.PieceOK p) (o : Nat)
    (ho : o < sumLen root.toList) :
    (node_at b root o).line = 1 + lfBefore (b.textOf root.toList) o := by
  obtain ⟨A, p, B, hl, h1, h2⟩ := exists_split_of_lt _ _ ho
  obtain ⟨d, hd, hres⟩ := node_at_loop_hit b root ha o 0 0 0 A p B hl h1 h2
  rw [hl] at hp
  have c1 : b.textOf root.toList = b.textOf A ++ b.pieceText p ++ b.textOf B := by
    rw [hl, BufferCollection.textOf_append, BufferCollection.textOf_cons, List.append_assoc]
  have c2 : (b.textOf A).length = sumLen A :=
    BufferCollection.textOf_length hb (fun q hq => hp q (by simp [hq]))
  have c3 : (b.textOf A).count LF = sumLf A :=
    BufferCollection.textOf_count hb (fun q hq => hp q (by simp [hq]))
  have c5 : b.PieceOK p := hp p (by simp)
  have c4 : (b.pieceText p).length = p.length := BufferCollection.pieceText_length hb c5
  unfold node_at
  rw [hres]
  simp only
  unfold lfBefore
  have : o = (b.textOf A).length + (o - sumLen A) := by omega
  rw [c1, this, count_take_append_mid _ _ _ _ (by omega), c3,
    BufferCollection.pieceText_take_count hb c5 _ (by omega), c2]
  have e : sumLen A + (o - sumLen A) - sumLen A = o - sumLen A := by omega
  rw [e]
  omega

end Tree

end PieceTree


namespace PieceTree

/-! ## The properties of the specification -/

open Example

/-- C1 (code defect, evaluated): after `insert(0, "hello"); remove(3, 10)` the document is
`hel`, and `insert(1, "X")` then yields `hXelhel` instead of `hXel`: the removal left an
empty piece in the tree and the insertion deleted that piece instead of the piece it
split. -/
theorem C1_insert_after_clamped_remove :
    ∃ t0 t1, Tree.run clamped Tree.init = some t0 ∧ t0.content = [104, 101, 108] ∧
      t0.insert 1 [88] = some t1 ∧
      t1.content = [104, 88, 101, 108, 104, 101, 108] ∧
      t1.content ≠ t0.content.take 1 ++ [88] ++ t0.content.drop 1 :=
  ⟨_, _, rfl, by decide, rfl, by decide, by decide⟩

/-- C2 (code defect, evaluated): after `insert(0, "hello"); remove(3, 10)` the document is
`hel`, and the in-range `remove(0, 1)` then yields `elhel` instead of `el`: the empty piece
left by the first removal is deleted in place of the piece that is trimmed. -/
theorem C2_remove_after_clamped_remove :
    ∃ t0 t1, Tree.run clamped Tree.init = some t0 ∧ t0.content = [104, 101, 108] ∧
      t0.remove 0 1 = some t1 ∧
      t1.content = [101, 108, 104, 101, 108] ∧
      t1.content ≠ t0.content.take 0 ++ t0.content.drop (0 + 1) :=
  ⟨_, _, rfl, by decide, rfl, by decide, by decide⟩

/-- C10 (code defect, evaluated): after `insert(0, "hello\nworld"); insert(5, "\r")` the
document is `hello\r\nworld`, the code unit at `get_line_range(1).last = 6` is a line feed
preceded by a carriage return, and yet `get_line_range_crlf(1).last` is 6 and not 5. -/
theorem C10_crlf_range_across_pieces :
    ∃ t, Tree.run scenario2 Tree.init = some t ∧
      t.content = hello ++ [CR, LF] ++ world ∧
      t.get_line_range 1 = { first := 0, last := 6 } ∧
      t.content.getD 6 0 = LF ∧ t.content.getD 5 0 = CR ∧
      t.get_line_range_crlf 1 = { first := 0, last := 6 } :=
  ⟨_, rfl, by decide, by decide, by decide, by decide, by decide⟩

/-- C20: `RedBlackTree::insert` on a tree that is empty or has the red-black properties
returns a tree with the red-black properties and a black root. -/
theorem C20_insert_keeps_red_black (t : RedBlackTree) (x : NodeData) (at_ : Nat)
    (h : t = RedBlackTree.empty ∨ t.rbValid = true) :
    ∃ t1, t.insert x at_ = some t1 ∧ t1.rbValid = true ∧
      t1.root_color = some Color.Black := by
  have hv : t.rbValid = true := by
    rcases h with h | h
    · rw [h]; rfl
    · exact h
  exact RedBlackTree.insert_valid t x at_ hv

/-- C20, witness: inserting a third piece into a two-node tree. -/
theorem C20_insert_keeps_red_black_witness :
    ∃ t1, (RedBlackTree.node Color.Black RedBlackTree.empty
        { piece := { index := BufferIndex.ModBuf, first := ⟨0, 0⟩, last := ⟨0, 3⟩,
                     length := 3, newline_count := 0 } }
        (RedBlackTree.node Color.Red RedBlackTree.empty
          { piece := { index := BufferIndex.ModBuf, first := ⟨0, 3⟩, last := ⟨0, 5⟩,
                       length := 2, newline_count := 0 } } RedBlackTree.empty)).insert
        { piece := { index := BufferIndex.ModBuf, first := ⟨0, 5⟩, last := ⟨0, 6⟩,
                     length := 1, newline_count := 0 } } 5 = some t1 ∧
      t1.rbValid = true ∧ t1.root_color = some Color.Black :=
  C20_insert_keeps_red_black _ _ _ (Or.inr (by decide))

/-- C3: after any sequence of calls on an initially empty tree (the sequence is always
defined), `length()` is the sum of the lengths of the pieces and the number of code units
of the document, `line_feed_count()` is the number of line feeds of the document, and
`line_count()` is `line_feed_count() + 1`. -/
theorem C3_length_and_line_counts (ops : List Tree.Op) :
    ∃ t, Tree.run ops Tree.init = some t ∧
      t.length = sumLen t.root.toList ∧ t.length = t.content.length ∧
      t.lf_count = t.content.count LF ∧ t.line_count = t.lf_count + 1 := by
  obtain ⟨t, h1, h2, _⟩ := Tree.run_consistent ops Tree.init Tree.init_consistent
  refine ⟨t, h1, h2.length_eq, ?_, ?_, rfl⟩
  · rw [h2.content_length]; exact h2.length_eq
  · rw [h2.content_count]; exact h2.lf_eq

/-- C4: on a consistent tree, `at(o)` with `o` inside the document returns the code unit
of the document at offset `o`. -/
theorem C4_at_returns_code_unit (t : Tree) (h : t.Consistent) (o : Nat)
    (ho : o < t.content.length) : t.content[o]? = some (t.at_ o) := by
  rw [Tree.at_eq_content h o ho, List.getD_eq_getElem?_getD, List.getElem?_eq_getElem ho]
  rfl

/-- C4, witness: offset 6 of `hello\r\nworld`, held in three pieces. -/
theorem C4_at_returns_code_unit_witness : tree2.content[6]? = some (tree2.at_ 6) :=
  C4_at_returns_code_unit tree2 (by decide) 6 (by decide)

/-- C7: `line_at` returns `Line::Beginning` for every offset when the tree is empty, and
on a consistent tree with a non-empty document it returns, for an offset inside the
document, one more than the number of line feeds before the offset. -/
theorem C7_line_at (t : Tree) (h : t.Consistent) :
    (t.is_empty = true → ∀ o, t.line_at o = Line.Beginning) ∧
    (t.content = [] → t.is_empty = true) ∧
    (∀ o, o < t.content.length → t.line_at o = 1 + (t.content.take o).count LF) := by
  refine ⟨?_, ?_, fun o ho => Tree.line_at_eq h o ho⟩
  · intro he o
    unfold Tree.line_at
    rw [he]; rfl
  · intro hc
    unfold Tree.is_empty
    rw [h.length_eq, ← h.content_length, hc]
    rfl

/-- C7, witness: offset 8 of `hello\r\nworld` is on line 2. -/
theorem C7_line_at_witness :
    (tree2.is_empty = true → ∀ o, tree2.line_at o = Line.Beginning) ∧
    (tree2.content = [] → tree2.is_empty = true) ∧
    (∀ o, o < tree2.content.length → tree2.line_at o = 1 + (tree2.content.take o).count LF) :=
  C7_line_at tree2 (by decide)

/-- C13: with a non-empty undo stack `try_undo(a)` pushes the current root with `a` onto
the redo stack, pops the top undo entry, installs its root with the meta data recomputed
from it, and returns success with the popped offset; `try_redo` does the same with the two
stacks swapped. -/
theorem C13_try_undo_try_redo (t : Tree) (a : Nat) :
    (∀ e rest, t.undo_stack = e :: rest →
      (t.try_undo a).2 = { success := true, op_offset := e.op_offset } ∧
      (t.try_undo a).1.root = e.root ∧
      (t.try_undo a).1.undo_stack = rest ∧
      (t.try_undo a).1.redo_stack = { root := t.root, op_offset := a } :: t.redo_stack ∧
      (t.try_undo a).1.length = e.root.tree_length ∧
      (t.try_undo a).1.lf_count = e.root.tree_lf_count ∧
      (t.try_undo a).1.buffers = t.buffers) ∧
    (∀ e rest, t.redo_stack = e :: rest →
      (t.try_redo a).2 = { success := true, op_offset := e.op_offset } ∧
      (t.try_redo a).1.root = e.root ∧
      (t.try_redo a).1.redo_stack = rest ∧
      (t.try_redo a).1.undo_stack = { root := t.root, op_offset := a } :: t.undo_stack ∧
      (t.try_redo a).1.length = e.root.tree_length ∧
      (t.try_redo a).1.lf_count = e.root.tree_lf_count ∧
      (t.try_redo a).1.buffers = t.buffers) := by
  constructor
  · intro e rest h
    rw [Tree.try_undo_cons t a e rest h]
    exact ⟨rfl, rfl, rfl, rfl, rfl, rfl, rfl⟩
  · intro e rest h
    rw [Tree.try_redo_cons t a e rest h]
    exact ⟨rfl, rfl, rfl, rfl, rfl, rfl, rfl⟩

/-- C13, witness: `try_undo(7)` on `hello\r\nworld`, whose undo stack holds two entries. -/
theorem C13_try_undo_try_redo_witness :
    (tree2.try_undo 7).2 = { success := true, op_offset := 5 } ∧
      (tree2.try_undo 7).1.content = helloWorld ∧
      (tree2.try_undo 7).1.redo_stack = [{ root := tree2.root, op_offset := 7 }] :=
  ⟨((C13_try_undo_try_redo tree2 7).1 _ _ rfl).1, by decide,
    ((C13_try_undo_try_redo tree2 7).1 _ _ rfl).2.2.2.1⟩

/-- C14, counterexample: after `insert(0, "a")` the document is `a`; `insert(1, "b")`
continues that insertion without a history entry, and `try_undo` then leaves the empty
document, not `a`. -/
theorem C14_counterexample :
    ∃ s t1, Tree.run [ins 0 [97]] Tree.init = some s ∧ s.content = [97] ∧
      s.insert 1 [98] = some t1 ∧ (t1.try_undo 1).2.success = true ∧
      (t1.try_undo 1).1.content = [] ∧ (t1.try_undo 1).1.content ≠ s.content :=
  ⟨_, _, rfl, by decide, rfl, by decide, by decide, by decide⟩

/-- C14, amended: on a consistent tree, when `insert` with non-empty text records a
history entry (history not suppressed, and `end_last_insert` differs from the offset or
the root is empty), `try_undo` after it succeeds, returns the offset of the insertion and
restores the root, the document, `length()` and `line_count()`. -/
theorem C14_insert_then_undo (t : Tree) (h : t.Consistent) (offset : Nat)
    (txt : List CharT) (hne : txt ≠ [])
    (hc : t.end_last_insert ≠ offset ∨ t.root.is_empty = true) (a : Nat) :
    ∃ t1, t.insert offset txt SuppressHistory.No = some t1 ∧
      (t1.try_undo a).2 = { success := true, op_offset := offset } ∧
      (t1.try_undo a).1.root = t.root ∧
      (t1.try_undo a).1.content = t.content ∧
      (t1.try_undo a).1.length = t.length ∧
      (t1.try_undo a).1.line_count = t.line_count := by
  obtain ⟨t1, h1, h2, h3, h4, _, _⟩ :=
    Tree.insert_full_spec t offset txt SuppressHistory.No h hne
  rw [if_pos ⟨rfl, hc⟩] at h4
  refine ⟨t1, h1, ?_⟩
  rw [Tree.try_undo_cons t1 a _ _ h4.1]
  obtain ⟨k1, k2, _, k4⟩ := Tree.same_root_same_document t
    (({ t1 with
          redo_stack := { root := t1.root, op_offset := a } :: t1.redo_stack
          root := t.root
          undo_stack := t.undo_stack } : Tree).compute_buffer_meta) h h2.1 h3 rfl rfl
  exact ⟨rfl, rfl, k1, k2, k4⟩

/-- C14, witness: `insert(5, "\r")` into `hello\nworld`, then `try_undo`. -/
theorem C14_insert_then_undo_witness :
    ∃ s, Tree.run scenario1 Tree.init = some s ∧
      ∃ t1, s.insert 5 [CR] SuppressHistory.No = some t1 ∧
        (t1.try_undo 9).2 = { success := true, op_offset := 5 } ∧
        (t1.try_undo 9).1.root = s.root ∧
        (t1.try_undo 9).1.content = s.content ∧
        (t1.try_undo 9).1.length = s.length ∧
        (t1.try_undo 9).1.line_count = s.line_count :=
  ⟨_, rfl, C14_insert_then_undo _ (by decide) 5 [CR] (by decide) (by decide) 9⟩

/-- C15, counterexample: `insert(0, "a", SuppressHistory::Yes); insert(0, "b");
try_undo(5)` leaves the document `a`, an empty undo stack and one redo entry.  Then
`insert(1, "c")` continues the insertion that ended at offset 1 without touching the
history, `try_undo` fails, and `try_redo` installs the stale entry: the document is `ba`,
not `ac`. -/
theorem C15_counterexample :
    ∃ s t1, Tree.run staleRedo Tree.init = some s ∧ s.content = [97] ∧
      s.insert 1 [99] = some t1 ∧ t1.content = [97, 99] ∧
      (t1.try_undo 7).2.success = false ∧
      ((t1.try_undo 7).1.try_redo 8).1.content = [98, 97] ∧
      ((t1.try_undo 7).1.try_redo 8).1.content ≠ t1.content :=
  ⟨_, _, rfl, by decide, rfl, by decide, by decide, by decide, by decide⟩

/-- C15, amended: on a consistent tree, after `insert` with non-empty text, when the undo
stack is not empty or the redo stack is empty (as is the case whenever the insertion
recorded a history entry), `try_undo` followed by `try_redo` leaves the root, the document,
`length()` and `line_count()` of the state right after the insertion. -/
theorem C15_insert_undo_redo (t : Tree) (h : t.Consistent) (offset : Nat)
    (txt : List CharT) (hne : txt ≠ []) (sh : SuppressHistory) (a b : Nat) :
    ∃ t1, t.insert offset txt sh = some t1 ∧
      (t1.undo_stack ≠ [] ∨ t1.redo_stack = [] →
        ((t1.try_undo a).1.try_redo b).1.root = t1.root ∧
        ((t1.try_undo a).1.try_redo b).1.content = t1.content ∧
        ((t1.try_undo a).1.try_redo b).1.length = t1.length ∧
        ((t1.try_undo a).1.try_redo b).1.line_count = t1.line_count) := by
  obtain ⟨t1, h1, h2, _, _, _, h6⟩ := Tree.insert_full_spec t offset txt sh h hne
  refine ⟨t1, h1, fun hs => ?_⟩
  cases hu : t1.undo_stack with
  | nil =>
    have hr : t1.redo_stack = [] := by
      rcases hs with hs | hs
      · exact absurd hu hs
      · exact hs
    rw [Tree.try_undo_nil t1 a hu, Tree.try_redo_nil t1 b hr]
    exact ⟨rfl, rfl, rfl, rfl⟩
  | cons e rest =>
    rw [Tree.try_undo_cons t1 a e rest hu]
    rw [Tree.try_redo_cons _ b { root := t1.root, op_offset := a } t1.redo_stack rfl]
    have hm : (PieceTree.compute_buffer_meta t1.root) = t1.meta := h6.symm
    refine ⟨rfl, rfl, ?_, ?_⟩
    · show (PieceTree.compute_buffer_meta t1.root).total_content_length = _
      rw [hm]; rfl
    · show (PieceTree.compute_buffer_meta t1.root).lf_count + 1 = _
      rw [hm]; rfl

/-- C15, witness: `insert(5, "\r")` into `hello\nworld`, then `try_undo`, `try_redo`. -/
theorem C15_insert_undo_redo_witness :
    ∃ s, Tree.run scenario1 Tree.init = some s ∧
      ∃ t1, s.insert 5 [CR] SuppressHistory.No = some t1 ∧
        (t1.undo_stack ≠ [] ∨ t1.redo_stack = [] →
          ((t1.try_undo 9).1.try_redo 9).1.root = t1.root ∧
          ((t1.try_undo 9).1.try_redo 9).1.content = t1.content ∧
          ((t1.try_undo 9).1.try_redo 9).1.length = t1.length ∧
          ((t1.try_undo 9).1.try_redo 9).1.line_count = t1.line_count) :=
  ⟨_, rfl, C15_insert_undo_redo _ (by decide) 5 [CR] (by decide) SuppressHistory.No 9 9⟩

/-- C16: on a consistent tree `insert` with non-empty text is defined; it pushes the old
root with the offset onto the undo stack and empties the redo stack exactly when history
is not suppressed and `end_last_insert` differs from the offset or the root is empty, it
leaves both stacks unchanged otherwise, and in every case `end_last_insert` becomes
`offset + len(text)` (in 64-bit arithmetic). -/
theorem C16_insert_history (t : Tree) (h : t.Consistent) (offset : Nat) (txt : List CharT)
    (hne : txt ≠ []) (sh : SuppressHistory) :
    ∃ t1, t.insert offset txt sh = some t1 ∧
      (if sh = SuppressHistory.No ∧ (t.end_last_insert ≠ offset ∨ t.root.is_empty = true)
        then t1.undo_stack = { root := t.root, op_offset := offset } :: t.undo_stack ∧
          t1.redo_stack = []
        else t1.undo_stack = t.undo_stack ∧ t1.redo_stack = t.redo_stack) ∧
      t1.end_last_insert = (offset + txt.length) % 2 ^ 64 := by
  obtain ⟨t1, h1, _, _, h4, h5, _⟩ := Tree.insert_full_spec t offset txt sh h hne
  exact ⟨t1, h1, h4, h5⟩

/-- C16, witness: `insert(5, "\r")` into `hello\r\nworld` records a history entry. -/
theorem C16_insert_history_witness :
    ∃ t1, tree2.insert 5 [CR] SuppressHistory.No = some t1 ∧
      (if SuppressHistory.No = SuppressHistory.No ∧
          (tree2.end_last_insert ≠ 5 ∨ tree2.root.is_empty = true)
        then t1.undo_stack = { root := tree2.root, op_offset := 5 } :: tree2.undo_stack ∧
          t1.redo_stack = []
        else t1.undo_stack = tree2.undo_stack ∧ t1.redo_stack = tree2.redo_stack) ∧
      t1.end_last_insert = (5 + [CR].length) % 2 ^ 64 :=
  C16_insert_history tree2 (by decide) 5 [CR] (by decide) SuppressHistory.No

/-- C17: on a consistent tree with a non-empty root, `remove` with a positive count and
history not suppressed is defined, pushes the previous root with the offset onto the undo
stack and empties the redo stack; `try_undo` right after it succeeds, returns the offset of
the removal and restores the previous root, document and `length()`. -/
theorem C17_remove_then_undo (t : Tree) (h : t.Consistent) (hne : t.root.is_empty = false)
    (offset count : Nat) (hc : 0 < count) (a : Nat) :
    ∃ t1, t.remove offset count SuppressHistory.No = some t1 ∧
      t1.undo_stack = { root := t.root, op_offset := offset } :: t.undo_stack ∧
      t1.redo_stack = [] ∧
      (t1.try_undo a).2 = { success := true, op_offset := offset } ∧
      (t1.try_undo a).1.root = t.root ∧
      (t1.try_undo a).1.content = t.content ∧
      (t1.try_undo a).1.length = t.length := by
  obtain ⟨t1, h1, h2, h3, h4, h5⟩ := Tree.remove_full_spec t offset count h hne hc
  refine ⟨t1, h1, h4, h5, ?_⟩
  rw [Tree.try_undo_cons t1 a _ _ h4]
  obtain ⟨k1, k2, _, _⟩ := Tree.same_root_same_document t
    (({ t1 with
          redo_stack := { root := t1.root, op_offset := a } :: t1.redo_stack
          root := t.root
          undo_stack := t.undo_stack } : Tree).compute_buffer_meta) h h2.1
    (by show t.buffers.Extends t1.buffers; rw [h3]; exact BufferCollection.Extends.refl _)
    rfl rfl
  exact ⟨rfl, rfl, k1, k2⟩

/-- C17, witness: `remove(3, 4)` on `hello\r\nworld`, across its three pieces. -/
theorem C17_remove_then_undo_witness :
    ∃ t1, tree2.remove 3 4 SuppressHistory.No = some t1 ∧
      t1.undo_stack = { root := tree2.root, op_offset := 3 } :: tree2.undo_stack ∧
      t1.redo_stack = [] ∧
      (t1.try_undo 0).2 = { success := true, op_offset := 3 } ∧
      (t1.try_undo 0).1.root = tree2.root ∧
      (t1.try_undo 0).1.content = tree2.content ∧
      (t1.try_undo 0).1.length = tree2.length :=
  C17_remove_then_undo tree2 (by decide) (by decide) 3 4 (by decide) 0

/-- C8: on a consistent tree whose document fits the offset type, for a line `L` with
`1 ≤ L ≤ line_count()`, `get_line_range(L).first` is 0 for `L = 1` and otherwise one past
the `(L-1)`-th line feed of the document, and `get_line_range(L).last` is the offset of the
`L`-th line feed, or the length of the document when `L` is the last line. -/
theorem C8_get_line_range (t : Tree) (h : t.Consistent) (hb : t.content.length < 2 ^ 63)
    (L : Nat) (h1 : 1 ≤ L) (h2 : L ≤ t.line_count) :
    (L = 1 → (t.get_line_range L).first = 0) ∧
    (1 < L → 0 < (t.get_line_range L).first ∧
      t.content[(t.get_line_range L).first - 1]? = some LF ∧
      (t.content.take ((t.get_line_range L).first - 1)).count LF = L - 2) ∧
    (L < t.line_count → t.content[(t.get_line_range L).last]? = some LF ∧
      (t.content.take (t.get_line_range L).last).count LF = L - 1) ∧
    (L = t.line_count → (t.get_line_range L).last = t.content.length) := by
  have hlc := h.line_count_eq
  have hcl := Tree.count_le_length t.content
  have hext : extend L 1 = L + 1 := extend_of_lt (by omega)
  unfold Tree.get_line_range
  simp only [hext]
  refine ⟨?_, ?_, ?_, ?_⟩
  · intro h3
    rw [h3]
    exact Tree.line_start_one _ _ _ _
  · intro h3
    obtain ⟨n, a1, a2, a3, a4, _⟩ := Tree.line_start_document h (L - 1) (by omega)
      (by omega) (by omega)
    rw [show L - 1 + 1 = L by omega] at a4
    rw [a4]
    exact ⟨by omega, getElem?_of_getD a1 a2, by rw [Nat.add_sub_cancel, a3]; omega⟩
  · intro h3
    obtain ⟨n, a1, a2, a3, _, a5⟩ := Tree.line_start_document h L h1 (by omega) (by omega)
    rw [a5]
    exact ⟨getElem?_of_getD a1 a2, a3⟩
  · intro h3
    exact Tree.line_start_document_end h _ (L + 1) (by omega) (by omega)

/-- C8, witness: line 1 of `hello\r\nworld`, held in three pieces. -/
theorem C8_get_line_range_witness :
    (1 = 1 → (tree2.get_line_range 1).first = 0) ∧
    (1 < 1 → 0 < (tree2.get_line_range 1).first ∧
      tree2.content[(tree2.get_line_range 1).first - 1]? = some LF ∧
      (tree2.content.take ((tree2.get_line_range 1).first - 1)).count LF = 1 - 2) ∧
    (1 < tree2.line_count → tree2.content[(tree2.get_line_range 1).last]? = some LF ∧
      (tree2.content.take (tree2.get_line_range 1).last).count LF = 1 - 1) ∧
    (1 = tree2.line_count → (tree2.get_line_range 1).last = tree2.content.length) :=
  C8_get_line_range tree2 (by decide) (by decide) 1 (by decide) (by decide)

/-- C9: on a consistent tree whose document fits the offset type, for a line `L` with
`1 ≤ L ≤ line_count()`, `get_line_range_with_newline(L)` starts where `get_line_range(L)`
starts; its end is one past the `L`-th line feed, which is where the range of line `L + 1`
starts, or the length of the document when `L` is the last line; the range of line 1
starts at 0, so the ranges tile the document. -/
theorem C9_get_line_range_with_newline (t : Tree) (h : t.Consistent)
    (hb : t.content.length < 2 ^ 63) (L : Nat) (h1 : 1 ≤ L) (h2 : L ≤ t.line_count) :
    (t.get_line_range_with_newline L).first = (t.get_line_range L).first ∧
    (L < t.line_count → 0 < (t.get_line_range_with_newline L).last ∧
      t.content[(t.get_line_range_with_newline L).last - 1]? = some LF ∧
      (t.content.take ((t.get_line_range_with_newline L).last - 1)).count LF = L - 1 ∧
      (t.get_line_range_with_newline L).last = (t.get_line_range L).last + 1 ∧
      (t.get_line_range_with_newline L).last
        = (t.get_line_range_with_newline (L + 1)).first) ∧
    (L = t.line_count → (t.get_line_range_with_newline L).last = t.content.length) ∧
    (t.get_line_range_with_newline 1).first = 0 := by
  have hlc := h.line_count_eq
  have hcl := Tree.count_le_length t.content
  have hext : extend L 1 = L + 1 := extend_of_lt (by omega)
  unfold Tree.get_line_range_with_newline Tree.get_line_range
  simp only [hext]
  refine ⟨trivial, ?_, ?_, Tree.line_start_one _ _ _ _⟩
  · intro h3
    obtain ⟨n, a1, a2, a3, a4, a5⟩ := Tree.line_start_document h L h1 (by omega) (by omega)
    rw [a4, a5]
    exact ⟨by omega, getElem?_of_getD a1 a2, by rw [Nat.add_sub_cancel, a3], rfl, trivial⟩
  · intro h3
    exact Tree.line_start_document_end h _ (L + 1) (by omega) (by omega)

/-- C9, witness: line 1 of `hello\r\nworld`, held in three pieces. -/
theorem C9_get_line_range_with_newline_witness :
    (tree2.get_line_range_with_newline 1).first = (tree2.get_line_range 1).first ∧
    (1 < tree2.line_count → 0 < (tree2.get_line_range_with_newline 1).last ∧
      tree2.content[(tree2.get_line_range_with_newline 1).last - 1]? = some LF ∧
      (tree2.content.take ((tree2.get_line_range_with_newline 1).last - 1)).count LF
        = 1 - 1 ∧
      (tree2.get_line_range_with_newline 1).last = (tree2.get_line_range 1).last + 1 ∧
      (tree2.get_line_range_with_newline 1).last
        = (tree2.get_line_range_with_newline (1 + 1)).first) ∧
    (1 = tree2.line_count →
      (tree2.get_line_range_with_newline 1).last = tree2.content.length) ∧
    (tree2.get_line_range_with_newline 1).first = 0 :=
  C9_get_line_range_with_newline tree2 (by decide) (by decide) 1 (by decide) (by decide)

/-- C18: typing `n ≥ 1` code units into an empty tree, one `insert` for each at
offsets `0, 1, ..., n - 1`, is defined and leaves exactly one piece, the typed text as
document and exactly one undo entry; one `try_undo` then succeeds and returns the tree to
empty. -/
theorem C18_typing_coalesces (c : CharT) (cs : List CharT)
    (hlen : (c :: cs).length < 2 ^ 64) (a : Nat) :
    ∃ t, Tree.run (Tree.typing 0 (c :: cs)) Tree.init = some t ∧
      (∃ p, t.root.toList = [p]) ∧ t.content = c :: cs ∧ t.undo_stack.length = 1 ∧
      (t.try_undo a).2.success = true ∧
      (t.try_undo a).1.root = RedBlackTree.empty ∧
      (t.try_undo a).1.content = [] ∧ (t.try_undo a).1.is_empty = true := by
  simp only [List.length_cons] at hlen
  obtain ⟨t1, h1, h2⟩ := Tree.typing_first [c] (by simp) (by simp)
  obtain ⟨t2, h3, h4⟩ := Tree.typing_run cs t1 [c] h2 (by simp) (by simp; omega)
  obtain ⟨_, ⟨p, hp, _, _⟩, hcont, _, hu, _⟩ := h4
  refine ⟨t2, ?_, ⟨p, hp⟩, by simpa using hcont, by rw [hu]; rfl, ?_⟩
  · simp only [Tree.typing, Tree.run, Tree.apply, h1, Option.some_bind]
    simpa using h3
  · rw [Tree.try_undo_cons t2 a _ _ hu]
    exact ⟨rfl, rfl, rfl, rfl⟩

/-- C18, witness: typing `abc`. -/
theorem C18_typing_coalesces_witness :
    ∃ t, Tree.run (Tree.typing 0 [97, 98, 99]) Tree.init = some t ∧
      (∃ p, t.root.toList = [p]) ∧ t.content = [97, 98, 99] ∧ t.undo_stack.length = 1 ∧
      (t.try_undo 3).2.success = true ∧
      (t.try_undo 3).1.root = RedBlackTree.empty ∧
      (t.try_undo 3).1.content = [] ∧ (t.try_undo 3).1.is_empty = true :=
  C18_typing_coalesces 97 [98, 99] (by decide) 3

/-- C5, counterexample: for the document `hello\nworld`, `get_line_content(1)` is `hello`,
without the line feed. -/
theorem C5_counterexample :
    ∃ t, Tree.run scenario1 Tree.init = some t ∧ t.content = helloWorld ∧
      t.get_line_content 1 = hello ∧ t.get_line_content 1 ≠ hello ++ [LF] :=
  ⟨_, rfl, by decide, by decide, by decide⟩

/-- C6, counterexample: for the document `hello\nworld` the walker yields the eleven code
units of the document, the two line contents together hold ten. -/
theorem C6_counterexample :
    ∃ t, Tree.run scenario1 Tree.init = some t ∧ t.line_count = 2 ∧
      (TreeWalker.create t 0).drain = helloWorld ∧
      t.get_line_content 1 ++ t.get_line_content 2 = hello ++ world ∧
      (TreeWalker.create t 0).drain ≠ t.get_line_content 1 ++ t.get_line_content 2 :=
  ⟨_, rfl, by decide, by decide, by decide, by decide⟩

/-- C11 (code defect, evaluated): after `insert(0, "a"); insert(0, "b"); remove(1, 2)` the
document is `b`, and `get_line_content_crlf(1)` returns `b` followed by a null code unit:
the removal left an empty piece after `b`, the walker is not exhausted in front of it, and
`next()` returns the null code unit, which is pushed to the line. -/
theorem C11_crlf_content_after_clamped_remove :
    ∃ t, Tree.run clampedTail Tree.init = some t ∧ t.content = [98] ∧ t.line_count = 1 ∧
      t.get_line_content_crlf 1 = ([98, 0], IncompleteCRLF.No) :=
  ⟨_, rfl, by decide, by decide, by decide⟩

/-- C12, counterexample: for the document `hello\nworld`, `get_line_content_crlf(1)`
returns `Yes` for the line that ends in a lone line feed, and the call for line 2 returns
`No` for the last line without a terminator. -/
theorem C12_counterexample :
    ∃ t, Tree.run scenario1 Tree.init = some t ∧ t.content = helloWorld ∧
      t.get_line_content_crlf 1 = (hello, IncompleteCRLF.Yes) ∧
      t.get_line_content_crlf 2 = (world, IncompleteCRLF.No) :=
  ⟨_, rfl, by decide, by decide, by decide⟩

/-- C5, amended: on a consistent tree without empty pieces whose document fits the offset
type, for a line `L` with `1 ≤ L ≤ line_count()`, `get_line_content(L)` yields the code
units of line `L` without its trailing line feed: the document from
`get_line_range(L).first` up to `get_line_range(L).last`; the line holds no line feed, and
a line feed follows it in the document unless `L` is the last line. -/
theorem C5_get_line_content (t : Tree) (h : t.Consistent)
    (hpos : ∀ p ∈ t.root.toList, 0 < p.length) (hb : t.content.length < 2 ^ 63) (L : Nat)
    (h1 : 1 ≤ L) (h2 : L ≤ t.line_count) :
    t.get_line_content L
      = (t.content.drop (t.get_line_range L).first).take
          ((t.get_line_range L).last - (t.get_line_range L).first) ∧
    LF ∉ t.get_line_content L ∧
    (L < t.line_count → t.content[(t.get_line_range L).last]? = some LF) := by
  obtain ⟨_, _, s3, s4, _⟩ := Tree.line_split h hb L h1 h2
  refine ⟨Tree.get_line_content_range h hpos hb L h1 h2, ?_, ?_⟩
  · rw [Tree.get_line_content_range h hpos hb L h1 h2]
    exact s3
  · intro h3
    obtain ⟨a1, a2, _⟩ := s4 h3
    exact getElem?_of_getD a1 a2

/-- C5, witness: line 1 of `hello\r\nworld`, held in three pieces, is `hello\r`. -/
theorem C5_get_line_content_witness :
    tree2.get_line_content 1
      = (tree2.content.drop (tree2.get_line_range 1).first).take
          ((tree2.get_line_range 1).last - (tree2.get_line_range 1).first) ∧
    LF ∉ tree2.get_line_content 1 ∧
    (1 < tree2.line_count → tree2.content[(tree2.get_line_range 1).last]? = some LF) :=
  C5_get_line_content tree2 (by decide) (by decide) (by decide) 1 (by decide) (by decide)

/-- C6, amended: on a consistent tree without empty pieces whose document fits the offset
type, the code units `next()` yields on a forward walker started at offset 0 until
`exhausted()` are the document, and they are the contents `get_line_content(i)` for
`i = 1 .. line_count()` put together with one line feed between two consecutive lines. -/
theorem C6_round_trip (t : Tree) (h : t.Consistent)
    (hpos : ∀ p ∈ t.root.toList, 0 < p.length) (hb : t.content.length < 2 ^ 63) :
    (TreeWalker.create t 0).drain = t.content ∧
    (TreeWalker.create t 0).drain
      = joinLines ((List.range' 1 t.line_count).map t.get_line_content) := by
  obtain ⟨k1, k2, k3, k4, k5⟩ := Tree.create_spec h 0
  have hd : (TreeWalker.create t 0).drain = t.content := by
    unfold TreeWalker.drain
    rw [TreeWalker.drain_loop_spec _ _ _ k1 (k5 hpos)
      (by rw [k2, k3, k4]; exact Tree.pending_le h 0), k2]
    rfl
  refine ⟨hd, ?_⟩
  have hlc : t.line_count = (t.line_count - 1) + 1 := by
    unfold Tree.line_count; omega
  rw [hd, hlc, Tree.joinLines_from h hpos hb (t.line_count - 1) 1 (Nat.le_refl _) (by omega)]
  unfold Tree.get_line_range
  simp only
  rw [Tree.line_start_one]
  rfl

/-- C6, witness: `hello\r\nworld`, held in three pieces. -/
theorem C6_round_trip_witness :
    (TreeWalker.create tree2 0).drain = tree2.content ∧
    (TreeWalker.create tree2 0).drain
      = joinLines ((List.range' 1 tree2.line_count).map tree2.get_line_content) :=
  C6_round_trip tree2 (by decide) (by decide) (by decide)

/-- C12, amended: on a consistent tree whose document fits the offset type, for a line `L`
with `1 ≤ L ≤ line_count()` such that the code unit right before the end of the line is a
carriage return whenever its low byte is `0x0D` (`trim_crlf` compares the previous code
unit after it is narrowed to a `char`), `get_line_content_crlf(L)` returns
`IncompleteCRLF::Yes` exactly when line `L` ends in a line feed that no carriage return of
the line precedes immediately, and `IncompleteCRLF::No` otherwise: for a line that ends in
`\r\n` and for the last line, where the walker runs to the end of the document. -/
theorem C12_incomplete_crlf (t : Tree) (h : t.Consistent) (hb : t.content.length < 2 ^ 63)
    (L : Nat) (h1 : 1 ≤ L) (h2 : L ≤ t.line_count)
    (hcr : ∀ c, t.content[(t.get_line_range L).last - 1]? = some c → c % 2 ^ 8 = CR → c = CR) :
    ((t.get_line_content_crlf L).2 = IncompleteCRLF.Yes ↔
      (L < t.line_count ∧
        ¬ ((t.get_line_range L).first < (t.get_line_range L).last ∧
            t.content[(t.get_line_range L).last - 1]? = some CR))) ∧
    ((t.get_line_content_crlf L).2 = IncompleteCRLF.No ↔
      (L = t.line_count ∨
        ((t.get_line_range L).first < (t.get_line_range L).last ∧
            t.content[(t.get_line_range L).last - 1]? = some CR))) := by
  have hex : (∃ c, t.content[(t.get_line_range L).last - 1]? = some c ∧ c % 2 ^ 8 = CR)
      ↔ t.content[(t.get_line_range L).last - 1]? = some CR := by
    constructor
    · rintro ⟨c, hc1, hc2⟩
      rw [hcr c hc1 hc2] at hc1
      exact hc1
    · intro hc
      exact ⟨CR, hc, by decide⟩
  have hy := Tree.get_line_content_crlf_flag h hb L h1 h2
  rw [hex] at hy
  refine ⟨hy, ?_⟩
  cases hf : (t.get_line_content_crlf L).2 with
  | Yes =>
    rw [hf] at hy
    have := hy.1 rfl
    constructor
    · intro hc; cases hc
    · intro hc
      rcases hc with hc | hc
      · omega
      · exact absurd hc this.2
  | No =>
    rw [hf] at hy
    refine ⟨fun _ => ?_, fun _ => rfl⟩
    by_cases h3 : L = t.line_count
    · exact Or.inl h3
    · by_contra hc
      have := hy.2 ⟨by omega, fun hq => hc (Or.inr hq)⟩
      cases this

/-- C12, witness: line 1 of `hello\r\nworld` ends in a carriage return and a line feed, and
the flag is `No`. -/
theorem C12_incomplete_crlf_witness :
    (tree2.get_line_content_crlf 1).2 = IncompleteCRLF.No ∧
      tree2.content[(tree2.get_line_range 1).last - 1]? = some CR :=
  ⟨((C12_incomplete_crlf tree2 (by decide) (by decide) 1 (by decide) (by decide)
      (fun c hc _ => (Option.some.inj
        ((show tree2.content[(tree2.get_line_range 1).last - 1]? = some CR by decide).symm.trans
          hc)).symm)).2).2
      (Or.inr (by decide)), by decide⟩

/-- C19: a snapshot of a consistent tree keeps its answers.  After any sequence of
`insert`, `remove`, `try_undo` and `try_redo` on the tree (the sequence is always defined
and only appends to the mod buffer), every query of the reference snapshot captured before
the sequence returns, over the buffers the tree holds afterwards, what it returned over the
buffers at capture: the walker output from any offset, `get_line_content`,
`get_line_content_crlf`, `line_at`, `get_line_range`, `get_line_range_crlf` and
`get_line_range_with_newline`.  The owning snapshot holds its own copy of the buffers and
returns the same answers, and `is_empty` and `line_count` of both snapshots are those of the
tree at capture. -/
theorem C19_snapshot_isolation (t : Tree) (h : t.Consistent) (ops : List Tree.Op) :
    ∃ t1, Tree.run ops t = some t1 ∧ t.buffers.Extends t1.buffers ∧
      (∀ x : Nat,
        (((ReferenceSnapshot.create t).walker t1.buffers x).drain
          = ((ReferenceSnapshot.create t).walker t.buffers x).drain ∧
        (ReferenceSnapshot.create t).get_line_content t1.buffers x
          = (ReferenceSnapshot.create t).get_line_content t.buffers x ∧
        (ReferenceSnapshot.create t).get_line_content_crlf t1.buffers x
          = (ReferenceSnapshot.create t).get_line_content_crlf t.buffers x ∧
        (ReferenceSnapshot.create t).line_at t1.buffers x
          = (ReferenceSnapshot.create t).line_at t.buffers x ∧
        (ReferenceSnapshot.create t).get_line_range t1.buffers x
          = (ReferenceSnapshot.create t).get_line_range t.buffers x ∧
        (ReferenceSnapshot.create t).get_line_range_crlf t1.buffers x
          = (ReferenceSnapshot.create t).get_line_range_crlf t.buffers x ∧
        (ReferenceSnapshot.create t).get_line_range_with_newline t1.buffers x
          = (ReferenceSnapshot.create t).get_line_range_with_newline t.buffers x) ∧
        (((OwningSnapshot.create t).walker x).drain
          = ((ReferenceSnapshot.create t).walker t.buffers x).drain ∧
        (OwningSnapshot.create t).get_line_content x
          = (ReferenceSnapshot.create t).get_line_content t.buffers x ∧
        (OwningSnapshot.create t).get_line_content_crlf x
          = (ReferenceSnapshot.create t).get_line_content_crlf t.buffers x ∧
        (OwningSnapshot.create t).line_at x
          = (ReferenceSnapshot.create t).line_at t.buffers x ∧
        (OwningSnapshot.create t).get_line_range x
          = (ReferenceSnapshot.create t).get_line_range t.buffers x ∧
        (OwningSnapshot.create t).get_line_range_crlf x
          = (ReferenceSnapshot.create t).get_line_range_crlf t.buffers x ∧
        (OwningSnapshot.create t).get_line_range_with_newline x
          = (ReferenceSnapshot.create t).get_line_range_with_newline t.buffers x)) ∧
      (ReferenceSnapshot.create t).is_empty = t.is_empty ∧
      (OwningSnapshot.create t).is_empty = t.is_empty ∧
      (ReferenceSnapshot.create t).line_count = t.line_count ∧
      (OwningSnapshot.create t).line_count = t.line_count := by
  obtain ⟨t1, h1, h2, h3⟩ := Tree.run_consistent ops t h
  refine ⟨t1, h1, h3, fun x => ⟨?_, rfl, rfl, rfl, rfl, rfl, rfl, rfl⟩, rfl, rfl, rfl, rfl⟩
  exact ReferenceSnapshot.frame (ReferenceSnapshot.create t) h3 h.buffers_ok h2.buffers_ok
    h.2.1 x

/-- C19, witness: snapshots of `hello\r\nworld`, and then `remove(3, 4)`, `try_undo(0)` and
`insert(0, "hello")` on the tree; line 1 of the reference snapshot over the buffers of the
tree afterwards is what it was over the buffers at capture, `hello\r`. -/
theorem C19_snapshot_isolation_witness :
    ∃ t1, Tree.run [del 3 4, Tree.Op.undo 0, ins 0 hello] tree2 = some t1 ∧
      (ReferenceSnapshot.create tree2).get_line_content t1.buffers 1
        = (ReferenceSnapshot.create tree2).get_line_content tree2.buffers 1 ∧
      (ReferenceSnapshot.create tree2).get_line_content tree2.buffers 1 = hello ++ [CR] ∧
      (OwningSnapshot.create tree2).get_line_content 1 = hello ++ [CR] :=
  Exists.imp (fun _ h => ⟨h.1, ((h.2.2.1 1).1).2.1, by decide, by decide⟩)
    (C19_snapshot_isolation tree2 (by decide) [del 3 4, Tree.Op.undo 0, ins 0 hello])

end PieceTree


namespace PieceTree

/-! ## The properties of the specification: the red-black tree, the walkers, the builder -/

open Example

/-- C21: on a tree with the red-black properties, `RedBlackTree::remove(at)` (the fuse
algorithm) is defined for every offset `at`, whether or not a piece starts there.  It
returns the empty tree or a tree with a black root, and the tree it returns has the
red-black properties: no red node with a red child, the same number of black nodes on
every path, no node of colour `DoubleBlack`; it is correctly augmented when the argument
is.  The build whose `balance_left` and `balance_right` fail in the branch marked
impossible returns the same tree, so that branch is never reached. -/
theorem C21_remove_keeps_red_black (t : RedBlackTree) (at_ : Nat)
    (hv : t.rbValid = true) (ha : t.Aug = true) :
    ∃ t1, t.remove at_ = some t1 ∧ t.remove_checked at_ = some t1 ∧
      (t1 = RedBlackTree.empty ∨ t1.root_color = some Color.Black) ∧
      t1.invc = true ∧ t1.invh = true ∧ t1.noDoubleBlack = true ∧
      t1.rbValid = true ∧ t1.Aug = true := by
  obtain ⟨t1, h1, h2, _, _, h5⟩ := RedBlackTree.remove_spec t at_ hv
  have h2c := h2
  simp only [RedBlackTree.rbValid, Bool.and_eq_true, beq_iff_eq] at h2c
  refine ⟨t1, h1, ?_, RedBlackTree.root_black_of_rbValid h2, h2c.1.2, h2c.2,
    RedBlackTree.noDoubleBlack_of_invc t1 h2c.1.2, h2, (h5 ha).1⟩
  rw [RedBlackTree.remove_checked_eq t at_ hv]
  exact h1

/-- C21, witness: `remove(5)` on the tree of three pieces of five code units drops the
middle piece, and `remove(7)`, where no piece starts, is defined as well. -/
theorem C21_remove_keeps_red_black_witness :
    (∃ t1, threeSpans.remove 5 = some t1 ∧ threeSpans.remove_checked 5 = some t1 ∧
      (t1 = RedBlackTree.empty ∨ t1.root_color = some Color.Black) ∧
      t1.invc = true ∧ t1.invh = true ∧ t1.noDoubleBlack = true ∧
      t1.rbValid = true ∧ t1.Aug = true) ∧
    threeSpans.remove 7 = some threeSpans :=
  ⟨C21_remove_keeps_red_black threeSpans 5 (by decide) (by decide), by decide⟩

/-- C25 (code defect, evaluated): on the tree of the document `hello`, a walker
constructed at offset 5 is exhausted, but the walker constructed at offset 0 and moved
with `seek(5)` is not: `seek` leaves `first_ptr` and `last_ptr` on the piece they were
on, `exhausted()` is false, and `next()` yields `h` and then the rest of `hello`. -/
theorem C25_seek_keeps_stale_pointers :
    treeHello.content = hello ∧
    (TreeWalker.create treeHello 5).exhausted = true ∧
    ((TreeWalker.create treeHello 0).seek 5).total_offset = 5 ∧
    ((TreeWalker.create treeHello 0).seek 5).exhausted = false ∧
    ((TreeWalker.create treeHello 0).seek 5).next.1 = 104 ∧
    ((TreeWalker.create treeHello 0).seek 5).drain = hello :=
  ⟨by decide, by decide, by decide, by decide, by decide, by decide⟩

/-- C26 (code defect, evaluated): after `insert(0, "hello"); remove(3, 10)` the document
is `hel`, and the reverse walker started at offset 2 yields `l`, `e`, `h` and is then
not exhausted: the removal left an empty piece in the tree, and one more `next()`
returns the null code unit. -/
theorem C26_reverse_walker_after_clamped_remove :
    treeClamped.content = [104, 101, 108] ∧
    (TreeWalker.create treeClamped 0).drain = [104, 101, 108] ∧
    (ReverseTreeWalker.create treeClamped 2).next.1 = 108 ∧
    (ReverseTreeWalker.create treeClamped 2).next.2.next.1 = 101 ∧
    (ReverseTreeWalker.create treeClamped 2).next.2.next.2.next.1 = 104 ∧
    (ReverseTreeWalker.create treeClamped 2).next.2.next.2.next.2.exhausted = false ∧
    (ReverseTreeWalker.create treeClamped 2).next.2.next.2.next.2.next.1 = 0 ∧
    (ReverseTreeWalker.create treeClamped 2).drain = [108, 101, 104, 0] :=
  ⟨by decide, by decide, by decide, by decide, by decide, by decide, by decide, by decide⟩

/-- C27: the tree a `TreeBuilder` creates from the texts `b_1..b_k` it accepted, in that
order: its document is `b_1 ++ ... ++ b_k`, `length()` is the sum of the sizes of the
texts, `line_count()` is one more than the number of line feeds in them, its pieces in
order are the texts that are not empty (one piece for each, none for an empty text), and
its mod buffer is empty with the line starts `[0]`. -/
theorem C27_tree_builder (texts : List (List CharT)) :
    ∃ t, (TreeBuilder.ofTexts texts).create = some t ∧
      t.content = texts.flatten ∧
      t.length = (texts.map List.length).sum ∧
      t.line_count = 1 + (texts.map (fun s => s.count LF)).sum ∧
      t.root.toList.map t.buffers.pieceText = texts.filter (fun s => !s.isEmpty) ∧
      t.root.size = (texts.filter (fun s => !s.isEmpty)).length ∧
      t.buffers.orig_buffers.map (fun cb => cb.buffer) = texts ∧
      t.buffers.mod_buffer = { buffer := [], line_starts := [0] } := by
  have hok : ∀ cb ∈ (TreeBuilder.ofTexts texts).buffers, cb.OK := by
    intro cb hcb
    rw [TreeBuilder.ofTexts_buffers] at hcb
    obtain ⟨txt, _, rfl⟩ := List.mem_map.1 hcb
    rfl
  obtain ⟨t, h1, h2, h3, h4, h5, _, _⟩ := Tree.of_buffers_spec _ hok
  have hb : (TreeBuilder.ofTexts texts).buffers.map (fun cb => cb.buffer) = texts := by
    rw [TreeBuilder.ofTexts_buffers, List.map_map]
    exact List.map_id _
  rw [hb] at h5
  have hc : t.content = texts.flatten := by
    unfold Tree.content BufferCollection.textOf
    rw [List.flatMap_def, h5, List.flatten_filter_not_isEmpty]
  have hlen : (RedBlackTree.toList t.root).length
      = (texts.filter (fun s => !s.isEmpty)).length := by
    rw [← h5, List.length_map]
  refine ⟨t, h1, hc, ?_, ?_, h5, ?_, ?_, ?_⟩
  · unfold Tree.length
    rw [h2.length_eq, ← h2.content_length, hc, List.length_flatten]
  · rw [Tree.Consistent.line_count_eq h2, hc, List.count_flatten, Nat.add_comm]
  · rw [RedBlackTree.size_eq_length, hlen]
  · rw [h3]
    exact hb
  · rw [h3]

/-- C28 (code defect, evaluated): after `insert(0, "hello"); remove(3, 2)` the document
is `hel` with `length() = 3`, held in one piece that is a window of the buffer `hello`,
and `at(3)`, `at(4)` and `at(100)` return `l`, the code unit of the buffer that follows
the window, not the null code unit; on the empty tree `at(0)` is the null code unit. -/
theorem C28_at_past_end_reads_buffer :
    treeHel.content = [104, 101, 108] ∧ treeHel.length = 3 ∧
    treeHel.at_ 3 = 108 ∧ treeHel.at_ 4 = 108 ∧ treeHel.at_ 100 = 108 ∧
    Tree.init.at_ 0 = 0 :=
  ⟨by decide, by decide, by decide, by decide, by decide, by decide⟩

/-- C29 (code defect, evaluated): after `insert(0, "a"); remove(1, 1)` the document is
`a`, and `remove(0, 2)` then leaves the document `a` with `length() = 1` instead of the
empty document: the first removal left an empty piece after `a`, and the second deletes
that piece in place of the piece it trims. -/
theorem C29_remove_all_after_clamped_remove :
    treePastEnd.content = [97] ∧ treePastEnd.length = 1 ∧
    ∃ t1, treePastEnd.remove 0 2 = some t1 ∧ t1.content = [97] ∧ t1.length = 1 :=
  ⟨by decide, by decide, _, rfl, by decide, by decide⟩

/-- C30: `try_undo` with an empty undo stack returns `(success = false, op_offset = 0)`
and leaves the tree as it is (root, both stacks, buffers, meta); so does `try_redo` with
an empty redo stack. -/
theorem C30_try_undo_redo_empty (t : Tree) (op_offset : Nat) :
    (t.undo_stack = [] →
      t.try_undo op_offset = (t, { success := false, op_offset := 0 })) ∧
    (t.redo_stack = [] →
      t.try_redo op_offset = (t, { success := false, op_offset := 0 })) :=
  ⟨Tree.try_undo_nil t op_offset, Tree.try_redo_nil t op_offset⟩

/-- C30, witness: `try_undo(7)` on the tree left by `insert(0, "a", SuppressHistory::Yes);
insert(0, "b"); try_undo(5)`, whose undo stack is empty, and `try_redo(7)` on the tree of
`hello\r\nworld`, whose redo stack is empty. -/
theorem C30_try_undo_redo_empty_witness :
    treeStale.try_undo 7 = (treeStale, { success := false, op_offset := 0 }) ∧
      tree2.try_redo 7 = (tree2, { success := false, op_offset := 0 }) :=
  ⟨(C30_try_undo_redo_empty treeStale 7).1 (by decide),
    (C30_try_undo_redo_empty tree2 7).2 (by decide)⟩

end PieceTree


namespace PieceTree

/-! ## The properties of the specification: line zero, the buffers, the pieces, the
variants of the removal, the snapshots of a root, the checker -/

open Example

/-- C31, counterexample: on the tree of the document `hello`, the three line range
queries with `Line::IndexBeginning` return `first = 5` and `last = 0`, not an empty
range, in the build without assertions, and in the debug build the assertion
`line != Line::IndexBeginning` of `line_start` fails. -/
theorem C31_counterexample :
    treeHello.content = hello ∧
    treeHello.get_line_range Line.IndexBeginning = { first := 5, last := 0 } ∧
    treeHello.get_line_range_crlf Line.IndexBeginning = { first := 5, last := 0 } ∧
    treeHello.get_line_range_with_newline Line.IndexBeginning = { first := 5, last := 0 } ∧
    treeHello.get_line_range_checked Line.IndexBeginning = none ∧
    treeHello.get_line_range_crlf_checked Line.IndexBeginning = none ∧
    treeHello.get_line_range_with_newline_checked Line.IndexBeginning = none :=
  ⟨by decide, by decide, by decide, by decide, by decide, by decide, by decide⟩

/-- C31, amended: for every tree, `get_line_content` and `get_line_content_crlf` with
`Line::IndexBeginning` leave the buffer empty, the latter returning `IncompleteCRLF::No`.
The queries `get_line_range`, `get_line_range_crlf` and `get_line_range_with_newline`
with `Line::IndexBeginning` return the empty range `first = last = 0` on a tree with an
empty root, in both builds; on a tree with a non-empty root they reach the assertion
`line != Line::IndexBeginning` of `line_start`, which fails. -/
theorem C31_index_beginning (t : Tree) :
    t.get_line_content Line.IndexBeginning = [] ∧
    t.get_line_content_crlf Line.IndexBeginning = ([], IncompleteCRLF.No) ∧
    (t.root.is_empty = true →
      t.get_line_range Line.IndexBeginning = { first := 0, last := 0 } ∧
      t.get_line_range_crlf Line.IndexBeginning = { first := 0, last := 0 } ∧
      t.get_line_range_with_newline Line.IndexBeginning = { first := 0, last := 0 } ∧
      t.get_line_range_checked Line.IndexBeginning = some { first := 0, last := 0 } ∧
      t.get_line_range_crlf_checked Line.IndexBeginning = some { first := 0, last := 0 } ∧
      t.get_line_range_with_newline_checked Line.IndexBeginning
        = some { first := 0, last := 0 }) ∧
    (t.root.is_empty = false →
      t.get_line_range_checked Line.IndexBeginning = none ∧
      t.get_line_range_crlf_checked Line.IndexBeginning = none ∧
      t.get_line_range_with_newline_checked Line.IndexBeginning = none) := by
  refine ⟨rfl, rfl, ?_, ?_⟩
  · intro he
    cases t with
    | mk buffers root last_insert end_last_insert meta undo_stack redo_stack =>
      cases root with
      | empty => exact ⟨rfl, rfl, rfl, rfl, rfl, rfl⟩
      | node c l d r => cases he
  · intro he
    cases t with
    | mk buffers root last_insert end_last_insert meta undo_stack redo_stack =>
      cases root with
      | empty => cases he
      | node c l d r => exact ⟨rfl, rfl, rfl⟩

/-- C31, witness: the empty tree, and the tree of the document `hello`. -/
theorem C31_index_beginning_witness :
    (Tree.init.get_line_range Line.IndexBeginning = { first := 0, last := 0 } ∧
      Tree.init.get_line_range_crlf Line.IndexBeginning = { first := 0, last := 0 } ∧
      Tree.init.get_line_range_with_newline Line.IndexBeginning = { first := 0, last := 0 } ∧
      Tree.init.get_line_range_checked Line.IndexBeginning = some { first := 0, last := 0 } ∧
      Tree.init.get_line_range_crlf_checked Line.IndexBeginning
        = some { first := 0, last := 0 } ∧
      Tree.init.get_line_range_with_newline_checked Line.IndexBeginning
        = some { first := 0, last := 0 }) ∧
    (treeHello.get_line_range_checked Line.IndexBeginning = none ∧
      treeHello.get_line_range_crlf_checked Line.IndexBeginning = none ∧
      treeHello.get_line_range_with_newline_checked Line.IndexBeginning = none) :=
  ⟨(C31_index_beginning Tree.init).2.2.1 rfl, (C31_index_beginning treeHello).2.2.2 (by decide)⟩

/-- C32: the mod buffer is append-only.  On a consistent tree `insert` is defined and
changes the buffers only by appending the text to the mod buffer and the line starts of
the text (shifted by the old size, without the leading 0) to its line starts, so the old
text and the old line starts are prefixes of the new ones; `remove` is defined and leaves
the buffers as they are, and so do `try_undo`, `try_redo`, `commit_head` and `snap_to`.
No operation changes an original buffer. -/
theorem C32_mod_buffer_append_only (t : Tree) (h : t.Consistent) :
    (∀ offset txt sh, ∃ t1, t.insert offset txt sh = some t1 ∧
      t1.buffers.orig_buffers = t.buffers.orig_buffers ∧
      t1.buffers.mod_buffer.buffer = t.buffers.mod_buffer.buffer ++ txt ∧
      t1.buffers.mod_buffer.line_starts
        = t.buffers.mod_buffer.line_starts
          ++ ((populate_line_starts txt).map
              (fun s => s + t.buffers.mod_buffer.buffer.length)).drop 1 ∧
      t.buffers.mod_buffer.buffer <+: t1.buffers.mod_buffer.buffer ∧
      t.buffers.mod_buffer.line_starts <+: t1.buffers.mod_buffer.line_starts) ∧
    (∀ offset count sh, ∃ t1, t.remove offset count sh = some t1 ∧ t1.buffers = t.buffers) ∧
    (∀ op_offset, (t.try_undo op_offset).1.buffers = t.buffers) ∧
    (∀ op_offset, (t.try_redo op_offset).1.buffers = t.buffers) ∧
    (∀ offset, (t.commit_head offset).buffers = t.buffers) ∧
    (∀ new_root, (t.snap_to new_root).buffers = t.buffers) := by
  refine ⟨?_, ?_, ?_, ?_, fun _ => rfl, fun _ => rfl⟩
  · intro offset txt sh
    obtain ⟨t1, h1, _, h3, h4, h5⟩ := Tree.insert_frame t offset txt sh h
    exact ⟨t1, h1, h3, h4, h5, ⟨txt, h4.symm⟩, ⟨_, h5.symm⟩⟩
  · intro offset count sh
    obtain ⟨t1, h1, _, h3⟩ := Tree.remove_consistent t offset count sh h
    exact ⟨t1, h1, h3⟩
  · intro a
    exact (Tree.try_undo_consistent t a h).2
  · intro a
    exact (Tree.try_redo_consistent t a h).2

/-- C32, witness: the tree of `hello\r\nworld`; `insert(3, "a\nb")` appends three code units
to the mod buffer and one line start. -/
theorem C32_mod_buffer_append_only_witness :
    (∀ offset txt sh, ∃ t1, tree2.insert offset txt sh = some t1 ∧
      t1.buffers.orig_buffers = tree2.buffers.orig_buffers ∧
      t1.buffers.mod_buffer.buffer = tree2.buffers.mod_buffer.buffer ++ txt ∧
      t1.buffers.mod_buffer.line_starts
        = tree2.buffers.mod_buffer.line_starts
          ++ ((populate_line_starts txt).map
              (fun s => s + tree2.buffers.mod_buffer.buffer.length)).drop 1 ∧
      tree2.buffers.mod_buffer.buffer <+: t1.buffers.mod_buffer.buffer ∧
      tree2.buffers.mod_buffer.line_starts <+: t1.buffers.mod_buffer.line_starts) ∧
    (∀ offset count sh, ∃ t1, tree2.remove offset count sh = some t1 ∧
      t1.buffers = tree2.buffers) ∧
    (∀ op_offset, (tree2.try_undo op_offset).1.buffers = tree2.buffers) ∧
    (∀ op_offset, (tree2.try_redo op_offset).1.buffers = tree2.buffers) ∧
    (∀ offset, (tree2.commit_head offset).buffers = tree2.buffers) ∧
    (∀ new_root, (tree2.snap_to new_root).buffers = tree2.buffers) :=
  C32_mod_buffer_append_only tree2 (by decide)

/-- C33: a tree is created by a builder from any texts and then any sequence of calls
(inserts among them) is applied, which is always defined.  In the tree that results the
line starts of the mod buffer are those `populate_line_starts` computes from the whole
text of the mod buffer: they begin with 0, are strictly increasing, and hold an offset
`i > 0` exactly when the code unit at `i - 1` is a line feed; and `last_insert` is the
cursor of the end of the mod buffer: its line is the number of line feeds of the buffer
and its offset is the size of the buffer. -/
theorem C33_mod_buffer_line_starts (texts : List (List CharT)) (ops : List Tree.Op) :
    ∃ t0 t, (TreeBuilder.ofTexts texts).create = some t0 ∧ Tree.run ops t0 = some t ∧
      t.buffers.mod_buffer.line_starts = populate_line_starts t.buffers.mod_buffer.buffer ∧
      t.buffers.mod_buffer.line_starts.head? = some 0 ∧
      t.buffers.mod_buffer.line_starts.Pairwise (fun a b => a < b) ∧
      (∀ i, 0 < i → (i ∈ t.buffers.mod_buffer.line_starts
        ↔ t.buffers.mod_buffer.buffer[i - 1]? = some LF)) ∧
      t.last_insert.line = t.buffers.mod_buffer.buffer.count LF ∧
      t.buffers.mod_buffer.line_starts.getD t.last_insert.line 0 + t.last_insert.column
        = t.buffers.mod_buffer.buffer.length := by
  have hok : ∀ cb ∈ (TreeBuilder.ofTexts texts).buffers, cb.OK := by
    intro cb hcb
    rw [TreeBuilder.ofTexts_buffers] at hcb
    obtain ⟨txt, _, rfl⟩ := List.mem_map.1 hcb
    rfl
  obtain ⟨t0, h1, h2, _⟩ := Tree.of_buffers_spec _ hok
  obtain ⟨t, k1, k2, _⟩ := Tree.run_consistent ops t0 h2
  have hmod : t.buffers.mod_buffer.OK := k2.1.2
  have hls : t.buffers.mod_buffer.line_starts
      = populate_line_starts t.buffers.mod_buffer.buffer := hmod
  obtain ⟨s1, s2, s3⟩ := populate_line_starts_spec t.buffers.mod_buffer.buffer
  have hlast : t.last_insert
      = t.buffers.mod_buffer.cursorAt t.buffers.mod_buffer.buffer.length := by
    rw [k2.2.2.2.1, CharBuffer.endCursor_eq hmod]
  refine ⟨t0, t, h1, k1, hls, ?_, ?_, ?_, ?_, ?_⟩
  · rw [hls]; exact s1
  · rw [hls]; exact s2
  · rw [hls]; exact s3
  · rw [hlast]
    exact lfBefore_of_length_le _ (Nat.le_refl _)
  · rw [hlast]
    exact CharBuffer.cursorAt_offset hmod _

/-- C34: a tree is created by a builder from any texts and then any sequence of calls is
applied, which is always defined.  Every piece of the root of the tree that results, and
of the roots in its history, is consistent with its buffer: `first ≤ last` in
`(line, column)` order, the length is the distance of the offsets of the two cursors,
and the cached line feed count is the number of line feeds in the window. -/
theorem C34_piece_consistency (texts : List (List CharT)) (ops : List Tree.Op) :
    ∃ t0 t, (TreeBuilder.ofTexts texts).create = some t0 ∧ Tree.run ops t0 = some t ∧
      ∀ r, (r = t.root ∨ (∃ e ∈ t.undo_stack, e.root = r) ∨ (∃ e ∈ t.redo_stack, e.root = r)) →
        ∀ p ∈ r.toList,
          (p.first.line < p.last.line
            ∨ (p.first.line = p.last.line ∧ p.first.column ≤ p.last.column)) ∧
          t.buffers.buffer_offset p.index p.first ≤ t.buffers.buffer_offset p.index p.last ∧
          p.length = t.buffers.buffer_offset p.index p.last
            - t.buffers.buffer_offset p.index p.first ∧
          (t.buffers.pieceText p).length = p.length ∧
          p.newline_count = (t.buffers.pieceText p).count LF := by
  have hok : ∀ cb ∈ (TreeBuilder.ofTexts texts).buffers, cb.OK := by
    intro cb hcb
    rw [TreeBuilder.ofTexts_buffers] at hcb
    obtain ⟨txt, _, rfl⟩ := List.mem_map.1 hcb
    rfl
  obtain ⟨t0, h1, h2, _⟩ := Tree.of_buffers_spec _ hok
  obtain ⟨t, k1, k2, _⟩ := Tree.run_consistent ops t0 h2
  refine ⟨t0, t, h1, k1, ?_⟩
  intro r hr p hp
  have hroot : Tree.RootOK t.buffers r := by
    rcases hr with rfl | ⟨e, he, rfl⟩ | ⟨e, he, rfl⟩
    · exact k2.2.1
    · exact k2.2.2.2.2.1 e he
    · exact k2.2.2.2.2.2 e he
  have hpk := hroot.1 p hp
  exact ⟨BufferCollection.PieceOK.cursor_le k2.1 hpk, hpk.2.2.2.1, hpk.2.2.2.2.1,
    BufferCollection.pieceText_length k2.1 hpk,
    (BufferCollection.pieceText_count k2.1 hpk).symm⟩

/-- C35: `node_at` on a correctly augmented root whose pieces are consistent windows of
well-formed buffers.  For an offset `o` inside the document it returns the node of the
piece that contains `o`: the pieces before it have the total length `start_offset ≤ o`,
`start_offset + remainder = o`, `remainder` is less than the length of the piece, and
`line` is one more than the number of line feeds before `o`.  For an offset at or past the
end of a non-empty tree it returns the last node, never a null node, with the whole
length of its piece as remainder.  A null node is returned exactly for the empty tree. -/
theorem C35_node_at (b : BufferCollection) (hb : b.OK) (root : RedBlackTree)
    (ha : root.Aug = true) (hp : ∀ p ∈ root.toList, b.PieceOK p) (o : Nat) :
    (o < sumLen root.toList →
      ∃ d A B, (Tree.node_at b root o).node = some d ∧
        root.toList = A ++ d.piece :: B ∧
        (Tree.node_at b root o).rank = A.length ∧
        (Tree.node_at b root o).start_offset = sumLen A ∧
        (Tree.node_at b root o).start_offset + (Tree.node_at b root o).remainder = o ∧
        (Tree.node_at b root o).remainder < d.piece.length ∧
        (Tree.node_at b root o).line = 1 + lfBefore (b.textOf root.toList) o) ∧
    (sumLen root.toList ≤ o → root.is_empty = false →
      ∃ d A, (Tree.node_at b root o).node = some d ∧
        root.toList = A ++ [d.piece] ∧
        (Tree.node_at b root o).rank = A.length ∧
        (Tree.node_at b root o).start_offset = sumLen A ∧
        (Tree.node_at b root o).remainder = d.piece.length) ∧
    ((Tree.node_at b root o).node = none ↔ root.is_empty = true) := by
  refine ⟨?_, ?_, ?_⟩
  · intro ho
    have hne : root.is_empty = false := by
      cases root with
      | empty => simp at ho
      | node _ _ _ _ => rfl
    obtain ⟨d, A, B, n1, n2, n3, n4, n5, n6, _⟩ := Tree.node_at_some b root ha hne o
    obtain ⟨m1, m2, m3⟩ := n6 ho
    exact ⟨d, A, B, n1, n2, n4, n3, by omega, by omega,
      Tree.node_at_line b hb root ha hp o ho⟩
  · intro ho hne
    obtain ⟨d, A, B, n1, n2, n3, n4, n5, _, n7⟩ := Tree.node_at_some b root ha hne o
    obtain ⟨m1, m2⟩ := n7 ho
    subst m1
    exact ⟨d, A, n1, n2, n4, n3, m2⟩
  · constructor
    · intro hn
      cases hr : root.is_empty with
      | true => rfl
      | false =>
        obtain ⟨d, A, B, n1, _⟩ := Tree.node_at_some b root ha hr o
        rw [n1] at hn
        cases hn
    · intro he
      cases root with
      | empty => rfl
      | node _ _ _ _ => cases he

/-- C35, witness: the root of `hello\r\nworld`, held in the three pieces `hello`, `\r` and
`\nworld`: offset 6 lies in the third piece, which starts at offset 6, on line 1; offset
100 is past the end. -/
theorem C35_node_at_witness :
    (∃ d A B, (Tree.node_at tree2.buffers tree2.root 6).node = some d ∧
        tree2.root.toList = A ++ d.piece :: B ∧
        (Tree.node_at tree2.buffers tree2.root 6).rank = A.length ∧
        (Tree.node_at tree2.buffers tree2.root 6).start_offset = sumLen A ∧
        (Tree.node_at tree2.buffers tree2.root 6).start_offset
          + (Tree.node_at tree2.buffers tree2.root 6).remainder = 6 ∧
        (Tree.node_at tree2.buffers tree2.root 6).remainder < d.piece.length ∧
        (Tree.node_at tree2.buffers tree2.root 6).line
          = 1 + lfBefore (tree2.buffers.textOf tree2.root.toList) 6) ∧
    (∃ d A, (Tree.node_at tree2.buffers tree2.root 100).node = some d ∧
        tree2.root.toList = A ++ [d.piece] ∧
        (Tree.node_at tree2.buffers tree2.root 100).rank = A.length ∧
        (Tree.node_at tree2.buffers tree2.root 100).start_offset = sumLen A ∧
        (Tree.node_at tree2.buffers tree2.root 100).remainder = d.piece.length) :=
  ⟨(C35_node_at tree2.buffers (by decide) tree2.root (by decide) (by decide) 6).1 (by decide),
    (C35_node_at tree2.buffers (by decide) tree2.root (by decide) (by decide) 100).2.1
      (by decide) (by decide)⟩

/-- C36: `try_undo` and `try_redo` leave `last_insert`, `end_last_insert` and the buffers
as they are, whether or not they succeed; so the two cursors that steer the coalescing of
insertions are those of the last insertion, not those that were in force when the root
that is restored was current. -/
theorem C36_undo_redo_frame (t : Tree) (op_offset : Nat) :
    (t.try_undo op_offset).1.last_insert = t.last_insert ∧
    (t.try_undo op_offset).1.end_last_insert = t.end_last_insert ∧
    (t.try_undo op_offset).1.buffers = t.buffers ∧
    (t.try_redo op_offset).1.last_insert = t.last_insert ∧
    (t.try_redo op_offset).1.end_last_insert = t.end_last_insert ∧
    (t.try_redo op_offset).1.buffers = t.buffers := by
  unfold Tree.try_undo Tree.try_redo
  refine ⟨?_, ?_, ?_, ?_, ?_, ?_⟩ <;> split <;> rfl

/-- C37 (code defect, evaluated): the tree of four pieces of five code units has the
red-black properties, and offset 0 is the start of its first piece.  The removal of the
`EXPERIMENTAL_REMOVE` build returns the pieces that the default removal returns, under a
black root, but with a red node that has a red child: the sibling of the node removed is
painted red without a look at its red child. -/
theorem C37_experimental_remove_red_red :
    fourSpans.rbValid = true ∧ fourSpans.Aug = true ∧
    (∀ p ∈ fourSpans.toList, 0 < p.length) ∧
    ∃ t1 t2, fourSpans.remove 0 = some t1 ∧ fourSpans.remove_experimental 0 = some t2 ∧
      t1.rbValid = true ∧ t2.toList = t1.toList ∧
      t2.root_color = some Color.Black ∧ t2.invh = true ∧ t2.noDoubleBlack = true ∧
      t2.hasRedRed = true ∧ t2.invc = false ∧ t2.rbValid = false :=
  ⟨by decide, by decide, by decide, _, _, rfl, rfl, by decide, by decide, by decide,
    by decide, by decide, by decide, by decide, by decide⟩

/-- C38 (code defect, evaluated): `dt` is the root of the document `hello\nworld`, taken
with `head()`, and the tree then holds `world` after `remove(0, 6)`.  The reference
snapshot of `dt` keeps `dt` as its root; the owning snapshot of `dt` keeps the root of
the tree and only computes its meta data from `dt`: it reports two lines, yields `world`
from its walker and as line 1, and nothing as line 2, where the reference snapshot
yields `hello\nworld`, `hello` and `world`. -/
theorem C38_owning_snapshot_keeps_tree_root :
    tree1.content = helloWorld ∧ treeWorld.content = world ∧
    (ReferenceSnapshot.create_at treeWorld tree1.head).root = tree1.head ∧
    (OwningSnapshot.create_at treeWorld tree1.head).root = treeWorld.root ∧
    (OwningSnapshot.create_at treeWorld tree1.head).root ≠ tree1.head ∧
    (OwningSnapshot.create_at treeWorld tree1.head).line_count = 2 ∧
    (ReferenceSnapshot.create_at treeWorld tree1.head).line_count = 2 ∧
    ((ReferenceSnapshot.create_at treeWorld tree1.head).walker treeWorld.buffers 0).drain
      = helloWorld ∧
    ((OwningSnapshot.create_at treeWorld tree1.head).walker 0).drain = world ∧
    (ReferenceSnapshot.create_at treeWorld tree1.head).get_line_content treeWorld.buffers 1
      = hello ∧
    (OwningSnapshot.create_at treeWorld tree1.head).get_line_content 1 = world ∧
    (ReferenceSnapshot.create_at treeWorld tree1.head).get_line_content treeWorld.buffers 2
      = world ∧
    (OwningSnapshot.create_at treeWorld tree1.head).get_line_content 2 = [] ∧
    (ReferenceSnapshot.create_at treeWorld tree1.head).line_at treeWorld.buffers 7 = 2 ∧
    (OwningSnapshot.create_at treeWorld tree1.head).line_at 7 = 1 :=
  ⟨by decide, by decide, by decide, by decide, by decide, by decide, by decide, by decide,
    by decide, by decide, by decide, by decide, by decide, by decide, by decide⟩

/-- C39 (code defect, evaluated): a builder accepts the text `a` and creates the tree;
`remove(0, 2)`, whose range reaches past the end, trims the piece to length zero and
inserts it again: the root holds one piece of length zero, so `length()` is 0 and
`Tree::is_empty()` is true while `root.is_empty()` is false. -/
theorem C39_remove_leaves_empty_piece :
    ∃ t0 t1, (TreeBuilder.ofTexts [[97]]).create = some t0 ∧ t0.content = [97] ∧
      t0.remove 0 2 = some t1 ∧
      t1.root.toList.map (fun p => p.length) = [0] ∧
      t1.length = 0 ∧ t1.is_empty = true ∧ t1.root.is_empty = false :=
  ⟨_, _, rfl, by decide, rfl, by decide, by decide, by decide, by decide⟩

/-- C40 (code defect, evaluated): the tree `redRed` has three nodes, a black root whose
left child is red with a red left child.  `check_black_node_invariant` returns 1 for the
red node with the red child, and 2 for the tree, so the assertion of
`satisfies_rb_invariants` holds.  The tree that the removal of the `EXPERIMENTAL_REMOVE`
build returns for `remove(0)` on the tree of four pieces has a red node with a red child
as well and passes the check in the same way. -/
theorem C40_checker_accepts_red_red :
    redRed.size = 3 ∧ redRed.hasRedRed = true ∧ redRed.invc = false ∧
    redRed.check_black_node_invariant = 2 ∧ redRed.satisfies_rb_invariants = true ∧
    ∃ t2, fourSpans.remove_experimental 0 = some t2 ∧ t2.hasRedRed = true ∧
      t2.check_black_node_invariant = 2 ∧ t2.satisfies_rb_invariants = true :=
  ⟨by decide, by decide, by decide, by decide, by decide, _, rfl, by decide, by decide,
    by decide⟩

end PieceTree
